import Mathlib

/-!
Delta codec and diff engine of the VCS repository (`src/src/delta.c`,
`src/src/deltacmd.c`, `src/src/diff.c`)

A shallow embedding of the delta compressor and its inverse (namespace `Delta`)
and of the line diff with its two renderings (namespace `Diff`).

Conventions of the embedding

* A byte buffer is a `List Nat` (every element a byte value `0..255`).  A buffer
  that is read through a `char*` is followed by a terminating NUL, as every
  blob of the repository is: reading the position just behind the last byte
  yields `0`.
* `unsigned int` values are naturals reduced `% 2^32`, `u16` values are reduced
  `% 2^16`.  The `int` variables of `delta_create` hold values in
  `[-1, 2^31)` as long as both buffers are shorter than `2^31` bytes, so they
  are plain `Nat`/`Int` values.
* `char` is signed (`schar`), as on the platforms the repository targets.
* A `memcpy` of `delta_apply` that would read behind the end of the buffer it
  copies from is the outcome `fault`; the output buffer is the list of the bytes
  written so far.
* A loop whose trip count is not fixed is a recursion over a fuel argument and
  answers `none` when the fuel runs out; `digit_count` really does not
  terminate for arguments from `2^30`, and answers `none` for every fuel there.
* In `diff.c` the line counts and the entries of the edit script are `int`
  values below `2^31` (a buffer has fewer than `2^31` bytes), so they are plain
  `Nat`/`Int` values; an array is a `List` that is read with a default behind
  its end; a pointer into a buffer is the list of the bytes from it on; the
  loops with a known bound get that bound as fuel.
* What `diff.c` uses and `src/` does not hold (`vcs_isspace`, `htmlize`, the
  formatted output) and the `double` comparison of two scores are fields of
  the structure `Env`, and the theorems hold for every `Env` unless they say
  otherwise.
-/

namespace Delta

/-! ## Integer helpers -/

/-- The width of a hash window in bytes, `NHASH`. -/
def NHASH : Nat := 16

/-- Value of a (signed) `char` holding the byte `c`, promoted to `int`. -/
def schar (c : Nat) : Int :=
  if c % 256 < 128 then ((c % 256 : Nat) : Int) else ((c % 256 : Nat) : Int) - 256

/-- Conversion of an `int` to `u16`. -/
def u16 (x : Int) : Nat := (x % 65536).toNat

/-- Conversion of an `int` to `unsigned int`. -/
def u32 (x : Int) : Nat := (x % 4294967296).toNat

/-! ## The rolling hash -/

/-- The state of the rolling hash: `struct hash`. -/
structure hash where
  a : Nat
  b : Nat
  i : Nat
  z : List Nat
deriving DecidableEq, Repr

/-- One round of the loop of `hash_init`, at loop index `i`, on the character `c`. -/
def hash_init_step (c : Nat) (i : Nat) (h : hash) : hash :=
  { a := u16 ((h.a : Int) + schar c)
    b := u16 ((h.b : Int) + ((NHASH : Int) - (i : Int)) * schar c)
    i := h.i
    z := h.z.set i c }

/-- Initialise the rolling hash from the `NHASH` characters `z[ofs ..]`: `hash_init`. -/
def hash_init (z : List Nat) (ofs : Nat) : hash :=
  let h := (List.range NHASH).foldl
    (fun h i => hash_init_step (z.getD (ofs + i) 0) i h)
    { a := 0, b := 0, i := 0, z := List.replicate NHASH 0 }
  { a := h.a &&& 0xffff, b := h.b &&& 0xffff, i := 0, z := h.z }

/-- Advance the rolling hash by the character `c`: `hash_next`. -/
def hash_next (h : hash) (c : Nat) : hash :=
  let old : Nat := u16 (schar (h.z.getD h.i 0))
  let a : Nat := u16 ((h.a : Int) - (old : Int) + schar c)
  { a := a
    b := u16 ((h.b : Int) - (NHASH : Int) * (old : Int) + (a : Int))
    i := (h.i + 1) &&& (NHASH - 1)
    z := h.z.set h.i c }

/-- The 32-bit hash value: `hash_32bit`. -/
def hash_32bit (h : hash) : Nat :=
  (h.a &&& 0xffff) ||| ((h.b &&& 0xffff) <<< 16)

/-! ## Base-64 integers -/

/-- The digit alphabet of `putInt`:
`0123456789ABCDEFGHIJKLMNOPQRSTUVWXYZ_abcdefghijklmnopqrstuvwxyz~`. -/
def zDigits : List Nat :=
  [48, 49, 50, 51, 52, 53, 54, 55, 56, 57,
   65, 66, 67, 68, 69, 70, 71, 72, 73, 74, 75, 76, 77, 78, 79, 80, 81, 82, 83, 84, 85, 86, 87,
   88, 89, 90,
   95,
   97, 98, 99, 100, 101, 102, 103, 104, 105, 106, 107, 108, 109, 110, 111, 112, 113, 114, 115,
   116, 117, 118, 119, 120, 121, 122,
   126]

/-- The first loop of `putInt`: the digits of `v`, least significant first, as
they are stored into `zBuf` (which has 20 slots). -/
def putIntDigits : Nat → Nat → List Nat
  | 0, _ => []
  | n + 1, v => if v > 0 then zDigits.getD (v &&& 0x3f) 0 :: putIntDigits n (v >>> 6) else []

/-- The bytes `putInt` appends to the buffer for the `unsigned int` `v`. -/
def putInt (v : Nat) : List Nat :=
  let v := v % 4294967296
  if v = 0 then [48] else (putIntDigits 20 v).reverse

/-- The table `zValue` of `getInt`: the value of a digit character, `-1` for
every other character. -/
def zValue : List Int :=
  [-1, -1, -1, -1, -1, -1, -1, -1,   -1, -1, -1, -1, -1, -1, -1, -1,
   -1, -1, -1, -1, -1, -1, -1, -1,   -1, -1, -1, -1, -1, -1, -1, -1,
   -1, -1, -1, -1, -1, -1, -1, -1,   -1, -1, -1, -1, -1, -1, -1, -1,
    0,  1,  2,  3,  4,  5,  6,  7,    8,  9, -1, -1, -1, -1, -1, -1,
   -1, 10, 11, 12, 13, 14, 15, 16,   17, 18, 19, 20, 21, 22, 23, 24,
   25, 26, 27, 28, 29, 30, 31, 32,   33, 34, 35, -1, -1, -1, -1, 36,
   -1, 37, 38, 39, 40, 41, 42, 43,   44, 45, 46, 47, 48, 49, 50, 51,
   52, 53, 54, 55, 56, 57, 58, 59,   60, 61, 62, -1, -1, -1, 63, -1]

/-- The loop of `getInt` over the characters at the read pointer: the value
read so far is `v`; the answer is the final value and the characters left.
At the end of the buffer the terminating NUL is read, which is no digit. -/
def getIntLoop : List Nat → Nat → Nat × List Nat
  | [], v => (v, [])
  | c :: rest, v =>
    let d : Int := zValue.getD (0x7f &&& c) (-1)
    if d ≥ 0 then getIntLoop rest (((v <<< 6) + d.toNat) % 4294967296) else (v, c :: rest)

/-- Read a base-64 integer: `getInt`.  Answers the value, the advanced read
pointer and the decremented length. -/
def getInt (z : List Nat) (pLen : Int) : Nat × List Nat × Int :=
  let r := getIntLoop z 0
  (r.1, r.2, pLen - ((z.length : Int) - (r.2.length : Int)))

/-- The loop of `digit_count`: `for(i=1, x=64; v>=x; i++, x <<= 6){}`. -/
def digit_countLoop (v : Nat) : Nat → Nat → Nat → Option Nat
  | 0, _, _ => none
  | fuel + 1, i, x => if v ≥ x then digit_countLoop v fuel (i + 1) ((x <<< 6) % 4294967296) else some i

/-- The number of base-64 digits of `v`: `digit_count`. -/
def digit_count (fuel : Nat) (v : Nat) : Option Nat := digit_countLoop v fuel 1 64

/-! ## The checksum -/

/-- The tail of `checksum`: fewer than four bytes are left. -/
def checksumTail (z : List Nat) (sum0 sum1 sum2 sum3 : Nat) : Nat :=
  let sum3 := (sum3 + (sum2 <<< 8) + (sum1 <<< 16) + (sum0 <<< 24)) % 4294967296
  match z with
  | [z0, z1, z2] => (((sum3 + (z2 <<< 8)) % 4294967296 + (z1 <<< 16)) % 4294967296 + (z0 <<< 24)) % 4294967296
  | [z0, z1] => ((sum3 + (z1 <<< 16)) % 4294967296 + (z0 <<< 24)) % 4294967296
  | [z0] => (sum3 + (z0 <<< 24)) % 4294967296
  | _ => sum3

/-- The second loop of `checksum`: `while(N >= 4)`. -/
def checksum4 : List Nat → Nat → Nat → Nat → Nat → Nat
  | z0 :: z1 :: z2 :: z3 :: rest, sum0, sum1, sum2, sum3 =>
    checksum4 rest ((sum0 + z0) % 4294967296) ((sum1 + z1) % 4294967296)
      ((sum2 + z2) % 4294967296) ((sum3 + z3) % 4294967296)
  | z, sum0, sum1, sum2, sum3 => checksumTail z sum0 sum1 sum2 sum3

/-- The first loop of `checksum`: `while(N >= 16)`. -/
def checksum16 : List Nat → Nat → Nat → Nat → Nat → Nat
  | z0 :: z1 :: z2 :: z3 :: z4 :: z5 :: z6 :: z7 :: z8 :: z9 :: z10 :: z11 :: z12 :: z13 ::
      z14 :: z15 :: rest, sum0, sum1, sum2, sum3 =>
    checksum16 rest ((sum0 + (z0 + z4 + z8 + z12)) % 4294967296)
      ((sum1 + (z1 + z5 + z9 + z13)) % 4294967296)
      ((sum2 + (z2 + z6 + z10 + z14)) % 4294967296)
      ((sum3 + (z3 + z7 + z11 + z15)) % 4294967296)
  | z, sum0, sum1, sum2, sum3 => checksum4 z sum0 sum1 sum2 sum3

/-- The 32-bit checksum of a buffer: `checksum`. -/
def checksum (z : List Nat) : Nat := checksum16 z 0 0 0 0

/-! ## Creating a delta -/

/-- The hash-table loop of `delta_create`:
`for(i=0; i<lenSrc-NHASH; i+=NHASH)`, filling `collide` and `landmark`. -/
def hashLoop (zSrc : List Nat) (nHash : Nat) :
    Nat → Nat → List Int → List Int → Option (List Int × List Int)
  | 0, _, _, _ => none
  | fuel + 1, i, collide, landmark =>
    if i < zSrc.length - NHASH then
      let h := hash_init zSrc i
      let hv := hash_32bit h % nHash
      let collide := collide.set (i / NHASH) (landmark.getD hv (-1))
      let landmark := landmark.set hv ((i / NHASH : Nat) : Int)
      hashLoop zSrc nHash fuel (i + NHASH) collide landmark
    else some (collide, landmark)

/-- The forward match `for(j=0, x=iSrc, y=base+i; x<lenSrc && y<lenOut; j++, x++, y++)`:
the arguments are the source from `x` on and the target from `y` on; the answer
is `j` when the loop is left. -/
def matchFwd : List Nat → List Nat → Nat → Nat
  | [], _, j => j
  | _ :: _, [], j => j
  | a :: as, b :: bs, j => if a ≠ b then j else matchFwd as bs (j + 1)

/-- The backward match `for(k=1; k<iSrc && k<=i; k++)`, where `pos = base+i`;
the answer is `k` when the loop is left.  The first argument bounds the number
of rounds; `i` rounds are always enough because of the test `k<=i`. -/
def matchBack (zSrc zOut : List Nat) (iSrc pos i : Nat) : Nat → Nat → Nat
  | 0, k => k
  | n + 1, k =>
    if k < iSrc ∧ k ≤ i then
      if zSrc.getD (iSrc - k) 0 ≠ zOut.getD (pos - k) 0 then k
      else matchBack zSrc zOut iSrc pos i n (k + 1)
    else k

/-- The best match found so far: `bestCnt`, `bestOfst`, `bestLitsz`. -/
structure Best where
  cnt : Nat
  ofst : Nat
  litsz : Nat
deriving DecidableEq, Repr

/-- A candidate match: the values of `ofst`, `cnt` and `litsz` in the body of the
chain loop. -/
structure Match where
  ofst : Nat
  cnt : Int
  litsz : Nat
deriving DecidableEq, Repr

/-- The first half of the body of the chain loop: match forwards and backwards
around landmark block `iBlock` and compute `ofst`, `cnt` and `litsz`. -/
def matchBlock (zSrc zOut : List Nat) (base i : Nat) (iBlock : Int) : Match :=
  let iSrc : Nat := iBlock.toNat * NHASH
  let j : Int := (matchFwd (zSrc.drop iSrc) (zOut.drop (base + i)) 0 : Nat) - 1
  let k : Nat := matchBack zSrc zOut iSrc (base + i) i i 1 - 1
  { ofst := iSrc - k, cnt := j + (k : Int) + 1, litsz := i - k }

/-- The walk along one collision chain:
`while( iBlock>=0 && (limit--)>0 )`.  The recursion is over `limit`. -/
def chainLoop (fuel : Nat) (zSrc zOut : List Nat) (collide : List Int) (base i : Nat) :
    Nat → Int → Best → Option Best
  | 0, _, best => some best
  | limit + 1, iBlock, best =>
    if iBlock ≥ 0 then
      let c := matchBlock zSrc zOut base i iBlock
      match digit_count fuel c.litsz, digit_count fuel c.cnt.toNat, digit_count fuel c.ofst with
      | some d1, some d2, some d3 =>
        let sz : Int := (d1 : Int) + (d2 : Int) + (d3 : Int) + 3
        let best := if c.cnt ≥ sz ∧ c.cnt.toNat > best.cnt then
            { cnt := c.cnt.toNat, ofst := c.ofst, litsz := c.litsz } else best
        chainLoop fuel zSrc zOut collide base i limit (collide.getD iBlock.toNat (-1)) best
      | _, _, _ => none
    else some best

/-- The scan for the next match, `while( 1 )` inside the main loop of
`delta_create`.  Answers the new `base` and the delta written so far. -/
def scanLoop (F : Nat) (zSrc zOut : List Nat) (nHash : Nat) (collide landmark : List Int)
    (base : Nat) : Nat → hash → Nat → List Nat → Option (Nat × List Nat)
  | 0, _, _, _ => none
  | fuel + 1, h, i, zDelta =>
    let hv := hash_32bit h % nHash
    let iBlock := landmark.getD hv (-1)
    match chainLoop F zSrc zOut collide base i 250 iBlock { cnt := 0, ofst := 0, litsz := 0 } with
    | none => none
    | some best =>
      if best.cnt > 0 then
        let r : Nat × List Nat :=
          if best.litsz > 0 then
            (base + best.litsz,
              zDelta ++ putInt best.litsz ++ [58] ++ (zOut.drop base).take best.litsz)
          else (base, zDelta)
        some (r.1 + best.cnt, r.2 ++ putInt best.cnt ++ [64] ++ putInt best.ofst ++ [44])
      else if base + i + NHASH ≥ zOut.length then
        some (zOut.length,
          zDelta ++ putInt (zOut.length - base) ++ [58] ++ (zOut.drop base).take (zOut.length - base))
      else scanLoop F zSrc zOut nHash collide landmark base fuel
        (hash_next h (zOut.getD (base + i + NHASH) 0)) (i + 1) zDelta

/-- The main loop of `delta_create`: `while( base+NHASH<lenOut )`. -/
def mainLoop (F : Nat) (zSrc zOut : List Nat) (nHash : Nat) (collide landmark : List Int) :
    Nat → Nat → List Nat → Option (Nat × List Nat)
  | 0, _, _ => none
  | fuel + 1, base, zDelta =>
    if base + NHASH < zOut.length then
      match scanLoop F zSrc zOut nHash collide landmark base F (hash_init zOut base) 0 zDelta with
      | none => none
      | some r => mainLoop F zSrc zOut nHash collide landmark fuel r.1 r.2
    else some (base, zDelta)

/-- Create a delta: `delta_create`.  The answer is the content of `zDelta`, whose
length is the value the function returns.  (`lastRead` is never read and is
left out.) -/
def delta_create (fuel : Nat) (zSrc zOut : List Nat) : Option (List Nat) :=
  let zDelta := putInt zOut.length ++ [10]
  if zSrc.length ≤ NHASH then
    some (zDelta ++ putInt zOut.length ++ [58] ++ zOut ++ putInt (checksum zOut) ++ [59])
  else
    let nHash := zSrc.length / NHASH
    match hashLoop zSrc nHash fuel 0 (List.replicate nHash (-1)) (List.replicate nHash (-1)) with
    | none => none
    | some (collide, landmark) =>
      match mainLoop fuel zSrc zOut nHash collide landmark fuel 0 zDelta with
      | none => none
      | some (base, zDelta) =>
        let zDelta :=
          if base < zOut.length then
            zDelta ++ putInt (zOut.length - base) ++ [58] ++ (zOut.drop base).take (zOut.length - base)
          else zDelta
        some (zDelta ++ putInt (checksum zOut) ++ [59])

/-! ## Applying a delta -/

/-- The outcome of `delta_apply`: `error` is the return value `-1`; `ok total out`
is the return of `total`, with `out` the bytes written to `zOut`; `fault` is a
`memcpy` that reads behind the end of its source buffer. -/
inductive ApplyResult where
  | error : ApplyResult
  | ok (total : Nat) (out : List Nat) : ApplyResult
  | fault : ApplyResult
deriving DecidableEq, Repr

/-- What one round of the command loop does: it returns, or it goes on with a
new read pointer, remaining length, running total and output. -/
inductive StepResult where
  | done (r : ApplyResult) : StepResult
  | next (z : List Nat) (lenDelta : Int) (total : Nat) (out : List Nat) : StepResult
deriving DecidableEq, Repr

/-- One round of `while( *zDelta && lenDelta>0 )` in `delta_apply`, the test
included.  `z` is the script from the read pointer on, `out` the bytes written
so far. -/
def applyStep (zSrc : List Nat) (limit : Nat) (z : List Nat) (lenDelta : Int) (total : Nat)
    (out : List Nat) : StepResult :=
  if z.headD 0 ≠ 0 ∧ lenDelta > 0 then
    let r := getInt z lenDelta
    let cnt := r.1
    let z := r.2.1
    let lenDelta := r.2.2
    if z.headD 0 = 64 then
      let r := getInt z.tail (lenDelta - 1)
      let ofst := r.1
      let z := r.2.1
      let lenDelta := r.2.2
      if lenDelta > 0 ∧ z.headD 0 ≠ 44 then StepResult.done ApplyResult.error
      else
        let z := z.tail
        let lenDelta := lenDelta - 1
        let total := (total + cnt) % 4294967296
        if total > limit then StepResult.done ApplyResult.error
        else if (ofst + cnt) % 4294967296 > u32 zSrc.length then StepResult.done ApplyResult.error
        else if ofst + cnt > zSrc.length then StepResult.done ApplyResult.fault
        else StepResult.next z lenDelta total (out ++ (zSrc.drop ofst).take cnt)
    else if z.headD 0 = 58 then
      let z := z.tail
      let lenDelta := lenDelta - 1
      let total := (total + cnt) % 4294967296
      if total > limit then StepResult.done ApplyResult.error
      else if cnt > u32 lenDelta then StepResult.done ApplyResult.error
      else if cnt > z.length then StepResult.done ApplyResult.fault
      else StepResult.next (z.drop cnt) (lenDelta - cnt) total (out ++ z.take cnt)
    else if z.headD 0 = 59 then
      if cnt ≠ checksum (out.take total) then StepResult.done ApplyResult.error
      else if total ≠ limit then StepResult.done ApplyResult.error
      else StepResult.done (ApplyResult.ok total out)
    else StepResult.done ApplyResult.error
  else StepResult.done ApplyResult.error

/-- The command loop of `delta_apply`: `while( *zDelta && lenDelta>0 )`. -/
def applyLoop (zSrc : List Nat) (limit : Nat) :
    Nat → List Nat → Int → Nat → List Nat → Option ApplyResult
  | 0, _, _, _, _ => none
  | fuel + 1, z, lenDelta, total, out =>
    match applyStep zSrc limit z lenDelta total out with
    | StepResult.done r => some r
    | StepResult.next z lenDelta total out => applyLoop zSrc limit fuel z lenDelta total out

/-- Apply a delta: `delta_apply`.  `zDelta` is the script buffer and `lenDelta`
the length passed for it; `lenSrc` is the length of `zSrc`. -/
def delta_apply (fuel : Nat) (zSrc zDelta : List Nat) (lenDelta : Int) : Option ApplyResult :=
  let r := getInt zDelta lenDelta
  if r.2.1.headD 0 ≠ 10 then some ApplyResult.error
  else applyLoop zSrc r.1 fuel r.2.1.tail (r.2.2 - 1) 0 []

/-- The `int` a C function returns for the `unsigned int` value `v`. -/
def toInt32 (v : Nat) : Int :=
  if v % 4294967296 < 2147483648 then ((v % 4294967296 : Nat) : Int)
  else ((v % 4294967296 : Nat) : Int) - 4294967296

/-- The value `delta_apply` returns, when it returns. -/
def ApplyResult.ret : ApplyResult → Option Int
  | ApplyResult.error => some (-1)
  | ApplyResult.ok total _ => some (toInt32 total)
  | ApplyResult.fault => none

/-- The size of the output of a delta: `delta_output_size`. -/
def delta_output_size (zDelta : List Nat) (lenDelta : Int) : Int :=
  let r := getInt zDelta lenDelta
  if r.2.1.headD 0 ≠ 10 then -1 else toInt32 r.1

/-! ## Auxiliary notions for the proofs -/

/-- The commands `cmds` take `n` rounds of the command loop and lead it from the
running total `t` and output `o` to the total `t'` and output `o'`, whatever
follows them in the script. -/
def Run (zSrc : List Nat) (limit n : Nat) (cmds : List Nat) (t : Nat) (o : List Nat)
    (t' : Nat) (o' : List Nat) : Prop :=
  ∀ (fuel : Nat) (rest : List Nat), (cmds ++ rest).length < 2147483648 →
    applyLoop zSrc limit (fuel + n) (cmds ++ rest) ((cmds ++ rest).length : Int) t o
      = applyLoop zSrc limit fuel rest (rest.length : Int) t' o'

/-- Every entry of a hash table is `-1` or the index of a full block of the
source that is followed by at least one more byte. -/
def BlockOK (zSrc : List Nat) (iBlock : Int) : Prop :=
  iBlock = -1 ∨ (0 ≤ iBlock ∧ iBlock.toNat * NHASH + NHASH < zSrc.length)

/-- All entries of a hash table are block indices or `-1`. -/
def TableOK (zSrc : List Nat) (tbl : List Int) : Prop := ∀ x, x ∈ tbl → BlockOK zSrc x

/-- The best match so far is empty, or it names equal stretches of the source
and of the target after `base`, and it is worth its encoding. -/
def GoodBest (zSrc zOut : List Nat) (base : Nat) (b : Best) : Prop :=
  b.cnt = 0 ∨
    (b.ofst + b.cnt ≤ zSrc.length ∧ base + b.litsz + b.cnt ≤ zOut.length ∧
      (zSrc.drop b.ofst).take b.cnt = (zOut.drop (base + b.litsz)).take b.cnt ∧
      (putInt b.litsz).length + (putInt b.cnt).length + (putInt b.ofst).length + 3 ≤ b.cnt)

/-! ## The value of a field of digits -/

/-- The entry of `zValue` that `getInt` looks up for the byte `c`. -/
def zv (c : Nat) : Int := zValue.getD (0x7f &&& c) (-1)

/-- The digit value `getInt` adds for the byte `c`. -/
def dval (c : Nat) : Nat := (zv c).toNat

/-- The number that a list of bytes denotes when each byte is read as a base-64
digit, most significant first. -/
def val : List Nat → Nat
  | [] => 0
  | c :: l => dval c * 64 ^ l.length + val l

/-! ## Notions of the specification -/

/-- The base-64 numeral of `n` as the specification describes it: the digits of
`n` in base 64, most significant first, over the alphabet digits, uppercase,
`_`, lowercase, `~`; the numeral of `0` is `0`. -/
def base64 (n : Nat) : List Nat :=
  if n = 0 then [48] else (Nat.digits 64 n).reverse.map (fun d => zDigits.getD d 0)

/-- The size of the buffer that `blob_delta_create` hands to `delta_create`:
`blob_resize(pDelta, lenTarg+16)`. -/
def blob_delta_create_bufsize (lenTarg : Nat) : Nat := lenTarg + 16

/-! ## Concrete buffers -/

/-- The buffer `abcdefghijklmnopqrstuvwxyz`. -/
def abc : List Nat :=
  [97, 98, 99, 100, 101, 102, 103, 104, 105, 106, 107, 108, 109, 110, 111, 112, 113, 114, 115,
   116, 117, 118, 119, 120, 121, 122]

/-- The buffer `hello`. -/
def hello : List Nat := [104, 101, 108, 108, 111]

/-- A buffer of 262144 bytes `0xFF`. -/
def ffBlock : List Nat := List.replicate (16 * 16384) 255

/-- The 32-bit word that up to four bytes make, the first byte the most
significant one and zero bytes in the places of the bytes that are missing. -/
def beWord (w : List Nat) : Nat :=
  w.getD 0 0 * 16777216 + w.getD 1 0 * 65536 + w.getD 2 0 * 256 + w.getD 3 0

/-- The checksum as the specification describes it: the sum modulo `2^32` of the
buffer read as consecutive big-endian 32-bit words, the last one to three bytes
padded with zero bytes on the right. -/
def wordSum : List Nat → Nat
  | z0 :: z1 :: z2 :: z3 :: rest => (beWord [z0, z1, z2, z3] + wordSum rest) % 4294967296
  | [] => 0
  | z => beWord z % 4294967296

/-- The rolling hash after `k` advances from the start of `z`: `hash_init` on
`z`, then `hash_next` with the bytes `z[NHASH]`, ..., `z[NHASH+k-1]`. -/
def hash_advance (z : List Nat) : Nat → hash
  | 0 => hash_init z 0
  | k + 1 => hash_next (hash_advance z k) (z.getD (k + NHASH) 0)

/-- The sum of the `n` characters of `z` from the offset `k` on. -/
def winSum (z : List Nat) (k : Nat) : Nat → Int
  | 0 => 0
  | n + 1 => winSum z k n + schar (z.getD (k + n) 0)

/-- The weighted sum of the `n` characters of `z` from the offset `k` on: the
character at the distance `t` has the weight `NHASH - t`. -/
def winWeighted (z : List Nat) (k : Nat) : Nat → Int
  | 0 => 0
  | n + 1 => winWeighted z k n + ((NHASH : Int) - (n : Int)) * schar (z.getD (k + n) 0)

/-- A buffer of `2^30` bytes `0xFF`. -/
def ffGiga : List Nat := List.replicate (16 * 67108864) 255

/-- A buffer of `2^30 + 48` bytes `0`. -/
def zeroGiga : List Nat := List.replicate 1073741872 0

/-- A buffer of 17 bytes `0`. -/
def zero17 : List Nat := List.replicate 17 0

end Delta

namespace Diff

/-- The bytes of a string constant. -/
def str (s : String) : List Nat := s.toList.map Char.toNat

/-! ## Lines of a text file (`src/src/diff.c`) -/

/-- What the translation of `diff.c` takes as given.  `vcs_isspace` and
`htmlize` are helpers defined outside `src/`.  `scoreGt` is the comparison
`score>bestScore` of `longestCommonSequence`, which the code computes in
`double` arithmetic from the length, the skew and the distance of a match (the
first triple belongs to the new match, the second to the best one so far).
`fmt_d w v` is what the formatted output functions (`blob_appendf`,
`sqlite3_snprintf`) write for the conversion `%d` with the minimum width `w`
and the value `v`, and `fmt_c n c` what they write for `%.*c` with the
precision `n` and the character `c`. -/
structure Env where
  vcs_isspace : Nat → Bool
  htmlize : List Nat → List Nat
  scoreGt : Int × Int × Int → Int × Int × Int → Bool
  fmt_d : Nat → Int → List Nat
  fmt_c : Int → Nat → List Nat

/-- The number of bits of a line hash that hold the length, `LENGTH_MASK_SZ`. -/
def LENGTH_MASK_SZ : Nat := 13

/-- The mask of the length bits, `LENGTH_MASK`: `(1<<LENGTH_MASK_SZ)-1`. -/
def LENGTH_MASK : Nat := (1 <<< LENGTH_MASK_SZ) - 1

/-- One line of a file: `struct DLine`.  The pointer `z` is the text from the
start of the line to the end of the buffer. -/
structure DLine where
  z : List Nat
  h : Nat
  iNext : Nat
  iHash : Nat
deriving DecidableEq, Repr

/-- A record of zero bytes, as `memset` leaves it. -/
def DLine.zero : DLine := { z := [], h := 0, iNext := 0, iHash := 0 }

/-- Length of a line, `LENGTH(X)`. -/
def LENGTH (X : DLine) : Nat := X.h &&& LENGTH_MASK

/-- The first loop of `break_into_lines`, over the bytes from `z[i]` on, with
the counters `j` and `nLine`; `none` is `return 0`.  Behind the last byte the
NUL that ends the blob is read. -/
def countLines : List Nat → Nat → Nat → Option (Nat × Nat)
  | [], j, nLine => some (j, nLine)
  | c :: rest, j, nLine =>
    if c = 0 then none
    else if c = 10 ∧ rest.headD 0 ≠ 0 then
      if j > LENGTH_MASK then none else countLines rest (0 + 1) (nLine + 1)
    else countLines rest (j + 1) nLine

/-- The loop `for(j=0; z[j] && z[j]!='\n'; j++){}`. -/
def lineEnd : List Nat → Nat
  | [] => 0
  | c :: rest => if c ≠ 0 ∧ c ≠ 10 then lineEnd rest + 1 else 0

/-- The loop `while( ignoreWS && k>0 && vcs_isspace(z[k-1]) ){ k--; }` for a true
`ignoreWS`. -/
def trimEnd (E : Env) (z : List Nat) : Nat → Nat
  | 0 => 0
  | k + 1 => if E.vcs_isspace (z.getD k 0) then trimEnd E z k else k + 1

/-- The loop `for(h=0, x=0; x<k; x++){ h = h ^ (h<<2) ^ z[x]; }` over the `k`
bytes `z`, from the value `h` on. -/
def lineHash : List Nat → Nat → Nat
  | [], h => h
  | c :: rest, h => lineHash rest (h ^^^ ((h <<< 2) % 4294967296) ^^^ Delta.u32 (Delta.schar c))

/-- The second loop of `break_into_lines`: the rounds from `i` on, `fuel` of
them, with `z` the read pointer and `a` the array. -/
def fillLines (E : Env) (ignoreWS : Bool) (nLine : Nat) :
    Nat → Nat → List Nat → List DLine → List DLine
  | 0, _, _, a => a
  | fuel + 1, i, z, a =>
    let j := lineEnd z
    let k := if ignoreWS then trimEnd E z j else j
    let h := lineHash (z.take k) 0
    let h := ((h <<< LENGTH_MASK_SZ) ||| k) % 4294967296
    let h2 := h % nLine
    let a := a.set i { (a.getD i DLine.zero) with z := z, h := h }
    let a := a.set i { (a.getD i DLine.zero) with iNext := (a.getD h2 DLine.zero).iHash }
    let a := a.set h2 { (a.getD h2 DLine.zero) with iHash := i + 1 }
    fillLines E ignoreWS nLine fuel (i + 1) (z.drop (j + 1)) a

/-- Split a buffer into lines: `break_into_lines`.  `z` holds the `n` bytes of
the blob, which a NUL follows; the answer is the array and `*pnLine`, and `none`
is the return value 0. -/
def break_into_lines (E : Env) (z : List Nat) (ignoreWS : Bool) : Option (List DLine × Nat) :=
  match countLines z 0 1 with
  | none => none
  | some (j, nLine) =>
    if j > LENGTH_MASK then none
    else if z.length = 0 then some (List.replicate nLine DLine.zero, 0)
    else some (fillLines E ignoreWS nLine nLine 0 z (List.replicate nLine DLine.zero), nLine)

/-- The test `memcmp(a,b,n)==0`. -/
def memcmp0 : List Nat → List Nat → Nat → Bool
  | _, _, 0 => true
  | a, b, n + 1 => a.headD 0 = b.headD 0 && memcmp0 a.tail b.tail n

/-- Two lines are identical: `same_dline`. -/
def same_dline (pA pB : DLine) : Bool :=
  pA.h = pB.h && memcmp0 pA.z pB.z (pA.h &&& LENGTH_MASK)

/-! ## The edit script -/

/-- The context of a diff, `struct DContext`; `nEdit` is the length of `aEdit`. -/
structure DContext where
  aEdit : List Int
  aFrom : List DLine
  nFrom : Nat
  aTo : List DLine
  nTo : Nat
deriving DecidableEq, Repr

/-- The loop `while( i+k<iE1 && j+k<iE2 && same_dline(...) ){ k++; }` of
`optimalLCS`. -/
def runLength (p : DContext) (i j iE1 iE2 : Nat) : Nat → Nat → Nat
  | 0, k => k
  | fuel + 1, k =>
    if i + k < iE1 ∧ j + k < iE2 ∧
        same_dline (p.aFrom.getD (i + k) DLine.zero) (p.aTo.getD (j + k) DLine.zero) then
      runLength p i j iE1 iE2 fuel (k + 1)
    else k

/-- The inner loop of `optimalLCS` from `j` on; the state is `mxLength`, `iSXb`
and `iSYb`. -/
def optimalLCS_inner (p : DContext) (i iE1 iE2 : Nat) :
    Nat → Nat → Nat × Nat × Nat → Nat × Nat × Nat
  | 0, _, s => s
  | fuel + 1, j, (mxLength, iSXb, iSYb) =>
    if j < iE2 - mxLength then
      if ¬ same_dline (p.aFrom.getD i DLine.zero) (p.aTo.getD j DLine.zero) then
        optimalLCS_inner p i iE1 iE2 fuel (j + 1) (mxLength, iSXb, iSYb)
      else if mxLength ≠ 0 ∧ ¬ same_dline (p.aFrom.getD (i + mxLength) DLine.zero)
          (p.aTo.getD (j + mxLength) DLine.zero) then
        optimalLCS_inner p i iE1 iE2 fuel (j + 1) (mxLength, iSXb, iSYb)
      else
        let k := runLength p i j iE1 iE2 (iE1 - i) 1
        if k > mxLength then optimalLCS_inner p i iE1 iE2 fuel (j + 1) (k, i, j)
        else optimalLCS_inner p i iE1 iE2 fuel (j + 1) (mxLength, iSXb, iSYb)
    else (mxLength, iSXb, iSYb)

/-- The outer loop of `optimalLCS` from `i` on. -/
def optimalLCS_outer (p : DContext) (iE1 iS2 iE2 : Nat) :
    Nat → Nat → Nat × Nat × Nat → Nat × Nat × Nat
  | 0, _, s => s
  | fuel + 1, i, s =>
    if i < iE1 - s.1 then
      optimalLCS_outer p iE1 iS2 iE2 fuel (i + 1) (optimalLCS_inner p i iE1 iE2 (iE2 - iS2) iS2 s)
    else s

/-- The exhaustive search `optimalLCS`; the answer is `(iSX, iEX, iSY, iEY)`. -/
def optimalLCS (p : DContext) (iS1 iE1 iS2 iE2 : Nat) : Nat × Nat × Nat × Nat :=
  let s := optimalLCS_outer p iE1 iS2 iE2 (iE1 - iS1) iS1 (0, iS1, iS2)
  (s.2.1, s.2.1 + s.1, s.2.2, s.2.2 + s.1)

/-- The smaller of two values: `minInt`. -/
def minInt (a b : Int) : Int := if a < b then a else b

/-- The walk along a hash chain in `longestCommonSequence`, from the entry `j`
on; `n` is the number of rounds left before `limit++ > 10` holds. -/
def chainWalk (p : DContext) (i iS2 iE2 : Nat) : Nat → Nat → Nat
  | 0, j =>
    if j > 0 ∧ (j - 1 < iS2 ∨ j ≥ iE2 ∨
        ¬ same_dline (p.aFrom.getD i DLine.zero) (p.aTo.getD (j - 1) DLine.zero)) then 0
    else j
  | n + 1, j =>
    if j > 0 ∧ (j - 1 < iS2 ∨ j ≥ iE2 ∨
        ¬ same_dline (p.aFrom.getD i DLine.zero) (p.aTo.getD (j - 1) DLine.zero)) then
      chainWalk p i iS2 iE2 n (p.aTo.getD (j - 1) DLine.zero).iNext
    else j

/-- The loop `for(k=0; k<n && same_dline(pA,pB); k++, pA--, pB--){}` with
`pA = &aFrom[iSX-1]` and `pB = &aTo[iSY-1]`. -/
def extendBack (p : DContext) (iSX iSY n : Nat) : Nat → Nat → Nat
  | 0, k => k
  | fuel + 1, k =>
    if k < n ∧ same_dline (p.aFrom.getD (iSX - 1 - k) DLine.zero)
        (p.aTo.getD (iSY - 1 - k) DLine.zero) then
      extendBack p iSX iSY n fuel (k + 1)
    else k

/-- The loop `for(k=0; k<n && same_dline(pA,pB); k++, pA++, pB++){}` with
`pA = &aFrom[iEX]` and `pB = &aTo[iEY]`. -/
def extendFwd (p : DContext) (iEX iEY n : Nat) : Nat → Nat → Nat
  | 0, k => k
  | fuel + 1, k =>
    if k < n ∧ same_dline (p.aFrom.getD (iEX + k) DLine.zero)
        (p.aTo.getD (iEY + k) DLine.zero) then
      extendFwd p iEX iEY n fuel (k + 1)
    else k

/-- The variables of the loop of `longestCommonSequence`: the best score (`none`
is the initial `-1e30`, below every score) with the length, skew and distance
it was computed from, the best match and the previous match. -/
structure LCSState where
  bestScore : Option (Int × Int × Int)
  iSXb : Nat
  iSYb : Nat
  iEXb : Nat
  iEYb : Nat
  iSXp : Nat
  iSYp : Nat
  iEXp : Nat
  iEYp : Nat
deriving DecidableEq, Repr

/-- One round of the loop of `longestCommonSequence`, for the line `i`. -/
def lcsStep (E : Env) (p : DContext) (iS1 iE1 iS2 iE2 i : Nat) (s : LCSState) : LCSState :=
  let mid : Int := ((iE1 : Int) + (iS1 : Int)) / 2
  let j := chainWalk p i iS2 iE2 11
    (p.aTo.getD ((p.aFrom.getD i DLine.zero).h % p.nTo) DLine.zero).iHash
  if j = 0 then s
  else if i < s.iEXb ∧ j ≥ s.iSYb ∧ j < s.iEYb then s
  else if i < s.iEXp ∧ j ≥ s.iSYp ∧ j < s.iEYp then s
  else
    let iSX := i
    let iSY := j - 1
    let n := (minInt ((iSX : Int) - iS1) ((iSY : Int) - iS2)).toNat
    let k := extendBack p iSX iSY n n 0
    let iSX := iSX - k
    let iSY := iSY - k
    let iEX := i + 1
    let iEY := j
    let n := (minInt ((iE1 : Int) - iEX) ((iE2 : Int) - iEY)).toNat
    let k := extendFwd p iEX iEY n n 0
    let iEX := iEX + k
    let iEY := iEY + k
    let skew : Int := ((iSX : Int) - iS1) - ((iSY : Int) - iS2)
    let skew := if skew < 0 then -skew else skew
    let dist : Int := ((iSX : Int) + iEX) / 2 - mid
    let dist := if dist < 0 then -dist else dist
    let score : Int × Int × Int := ((iEX : Int) - iSX, skew, dist)
    if (match s.bestScore with
        | none => true
        | some b => E.scoreGt score b) then
      { s with bestScore := some score, iSXb := iSX, iSYb := iSY, iEXb := iEX, iEYb := iEY }
    else
      { s with iSXp := iSX, iSYp := iSY, iEXp := iEX, iEYp := iEY }

/-- The loop `for(i=iS1; i<iE1; i++)` of `longestCommonSequence` from `i` on. -/
def lcsLoop (E : Env) (p : DContext) (iS1 iE1 iS2 iE2 : Nat) : Nat → Nat → LCSState → LCSState
  | 0, _, s => s
  | fuel + 1, i, s =>
    if i < iE1 then lcsLoop E p iS1 iE1 iS2 iE2 fuel (i + 1) (lcsStep E p iS1 iE1 iS2 iE2 i s)
    else s

/-- The value of an `int` expression whose exact value is `x`: the value modulo
`2^32` that lies between `-2^31` and `2^31 - 1`. -/
def int32 (x : Int) : Int := (x + 2147483648) % 4294967296 - 2147483648

/-- Find a common run of lines: `longestCommonSequence`; the answer is
`(iSX, iEX, iSY, iEY)`. -/
def longestCommonSequence (E : Env) (p : DContext) (iS1 iE1 iS2 iE2 : Nat) :
    Nat × Nat × Nat × Nat :=
  let s0 : LCSState :=
    { bestScore := none, iSXb := iS1, iSYb := iS2, iEXb := iS1, iEYb := iS2,
      iSXp := iS1, iSYp := iS2, iEXp := iS1, iEYp := iS2 }
  let s := lcsLoop E p iS1 iE1 iS2 iE2 (iE1 - iS1) iS1 s0
  if s.iSXb = s.iEXb ∧ int32 (((iE1 : Int) - iS1) * ((iE2 : Int) - iS2)) < 400 then
    optimalLCS p iS1 iE1 iS2 iE2
  else (s.iSXb, s.iEXb, s.iSYb, s.iEYb)

/-- Append a triple to the edit script or merge it into the last one:
`appendTriple`. -/
def appendTriple (p : DContext) (nCopy nDel nIns : Int) : DContext :=
  let nEdit := p.aEdit.length
  let a := p.aEdit
  if nEdit ≥ 3 ∧ a.getD (nEdit - 1) 0 = 0 ∧ a.getD (nEdit - 2) 0 = 0 then
    let a := a.set (nEdit - 3) (a.getD (nEdit - 3) 0 + nCopy)
    let a := a.set (nEdit - 2) (a.getD (nEdit - 2) 0 + nDel)
    let a := a.set (nEdit - 1) (a.getD (nEdit - 1) 0 + nIns)
    { p with aEdit := a }
  else if nEdit ≥ 3 ∧ a.getD (nEdit - 1) 0 = 0 ∧ nCopy = 0 then
    let a := a.set (nEdit - 2) (a.getD (nEdit - 2) 0 + nDel)
    let a := a.set (nEdit - 1) (a.getD (nEdit - 1) 0 + nIns)
    { p with aEdit := a }
  else if nEdit ≥ 3 ∧ nCopy = 0 ∧ nDel = 0 then
    { p with aEdit := a.set (nEdit - 1) (a.getD (nEdit - 1) 0 + nIns) }
  else { p with aEdit := a ++ [nCopy, nDel, nIns] }

/-- One step of the difference: `diff_step`, with `fuel` bounding the depth of
the recursion. -/
def diff_step (E : Env) : Nat → DContext → Nat → Nat → Nat → Nat → Option DContext
  | 0, _, _, _, _, _ => none
  | fuel + 1, p, iS1, iE1, iS2, iE2 =>
    if iE1 ≤ iS1 then
      if iE2 > iS2 then some (appendTriple p 0 0 ((iE2 : Int) - iS2)) else some p
    else if iE2 ≤ iS2 then some (appendTriple p 0 ((iE1 : Int) - iS1) 0)
    else
      let r := longestCommonSequence E p iS1 iE1 iS2 iE2
      let iSX := r.1
      let iEX := r.2.1
      let iSY := r.2.2.1
      let iEY := r.2.2.2
      if iEX > iSX then
        match diff_step E fuel p iS1 iSX iS2 iSY with
        | none => none
        | some p => diff_step E fuel (appendTriple p ((iEX : Int) - iSX) 0 0) iEX iE1 iEY iE2
      else some (appendTriple p 0 ((iE1 : Int) - iS1) ((iE2 : Int) - iS2))

/-- The loop `while( iE1>0 && iE2>0 && same_dline(...) ){ iE1--; iE2--; }` of
`diff_all`. -/
def stripSuffix (p : DContext) : Nat → Nat → Nat → Nat × Nat
  | 0, iE1, iE2 => (iE1, iE2)
  | fuel + 1, iE1, iE2 =>
    if iE1 > 0 ∧ iE2 > 0 ∧
        same_dline (p.aFrom.getD (iE1 - 1) DLine.zero) (p.aTo.getD (iE2 - 1) DLine.zero) then
      stripSuffix p fuel (iE1 - 1) (iE2 - 1)
    else (iE1, iE2)

/-- The loop `for(iS=0; iS<mnE && same_dline(...); iS++){}` of `diff_all`. -/
def stripPrefix (p : DContext) (mnE : Nat) : Nat → Nat → Nat
  | 0, iS => iS
  | fuel + 1, iS =>
    if iS < mnE ∧ same_dline (p.aFrom.getD iS DLine.zero) (p.aTo.getD iS DLine.zero) then
      stripPrefix p mnE fuel (iS + 1)
    else iS

/-- Compute the whole edit script: `diff_all`. -/
def diff_all (E : Env) (fuel : Nat) (p : DContext) : Option DContext :=
  let e := stripSuffix p p.nFrom p.nFrom p.nTo
  let iE1 := e.1
  let iE2 := e.2
  let mnE := if iE1 < iE2 then iE1 else iE2
  let iS := stripPrefix p mnE mnE 0
  let p := if iS > 0 then appendTriple p iS 0 0 else p
  match diff_step E fuel p iS iE1 iS iE2 with
  | none => none
  | some p =>
    let p := if iE1 < p.nFrom then appendTriple p ((p.nFrom : Int) - iE1) 0 0 else p
    some { p with aEdit := p.aEdit ++ [0, 0, 0] }

/-- The line `a[i]` for an `int` index. -/
def lineAt (a : List DLine) (i : Int) : DLine := a.getD i.toNat DLine.zero

/-- The variables the inner loops of `diff_optimize` change. -/
structure OptState where
  aEdit : List Int
  lnFrom : Int
  lnTo : Int
  cpy : Int
deriving DecidableEq, Repr

/-- The change of one round of a loop that shifts toward the beginning of the
file: `lnFrom--; lnTo--; p->aEdit[r]--; p->aEdit[r+3]++; cpy--;`. -/
def OptState.up (s : OptState) (r : Nat) : OptState :=
  let a := s.aEdit.set r (s.aEdit.getD r 0 - 1)
  let a := a.set (r + 3) (a.getD (r + 3) 0 + 1)
  { aEdit := a, lnFrom := s.lnFrom - 1, lnTo := s.lnTo - 1, cpy := s.cpy - 1 }

/-- The change of one round of a loop that shifts toward the end of the file:
`lnFrom++; lnTo++; p->aEdit[r]++; p->aEdit[r+3]--; cpy++;`. -/
def OptState.down (s : OptState) (r : Nat) : OptState :=
  let a := s.aEdit.set r (s.aEdit.getD r 0 + 1)
  let a := a.set (r + 3) (a.getD (r + 3) 0 - 1)
  { aEdit := a, lnFrom := s.lnFrom + 1, lnTo := s.lnTo + 1, cpy := s.cpy + 1 }

/-- The first loop of `diff_optimize`: shift insertions toward the beginning. -/
def shiftInsUp (p : DContext) (r : Nat) (del ins : Int) : Nat → OptState → OptState
  | 0, s => s
  | fuel + 1, s =>
    if s.cpy > 0 ∧ del = 0 ∧ ins > 0 then
      if same_dline (lineAt p.aFrom (s.lnFrom - 1)) (lineAt p.aTo (s.lnTo + ins - 1)) = false then s
      else if LENGTH (lineAt p.aFrom (s.lnFrom - 1 + 1)) + LENGTH (lineAt p.aTo (s.lnTo + ins - 1))
          ≤ LENGTH (lineAt p.aFrom (s.lnFrom - 1)) + LENGTH (lineAt p.aTo (s.lnTo + ins - 1 - 1))
        then s
      else shiftInsUp p r del ins fuel (s.up r)
    else s

/-- The second loop of `diff_optimize`: shift insertions toward the end. -/
def shiftInsDown (p : DContext) (r : Nat) (del ins : Int) : Nat → OptState → OptState
  | 0, s => s
  | fuel + 1, s =>
    if r + 3 < s.aEdit.length ∧ s.aEdit.getD (r + 3) 0 > 0 ∧ del = 0 ∧ ins > 0 then
      if same_dline (lineAt p.aTo s.lnTo) (lineAt p.aTo (s.lnTo + ins)) = false then s
      else if LENGTH (lineAt p.aTo s.lnTo) + LENGTH (lineAt p.aTo (s.lnTo + ins - 1))
          ≤ LENGTH (lineAt p.aTo (s.lnTo + 1)) + LENGTH (lineAt p.aTo (s.lnTo + ins))
        then s
      else shiftInsDown p r del ins fuel (s.down r)
    else s

/-- The third loop of `diff_optimize`: shift deletions toward the beginning. -/
def shiftDelUp (p : DContext) (r : Nat) (del ins : Int) : Nat → OptState → OptState
  | 0, s => s
  | fuel + 1, s =>
    if s.cpy > 0 ∧ del > 0 ∧ ins = 0 then
      if same_dline (lineAt p.aFrom (s.lnFrom - 1)) (lineAt p.aFrom (s.lnFrom + del - 1)) = false
        then s
      else if LENGTH (lineAt p.aFrom (s.lnFrom - 1 + 1))
            + LENGTH (lineAt p.aFrom (s.lnFrom + del - 1))
          ≤ LENGTH (lineAt p.aFrom (s.lnFrom - 1))
            + LENGTH (lineAt p.aFrom (s.lnFrom + del - 1 - 1))
        then s
      else shiftDelUp p r del ins fuel (s.up r)
    else s

/-- The fourth loop of `diff_optimize`: shift deletions toward the end. -/
def shiftDelDown (p : DContext) (r : Nat) (del ins : Int) : Nat → OptState → OptState
  | 0, s => s
  | fuel + 1, s =>
    if r + 3 < s.aEdit.length ∧ s.aEdit.getD (r + 3) 0 > 0 ∧ del > 0 ∧ ins = 0 then
      if same_dline (lineAt p.aFrom s.lnFrom) (lineAt p.aFrom (s.lnFrom + del)) = false then s
      else if LENGTH (lineAt p.aFrom s.lnFrom) + LENGTH (lineAt p.aFrom (s.lnFrom + del - 1))
          ≤ LENGTH (lineAt p.aFrom s.lnFrom) + LENGTH (lineAt p.aFrom (s.lnFrom + del))
        then s
      else shiftDelDown p r del ins fuel (s.down r)
    else s

/-- The loop `for(r=0; r<p->nEdit; r += 3)` of `diff_optimize` from `r` on.  Each
inner loop gets as fuel the value of the count that it decrements, and `k`
rounds more. -/
def optimizeLoop (p : DContext) (k : Nat) : Nat → Nat → List Int → Int → Int → List Int
  | 0, _, aEdit, _, _ => aEdit
  | fuel + 1, r, aEdit, lnFrom, lnTo =>
    if r < aEdit.length then
      let cpy := aEdit.getD r 0
      let del := aEdit.getD (r + 1) 0
      let ins := aEdit.getD (r + 2) 0
      let s : OptState := { aEdit := aEdit, lnFrom := lnFrom + cpy, lnTo := lnTo + cpy, cpy := cpy }
      let s := shiftInsUp p r del ins (s.cpy.toNat + k) s
      let s := shiftInsDown p r del ins ((s.aEdit.getD (r + 3) 0).toNat + k) s
      let s := shiftDelUp p r del ins (s.cpy.toNat + k) s
      let s := shiftDelDown p r del ins ((s.aEdit.getD (r + 3) 0).toNat + k) s
      optimizeLoop p k fuel (r + 3) s.aEdit (s.lnFrom + del) (s.lnTo + ins)
    else aEdit

/-- Move the change blocks to more natural boundaries: `diff_optimize`. -/
def diff_optimize (p : DContext) : DContext :=
  { p with aEdit := optimizeLoop p 0 p.aEdit.length 0 p.aEdit 0 0 }

/-! ## The context diff -/

/-- Append one line of a context diff: `appendDiffLine`. -/
def appendDiffLine (E : Env) (pOut : List Nat) (cPrefix : Nat) (pLine : DLine) (html : Bool) :
    List Nat :=
  let pOut := pOut ++ [cPrefix]
  let pOut :=
    if html then
      let pOut :=
        if cPrefix = 43 then pOut ++ str "<span class=\"diffadd\">"
        else if cPrefix = 45 then pOut ++ str "<span class=\"diffrm\">"
        else pOut
      let pOut := pOut ++ E.htmlize (pLine.z.take (pLine.h &&& LENGTH_MASK))
      if cPrefix ≠ 32 then pOut ++ str "</span>" else pOut
    else pOut ++ pLine.z.take (pLine.h &&& LENGTH_MASK)
  pOut ++ [10]

/-- Append two line numbers: `appendDiffLineno`. -/
def appendDiffLineno (E : Env) (pOut : List Nat) (lnA lnB : Int) (html : Bool) : List Nat :=
  let pOut := if html then pOut ++ str "<span class=\"diffln\">" else pOut
  let pOut := if lnA > 0 then pOut ++ E.fmt_d 6 lnA ++ str " " else pOut ++ str "       "
  let pOut := if lnB > 0 then pOut ++ E.fmt_d 6 lnB ++ str "  " else pOut ++ str "        "
  if html then pOut ++ str "</span>" else pOut

/-- The loop `while( mxr>2 && R[mxr-1]==0 && R[mxr-2]==0 ){ mxr -= 3; }`. -/
def trimEdit (R : List Int) : Nat → Nat → Nat
  | 0, mxr => mxr
  | fuel + 1, mxr =>
    if mxr > 2 ∧ R.getD (mxr - 1) 0 = 0 ∧ R.getD (mxr - 2) 0 = 0 then trimEdit R fuel (mxr - 3)
    else mxr

/-- The loop `for(nr=1; R[r+nr*3]>0 && R[r+nr*3]<nContext*2; nr++){}` from `nr`
on. -/
def blockTriples (R : List Int) (r : Nat) (nContext : Int) : Nat → Nat → Nat
  | 0, nr => nr
  | fuel + 1, nr =>
    if R.getD (r + nr * 3) 0 > 0 ∧ R.getD (r + nr * 3) 0 < nContext * 2 then
      blockTriples R r nContext fuel (nr + 1)
    else nr

/-- The number of lines of the two files that a block of `nr` triples at `r`
shows, `na` and `nb`, and the number of lines skipped before it, `skip`. -/
def blockLines (R : List Int) (r nr : Nat) (nContext : Int) : Int × Int × Int :=
  let na : Int := if R.getD r 0 > nContext then nContext else R.getD r 0
  let nb : Int := na
  let skip : Int := if R.getD r 0 > nContext then R.getD r 0 - nContext else 0
  let na := (List.range nr).foldl (fun n i => n + R.getD (r + i * 3 + 1) 0) na
  let nb := (List.range nr).foldl (fun n i => n + R.getD (r + i * 3 + 2) 0) nb
  let na := if R.getD (r + nr * 3) 0 > nContext then na + nContext else na + R.getD (r + nr * 3) 0
  let nb := if R.getD (r + nr * 3) 0 > nContext then nb + nContext else nb + R.getD (r + nr * 3) 0
  let na := ((List.range nr).drop 1).foldl (fun n i => n + R.getD (r + i * 3) 0) na
  let nb := ((List.range nr).drop 1).foldl (fun n i => n + R.getD (r + i * 3) 0) nb
  (na, nb, skip)

/-- A loop `for(j=0; j<m; j++)` of `contextDiff` that shows the lines `L[x+j]`
with the prefix `cPrefix`; the line numbers are `a+j+1` and `b+j+1`, or 0 where
`a` or `b` is `none`. -/
def contextLines (E : Env) (showLn html : Bool) (cPrefix : Nat) (L : List DLine) (x : Int)
    (a b : Option Int) : Nat → Int → List Nat → List Nat
  | 0, _, pOut => pOut
  | fuel + 1, j, pOut =>
    let pOut :=
      if showLn then
        appendDiffLineno E pOut
          (match a with
           | some a => a + j + 1
           | none => 0)
          (match b with
           | some b => b + j + 1
           | none => 0) html
      else pOut
    contextLines E showLn html cPrefix L x a b fuel (j + 1)
      (appendDiffLine E pOut cPrefix (lineAt L (x + j)) html)

/-- The loop `for(i=0; i<nr; i++)` of `contextDiff` that shows the differences of
a block, from `i` on; the state is the output and the positions `a` and `b`. -/
def contextChanges (E : Env) (p : DContext) (showLn html : Bool) (r nr : Nat) :
    Nat → Nat → List Nat × Int × Int → List Nat × Int × Int
  | 0, _, s => s
  | fuel + 1, i, (pOut, a, b) =>
    if i < nr then
      let m := p.aEdit.getD (r + i * 3 + 1) 0
      let pOut := contextLines E showLn html 45 p.aFrom a (some a) none m.toNat 0 pOut
      let a := a + m
      let m := p.aEdit.getD (r + i * 3 + 2) 0
      let pOut := contextLines E showLn html 43 p.aTo b none (some b) m.toNat 0 pOut
      let b := b + m
      if i + 1 < nr then
        let m := p.aEdit.getD (r + i * 3 + 3) 0
        let pOut := contextLines E showLn html 32 p.aTo b (some a) (some b) m.toNat 0 pOut
        contextChanges E p showLn html r nr fuel (i + 1) (pOut, a + m, b + m)
      else contextChanges E p showLn html r nr fuel (i + 1) (pOut, a, b)
    else (pOut, a, b)

/-- The loop `for(r=0; r<mxr; r += 3*nr)` of `contextDiff` from `r` on; the state
is the output, the positions `a` and `b` and the count `nChunk`. -/
def contextBlocks (E : Env) (p : DContext) (nContext : Int) (showLn html : Bool) (mxr : Nat) :
    Nat → Nat → List Nat × Int × Int × Int → List Nat
  | 0, _, s => s.1
  | fuel + 1, r, (pOut, a, b, nChunk) =>
    if r < mxr then
      let R := p.aEdit
      let nr := blockTriples R r nContext R.length 1
      match blockLines R r nr nContext with
      | (na, nb, skip) =>
        let nChunk := nChunk + 1
        let pOut :=
          if showLn then
            if r = 0 then pOut
            else if html then
              pOut ++ str "<span class=\"diffhr\">" ++ E.fmt_c 80 46 ++ str "</span>\n"
                ++ str "<a name=\"chunk" ++ E.fmt_d 0 nChunk ++ str "\"></a>\n"
            else pOut ++ E.fmt_c 80 46 ++ str "\n"
          else
            let pOut := if html then pOut ++ str "<span class=\"diffln\">" else pOut
            let pOut := pOut ++ str "@@ -" ++ E.fmt_d 0 (if na ≠ 0 then a + skip + 1 else 0)
              ++ str "," ++ E.fmt_d 0 na ++ str " +" ++ E.fmt_d 0 (if nb ≠ 0 then b + skip + 1 else 0)
              ++ str "," ++ E.fmt_d 0 nb ++ str " @@"
            let pOut := if html then pOut ++ str "</span>" else pOut
            pOut ++ str "\n"
        let a := a + skip
        let b := b + skip
        let m := R.getD r 0 - skip
        let pOut := contextLines E showLn html 32 p.aFrom a (some a) (some b) m.toNat 0 pOut
        let a := a + m
        let b := b + m
        match contextChanges E p showLn html r nr nr 0 (pOut, a, b) with
        | (pOut, a, b) =>
          let m := R.getD (r + nr * 3) 0
          let m := if m > nContext then nContext else m
          let pOut := contextLines E showLn html 32 p.aTo b (some a) (some b) m.toNat 0 pOut
          contextBlocks E p nContext showLn html mxr fuel (r + 3 * nr) (pOut, a, b, nChunk)
    else pOut

/-- Write a context diff of the edit script to `pOut`: `contextDiff`. -/
def contextDiff (E : Env) (p : DContext) (pOut : List Nat) (nContext : Int) (showLn html : Bool) :
    List Nat :=
  let mxr := trimEdit p.aEdit p.aEdit.length p.aEdit.length
  contextBlocks E p nContext showLn html mxr mxr 0 (pOut, 0, 0, 0)

/-! ## The side-by-side diff: writing a line -/

/-- One output line under construction: `struct SbsLine`.  `zLine` holds the
`n` bytes written so far. -/
structure SbsLine where
  zLine : List Nat
  width : Int
  escHtml : Bool
  iStart : Int
  zStart : List Nat
  iEnd : Int
  iStart2 : Int
  zStart2 : List Nat
  iEnd2 : Int
deriving DecidableEq, Repr

/-- The flag `SBS_NEWLINE`. -/
def SBS_NEWLINE : Nat := 1

/-- The flag `SBS_PAD`. -/
def SBS_PAD : Nat := 2

/-- The loop `while( (k&7)!=7 && k<w ){ z[j++] = ' '; k++; }` of `sbsWriteText`;
the state is the line written and `k`. -/
def sbsTab (w : Int) : Nat → List Nat × Int → List Nat × Int
  | 0, s => s
  | fuel + 1, (z, k) =>
    if k.toNat &&& 7 ≠ 7 ∧ k < w then sbsTab w fuel (z ++ [32], k + 1) else (z, k)

/-- The main loop of `sbsWriteText` from the input byte `i` on; the state is the
line record, the cursor `k` and `needEndSpan`. -/
def sbsTextLoop (zIn : List Nat) (n w : Int) :
    Nat → Int → SbsLine × Int × Bool → SbsLine × Int × Bool
  | 0, _, s => s
  | fuel + 1, i, (p, k, needEndSpan) =>
    if k < w ∧ i < n then
      let c := zIn.getD i.toNat 0
      let s : SbsLine × Bool :=
        if p.escHtml then
          if i = p.iStart then
            let p := { p with zLine := p.zLine ++ p.zStart }
            let p :=
              if p.iStart2 ≠ 0 then
                { p with iStart := p.iStart2, zStart := p.zStart2, iStart2 := 0 }
              else p
            (p, true)
          else if i = p.iEnd then
            let p := { p with zLine := p.zLine ++ str "</span>" }
            let p := if p.iEnd2 ≠ 0 then { p with iEnd := p.iEnd2, iEnd2 := 0 } else p
            (p, false)
          else (p, needEndSpan)
        else (p, needEndSpan)
      let p := s.1
      let needEndSpan := s.2
      if c = 9 then
        let t := sbsTab w 8 (p.zLine ++ [32], k)
        sbsTextLoop zIn n w fuel (i + 1) ({ p with zLine := t.1 }, t.2 + 1, needEndSpan)
      else if c = 13 ∨ c = 12 then
        sbsTextLoop zIn n w fuel (i + 1) ({ p with zLine := p.zLine ++ [32] }, k + 1, needEndSpan)
      else if c = 60 ∧ p.escHtml then
        sbsTextLoop zIn n w fuel (i + 1)
          ({ p with zLine := p.zLine ++ str "&lt;" }, k + 1, needEndSpan)
      else if c = 38 ∧ p.escHtml then
        sbsTextLoop zIn n w fuel (i + 1)
          ({ p with zLine := p.zLine ++ str "&amp;" }, k + 1, needEndSpan)
      else if c = 62 ∧ p.escHtml then
        sbsTextLoop zIn n w fuel (i + 1)
          ({ p with zLine := p.zLine ++ str "&gt;" }, k + 1, needEndSpan)
      else
        sbsTextLoop zIn n w fuel (i + 1) ({ p with zLine := p.zLine ++ [c] }, k + 1, needEndSpan)
    else (p, k, needEndSpan)

/-- Write a line of text into a column: `sbsWriteText`. -/
def sbsWriteText (p : SbsLine) (pLine : DLine) (flags : Nat) : SbsLine :=
  let n : Int := ((pLine.h &&& LENGTH_MASK : Nat) : Int)
  let w := p.width
  let s := sbsTextLoop pLine.z n w n.toNat 0 (p, 0, false)
  let p := s.1
  let k := s.2.1
  let p := if s.2.2 then { p with zLine := p.zLine ++ str "</span>" } else p
  let p :=
    if flags &&& SBS_PAD ≠ 0 then { p with zLine := p.zLine ++ List.replicate (w - k).toNat 32 }
    else p
  if flags &&& SBS_NEWLINE ≠ 0 then { p with zLine := p.zLine ++ [10] } else p

/-- Append bytes to the line: `sbsWrite`. -/
def sbsWrite (p : SbsLine) (zIn : List Nat) : SbsLine := { p with zLine := p.zLine ++ zIn }

/-- Append `n` spaces: `sbsWriteSpace`. -/
def sbsWriteSpace (p : SbsLine) (n : Int) : SbsLine :=
  { p with zLine := p.zLine ++ List.replicate n.toNat 32 }

/-- Append a string when rendering HTML: `sbsWriteHtml`. -/
def sbsWriteHtml (p : SbsLine) (zIn : List Nat) : SbsLine :=
  if p.escHtml then sbsWrite p zIn else p

/-- Write a line number: `sbsWriteLineno`.  Six bytes of what `"%5d "` gives
for `ln+1` are kept. -/
def sbsWriteLineno (E : Env) (p : SbsLine) (ln : Int) : SbsLine :=
  let p := sbsWriteHtml p (str "<span class=\"diffln\">")
  let p := { p with zLine := p.zLine ++ (E.fmt_d 5 (ln + 1) ++ str " ").take 6 }
  let p := sbsWriteHtml p (str "</span>")
  { p with zLine := p.zLine ++ [32] }

/-- The four bytes `z[i..i+3]` as a big-endian word. -/
def textWord (z : List Nat) (i : Nat) : Nat :=
  (((z.getD i 0 % 256) <<< 24) ||| ((z.getD (i + 1) 0 % 256) <<< 16)
    ||| ((z.getD (i + 2) 0 % 256) <<< 8) ||| (z.getD (i + 3) 0 % 256)) % 4294967296

/-- The loop `while( iAE<nA && iBE<nB && zA[iAE]==zB[iBE] ){ iAE++; iBE++; }`. -/
def textFwd (zA zB : List Nat) (nA nB : Nat) : Nat → Nat × Nat → Nat × Nat
  | 0, s => s
  | fuel + 1, (iAE, iBE) =>
    if iAE < nA ∧ iBE < nB ∧ zA.getD iAE 0 % 256 = zB.getD iBE 0 % 256 then
      textFwd zA zB nA nB fuel (iAE + 1, iBE + 1)
    else (iAE, iBE)

/-- The loop `while( iAS>0 && iBS>0 && zA[iAS-1]==zB[iBS-1] ){ iAS--; iBS--; }`. -/
def textBack (zA zB : List Nat) : Nat → Nat × Nat → Nat × Nat
  | 0, s => s
  | fuel + 1, (iAS, iBS) =>
    if iAS > 0 ∧ iBS > 0 ∧ zA.getD (iAS - 1) 0 % 256 = zB.getD (iBS - 1) 0 % 256 then
      textBack zA zB fuel (iAS - 1, iBS - 1)
    else (iAS, iBS)

/-- The loop `for(j=0; j<nt; j++)` of `textLCS` for the probe at `i`; the state
is `aLCS` and `rc`. -/
def textTargets (zA zB : List Nat) (nA nB : Nat) (ti target : List Nat) (probe i : Nat) :
    List Nat → List Nat × Nat → List Nat × Nat
  | [], s => s
  | j :: js, (aLCS, rc) =>
    if probe = target.getD j 0 then
      let e := textFwd zA zB nA nB nA (i + 1, ti.getD j 0 + 4)
      let b := textBack zA zB nA (i - 3, ti.getD j 0)
      if (e.1 : Int) - b.1 > (aLCS.getD 1 0 : Int) - aLCS.getD 0 0 then
        textTargets zA zB nA nB ti target probe i js ([b.1, e.1, b.2, e.2], 1)
      else textTargets zA zB nA nB ti target probe i js (aLCS, rc)
    else textTargets zA zB nA nB ti target probe i js (aLCS, rc)

/-- The loop `for(i=3; i<nA; i++)` of `textLCS` from `i` on; the state is the
probe, `aLCS` and `rc`. -/
def textProbe (zA zB : List Nat) (nA nB : Nat) (ti target : List Nat) (nt : Nat) :
    Nat → Nat → Nat × List Nat × Nat → List Nat × Nat
  | 0, _, s => s.2
  | fuel + 1, i, (probe, aLCS, rc) =>
    if i < nA then
      let probe := ((probe <<< 8) ||| (zA.getD i 0 % 256)) % 4294967296
      textProbe zA zB nA nB ti target nt fuel (i + 1)
        (probe, textTargets zA zB nA nB ti target probe i (List.range nt) (aLCS, rc))
    else (aLCS, rc)

/-- A common segment in the middle of two texts: `textLCS`; the answer is the
return value and `aLCS`, which is `none` where the function has not set it. -/
def textLCS (zLeft : List Nat) (nA : Nat) (zRight : List Nat) (nB : Nat) :
    Nat × Option (List Nat) :=
  if nA < 6 ∨ nB < 6 then (0, none)
  else
    let ti := if nB < 16 then [nB / 2 - 2] else [nB / 2 - 2, nB / 4 - 2, (nB * 3) / 4 - 2]
    let target := ti.map (textWord zRight)
    let nt := if nB < 16 then 1 else 3
    let probe := ((zLeft.getD 0 0 % 256) <<< 16) ||| ((zLeft.getD 1 0 % 256) <<< 8)
      ||| (zLeft.getD 2 0 % 256)
    let s := textProbe zLeft zRight nA nB ti target nt nA 3 (probe, [0, 0, 0, 0], 0)
    (s.2, some s.1)

/-- The loop `while( nPrefix<nLeft && nPrefix<nRight && zLeft[nPrefix]==zRight[nPrefix] )`
of `sbsWriteLineChange`. -/
def commonPrefix (zLeft zRight : List Nat) (nLeft nRight : Nat) : Nat → Nat → Nat
  | 0, nPrefix => nPrefix
  | fuel + 1, nPrefix =>
    if nPrefix < nLeft ∧ nPrefix < nRight ∧ zLeft.getD nPrefix 0 = zRight.getD nPrefix 0 then
      commonPrefix zLeft zRight nLeft nRight fuel (nPrefix + 1)
    else nPrefix

/-- The loop `while( nSuffix<nLeft && nSuffix<nRight
&& zLeft[nLeft-nSuffix-1]==zRight[nRight-nSuffix-1] )` of `sbsWriteLineChange`. -/
def commonSuffix (zLeft zRight : List Nat) (nLeft nRight : Nat) : Nat → Nat → Nat
  | 0, nSuffix => nSuffix
  | fuel + 1, nSuffix =>
    if nSuffix < nLeft ∧ nSuffix < nRight ∧
        zLeft.getD (nLeft - nSuffix - 1) 0 = zRight.getD (nRight - nSuffix - 1) 0 then
      commonSuffix zLeft zRight nLeft nRight fuel (nSuffix + 1)
    else nSuffix

/-- The normalisation of the two highlight ranges in `sbsWriteLineChange`:
an empty second range is dropped, an empty first range is replaced by the
second, and a range that is still empty is switched off. -/
def sbsRanges (p : SbsLine) : SbsLine :=
  let p := if p.iStart2 = p.iEnd2 then { p with iStart2 := 0, iEnd2 := 0 } else p
  let p :=
    if p.iStart = p.iEnd then
      { p with iStart := p.iStart2, iEnd := p.iEnd2, zStart := p.zStart2, iStart2 := 0, iEnd2 := 0 }
    else p
  if p.iStart = p.iEnd then { p with iStart := -1, iEnd := -1 } else p

/-- Write a pair of lines that differ: `sbsWriteLineChange`. -/
def sbsWriteLineChange (E : Env) (p : SbsLine) (pLeft : DLine) (lnLeft : Int) (pRight : DLine)
    (lnRight : Int) : SbsLine :=
  let zClassRm := str "<span class=\"diffrm\">"
  let zClassAdd := str "<span class=\"diffadd\">"
  let zClassChng := str "<span class=\"diffchng\">"
  let nLeft := pLeft.h &&& LENGTH_MASK
  let zLeft := pLeft.z
  let nRight := pRight.h &&& LENGTH_MASK
  let zRight := pRight.z
  let nPrefix := commonPrefix zLeft zRight nLeft nRight nLeft 0
  let nSuffix :=
    if nPrefix < nLeft ∧ nPrefix < nRight then commonSuffix zLeft zRight nLeft nRight nLeft 0
    else 0
  let nPrefix :=
    if nPrefix < nLeft ∧ nPrefix < nRight ∧ (nSuffix = nLeft ∨ nSuffix = nRight) then 0
    else nPrefix
  let nSuffix := if nPrefix + nSuffix > nLeft then nLeft - nPrefix else nSuffix
  let nSuffix := if nPrefix + nSuffix > nRight then nRight - nPrefix else nSuffix
  if nPrefix + nSuffix = nLeft then
    let p := sbsWriteLineno E p lnLeft
    let p := { p with iStart2 := 0, iEnd2 := 0, iStart := -1, iEnd := -1 }
    let p := sbsWriteText p pLeft SBS_PAD
    let p := sbsWrite p (str " | ")
    let p := sbsWriteLineno E p lnRight
    let p := { p with iStart := nPrefix, iEnd := (nRight : Int) - nSuffix, zStart := zClassAdd }
    sbsWriteText p pRight SBS_NEWLINE
  else if nPrefix + nSuffix = nRight then
    let p := sbsWriteLineno E p lnLeft
    let p := { p with iStart2 := 0, iEnd2 := 0 }
    let p := { p with iStart := nPrefix, iEnd := (nLeft : Int) - nSuffix, zStart := zClassRm }
    let p := sbsWriteText p pLeft SBS_PAD
    let p := sbsWrite p (str " | ")
    let p := sbsWriteLineno E p lnRight
    let p := { p with iStart := -1, iEnd := -1 }
    sbsWriteText p pRight SBS_NEWLINE
  else
    let nLeftDiff := nLeft - nSuffix - nPrefix
    let nRightDiff := nRight - nSuffix - nPrefix
    let t := textLCS (zLeft.drop nPrefix) nLeftDiff (zRight.drop nPrefix) nRightDiff
    if p.escHtml ∧ nLeftDiff ≥ 6 ∧ nRightDiff ≥ 6 ∧ t.1 ≠ 0 then
      let aLCS := t.2.getD []
      let p := sbsWriteLineno E p lnLeft
      let p := { p with iStart := nPrefix, iEnd := (nPrefix : Int) + aLCS.getD 0 0 }
      let p := { p with zStart := if aLCS.getD 2 0 = 0 then zClassRm else zClassChng }
      let p := { p with iStart2 := (nPrefix : Int) + aLCS.getD 1 0, iEnd2 := (nLeft : Int) - nSuffix }
      let p := { p with zStart2 := if aLCS.getD 3 0 = nRightDiff then zClassRm else zClassChng }
      let p := sbsRanges p
      let p := sbsWriteText p pLeft SBS_PAD
      let p := sbsWrite p (str " | ")
      let p := sbsWriteLineno E p lnRight
      let p := { p with iStart := nPrefix, iEnd := (nPrefix : Int) + aLCS.getD 2 0 }
      let p := { p with zStart := if aLCS.getD 0 0 = 0 then zClassAdd else zClassChng }
      let p := { p with iStart2 := (nPrefix : Int) + aLCS.getD 3 0, iEnd2 := (nRight : Int) - nSuffix }
      let p := { p with zStart2 := if aLCS.getD 1 0 = nLeftDiff then zClassAdd else zClassChng }
      let p := sbsRanges p
      sbsWriteText p pRight SBS_NEWLINE
    else
      let p := sbsWriteLineno E p lnLeft
      let p := { p with iStart2 := 0, iEnd2 := 0 }
      let p := { p with iStart := nPrefix, iEnd := (nLeft : Int) - nSuffix, zStart := zClassChng }
      let p := sbsWriteText p pLeft SBS_PAD
      let p := sbsWrite p (str " | ")
      let p := sbsWriteLineno E p lnRight
      let p := { p with iEnd := (nRight : Int) - nSuffix }
      sbsWriteText p pRight SBS_NEWLINE

/-! ## The side-by-side diff: aligning the lines of a change -/

/-- The loop `while( nA>0 && vcs_isspace(zA[0]) ){ nA--; zA++; }` of
`match_dline`; the state is the pointer and the length. -/
def skipSpace (E : Env) : Nat → List Nat × Nat → List Nat × Nat
  | 0, s => s
  | fuel + 1, (zA, nA) =>
    if nA > 0 ∧ E.vcs_isspace (zA.headD 0) then skipSpace E fuel (zA.tail, nA - 1) else (zA, nA)

/-- The loop `while( nA>0 && vcs_isspace(zA[nA-1]) ){ nA--; }` of `match_dline`. -/
def dropSpace (E : Env) (zA : List Nat) : Nat → Nat
  | 0 => 0
  | nA + 1 => if E.vcs_isspace (zA.getD nA 0) then dropSpace E zA nA else nA + 1

/-- The loop `for(i=nB; i>0; i--)` of `match_dline` that fills `aFirst` and
`aNext`; `zB` is read with indices from 1. -/
def matchIndex (zB : List Nat) : Nat → List Nat × List Nat → List Nat × List Nat
  | 0, s => s
  | i + 1, (aFirst, aNext) =>
    let c := zB.getD i 0 % 256
    matchIndex zB i (aFirst.set c (i + 1), aNext.set (i + 1) (aFirst.getD c 0))

/-- The loop `for(k=1; k<=limit && zA[k+i]==zB[k+j]; k++){}` of `match_dline`. -/
def matchRun (zA zB : List Nat) (i j : Nat) (limit : Int) : Nat → Nat → Nat
  | 0, k => k
  | fuel + 1, k =>
    if (k : Int) ≤ limit ∧ zA.getD (k + i - 1) 0 = zB.getD (k + j - 1) 0 then
      matchRun zA zB i j limit fuel (k + 1)
    else k

/-- The loop `for(j=aFirst[c]; j>0 && j<nB-best; j = aNext[j])` of `match_dline`
from `j` on; the state is `best`. -/
def matchChain (zA zB aNext : List Nat) (nA nB i : Nat) : Nat → Nat → Nat → Nat
  | 0, _, best => best
  | fuel + 1, j, best =>
    if j > 0 ∧ (j : Int) < (nB : Int) - best then
      let limit := minInt ((nA : Int) - i) ((nB : Int) - j)
      let k := matchRun zA zB i j limit limit.toNat 1
      matchChain zA zB aNext nA nB i fuel (aNext.getD j 0) (if k > best then k else best)
    else best

/-- The loop `for(i=1; i<=nA-best; i++)` of `match_dline` from `i` on. -/
def matchScan (zA zB aFirst aNext : List Nat) (nA nB : Nat) : Nat → Nat → Nat → Nat
  | 0, _, best => best
  | fuel + 1, i, best =>
    if (i : Int) ≤ (nA : Int) - best then
      let c := zA.getD (i - 1) 0 % 256
      matchScan zA zB aFirst aNext nA nB fuel (i + 1)
        (matchChain zA zB aNext nA nB i (nB + 1) (aFirst.getD c 0) best)
    else best

/-- How far two lines are apart, from 0 to 100: `match_dline`. -/
def match_dline (E : Env) (pA pB : DLine) : Int :=
  let a := skipSpace E (pA.h &&& LENGTH_MASK) (pA.z, pA.h &&& LENGTH_MASK)
  let zA := a.1
  let nA := dropSpace E zA a.2
  let b := skipSpace E (pB.h &&& LENGTH_MASK) (pB.z, pB.h &&& LENGTH_MASK)
  let zB := b.1
  let nB := dropSpace E zB b.2
  let nA := if nA > 250 then 250 else nA
  let nB := if nB > 250 then 250 else nB
  let avg := (nA + nB) / 2
  if avg = 0 then 0
  else if nA = nB ∧ memcmp0 zA zB nA then 0
  else
    let t := matchIndex zB nB (List.replicate 256 0, List.replicate 252 0)
    let best := matchScan zA zB t.1 t.2 nA nB nA 1 0
    if best > avg then 0 else (((avg : Int) - best) * 100) / avg

/-- The inner loop `for(i=1; i<=nRight; i++)` of `sbsAlignment` for the row `j`,
from `i` on; the state is the row `a`, the matrix `aM` and `p`. -/
def alignRow (E : Env) (aLeft aRight : List DLine) (nRight j : Nat) :
    Nat → Nat → List Int × List Nat × Int → List Int × List Nat × Int
  | 0, _, s => s
  | fuel + 1, i, (a, aM, p) =>
    if i ≤ nRight then
      let m := a.getD (i - 1) 0 + 50
      let d := 3
      let c := decide (m > a.getD i 0 + 50)
      let m := if c then a.getD i 0 + 50 else m
      let d := if c then 1 else d
      let score := match_dline E (aLeft.getD (j - 1) DLine.zero) (aRight.getD (i - 1) DLine.zero)
      let c := decide (m > p ∧ (score < 66 ∨ (i < j + 1 ∧ (i : Int) > (j : Int) - 1)) ∧ m > p + score)
      let m := if c then p + score else m
      let d := if c then 2 else d
      alignRow E aLeft aRight nRight j fuel (i + 1)
        (a.set i m, aM.set (j * (nRight + 1) + i) d, a.getD i 0)
    else (a, aM, p)

/-- The loop `for(j=1; j<=nLeft; j++)` of `sbsAlignment` from `j` on; the state
is the row `a` and the matrix `aM`. -/
def alignRows (E : Env) (aLeft aRight : List DLine) (nLeft nRight : Nat) :
    Nat → Nat → List Int × List Nat → List Int × List Nat
  | 0, _, s => s
  | fuel + 1, j, (a, aM) =>
    if j ≤ nLeft then
      let s := alignRow E aLeft aRight nRight j nRight 1
        (a.set 0 (a.getD 0 0 + 50), aM.set (j * (nRight + 1)) 1, a.getD 0 0)
      alignRows E aLeft aRight nLeft nRight fuel (j + 1) (s.1, s.2.1)
    else (a, aM)

/-- The loop `while( i+j>0 )` of `sbsAlignment`, which walks back through the
matrix; the state is `i`, `j`, `k` and the matrix. -/
def alignPath (nRight : Nat) : Nat → Int × Int × Int × List Nat → Int × Int × Int × List Nat
  | 0, s => s
  | fuel + 1, (i, j, k, aM) =>
    if i + j > 0 then
      let c := aM.getD k.toNat 0
      let k := k - 1
      let i := if c = 2 then i - 1 else if c = 3 then i - 1 else i
      let j := if c = 2 then j - 1 else if c = 3 then j else j - 1
      alignPath nRight fuel
        (i, j, k, aM.set k.toNat (aM.getD (j * ((nRight : Int) + 1) + i).toNat 0))
    else (i, j, k, aM)

/-- How the lines of a change block line up: `sbsAlignment`.  The answer holds
the bytes of the result that the function has set: 1 for a line on the left
only, 2 for a pair, 3 for a line on the right only. -/
def sbsAlignment (E : Env) (aLeft : List DLine) (nLeft : Nat) (aRight : List DLine)
    (nRight : Nat) : List Nat :=
  if nLeft = 0 then List.replicate nRight 3
  else if nRight = 0 then List.replicate nLeft 1
  else
    let aM := List.replicate ((nLeft + 1) * (nRight + 1)) 0
    let aM := (List.range (nRight + 1)).foldl (fun m i => m.set i 3) aM
    let a : List Int := (List.range (nRight + 1)).map fun i => (i : Int) * 50
    let aM := aM.set 0 0
    let s := alignRows E aLeft aRight nLeft nRight nLeft 1 (a, aM)
    let t := alignPath nRight (nLeft + nRight)
      (nRight, nLeft, ((nRight : Int) + 1) * ((nLeft : Int) + 1) - 1, s.2)
    t.2.2.2.drop (t.2.2.1 + 1).toNat

/-! ## The side-by-side diff -/

/-- A row of two lines that are the same, in `sbsDiff`; the answer is the line
record and the output. -/
def sbsPair (E : Env) (p : DContext) (s : SbsLine) (pOut : List Nat) (a b : Int) :
    SbsLine × List Nat :=
  let s := { s with zLine := [] }
  let s := sbsWriteLineno E s a
  let s := { s with iStart := -1, iEnd := -1 }
  let s := sbsWriteText s (lineAt p.aFrom a) SBS_PAD
  let s := sbsWrite s (str "   ")
  let s := sbsWriteLineno E s b
  let s := sbsWriteText s (lineAt p.aTo b) SBS_NEWLINE
  (s, pOut ++ s.zLine)

/-- A loop `for(j=0; j<m; j++)` of `sbsDiff` that shows the lines `a+j` and `b+j`
side by side. -/
def sbsPairs (E : Env) (p : DContext) (a b : Int) : Nat → Int → SbsLine × List Nat →
    SbsLine × List Nat
  | 0, _, s => s
  | fuel + 1, j, (s, pOut) => sbsPairs E p a b fuel (j + 1) (sbsPair E p s pOut (a + j) (b + j))

/-- The loop `for(j=0; ma+mb>0; j++)` of `sbsDiff` over the alignment of a
change block; the state is the line record, the output, `a`, `b`, `ma`, `mb`. -/
def sbsRows (E : Env) (p : DContext) (alignment : List Nat) :
    Nat → Nat → SbsLine × List Nat × Int × Int × Int × Int →
    SbsLine × List Nat × Int × Int × Int × Int
  | 0, _, t => t
  | fuel + 1, j, (s, pOut, a, b, ma, mb) =>
    if ma + mb > 0 then
      if alignment.getD j 0 = 1 then
        let s := { s with zLine := [] }
        let s := sbsWriteLineno E s a
        let s := { s with iStart := 0, zStart := str "<span class=\"diffrm\">", iEnd := s.width }
        let s := sbsWriteText s (lineAt p.aFrom a) SBS_PAD
        let s := sbsWrite s (str " <\n")
        sbsRows E p alignment fuel (j + 1) (s, pOut ++ s.zLine, a + 1, b, ma - 1, mb)
      else if alignment.getD j 0 = 2 then
        let s := { s with zLine := [] }
        let s := sbsWriteLineChange E s (lineAt p.aFrom a) a (lineAt p.aTo b) b
        sbsRows E p alignment fuel (j + 1) (s, pOut ++ s.zLine, a + 1, b + 1, ma - 1, mb - 1)
      else
        let s := { s with zLine := [] }
        let s := sbsWriteSpace s (s.width + 7)
        let s := sbsWrite s (str " > ")
        let s := sbsWriteLineno E s b
        let s := { s with iStart := 0, zStart := str "<span class=\"diffadd\">", iEnd := s.width }
        let s := sbsWriteText s (lineAt p.aTo b) SBS_NEWLINE
        sbsRows E p alignment fuel (j + 1) (s, pOut ++ s.zLine, a, b + 1, ma, mb - 1)
    else (s, pOut, a, b, ma, mb)

/-- The loop `for(i=0; i<nr; i++)` of `sbsDiff` that shows the differences of a
block, from `i` on; the state is the line record, the output, `a` and `b`. -/
def sbsChanges (E : Env) (p : DContext) (r nr : Nat) :
    Nat → Nat → SbsLine × List Nat × Int × Int → SbsLine × List Nat × Int × Int
  | 0, _, t => t
  | fuel + 1, i, (s, pOut, a, b) =>
    if i < nr then
      let ma := p.aEdit.getD (r + i * 3 + 1) 0
      let mb := p.aEdit.getD (r + i * 3 + 2) 0
      let alignment := sbsAlignment E (p.aFrom.drop a.toNat) ma.toNat (p.aTo.drop b.toNat) mb.toNat
      let t := sbsRows E p alignment (ma + mb).toNat 0 (s, pOut, a, b, ma, mb)
      let s := t.1
      let pOut := t.2.1
      let a := t.2.2.1
      let b := t.2.2.2.1
      if i + 1 < nr then
        let m := p.aEdit.getD (r + i * 3 + 3) 0
        let u := sbsPairs E p a b m.toNat 0 (s, pOut)
        sbsChanges E p r nr fuel (i + 1) (u.1, u.2, a + m, b + m)
      else sbsChanges E p r nr fuel (i + 1) (s, pOut, a, b)
    else (s, pOut, a, b)

/-- The loop `for(r=0; r<mxr; r += 3*nr)` of `sbsDiff` from `r` on; the state is
the line record, the output, `a`, `b` and `nChunk`. -/
def sbsBlocks (E : Env) (p : DContext) (nContext width : Int) (escHtml : Bool) (mxr : Nat) :
    Nat → Nat → SbsLine × List Nat × Int × Int × Int → List Nat
  | 0, _, t => t.2.1
  | fuel + 1, r, (s, pOut, a, b, nChunk) =>
    if r < mxr then
      let R := p.aEdit
      let nr := blockTriples R r nContext R.length 1
      let skip := (blockLines R r nr nContext).2.2
      let pOut :=
        if r > 0 then
          if escHtml then
            pOut ++ str "<span class=\"diffhr\">" ++ E.fmt_c (width * 2 + 16) 46 ++ str "</span>\n"
          else pOut ++ E.fmt_c (width * 2 + 16) 46 ++ str "\n"
        else pOut
      let nChunk := nChunk + 1
      let pOut :=
        if escHtml then pOut ++ str "<a name=\"chunk" ++ E.fmt_d 0 nChunk ++ str "\"></a>\n"
        else pOut
      let a := a + skip
      let b := b + skip
      let m := R.getD r 0 - skip
      let u := sbsPairs E p a b m.toNat 0 (s, pOut)
      let a := a + m
      let b := b + m
      let t := sbsChanges E p r nr nr 0 (u.1, u.2, a, b)
      let a := t.2.2.1
      let b := t.2.2.2
      let m := R.getD (r + nr * 3) 0
      let m := if m > nContext then nContext else m
      let u := sbsPairs E p a b m.toNat 0 (t.1, t.2.1)
      sbsBlocks E p nContext width escHtml mxr fuel (r + 3 * nr) (u.1, u.2, a, b, nChunk)
    else pOut

/-- Write a side-by-side diff of the edit script to `pOut`: `sbsDiff`. -/
def sbsDiff (E : Env) (p : DContext) (pOut : List Nat) (nContext width : Int) (escHtml : Bool) :
    List Nat :=
  let s : SbsLine :=
    { zLine := [], width := width, escHtml := escHtml, iStart := -1, zStart := [], iEnd := -1,
      iStart2 := 0, zStart2 := [], iEnd2 := 0 }
  let mxr := trimEdit p.aEdit p.aEdit.length p.aEdit.length
  sbsBlocks E p nContext width escHtml mxr mxr 0 (s, pOut, 0, 0, 0)

/-! ## The entry point -/

/-- The flag `DIFF_CONTEXT_MASK`. -/
def DIFF_CONTEXT_MASK : Nat := 0x0000ffff

/-- The flag `DIFF_WIDTH_MASK`. -/
def DIFF_WIDTH_MASK : Nat := 0x00ff0000

/-- The flag `DIFF_IGNORE_EOLWS`. -/
def DIFF_IGNORE_EOLWS : Nat := 0x01000000

/-- The flag `DIFF_SIDEBYSIDE`. -/
def DIFF_SIDEBYSIDE : Nat := 0x02000000

/-- The flag `DIFF_HTML`. -/
def DIFF_HTML : Nat := 0x10000000

/-- The flag `DIFF_LINENO`. -/
def DIFF_LINENO : Nat := 0x20000000

/-- The flag `DIFF_NOOPT`. -/
def DIFF_NOOPT : Nat := 0x40000000

/-- The flag `DIFF_INVERT`. -/
def DIFF_INVERT : Nat := 0x80000000

/-- The number of context lines in the flags: `diff_context_lines`. -/
def diff_context_lines (diffFlags : Nat) : Int :=
  let n := diffFlags &&& DIFF_CONTEXT_MASK
  if n = 0 then 5 else n

/-- The column width in the flags: `diff_width`. -/
def diff_width (diffFlags : Nat) : Int :=
  let w := (diffFlags &&& DIFF_WIDTH_MASK) / (DIFF_CONTEXT_MASK + 1)
  if w = 0 then 80 else w

/-- Compare two files: `text_diff`.  `pOut` is `none` for a null pointer; the
answer is the returned array (`none` for the return value 0) and the blob
`pOut` after the call.  `diffFlags` holds the 32 bits of the flags, `fuel`
bounds the depth of `diff_step`, and the outer `none` is for a fuel that is too
small. -/
def text_diff (E : Env) (fuel : Nat) (pA_Blob pB_Blob : List Nat) (pOut : Option (List Nat))
    (diffFlags : Nat) : Option (Option (List Int) × Option (List Nat)) :=
  let pA := if diffFlags &&& DIFF_INVERT ≠ 0 then pB_Blob else pA_Blob
  let pB := if diffFlags &&& DIFF_INVERT ≠ 0 then pA_Blob else pB_Blob
  let nContext := diff_context_lines diffFlags
  let ignoreEolWs := decide (diffFlags &&& DIFF_IGNORE_EOLWS ≠ 0)
  match break_into_lines E pA ignoreEolWs, break_into_lines E pB ignoreEolWs with
  | some (aFrom, nFrom), some (aTo, nTo) =>
    match diff_all E fuel { aEdit := [], aFrom := aFrom, nFrom := nFrom, aTo := aTo, nTo := nTo } with
    | none => none
    | some c =>
      let c := if diffFlags &&& DIFF_NOOPT = 0 then diff_optimize c else c
      match pOut with
      | some out =>
        let escHtml := decide (diffFlags &&& DIFF_HTML ≠ 0)
        if diffFlags &&& DIFF_SIDEBYSIDE ≠ 0 then
          some (none, some (sbsDiff E c out nContext (diff_width diffFlags) escHtml))
        else
          some (none, some (contextDiff E c out nContext
            (decide (diffFlags &&& DIFF_LINENO ≠ 0)) escHtml))
      | none => some (some c.aEdit, none)
  | _, _ =>
    some (none, pOut.map fun out => out ++ str "cannot compute difference between binary files\n")

/-! ## Concrete helpers and buffers -/

/-- The decimal digits of `v`. -/
def stdDigits : Nat → Nat → List Nat
  | 0, _ => []
  | fuel + 1, v => if v < 10 then [48 + v] else stdDigits fuel (v / 10) ++ [48 + v % 10]

/-- A concrete choice of what is taken as given: the white space of the C
locale, an `htmlize` that escapes `<`, `>` and `&`, the scores compared as
exact numbers, and decimal numbers padded with spaces on the left. -/
def stdEnv : Env :=
  { vcs_isspace := fun c => c = 32 || (9 ≤ c && c ≤ 13),
    htmlize := fun z => z.flatMap fun c =>
      if c = 60 then str "&lt;" else if c = 62 then str "&gt;"
      else if c = 38 then str "&amp;" else [c],
    scoreGt := fun a b => decide (20 * a.1 - a.2.1 - a.2.2 > 20 * b.1 - b.2.1 - b.2.2),
    fmt_d := fun w v =>
      List.replicate (w - ((if v < 0 then [45] else []) ++ stdDigits 20 v.natAbs).length) 32
        ++ ((if v < 0 then [45] else []) ++ stdDigits 20 v.natAbs),
    fmt_c := fun n c => List.replicate n.toNat c }

/-- The records of the lines of `a\nb\nc\n`. -/
def abcLines : List DLine :=
  [{ z := [97, 10, 98, 10, 99, 10], h := 794625, iNext := 0, iHash := 1 },
   { z := [98, 10, 99, 10], h := 802817, iNext := 0, iHash := 3 },
   { z := [99, 10], h := 811009, iNext := 0, iHash := 2 }]

/-- The records of the lines of `a\nx\nc\n`. -/
def axcLines : List DLine :=
  [{ z := [97, 10, 120, 10, 99, 10], h := 794625, iNext := 0, iHash := 1 },
   { z := [120, 10, 99, 10], h := 983041, iNext := 0, iHash := 3 },
   { z := [99, 10], h := 811009, iNext := 2, iHash := 0 }]

/-- The diff of `a\nb\nc\n` and `a\nx\nc\n`. -/
def abcScript : DContext :=
  { aEdit := [1, 1, 1, 1, 0, 0, 0, 0, 0], aFrom := abcLines, nFrom := 3, aTo := axcLines, nTo := 3 }

/-- The records of the lines of `foo\n`. -/
def fooLines : List DLine := [{ z := [102, 111, 111, 10], h := 16203779, iNext := 0, iHash := 1 }]

/-- The records of the lines of `foo\nbar\n`. -/
def foobarLines : List DLine :=
  [{ z := [102, 111, 111, 10, 98, 97, 114, 10], h := 16203779, iNext := 0, iHash := 0 },
   { z := [98, 97, 114, 10], h := 16424963, iNext := 1, iHash := 2 }]

/-- The diff of `foo\n` and `foo\nbar\n`. -/
def fooScript : DContext :=
  { aEdit := [1, 0, 1, 0, 0, 0], aFrom := fooLines, nFrom := 1, aTo := foobarLines, nTo := 2 }

/-- The line record with which `sbsDiff` starts for 80 columns without HTML. -/
def sbsStart : SbsLine :=
  { zLine := [], width := 80, escHtml := false, iStart := -1, zStart := [], iEnd := -1,
    iStart2 := 0, zStart2 := [], iEnd2 := 0 }

/-- The records of the lines of `a\n`. -/
def aLines : List DLine := [{ z := [97, 10], h := 794625, iNext := 0, iHash := 1 }]

/-- The records of the lines of `a\nb\n`. -/
def abLines : List DLine :=
  [{ z := [97, 10, 98, 10], h := 794625, iNext := 0, iHash := 0 },
   { z := [98, 10], h := 802817, iNext := 1, iHash := 2 }]

/-- The lines of `a\nb\nc\n` and `a\nx\nc\n` with no script yet. -/
def abcInput : DContext :=
  { aEdit := [], aFrom := abcLines, nFrom := 3, aTo := axcLines, nTo := 3 }

/-- The record of the line of `xa\n`. -/
def xaLine : DLine := { z := [120, 97, 10], h := 4136962, iNext := 0, iHash := 1 }

/-- The record of the line of `ya\n`. -/
def yaLine : DLine := { z := [121, 97, 10], h := 4161538, iNext := 0, iHash := 1 }

/-- The record of the line of `a\n`. -/
def aLine : DLine := { z := [97, 10], h := 794625, iNext := 0, iHash := 1 }

/-- The record of the line of `ab\n`. -/
def abLine : DLine := { z := [97, 98, 10], h := 3203074, iNext := 0, iHash := 1 }

/-- The record of the line of `abcd\n`. -/
def abcdLine : DLine := { z := [97, 98, 99, 100, 10], h := 51347460, iNext := 0, iHash := 1 }

/-- The record of the line of `axyz\n`. -/
def axyzLine : DLine := { z := [97, 120, 121, 122, 10], h := 53821444, iNext := 0, iHash := 1 }

/-- The records of the line of `a \n` when white space at the end of a line is
ignored. -/
def aSpLines : List DLine := [{ z := [97, 32, 10], h := 794625, iNext := 0, iHash := 1 }]

/-! ## Auxiliary notions for the proofs about `diff.c` -/

/-- The answer of the first loop is over the limit: it is `return 0`, or the
final `j` exceeds `LENGTH_MASK`. -/
def OverLong : Option (Nat × Nat) → Prop
  | none => True
  | some r => r.1 > LENGTH_MASK

/-- The text from the start of line `m` on, as the second loop of
`break_into_lines` finds it in the text `z`. -/
def lineStart : Nat → List Nat → List Nat
  | 0, z => z
  | m + 1, z => lineStart m (z.drop (lineEnd z + 1))

/-- The length `k` that the second loop of `break_into_lines` records for the
line at the start of `z`. -/
def lineLength (E : Env) (ignoreWS : Bool) (z : List Nat) : Nat :=
  if ignoreWS then trimEnd E z (lineEnd z) else lineEnd z

/-- The hash that the second loop of `break_into_lines` records for the line at
the start of `z`. -/
def lineH (E : Env) (ignoreWS : Bool) (z : List Nat) : Nat :=
  ((lineHash (z.take (lineLength E ignoreWS z)) 0 <<< LENGTH_MASK_SZ) ||| lineLength E ignoreWS z)
    % 4294967296

/-- What `text_diff` does once the two files are split into lines: `rA` and
`rB` are the answers of `break_into_lines` for the file on the left and the
file on the right. -/
def diffLines (E : Env) (fuel : Nat) (rA rB : Option (List DLine × Nat))
    (pOut : Option (List Nat)) (diffFlags : Nat) : Option (Option (List Int) × Option (List Nat)) :=
  match rA, rB with
  | some (aFrom, nFrom), some (aTo, nTo) =>
    match diff_all E fuel { aEdit := [], aFrom := aFrom, nFrom := nFrom, aTo := aTo, nTo := nTo } with
    | none => none
    | some c =>
      let c := if diffFlags &&& DIFF_NOOPT = 0 then diff_optimize c else c
      match pOut with
      | some out =>
        if diffFlags &&& DIFF_SIDEBYSIDE ≠ 0 then
          some (none, some (sbsDiff E c out (diff_context_lines diffFlags) (diff_width diffFlags)
            (decide (diffFlags &&& DIFF_HTML ≠ 0))))
        else
          some (none, some (contextDiff E c out (diff_context_lines diffFlags)
            (decide (diffFlags &&& DIFF_LINENO ≠ 0)) (decide (diffFlags &&& DIFF_HTML ≠ 0))))
      | none => some (some c.aEdit, none)
  | _, _ =>
    some (none, pOut.map fun out => out ++ str "cannot compute difference between binary files\n")

/-- The environment `E` with the answers of `fmt_d` for the width `w` and the
values `v1` and `v2` replaced by `s1` and `s2`. -/
def Env.withFmt (E : Env) (w : Nat) (v1 : Int) (s1 : List Nat) (v2 : Int) (s2 : List Nat) : Env :=
  { E with fmt_d := fun w2 v =>
      if w2 = w ∧ v = v1 then s1 else if w2 = w ∧ v = v2 then s2 else E.fmt_d w2 v }

/-- One block of `contextDiff` without line numbers and without HTML, for the
triples from `r` on and the positions `a` and `b`: the four numbers of its
header, the lines it shows, and the positions behind its changes. -/
def hunk (p : DContext) (nContext : Int) (r : Nat) (a b : Int) :
    (Int × Int × Int × Int) × List Nat × Int × Int :=
  let R := p.aEdit
  let nr := blockTriples R r nContext R.length 1
  match blockLines R r nr nContext with
  | (na, nb, skip) =>
    let m := R.getD r 0 - skip
    match contextChanges stdEnv p false false r nr nr 0
      (contextLines stdEnv false false 32 p.aFrom (a + skip) (some (a + skip)) (some (b + skip))
        m.toNat 0 [], a + skip + m, b + skip + m) with
    | (out, a2, b2) =>
      let m2 := if R.getD (r + nr * 3) 0 > nContext then nContext else R.getD (r + nr * 3) 0
      ((if na ≠ 0 then a + skip + 1 else 0, na, if nb ≠ 0 then b + skip + 1 else 0, nb),
        contextLines stdEnv false false 32 p.aTo b2 (some a2) (some b2) m2.toNat 0 out, a2, b2)

/-- The triple-wise mirror of an edit script: the delete and insert counts of
every triple change places. -/
def mirror : List Int → List Int
  | c :: d :: i :: rest => c :: i :: d :: mirror rest
  | l => l

/-- The `k` lines of the left file from `i` on are the same, for `same_dline`, as
the `k` lines of the right file from `j` on. -/
def CommonRun (p : DContext) (i j k : Nat) : Prop :=
  ∀ t, t < k → same_dline (p.aFrom.getD (i + t) DLine.zero) (p.aTo.getD (j + t) DLine.zero) = true

/-- A common run of `k` lines that starts at `i` and `j` and lies within the
ranges `iS1..iE1-1` of the left file and `iS2..iE2-1` of the right file. -/
def RunIn (p : DContext) (iS1 iE1 iS2 iE2 i j k : Nat) : Prop :=
  iS1 ≤ i ∧ i + k ≤ iE1 ∧ iS2 ≤ j ∧ j + k ≤ iE2 ∧ CommonRun p i j k

/-- No common run within the ranges that starts before the pair `(i0, j0)`, in
the order of the two loops of `optimalLCS`, is longer than `mx`. -/
def Covered (p : DContext) (iS1 iE1 iS2 iE2 i0 j0 mx : Nat) : Prop :=
  ∀ i j L, RunIn p iS1 iE1 iS2 iE2 i j L → (i < i0 ∨ (i = i0 ∧ j < j0)) → L ≤ mx

/-- The best match in the state of `longestCommonSequence` is a common run
within the ranges, and its two ends are the same distance from its two starts. -/
def LCSValid (p : DContext) (iS1 iE1 iS2 iE2 : Nat) (s : LCSState) : Prop :=
  s.iSXb ≤ s.iEXb ∧ s.iEYb = s.iSYb + (s.iEXb - s.iSXb) ∧
    RunIn p iS1 iE1 iS2 iE2 s.iSXb s.iSYb (s.iEXb - s.iSXb)

/-- The triples `R` are a script that leads from the position `a` of the left
file and the position `b` of the right file to the positions `a2` and `b2`: the
counts are not negative, the lines that a copy count covers are the same, pair
by pair, and a triple moves the left position by copy plus delete and the right
position by copy plus insert. -/
def Script (p : DContext) : List Int → Nat → Nat → Nat → Nat → Prop
  | [], a, b, a2, b2 => a = a2 ∧ b = b2
  | c :: d :: i :: R, a, b, a2, b2 =>
    0 ≤ c ∧ 0 ≤ d ∧ 0 ≤ i ∧ CommonRun p a b c.toNat ∧
      Script p R (a + c.toNat + d.toNat) (b + c.toNat + i.toNat) a2 b2
  | _, _, _, _, _ => False

/-- The lines that a replay of the triples `R` writes, from the position `a`
of the left file and the position `b` of the right file on: a triple copies
lines of the left file, skips lines of the left file, and takes lines of the
right file. -/
def replay (aFrom aTo : List DLine) : List Int → Nat → Nat → List DLine
  | c :: d :: i :: R, a, b =>
    ((List.range c.toNat).map fun t => aFrom.getD (a + t) DLine.zero) ++
      ((List.range i.toNat).map fun t => aTo.getD (b + c.toNat + t) DLine.zero) ++
      replay aFrom aTo R (a + c.toNat + d.toNat) (b + c.toNat + i.toNat)
  | _, _, _ => []

/-- The sum of copy plus delete over the triples. -/
def sumCopyDelete : List Int → Int
  | c :: d :: _ :: R => c + d + sumCopyDelete R
  | _ => 0

/-- The sum of copy plus insert over the triples. -/
def sumCopyInsert : List Int → Int
  | c :: _ :: i :: R => c + i + sumCopyInsert R
  | _ => 0

/-- The last line of the left file and the last line of the right file are not
the same: the first loop of `diff_all` carves off nothing. -/
def NoCommonTail (p : DContext) : Prop :=
  ¬ (0 < p.nFrom ∧ 0 < p.nTo ∧
    same_dline (p.aFrom.getD (p.nFrom - 1) DLine.zero) (p.aTo.getD (p.nTo - 1) DLine.zero) = true)

/-- The last triple of `R` deletes nothing and inserts nothing. -/
def LastPlain : List Int → Prop
  | _ :: d :: i :: R => if R = [] then d = 0 ∧ i = 0 else LastPlain R
  | _ => True

/-- The state of `diff_optimize` in front of the triple at `Pre.length`: the
script is `Pre`, the triple `(c, d, i)`, the triple `(c2, d2, i2)` and `Tl` with
some copy counts `c` and `c2`; the two triples are a script that leads from
`a1`, `b1` to `a3`, `b3`; and the line numbers are those past the copied lines
of the first of the two triples. -/
def OptInv (p : DContext) (Pre : List Int) (d i d2 i2 : Int) (Tl : List Int)
    (a1 b1 a3 b3 : Nat) (s : OptState) : Prop :=
  ∃ c c2 : Int, s.aEdit = Pre ++ (c :: d :: i :: c2 :: d2 :: i2 :: Tl) ∧ s.cpy = c ∧
    s.lnFrom = (a1 : Int) + c ∧ s.lnTo = (b1 : Int) + c ∧
    Script p [c, d, i, c2, d2, i2] a1 b1 a3 b3

/-- The first inner loop of `diff_optimize` with the fuel that `optimizeLoop`
gives it. -/
def loopInsUp (p : DContext) (k r : Nat) (del ins : Int) (s : OptState) : OptState :=
  shiftInsUp p r del ins (s.cpy.toNat + k) s

/-- The second inner loop of `diff_optimize` with the fuel that `optimizeLoop`
gives it. -/
def loopInsDown (p : DContext) (k r : Nat) (del ins : Int) (s : OptState) : OptState :=
  shiftInsDown p r del ins ((s.aEdit.getD (r + 3) 0).toNat + k) s

/-- The third inner loop of `diff_optimize` with the fuel that `optimizeLoop`
gives it. -/
def loopDelUp (p : DContext) (k r : Nat) (del ins : Int) (s : OptState) : OptState :=
  shiftDelUp p r del ins (s.cpy.toNat + k) s

/-- The fourth inner loop of `diff_optimize` with the fuel that `optimizeLoop`
gives it. -/
def loopDelDown (p : DContext) (k r : Nat) (del ins : Int) (s : OptState) : OptState :=
  shiftDelDown p r del ins ((s.aEdit.getD (r + 3) 0).toNat + k) s

/-- One round of the loop of `diff_optimize`, for the triple at `r`: the state
behind the four inner loops. -/
def optRound (p : DContext) (k r : Nat) (aEdit : List Int) (lnFrom lnTo : Int) : OptState :=
  loopDelDown p k r (aEdit.getD (r + 1) 0) (aEdit.getD (r + 2) 0)
    (loopDelUp p k r (aEdit.getD (r + 1) 0) (aEdit.getD (r + 2) 0)
      (loopInsDown p k r (aEdit.getD (r + 1) 0) (aEdit.getD (r + 2) 0)
        (loopInsUp p k r (aEdit.getD (r + 1) 0) (aEdit.getD (r + 2) 0)
          { aEdit := aEdit, lnFrom := lnFrom + aEdit.getD r 0, lnTo := lnTo + aEdit.getD r 0,
            cpy := aEdit.getD r 0 })))

/-- The line `p` without the white space around it, as `match_dline` finds it:
the text from its first byte on and its length. -/
def trimLine (E : Env) (p : DLine) : List Nat × Nat :=
  let a := skipSpace E (p.h &&& LENGTH_MASK) (p.z, p.h &&& LENGTH_MASK)
  (a.1, dropSpace E a.1 a.2)

/-- The `k` bytes of `zA` from the position `a` on are the `k` bytes of `zB` from
the position `b` on, within the first `nA` bytes of `zA` and the first `nB`
bytes of `zB`: a common substring of the two lines.  Positions count from 0. -/
def ComSub (zA zB : List Nat) (nA nB a b k : Nat) : Prop :=
  a + k ≤ nA ∧ b + k ≤ nB ∧ ∀ t, t < k → zA.getD (a + t) 0 = zB.getD (b + t) 0

/-- The position `j`, counted from 1, is the first one behind `j0` at which `zB`
has the byte `c`, or `j` is 0 and there is no such position up to `nB`. -/
def NextOcc (zB : List Nat) (nB c j0 j : Nat) : Prop :=
  (j = 0 ∧ ∀ j2, j0 < j2 → j2 ≤ nB → zB.getD (j2 - 1) 0 % 256 ≠ c) ∨
  (j0 < j ∧ j ≤ nB ∧ zB.getD (j - 1) 0 % 256 = c ∧
    ∀ j2, j0 < j2 → j2 < j → zB.getD (j2 - 1) 0 % 256 ≠ c)

/-- The value `best` of `match_dline` is the length of a common substring. -/
def Achieved (zA zB : List Nat) (nA nB best : Nat) : Prop :=
  best = 0 ∨ ∃ a b, ComSub zA zB nA nB a b best

/-- No common substring that starts in `zA` before the position `a0` is more
than one byte longer than `best`, and none of them that ends before the last
byte of `zB` is longer than `best`. -/
def ScanOK (zA zB : List Nat) (nA nB a0 best : Nat) : Prop :=
  ∀ a b k, a < a0 → ComSub zA zB nA nB a b k → k ≤ best + 1 ∧ (b + k < nB → k ≤ best)

/-- The same for the common substrings that start at the position `a` of `zA`
and before the position `b0` of `zB`. -/
def RowOK (zA zB : List Nat) (nA nB a b0 best : Nat) : Prop :=
  ∀ b k, b < b0 → ComSub zA zB nA nB a b k → k ≤ best + 1 ∧ (b + k < nB → k ≤ best)

/-- What a tag of the matrix of `sbsAlignment` says about its cell, the row `j`
of the left lines and the column `i` of the right lines: 1 is set in a row from
1 on, 3 in a column from 1 on, and 2 where both hold and the test of the pair of
the left line `j` and the right line `i` has passed, their score being below 66
or `i` being `j`. -/
def CellTag (E : Env) (aLeft aRight : List DLine) (j i tag : Nat) : Prop :=
  (tag = 1 ∧ 1 ≤ j) ∨ (tag = 3 ∧ 1 ≤ i) ∨
  (tag = 2 ∧ 1 ≤ j ∧ 1 ≤ i ∧
    (match_dline E (aLeft.getD (j - 1) DLine.zero) (aRight.getD (i - 1) DLine.zero) < 66 ∨ i = j))

/-- The matrix `M` of `sbsAlignment` has its size, and the tags of its cells in
front of the cell `(J, I)`, row by row, the cell `(0, 0)` apart, are as `CellTag`
says. -/
def MatOK (E : Env) (aLeft aRight : List DLine) (nLeft nRight J I : Nat) (M : List Nat) : Prop :=
  M.length = (nLeft + 1) * (nRight + 1) ∧
  ∀ j i, j ≤ nLeft → i ≤ nRight → (j < J ∨ (j = J ∧ i < I)) → 0 < j + i →
    CellTag E aLeft aRight j i (M.getD (j * (nRight + 1) + i) 0)

/-- The tags `S` of an alignment, read from the left line `a` and the right line
`b` on, counted from 0: every tag is 1 (left line only), 2 (pair) or 3 (right
line only), and a pair of the left line `a` and the right line `b` has a score
below 66 or `a = b`. -/
def PairedOK (E : Env) (aLeft aRight : List DLine) : Nat → Nat → List Nat → Prop
  | _, _, [] => True
  | a, b, c :: S =>
    (c = 1 ∨ c = 2 ∨ c = 3) ∧
    (c = 2 → (match_dline E (aLeft.getD a DLine.zero) (aRight.getD b DLine.zero) < 66 ∨ a = b)) ∧
    PairedOK E aLeft aRight (if c = 3 then a else a + 1) (if c = 1 then b else b + 1) S

/-- The state of the walk of `sbsAlignment` back through the matrix `M0`: the
walk is at the cell `(j, i)`, whose tag is at `aM[k]`; the matrix is as it was in
front of `k`; and the tags behind `k`, those of the cells that the walk has left,
are as `PairedOK` says from the cell `(j, i)` on. -/
def PathInv (E : Env) (aLeft aRight : List DLine) (nLeft nRight : Nat) (M0 : List Nat)
    (i j k : Nat) (aM : List Nat) : Prop :=
  i ≤ nRight ∧ j ≤ nLeft ∧ j * (nRight + 1) + i ≤ k ∧ k < M0.length ∧ aM.length = M0.length ∧
  (∀ t, t < k → aM.getD t 0 = M0.getD t 0) ∧ aM.getD k 0 = M0.getD (j * (nRight + 1) + i) 0 ∧
  PairedOK E aLeft aRight j i (aM.drop (k + 1))

/-- The first `k` lines of the text `z`, as the second loop of `break_into_lines`
finds them, each written with a newline behind it. -/
def joinLines : Nat → List Nat → List Nat
  | 0, _ => []
  | k + 1, z => z.take (lineEnd z) ++ 10 :: joinLines k (z.drop (lineEnd z + 1))

/-- The bytes of the `k` records of `L` from the record `t` on, `LENGTH` bytes
for each record, each line written with a newline behind it. -/
def writeLines (L : List DLine) : Nat → Nat → List Nat
  | 0, _ => []
  | k + 1, t =>
    (L.getD t DLine.zero).z.take (LENGTH (L.getD t DLine.zero)) ++ 10 :: writeLines L k (t + 1)

/-- The calls of `longestCommonSequence` that `diff_step` makes, in the order of
the calls: for each call the right line count `p->nTo`, by which the loop of
`longestCommonSequence` reduces the hash of a line, and the four ends of the
ranges. -/
def lcsCalls (E : Env) : Nat → DContext → Nat → Nat → Nat → Nat →
    List (Nat × Nat × Nat × Nat × Nat)
  | 0, _, _, _, _, _ => []
  | fuel + 1, p, iS1, iE1, iS2, iE2 =>
    if iE1 ≤ iS1 then []
    else if iE2 ≤ iS2 then []
    else
      let r := longestCommonSequence E p iS1 iE1 iS2 iE2
      let iSX := r.1
      let iEX := r.2.1
      let iSY := r.2.2.1
      let iEY := r.2.2.2
      (p.nTo, iS1, iE1, iS2, iE2) ::
        (if iEX > iSX then
          lcsCalls E fuel p iS1 iSX iS2 iSY ++
            (match diff_step E fuel p iS1 iSX iS2 iSY with
            | none => []
            | some p => lcsCalls E fuel (appendTriple p ((iEX : Int) - iSX) 0 0) iEX iE1 iEY iE2)
        else [])

/-- The script of two files with the same lines: one copy of all `n` lines and
the three zeros, or the three zeros alone when there is no line. -/
def sameScript (n : Nat) : List Int := (if n = 0 then [] else [(n : Int), 0, 0]) ++ [0, 0, 0]

/-- The lines at the start of the texts `zA` and `zB` differ at most in white
space at their ends: they are the same bytes `c` followed by bytes that
`vcs_isspace` accepts. -/
def SameButEol (E : Env) (zA zB : List Nat) : Prop :=
  ∃ c wA wB, zA.take (lineEnd zA) = c ++ wA ∧ zB.take (lineEnd zB) = c ++ wB ∧
    (∀ x, x ∈ wA → E.vcs_isspace x = true) ∧ (∀ x, x ∈ wB → E.vcs_isspace x = true)

/-- The matrix of `sbsAlignment` when the walk back through it starts, for
`nLeft` and `nRight` that are not 0. -/
def sbsMatrix (E : Env) (aLeft : List DLine) (nLeft : Nat) (aRight : List DLine) (nRight : Nat) :
    List Nat :=
  let aM := List.replicate ((nLeft + 1) * (nRight + 1)) 0
  let aM := (List.range (nRight + 1)).foldl (fun m i => m.set i 3) aM
  let a : List Int := (List.range (nRight + 1)).map fun i => (i : Int) * 50
  let aM := aM.set 0 0
  (alignRows E aLeft aRight nLeft nRight nLeft 1 (a, aM)).2

/-- The assertions `assert( i>0 && j>0 )`, `assert( i>0 )` and `assert( j>0 )` of
the loop `while( i+j>0 )` of `sbsAlignment` hold in every round of the loop, from
the state `(i, j, k, aM)` on. -/
def alignPathOK (nRight : Nat) : Nat → Int × Int × Int × List Nat → Bool
  | 0, _ => true
  | fuel + 1, (i, j, k, aM) =>
    if i + j > 0 then
      let c := aM.getD k.toNat 0
      let ok := if c = 2 then decide (i > 0 ∧ j > 0) else if c = 3 then decide (i > 0)
        else decide (j > 0)
      let k := k - 1
      let i := if c = 2 then i - 1 else if c = 3 then i - 1 else i
      let j := if c = 2 then j - 1 else if c = 3 then j else j - 1
      ok && alignPathOK nRight fuel
        (i, j, k, aM.set k.toNat (aM.getD (j * ((nRight : Int) + 1) + i).toNat 0))
    else true

/-- The assertions `assert( ma>0 )`, `assert( ma>0 && mb>0 )` and
`assert( mb>0 )` of the loop `for(j=0; ma+mb>0; j++)` of `sbsDiff` hold in every
round of the loop, from `j`, `ma` and `mb` on. -/
def sbsRowsOK (alignment : List Nat) : Nat → Nat → Int → Int → Bool
  | 0, _, _, _ => true
  | fuel + 1, j, ma, mb =>
    if ma + mb > 0 then
      if alignment.getD j 0 = 1 then
        decide (ma > 0) && sbsRowsOK alignment fuel (j + 1) (ma - 1) mb
      else if alignment.getD j 0 = 2 then
        decide (ma > 0 ∧ mb > 0) && sbsRowsOK alignment fuel (j + 1) (ma - 1) (mb - 1)
      else decide (mb > 0) && sbsRowsOK alignment fuel (j + 1) ma (mb - 1)
    else true

/-- The tags `S` are 1, 2 or 3, and with `j` more lines on the left and `i` more
lines on the right they account for `nLeft` lines on the left, one for every
tag 1 or 2, and for `nRight` lines on the right, one for every tag 2 or 3. -/
def Counted (nLeft nRight j i : Nat) (S : List Nat) : Prop :=
  (∀ c, c ∈ S → c = 1 ∨ c = 2 ∨ c = 3) ∧ S.count 1 + S.count 2 + j = nLeft ∧
    S.count 2 + S.count 3 + i = nRight

/-- The state of the walk of `sbsAlignment` back through the matrix `M0`, without
what holds for the tags behind `k`: the walk is at the cell `(j, i)`, whose tag
is at `aM[k]`, and the matrix is as it was in front of `k`. -/
def PathBase (nLeft nRight : Nat) (M0 : List Nat) (i j k : Nat) (aM : List Nat) : Prop :=
  i ≤ nRight ∧ j ≤ nLeft ∧ j * (nRight + 1) + i ≤ k ∧ k < M0.length ∧ aM.length = M0.length ∧
  (∀ t, t < k → aM.getD t 0 = M0.getD t 0) ∧ aM.getD k 0 = M0.getD (j * (nRight + 1) + i) 0

/-- The lines that a loop `for(j=0; j<m; j++)` of `contextDiff` shows, from `j`
on: for each line its prefix, the two line numbers that the loop passes to
`appendDiffLineno` when line numbers are shown (`a+j+1` and `b+j+1`, or 0 where
`a` or `b` is `none`), and the line record. -/
def bodyLines (cPrefix : Nat) (L : List DLine) (x : Int) (a b : Option Int) :
    Nat → Int → List (Nat × Int × Int × DLine)
  | 0, _ => []
  | fuel + 1, j =>
    (cPrefix,
      (match a with
       | some a => a + j + 1
       | none => 0),
      (match b with
       | some b => b + j + 1
       | none => 0), lineAt L (x + j)) :: bodyLines cPrefix L x a b fuel (j + 1)

/-- The output of `contextDiff` for a list of lines with their prefixes and line
numbers: `appendDiffLineno`, when line numbers are shown, and `appendDiffLine`
for each line. -/
def renderBody (E : Env) (showLn html : Bool) :
    List (Nat × Int × Int × DLine) → List Nat → List Nat
  | [], pOut => pOut
  | (c, lnA, lnB, l) :: B, pOut =>
    renderBody E showLn html B
      (appendDiffLine E (if showLn then appendDiffLineno E pOut lnA lnB html else pOut) c l html)

/-- The lines that the loop `for(i=0; i<nr; i++)` of `contextDiff` shows for the
differences of a block, from `i` on, and the positions `a` and `b` behind
them. -/
def changeBody (p : DContext) (r nr : Nat) :
    Nat → Nat → Int × Int → List (Nat × Int × Int × DLine) × Int × Int
  | 0, _, (a, b) => ([], a, b)
  | fuel + 1, i, (a, b) =>
    if i < nr then
      let m := p.aEdit.getD (r + i * 3 + 1) 0
      let B1 := bodyLines 45 p.aFrom a (some a) none m.toNat 0
      let a := a + m
      let m := p.aEdit.getD (r + i * 3 + 2) 0
      let B2 := bodyLines 43 p.aTo b none (some b) m.toNat 0
      let b := b + m
      if i + 1 < nr then
        let m := p.aEdit.getD (r + i * 3 + 3) 0
        let B3 := bodyLines 32 p.aTo b (some a) (some b) m.toNat 0
        let t := changeBody p r nr fuel (i + 1) (a + m, b + m)
        (B1 ++ (B2 ++ (B3 ++ t.1)), t.2.1, t.2.2)
      else
        let t := changeBody p r nr fuel (i + 1) (a, b)
        (B1 ++ (B2 ++ t.1), t.2.1, t.2.2)
    else ([], a, b)

/-- The blocks of `contextDiff`, for the triples from `r` on and the positions
`a` and `b`: for each block the four numbers of its header
`@@ -s,na +t,nb @@` and the lines of its body. -/
def hunks (p : DContext) (nContext : Int) (mxr : Nat) :
    Nat → Nat → Int × Int → List ((Int × Int × Int × Int) × List (Nat × Int × Int × DLine))
  | 0, _, _ => []
  | fuel + 1, r, (a, b) =>
    if r < mxr then
      let R := p.aEdit
      let nr := blockTriples R r nContext R.length 1
      match blockLines R r nr nContext with
      | (na, nb, skip) =>
        let a := a + skip
        let b := b + skip
        let m := R.getD r 0 - skip
        let B1 := bodyLines 32 p.aFrom a (some a) (some b) m.toNat 0
        let t := changeBody p r nr nr 0 (a + m, b + m)
        let m2 := if R.getD (r + nr * 3) 0 > nContext then nContext else R.getD (r + nr * 3) 0
        let B3 := bodyLines 32 p.aTo t.2.2 (some t.2.1) (some t.2.2) m2.toNat 0
        ((if na ≠ 0 then a + 1 else 0, na, if nb ≠ 0 then b + 1 else 0, nb), B1 ++ (t.1 ++ B3))
          :: hunks p nContext mxr fuel (r + 3 * nr) (t.2.1, t.2.2)
    else []

/-- The output of `contextDiff` without line numbers for a list of blocks: for
each block the header and the lines of the body. -/
def renderHunks (E : Env) (html : Bool) :
    List ((Int × Int × Int × Int) × List (Nat × Int × Int × DLine)) → List Nat → List Nat
  | [], pOut => pOut
  | ((s, na, t, nb), B) :: H, pOut =>
    let pOut := if html then pOut ++ str "<span class=\"diffln\">" else pOut
    let pOut := pOut ++ str "@@ -" ++ E.fmt_d 0 s ++ str "," ++ E.fmt_d 0 na ++ str " +"
      ++ E.fmt_d 0 t ++ str "," ++ E.fmt_d 0 nb ++ str " @@"
    let pOut := if html then pOut ++ str "</span>" else pOut
    renderHunks E html H (renderBody E false html B (pOut ++ str "\n"))

/-- The lines `B` of a block are numbered from the positions `a` and `b` on, up
to the positions `a2` and `b2`: a line with the prefix ` ` has the numbers
`a+1` and `b+1` and moves both positions, a line with the prefix `-` has the
left number `a+1` and moves the left position, and a line with the prefix `+`
has the right number `b+1` and moves the right position. -/
def Numbered : List (Nat × Int × Int × DLine) → Int → Int → Int → Int → Prop
  | [], a, b, a2, b2 => a = a2 ∧ b = b2
  | (c, lnA, lnB, _) :: B, a, b, a2, b2 =>
    (c = 32 ∧ lnA = a + 1 ∧ lnB = b + 1 ∧ Numbered B (a + 1) (b + 1) a2 b2) ∨
    (c = 45 ∧ lnA = a + 1 ∧ lnB = 0 ∧ Numbered B (a + 1) b a2 b2) ∨
    (c = 43 ∧ lnA = 0 ∧ lnB = b + 1 ∧ Numbered B a (b + 1) a2 b2)

/-- The sum of the `n` values of `g` from `i` on. -/
def sumFrom (g : Nat → Int) : Nat → Nat → Int
  | _, 0 => 0
  | i, n + 1 => g i + sumFrom g (i + 1) n

end Diff

namespace Delta

/-! ## Base-64 integers: writing and reading agree -/

/-- The value table inverts the digit alphabet. -/
theorem zValue_zDigits : ∀ d, d < 64 → zValue.getD (0x7f &&& zDigits.getD d 0) (-1) = (d : Int) := by
  decide

/-- No digit character is the NUL byte. -/
theorem zDigits_ne_zero : ∀ d, d < 64 → zDigits.getD d 0 ≠ 0 := by
  decide

/-- Reading one digit character multiplies the value by 64 and adds the digit. -/
theorem getIntLoop_digit (d v : Nat) (rest : List Nat) (hd : d < 64) :
    getIntLoop (zDigits.getD d 0 :: rest) v = getIntLoop rest ((v * 64 + d) % 4294967296) := by
  have h1 : (0 : Int) ≤ (d : Int) := Int.ofNat_nonneg d
  have h2 : v <<< 6 = v * 64 := by rw [Nat.shiftLeft_eq]
  rw [getIntLoop]
  simp only [zValue_zDigits d hd, ge_iff_le, h1, if_true, Int.toNat_ofNat, h2]

/-- Reading stops at a character that is no digit. -/
theorem getIntLoop_stop (c v : Nat) (rest : List Nat)
    (hc : zValue.getD (0x7f &&& c) (-1) < 0) : getIntLoop (c :: rest) v = (v, c :: rest) := by
  rw [getIntLoop]
  simp only [ge_iff_le, not_le.mpr hc, if_false]

theorem getIntLoop_putIntDigits (n : Nat) : ∀ (v : Nat) (tail : List Nat),
    v < 64 ^ n → v < 4294967296 →
    getIntLoop ((putIntDigits n v).reverse ++ tail) 0 = getIntLoop tail v := by
  induction n with
  | zero =>
    intro v tail hv _
    have : v = 0 := by simpa using hv
    subst this
    simp [putIntDigits]
  | succ n ih =>
    intro v tail hv hv32
    by_cases h0 : v = 0
    · subst h0; simp [putIntDigits]
    · have hpos : v > 0 := Nat.pos_of_ne_zero h0
      have hand : v &&& 0x3f = v % 64 := Nat.and_pow_two_sub_one_eq_mod v 6
      have hshr : v >>> 6 = v / 64 := by rw [Nat.shiftRight_eq_div_pow]
      have hlt : v % 64 < 64 := Nat.mod_lt _ (by decide)
      have hdiv : v / 64 < 64 ^ n := by
        rw [Nat.div_lt_iff_lt_mul (by decide)]; rw [pow_succ] at hv; exact hv
      simp only [putIntDigits, hpos, if_true, List.reverse_cons, List.append_assoc,
        List.singleton_append, hand, hshr]
      rw [ih (v / 64) _ hdiv (by omega), getIntLoop_digit _ _ _ hlt]
      have e : ((v / 64) * 64 + v % 64) % 4294967296 = v := by omega
      rw [e]

/-- Reading what `putInt` wrote gives the value back. -/
theorem getIntLoop_putInt (v : Nat) (tail : List Nat) (hv : v < 4294967296) :
    getIntLoop (putInt v ++ tail) 0 = getIntLoop tail v := by
  unfold putInt
  simp only [Nat.mod_eq_of_lt hv]
  by_cases h0 : v = 0
  · subst h0
    have := getIntLoop_digit 0 0 tail (by decide)
    simpa using this
  · simp only [h0, if_false]
    exact getIntLoop_putIntDigits 20 v tail (lt_of_lt_of_le hv (by norm_num)) hv

theorem putIntDigits_ne_zero (n : Nat) : ∀ (v c : Nat), c ∈ putIntDigits n v → c ≠ 0 := by
  induction n with
  | zero => intro v c h; simp [putIntDigits] at h
  | succ n ih =>
    intro v c h
    by_cases hpos : v > 0
    · simp only [putIntDigits, hpos, if_true, List.mem_cons] at h
      rcases h with h | h
      · rw [h, Nat.and_pow_two_sub_one_eq_mod v 6]
        exact zDigits_ne_zero _ (Nat.mod_lt _ (by decide))
      · exact ih _ _ h
    · simp [putIntDigits, hpos] at h

theorem putIntDigits_ne_nil (n v : Nat) (hv : v > 0) : putIntDigits (n + 1) v ≠ [] := by
  simp [putIntDigits, hv]

/-- Every byte `putInt` writes is different from NUL. -/
theorem putInt_ne_zero (v c : Nat) (h : c ∈ putInt v) : c ≠ 0 := by
  unfold putInt at h
  by_cases h0 : v % 4294967296 = 0
  · simp only [h0, if_true, List.mem_singleton] at h
    omega
  · simp only [h0, if_false, List.mem_reverse] at h
    exact putIntDigits_ne_zero _ _ _ h

/-- `putInt` writes at least one byte. -/
theorem putInt_ne_nil (v : Nat) : putInt v ≠ [] := by
  unfold putInt
  by_cases h0 : v % 4294967296 = 0
  · simp [h0]
  · simp only [h0, if_false, ne_eq, List.reverse_eq_nil_iff]
    exact putIntDigits_ne_nil 19 _ (Nat.pos_of_ne_zero h0)

/-- The first byte of what `putInt` writes is different from NUL. -/
theorem putInt_headD (v : Nat) (tail : List Nat) : (putInt v ++ tail).headD 0 ≠ 0 := by
  have h1 := putInt_ne_nil v
  have h2 := putInt_ne_zero v
  cases h : putInt v with
  | nil => exact absurd h h1
  | cons c l =>
    simp only [List.cons_append, List.headD_cons]
    exact h2 c (by rw [h]; exact List.mem_cons_self _ _)

theorem putIntDigits_length (n : Nat) : ∀ (k v : Nat), v < 64 ^ k →
    (putIntDigits n v).length ≤ k := by
  induction n with
  | zero => intro k v _; simp [putIntDigits]
  | succ n ih =>
    intro k v hv
    by_cases hpos : v > 0
    · cases k with
      | zero => simp at hv; omega
      | succ k =>
        simp only [putIntDigits, hpos, if_true, List.length_cons]
        have hshr : v >>> 6 = v / 64 := by rw [Nat.shiftRight_eq_div_pow]
        have hdiv : v / 64 < 64 ^ k := by
          rw [Nat.div_lt_iff_lt_mul (by decide)]; rw [pow_succ] at hv; exact hv
        rw [hshr]
        have := ih k _ hdiv
        omega
    · simp [putIntDigits, hpos]

/-- An integer below `64^k` is written with at most `k` digits (`k ≥ 1`). -/
theorem putInt_length_le (k v : Nat) (hk : 1 ≤ k) (hv : v < 64 ^ k) (hv32 : v < 4294967296) :
    (putInt v).length ≤ k := by
  unfold putInt
  simp only [Nat.mod_eq_of_lt hv32]
  by_cases h0 : v = 0
  · simp [h0]; exact hk
  · simp only [h0, if_false, List.length_reverse]
    exact putIntDigits_length 20 k v hv

/-- A 32-bit integer is written with at most six digits. -/
theorem putInt_length_le_six (v : Nat) : (putInt v).length ≤ 6 := by
  have h : putInt v = putInt (v % 4294967296) := by
    unfold putInt; simp
  rw [h]
  have hlt : v % 4294967296 < 4294967296 := Nat.mod_lt _ (by decide)
  exact putInt_length_le 6 _ (by decide) (lt_of_lt_of_le hlt (by norm_num)) hlt

/-- Reading a written integer that is followed by a character `c` that is no digit:
`getInt` answers the value, stops at `c`, and has counted the digits. -/
theorem getInt_putInt (v c : Nat) (rest : List Nat) (len : Int) (hv : v < 4294967296)
    (hc : zValue.getD (0x7f &&& c) (-1) < 0) :
    getInt (putInt v ++ c :: rest) len = (v, c :: rest, len - ((putInt v).length : Int)) := by
  unfold getInt
  simp only [getIntLoop_putInt v _ hv, getIntLoop_stop c v rest hc, List.length_append,
    List.length_cons, Nat.cast_add, Nat.cast_succ]
  congr 2
  omega

/-! ## The command loop on well-formed commands -/

theorem u32_natCast (n : Nat) (h : n < 4294967296) : u32 (n : Int) = n := by
  unfold u32
  omega

theorem Run_nil (zSrc : List Nat) (limit t : Nat) (o : List Nat) : Run zSrc limit 0 [] t o t o := by
  intro fuel rest _
  simp

theorem Run_append {zSrc : List Nat} {limit n m : Nat} {c1 c2 : List Nat} {t0 t1 t2 : Nat}
    {o0 o1 o2 : List Nat} (h1 : Run zSrc limit n c1 t0 o0 t1 o1)
    (h2 : Run zSrc limit m c2 t1 o1 t2 o2) : Run zSrc limit (n + m) (c1 ++ c2) t0 o0 t2 o2 := by
  intro fuel rest hl
  have e : fuel + (n + m) = (fuel + m) + n := by omega
  rw [e, List.append_assoc, h1 (fuel + m) (c2 ++ rest) (by rw [← List.append_assoc]; exact hl)]
  apply h2 fuel rest
  simp only [List.length_append] at hl ⊢
  omega

/-- An INSERT command appends its literal bytes. -/
theorem Run_insert (zSrc : List Nat) (limit cnt : Nat) (lits : List Nat) (t : Nat) (o : List Nat)
    (hlen : lits.length = cnt) (ht : t + cnt ≤ limit) (hlim : limit < 4294967296) :
    Run zSrc limit 1 (putInt cnt ++ 58 :: lits) t o (t + cnt) (o ++ lits) := by
  intro fuel rest hl
  have hcnt : cnt < 4294967296 := by omega
  have e : (putInt cnt ++ 58 :: lits) ++ rest = putInt cnt ++ 58 :: (lits ++ rest) := by simp
  rw [e] at hl ⊢
  have hpos : (0 : Int) < ((putInt cnt ++ 58 :: (lits ++ rest)).length : Int) := by
    simp only [List.length_append, List.length_cons]; omega
  have hg := getInt_putInt cnt 58 (lits ++ rest) ((putInt cnt ++ 58 :: (lits ++ rest)).length : Int)
    hcnt (by decide)
  have hlen1 : ((putInt cnt ++ 58 :: (lits ++ rest)).length : Int) - ((putInt cnt).length : Int) - 1
      = ((lits ++ rest).length : Int) := by
    simp only [List.length_append, List.length_cons]; push_cast; omega
  have hu : u32 ((lits ++ rest).length : Int) = (lits ++ rest).length := by
    apply u32_natCast
    simp only [List.length_append, List.length_cons] at hl ⊢; omega
  have hmod : (t + cnt) % 4294967296 = t + cnt := Nat.mod_eq_of_lt (by omega)
  have hle : ¬ cnt > (lits ++ rest).length := by simp only [List.length_append]; omega
  rw [applyLoop, applyStep]
  simp only [putInt_headD, ne_eq, not_false_eq_true, hpos, and_self, if_true, hg, List.headD_cons,
    List.tail_cons, hlen1, hu, hmod, hle, if_false]
  have h1 : ¬ (58 : Nat) = 64 := by decide
  have h2 : ¬ t + cnt > limit := by omega
  simp only [h1, h2, if_false, if_true]
  have h3 : List.drop cnt (lits ++ rest) = rest := by
    rw [← hlen]; simp
  have h4 : List.take cnt (lits ++ rest) = lits := by
    rw [← hlen]; simp
  have h5 : ((lits ++ rest).length : Int) - (cnt : Int) = (rest.length : Int) := by
    simp only [List.length_append]; push_cast; omega
  rw [h3, h4, h5]

/-- A COPY command that stays inside the source appends the copied bytes. -/
theorem Run_copy (zSrc : List Nat) (limit cnt ofst t : Nat) (o : List Nat)
    (hsrc : ofst + cnt ≤ zSrc.length) (hS : zSrc.length < 4294967296)
    (ht : t + cnt ≤ limit) (hlim : limit < 4294967296) :
    Run zSrc limit 1 (putInt cnt ++ 64 :: (putInt ofst ++ [44])) t o (t + cnt)
      (o ++ (zSrc.drop ofst).take cnt) := by
  intro fuel rest hl
  have hcnt : cnt < 4294967296 := by omega
  have hofst : ofst < 4294967296 := by omega
  have e : (putInt cnt ++ 64 :: (putInt ofst ++ [44])) ++ rest
      = putInt cnt ++ 64 :: (putInt ofst ++ 44 :: rest) := by simp
  rw [e] at hl ⊢
  have hpos : (0 : Int) < ((putInt cnt ++ 64 :: (putInt ofst ++ 44 :: rest)).length : Int) := by
    simp only [List.length_append, List.length_cons]; omega
  have hg := getInt_putInt cnt 64 (putInt ofst ++ 44 :: rest)
    ((putInt cnt ++ 64 :: (putInt ofst ++ 44 :: rest)).length : Int) hcnt (by decide)
  have hg2 := getInt_putInt ofst 44 rest
    (((putInt cnt ++ 64 :: (putInt ofst ++ 44 :: rest)).length : Int)
      - ((putInt cnt).length : Int) - 1) hofst (by decide)
  have hlen1 : ((putInt cnt ++ 64 :: (putInt ofst ++ 44 :: rest)).length : Int)
      - ((putInt cnt).length : Int) - 1 - ((putInt ofst).length : Int) - 1 = (rest.length : Int) := by
    simp only [List.length_append, List.length_cons]; push_cast; omega
  have hu : u32 (zSrc.length : Int) = zSrc.length := u32_natCast _ hS
  have hmod : (t + cnt) % 4294967296 = t + cnt := Nat.mod_eq_of_lt (by omega)
  have hmod2 : (ofst + cnt) % 4294967296 = ofst + cnt := Nat.mod_eq_of_lt (by omega)
  rw [applyLoop, applyStep]
  simp only [putInt_headD, ne_eq, not_false_eq_true, hpos, and_self, if_true, hg, List.headD_cons,
    List.tail_cons, hg2, hlen1, hu, hmod, hmod2, not_true_eq_false, and_false, if_false]
  have h2 : ¬ t + cnt > limit := by omega
  have h3 : ¬ ofst + cnt > zSrc.length := by omega
  simp only [h2, h3, if_false]

/-- The terminal command: the checksum and the total are verified. -/
theorem applyLoop_end (zSrc : List Nat) (limit ck fuel t : Nat) (o rest : List Nat) (len : Int)
    (hck : ck < 4294967296) (hlen : 0 < len) :
    applyLoop zSrc limit (fuel + 1) (putInt ck ++ 59 :: rest) len t o
      = some (if ck ≠ checksum (o.take t) then ApplyResult.error
          else if t ≠ limit then ApplyResult.error else ApplyResult.ok t o) := by
  have hg := getInt_putInt ck 59 rest len hck (by decide)
  rw [applyLoop, applyStep]
  simp only [putInt_headD, ne_eq, not_false_eq_true, hlen, and_self, if_true, hg, List.headD_cons]
  have h1 : ¬ (59 : Nat) = 64 := by decide
  have h2 : ¬ (59 : Nat) = 58 := by decide
  simp only [h1, h2, if_false, if_true]
  split_ifs <;> rfl

/-! ## The two match loops -/

theorem seg_ext (a b : List Nat) (p q n : Nat) (ha : p + n ≤ a.length) (hb : q + n ≤ b.length)
    (h : ∀ t, t < n → a.getD (p + t) 0 = b.getD (q + t) 0) :
    (a.drop p).take n = (b.drop q).take n := by
  apply List.ext_getElem?
  intro t
  by_cases ht : t < n
  · rw [List.getElem?_take_of_lt ht, List.getElem?_take_of_lt ht, List.getElem?_drop,
      List.getElem?_drop]
    have h1 := h t ht
    have ha1 : p + t < a.length := by omega
    have hb1 : q + t < b.length := by omega
    rw [List.getD_eq_getElem a 0 ha1, List.getD_eq_getElem b 0 hb1] at h1
    rw [List.getElem?_eq_getElem ha1, List.getElem?_eq_getElem hb1, h1]
  · have ht1 : n ≤ t := by omega
    rw [List.getElem?_take_eq_none ht1, List.getElem?_take_eq_none ht1]

theorem matchFwd_spec : ∀ (a b : List Nat) (j : Nat),
    ∃ m, matchFwd a b j = j + m ∧ m ≤ a.length ∧ m ≤ b.length ∧
      ∀ t, t < m → a.getD t 0 = b.getD t 0 := by
  intro a
  induction a with
  | nil => intro b j; exact ⟨0, by simp [matchFwd]⟩
  | cons x as ih =>
    intro b j
    cases b with
    | nil => exact ⟨0, by simp [matchFwd]⟩
    | cons y bs =>
      by_cases hxy : x = y
      · obtain ⟨m, h1, h2, h3, h4⟩ := ih bs (j + 1)
        refine ⟨m + 1, ?_, ?_, ?_, ?_⟩
        · subst hxy
          simp only [matchFwd, ne_eq, not_true_eq_false, if_false]
          omega
        · simp only [List.length_cons]; omega
        · simp only [List.length_cons]; omega
        · intro t ht
          cases t with
          | zero => simp [hxy]
          | succ t =>
            have := h4 t (by omega)
            simpa using this
      · exact ⟨0, by simp [matchFwd, hxy]⟩

theorem matchBack_spec (zSrc zOut : List Nat) (iSrc pos i : Nat) : ∀ (n k0 : Nat),
    k0 ≤ matchBack zSrc zOut iSrc pos i n k0 ∧
    ∀ t, k0 ≤ t → t < matchBack zSrc zOut iSrc pos i n k0 →
      (t < iSrc ∧ t ≤ i ∧ zSrc.getD (iSrc - t) 0 = zOut.getD (pos - t) 0) := by
  intro n
  induction n with
  | zero => intro k0; simp only [matchBack]; exact ⟨le_refl _, fun t h1 h2 => by omega⟩
  | succ n ih =>
    intro k0
    rw [matchBack]
    split_ifs with hc hm
    · exact ⟨le_refl _, fun t h1 h2 => by omega⟩
    · obtain ⟨h1, h2⟩ := ih (k0 + 1)
      refine ⟨by omega, ?_⟩
      intro t ht1 ht2
      by_cases e : t = k0
      · subst e; exact ⟨hc.1, hc.2, not_not.mp hm⟩
      · exact h2 t (by omega) ht2
    · exact ⟨le_refl _, fun t h1 h2 => by omega⟩

/-! ## `digit_count` -/

/-- Below `2^30` the loop of `digit_count` ends, and counts at least the digits
that `putInt` writes. -/
theorem digit_count_spec (fuel v : Nat) (hf : 6 ≤ fuel) (hv : v < 1073741824) :
    ∃ d, digit_count fuel v = some d ∧ (putInt v).length ≤ d ∧ 1 ≤ d ∧ d ≤ 5 := by
  obtain ⟨f, rfl⟩ : ∃ f, fuel = f + 6 := ⟨fuel - 6, by omega⟩
  have hv32 : v < 4294967296 := by omega
  have h5 : ¬ 1073741824 ≤ v := by omega
  unfold digit_count
  simp only [digit_countLoop]
  norm_num
  by_cases h1 : 64 ≤ v
  · by_cases h2 : 4096 ≤ v
    · by_cases h3 : 262144 ≤ v
      · by_cases h4 : 16777216 ≤ v
        · exact ⟨5, by simp [h1, h2, h3, h4, h5],
            putInt_length_le 5 v (by decide) (by norm_num; omega) hv32, by decide, by decide⟩
        · exact ⟨4, by simp [h1, h2, h3, h4],
            putInt_length_le 4 v (by decide) (by norm_num; omega) hv32, by decide, by decide⟩
      · exact ⟨3, by simp [h1, h2, h3],
          putInt_length_le 3 v (by decide) (by norm_num; omega) hv32, by decide, by decide⟩
    · exact ⟨2, by simp [h1, h2],
        putInt_length_le 2 v (by decide) (by norm_num; omega) hv32, by decide, by decide⟩
  · exact ⟨1, by simp [h1],
      putInt_length_le 1 v (by decide) (by norm_num; omega) hv32, by decide, by decide⟩

/-- From `2^30` on the loop of `digit_count` never ends: `x` has become `0`. -/
theorem digit_countLoop_zero (v : Nat) : ∀ (fuel i : Nat), digit_countLoop v fuel i 0 = none := by
  intro fuel
  induction fuel with
  | zero => intro i; rfl
  | succ n ih => intro i; simp [digit_countLoop, ih]

theorem digit_count_diverges (v : Nat) (hv : 1073741824 ≤ v) : ∀ fuel, digit_count fuel v = none := by
  have h1 : 64 ≤ v := by omega
  have h2 : 4096 ≤ v := by omega
  have h3 : 262144 ≤ v := by omega
  have h4 : 16777216 ≤ v := by omega
  intro fuel
  unfold digit_count
  rcases fuel with _ | _ | _ | _ | _ | _ | f <;>
    simp [digit_countLoop, h1, h2, h3, h4, hv, digit_countLoop_zero]

/-! ## A candidate match names equal stretches -/

theorem getD_drop (l : List Nat) (n s : Nat) : (l.drop n).getD s 0 = l.getD (n + s) 0 := by
  simp only [List.getD_eq_getElem?_getD, List.getElem?_drop]

theorem matchBlock_spec (zSrc zOut : List Nat) (base i : Nat) (iBlock : Int)
    (hb : iBlock.toNat * NHASH + NHASH < zSrc.length) (hbi : base + i ≤ zOut.length) :
    ∃ n : Nat, (matchBlock zSrc zOut base i iBlock).cnt = (n : Int) ∧
      (matchBlock zSrc zOut base i iBlock).litsz ≤ i ∧
      (matchBlock zSrc zOut base i iBlock).ofst ≤ iBlock.toNat * NHASH ∧
      (matchBlock zSrc zOut base i iBlock).ofst + n ≤ zSrc.length ∧
      base + (matchBlock zSrc zOut base i iBlock).litsz + n ≤ zOut.length ∧
      (zSrc.drop (matchBlock zSrc zOut base i iBlock).ofst).take n
        = (zOut.drop (base + (matchBlock zSrc zOut base i iBlock).litsz)).take n := by
  obtain ⟨m, hm1, hm2, hm3, hm4⟩ :=
    matchFwd_spec (zSrc.drop (iBlock.toNat * NHASH)) (zOut.drop (base + i)) 0
  obtain ⟨hk1, hk2⟩ := matchBack_spec zSrc zOut (iBlock.toNat * NHASH) (base + i) i i 1
  unfold matchBlock
  simp only [hm1]
  generalize matchBack zSrc zOut (iBlock.toNat * NHASH) (base + i) i i 1 = r at hk1 hk2
  generalize iBlock.toNat * NHASH = iSrc at *
  simp only [List.length_drop] at hm2 hm3
  have hkk : ∀ t, 1 ≤ t → t ≤ r - 1 → (t < iSrc ∧ t ≤ i ∧
      zSrc.getD (iSrc - t) 0 = zOut.getD (base + i - t) 0) := fun t h1 h2 => hk2 t h1 (by omega)
  have hki : r - 1 ≤ i := by
    by_cases h : r - 1 = 0
    · omega
    · exact (hkk (r - 1) (by omega) (le_refl _)).2.1
  have hks : r - 1 ≤ iSrc := by
    by_cases h : r - 1 = 0
    · omega
    · have := (hkk (r - 1) (by omega) (le_refl _)).1; omega
  refine ⟨m + (r - 1), by push_cast; omega, by omega, by omega, by omega, by omega, ?_⟩
  apply seg_ext _ _ _ _ _ (by omega) (by omega)
  intro t ht
  by_cases htk : t < r - 1
  · have := (hkk (r - 1 - t) (by omega) (by omega)).2.2
    have e1 : iSrc - (r - 1) + t = iSrc - (r - 1 - t) := by omega
    have e2 : base + (i - (r - 1)) + t = base + i - (r - 1 - t) := by omega
    rw [e1, e2]; exact this
  · have := hm4 (t - (r - 1)) (by omega)
    rw [getD_drop, getD_drop] at this
    have e1 : iSrc - (r - 1) + t = iSrc + (t - (r - 1)) := by omega
    have e2 : base + (i - (r - 1)) + t = base + i + (t - (r - 1)) := by omega
    rw [e1, e2]; exact this

/-! ## The chain loop keeps a good best match -/

theorem TableOK_getD (zSrc : List Nat) (tbl : List Int) (h : TableOK zSrc tbl) (n : Nat) :
    BlockOK zSrc (tbl.getD n (-1)) := by
  by_cases hn : n < tbl.length
  · rw [List.getD_eq_getElem tbl (-1) hn]
    exact h _ (List.getElem_mem hn)
  · rw [List.getD_eq_default tbl (-1) (by omega)]
    exact Or.inl rfl

theorem chainLoop_spec (F : Nat) (zSrc zOut : List Nat) (collide : List Int) (base i : Nat)
    (hF : 6 ≤ F) (hS : zSrc.length < 1073741824) (hT : zOut.length < 1073741824)
    (hcol : TableOK zSrc collide) (hbi : base + i ≤ zOut.length) :
    ∀ (limit : Nat) (iBlock : Int) (best : Best), BlockOK zSrc iBlock →
      GoodBest zSrc zOut base best →
      ∃ best', chainLoop F zSrc zOut collide base i limit iBlock best = some best' ∧
        GoodBest zSrc zOut base best' := by
  intro limit
  induction limit with
  | zero => intro iBlock best _ hg; exact ⟨best, rfl, hg⟩
  | succ limit ih =>
    intro iBlock best hblk hg
    rw [chainLoop]
    by_cases hge : iBlock ≥ 0
    · simp only [hge, if_true]
      have hb : iBlock.toNat * NHASH + NHASH < zSrc.length := by
        rcases hblk with h | h
        · omega
        · exact h.2
      obtain ⟨n, hc1, hc2, hc3, hc4, hc5, hc6⟩ := matchBlock_spec zSrc zOut base i iBlock hb hbi
      generalize matchBlock zSrc zOut base i iBlock = c at *
      have hcn : c.cnt.toNat = n := by rw [hc1]; exact Int.toNat_ofNat n
      obtain ⟨d1, hd1, hl1, _, _⟩ := digit_count_spec F c.litsz hF (by omega)
      obtain ⟨d2, hd2, hl2, _, _⟩ := digit_count_spec F n hF (by omega)
      obtain ⟨d3, hd3, hl3, _, _⟩ := digit_count_spec F c.ofst hF (by omega)
      simp only [hcn, hd1, hd2, hd3]
      apply ih _ _ (TableOK_getD zSrc collide hcol _)
      split_ifs with hacc
      · right
        simp only
        rw [hc1] at hacc
        refine ⟨hc4, hc5, hc6, ?_⟩
        have := hacc.1
        omega
      · exact hg
    · simp only [hge, if_false]
      exact ⟨best, rfl, hg⟩

/-! ## The scan loop -/

theorem scanLoop_spec (F : Nat) (zSrc zOut : List Nat) (nHash : Nat) (collide landmark : List Int)
    (base : Nat) (hF : 6 ≤ F) (hS : zSrc.length < 1073741824) (hT : zOut.length < 1073741824)
    (hcol : TableOK zSrc collide) (hland : TableOK zSrc landmark) :
    ∀ (fuel : Nat) (h : hash) (i : Nat) (zDelta : List Nat),
      base + i + NHASH ≤ zOut.length → zOut.length < base + i + NHASH + fuel →
      ∃ (base' : Nat) (cmds : List Nat) (n : Nat),
        scanLoop F zSrc zOut nHash collide landmark base fuel h i zDelta
          = some (base', zDelta ++ cmds) ∧
        base < base' ∧ base' ≤ zOut.length ∧ n ≤ cmds.length ∧
        Run zSrc zOut.length n cmds base (zOut.take base) base' (zOut.take base') ∧
        (cmds.length ≤ base' - base ∨
          (base' = zOut.length ∧ cmds.length ≤ base' - base + 6)) := by
  intro fuel
  induction fuel with
  | zero => intro h i zDelta h1 h2; omega
  | succ fuel ih =>
    intro h i zDelta h1 h2
    have hN : NHASH = 16 := rfl
    rw [scanLoop]
    obtain ⟨best, hbest, hgood⟩ := chainLoop_spec F zSrc zOut collide base i hF hS hT hcol
      (by omega) 250 (landmark.getD (hash_32bit h % nHash) (-1)) { cnt := 0, ofst := 0, litsz := 0 }
      (TableOK_getD zSrc landmark hland _) (Or.inl rfl)
    simp only [hbest]
    by_cases hcnt : best.cnt > 0
    · simp only [hcnt, if_true]
      rcases hgood with h0 | ⟨hg1, hg2, hg3, hg4⟩
      · omega
      have hcopy := Run_copy zSrc zOut.length best.cnt best.ofst (base + best.litsz)
        (zOut.take (base + best.litsz)) hg1 (by omega) (by omega) (by omega)
      rw [hg3, ← List.take_add] at hcopy
      by_cases hl : best.litsz > 0
      · simp only [hl, if_true]
        have hins := Run_insert zSrc zOut.length best.litsz ((zOut.drop base).take best.litsz) base
          (zOut.take base) (by rw [List.length_take, List.length_drop]; omega) (by omega) (by omega)
        rw [← List.take_add] at hins
        refine ⟨base + best.litsz + best.cnt,
          (putInt best.litsz ++ 58 :: (zOut.drop base).take best.litsz) ++
            (putInt best.cnt ++ 64 :: (putInt best.ofst ++ [44])), 1 + 1, ?_, by omega, by omega, ?_,
          Run_append hins hcopy, ?_⟩
        · simp only [List.append_assoc, List.singleton_append, List.cons_append, List.nil_append]
        · simp only [List.length_append, List.length_cons]; omega
        · left
          simp only [List.length_append, List.length_cons, List.length_take, List.length_drop,
            List.length_nil]
          omega
      · simp only [hl, if_false]
        have hl0 : best.litsz = 0 := by omega
        rw [hl0] at hcopy hg4
        simp only [Nat.add_zero] at hcopy
        have h48 : (putInt 0).length = 1 := by decide
        refine ⟨base + best.cnt, putInt best.cnt ++ 64 :: (putInt best.ofst ++ [44]), 1, ?_,
          by omega, by omega, ?_, hcopy, ?_⟩
        · simp only [List.append_assoc, List.singleton_append, List.cons_append, List.nil_append]
        · simp only [List.length_append, List.length_cons]; omega
        · left
          simp only [List.length_append, List.length_cons, List.length_nil]
          omega
    · simp only [hcnt, if_false]
      by_cases hend : base + i + NHASH ≥ zOut.length
      · simp only [hend, if_true]
        have hins := Run_insert zSrc zOut.length (zOut.length - base)
          ((zOut.drop base).take (zOut.length - base)) base
          (zOut.take base) (by rw [List.length_take, List.length_drop]; omega) (by omega) (by omega)
        rw [← List.take_add] at hins
        have e : base + (zOut.length - base) = zOut.length := by omega
        rw [e] at hins
        have hd := putInt_length_le 5 (zOut.length - base) (by decide) (by norm_num; omega) (by omega)
        refine ⟨zOut.length, putInt (zOut.length - base) ++ 58 ::
          (zOut.drop base).take (zOut.length - base), 1, ?_, by omega, by omega, ?_, hins, ?_⟩
        · simp only [List.append_assoc, List.singleton_append, List.cons_append, List.nil_append]
        · simp only [List.length_append, List.length_cons]; omega
        · right
          refine ⟨rfl, ?_⟩
          simp only [List.length_append, List.length_cons, List.length_take, List.length_drop]
          omega
      · simp only [hend, if_false]
        have := ih (hash_next h (zOut.getD (base + i + NHASH) 0)) (i + 1) zDelta (by omega) (by omega)
        exact this

/-! ## The main loop and the hash table -/

theorem mainLoop_spec (F : Nat) (zSrc zOut : List Nat) (nHash : Nat) (collide landmark : List Int)
    (hF : 6 ≤ F) (hFT : zOut.length ≤ F) (hS : zSrc.length < 1073741824)
    (hT : zOut.length < 1073741824)
    (hcol : TableOK zSrc collide) (hland : TableOK zSrc landmark) :
    ∀ (fuel : Nat) (base : Nat) (zDelta : List Nat),
      base ≤ zOut.length → zOut.length - base < fuel →
      ∃ (base' : Nat) (cmds : List Nat) (n : Nat),
        mainLoop F zSrc zOut nHash collide landmark fuel base zDelta
          = some (base', zDelta ++ cmds) ∧
        base ≤ base' ∧ base' ≤ zOut.length ∧ n ≤ cmds.length ∧
        Run zSrc zOut.length n cmds base (zOut.take base) base' (zOut.take base') ∧
        (cmds.length ≤ base' - base ∨
          (base' = zOut.length ∧ cmds.length ≤ base' - base + 6)) ∧
        (¬ (base + NHASH < zOut.length) → cmds = [] ∧ base' = base) := by
  intro fuel
  induction fuel with
  | zero => intro base zDelta h1 h2; omega
  | succ fuel ih =>
    intro base zDelta h1 h2
    have hN : NHASH = 16 := rfl
    rw [mainLoop]
    by_cases hc : base + NHASH < zOut.length
    · simp only [hc, if_true]
      obtain ⟨b1, c1, n1, hs, hb1, hb2, hn1, hrun1, hlen1⟩ :=
        scanLoop_spec F zSrc zOut nHash collide landmark base hF hS hT hcol hland F
          (hash_init zOut base) 0 zDelta (by omega) (by omega)
      obtain ⟨b2, c2, n2, hm, hb3, hb4, hn2, hrun2, hlen2, hstop⟩ :=
        ih b1 (zDelta ++ c1) hb2 (by omega)
      simp only [hs, hm]
      refine ⟨b2, c1 ++ c2, n1 + n2, by rw [List.append_assoc], by omega, hb4, ?_,
        Run_append hrun1 hrun2, ?_, fun h => absurd trivial h⟩
      · simp only [List.length_append]; omega
      · simp only [List.length_append]
        rcases hlen1 with h | ⟨h, h'⟩
        · rcases hlen2 with g | ⟨g, g'⟩
          · left; omega
          · right; exact ⟨g, by omega⟩
        · obtain ⟨e1, e2⟩ := hstop (by omega)
          subst e1
          right
          simp only [List.length_nil]
          exact ⟨by omega, by omega⟩
    · simp only [hc, if_false]
      exact ⟨base, [], 0, by simp, le_refl _, h1, by simp, Run_nil _ _ _ _, Or.inl (by simp),
        fun _ => ⟨rfl, rfl⟩⟩

theorem hashLoop_spec (zSrc : List Nat) (nHash : Nat) :
    ∀ (fuel i : Nat) (collide landmark : List Int), zSrc.length - i < fuel →
      TableOK zSrc collide → TableOK zSrc landmark →
      ∃ c l, hashLoop zSrc nHash fuel i collide landmark = some (c, l) ∧
        TableOK zSrc c ∧ TableOK zSrc l := by
  intro fuel
  induction fuel with
  | zero => intro i collide landmark h; omega
  | succ fuel ih =>
    intro i collide landmark h hc hl
    have hN : NHASH = 16 := rfl
    rw [hashLoop]
    by_cases hi : i < zSrc.length - NHASH
    · simp only [hi, if_true]
      apply ih _ _ _ (by omega)
      · intro x hx
        rcases List.mem_or_eq_of_mem_set hx with h1 | h1
        · exact hc x h1
        · rw [h1]; exact TableOK_getD zSrc landmark hl _
      · intro x hx
        rcases List.mem_or_eq_of_mem_set hx with h1 | h1
        · exact hl x h1
        · rw [h1]
          right
          refine ⟨Int.ofNat_nonneg _, ?_⟩
          rw [Int.toNat_ofNat]
          have := Nat.div_mul_le_self i NHASH
          omega
    · simp only [hi, if_false]
      exact ⟨collide, landmark, rfl, hc, hl⟩

theorem TableOK_replicate (zSrc : List Nat) (n : Nat) : TableOK zSrc (List.replicate n (-1)) := by
  intro x hx
  exact Or.inl (List.eq_of_mem_replicate hx)

/-! ## The checksum is a 32-bit value -/

theorem checksumTail_lt (z : List Nat) (s0 s1 s2 s3 : Nat) :
    checksumTail z s0 s1 s2 s3 < 4294967296 := by
  unfold checksumTail
  split <;> exact Nat.mod_lt _ (by decide)

theorem checksum4_lt (z : List Nat) (s0 s1 s2 s3 : Nat) :
    checksum4 z s0 s1 s2 s3 < 4294967296 := by
  induction z, s0, s1, s2, s3 using checksum4.induct with
  | case1 z0 z1 z2 z3 rest s0 s1 s2 s3 ih => rw [checksum4]; exact ih
  | case2 z s0 s1 s2 s3 h => rw [checksum4]; exact checksumTail_lt _ _ _ _ _; exact h

theorem checksum16_lt (z : List Nat) (s0 s1 s2 s3 : Nat) :
    checksum16 z s0 s1 s2 s3 < 4294967296 := by
  induction z, s0, s1, s2, s3 using checksum16.induct with
  | case1 z0 z1 z2 z3 z4 z5 z6 z7 z8 z9 z10 z11 z12 z13 z14 z15 rest s0 s1 s2 s3 ih =>
    rw [checksum16]; exact ih
  | case2 z s0 s1 s2 s3 h => rw [checksum16]; exact checksum4_lt _ _ _ _ _; exact h

/-- The checksum fits into 32 bits. -/
theorem checksum_lt (z : List Nat) : checksum z < 4294967296 := checksum16_lt z 0 0 0 0

/-! ## The shape of a created delta -/

/-- With enough fuel `delta_create` answers: the target length, a newline,
commands that rebuild the target from the source, the checksum and `;`. -/
theorem delta_create_spec (fuel : Nat) (zSrc zOut : List Nat) (hS : zSrc.length < 1073741824)
    (hT : zOut.length < 1073741824) (hfuel : zSrc.length + zOut.length + 6 ≤ fuel) :
    ∃ (cmds : List Nat) (n : Nat),
      delta_create fuel zSrc zOut
        = some (putInt zOut.length ++ 10 :: (cmds ++ (putInt (checksum zOut) ++ [59]))) ∧
      n ≤ cmds.length ∧ Run zSrc zOut.length n cmds 0 [] zOut.length zOut ∧
      cmds.length ≤ zOut.length + 6 := by
  have hN : NHASH = 16 := rfl
  unfold delta_create
  by_cases hsmall : zSrc.length ≤ NHASH
  · simp only [hsmall, if_true]
    have hins := Run_insert zSrc zOut.length zOut.length zOut 0 [] rfl (by omega) (by omega)
    simp only [Nat.zero_add, List.nil_append] at hins
    have hd := putInt_length_le 5 zOut.length (by decide) (by norm_num; omega) (by omega)
    refine ⟨putInt zOut.length ++ 58 :: zOut, 1, ?_, ?_, hins, ?_⟩
    · simp only [List.append_assoc, List.singleton_append, List.cons_append, List.nil_append]
    · simp only [List.length_append, List.length_cons]; omega
    · simp only [List.length_append, List.length_cons]; omega
  · simp only [hsmall, if_false]
    obtain ⟨c, l, hh, hc, hl⟩ := hashLoop_spec zSrc (zSrc.length / NHASH) fuel 0
      (List.replicate (zSrc.length / NHASH) (-1)) (List.replicate (zSrc.length / NHASH) (-1))
      (by omega) (TableOK_replicate _ _) (TableOK_replicate _ _)
    obtain ⟨b, c1, n1, hm, _, hb2, hn1, hrun1, hlen1, _⟩ :=
      mainLoop_spec fuel zSrc zOut (zSrc.length / NHASH) c l (by omega) (by omega) hS hT hc hl
        fuel 0 (putInt zOut.length ++ [10]) (by omega) (by omega)
    simp only [hh, hm]
    simp only [List.take_zero] at hrun1
    by_cases hfin : b < zOut.length
    · simp only [hfin, if_true]
      have hins := Run_insert zSrc zOut.length (zOut.length - b)
        ((zOut.drop b).take (zOut.length - b)) b
        (zOut.take b) (by rw [List.length_take, List.length_drop]; omega) (by omega) (by omega)
      rw [← List.take_add] at hins
      have e : b + (zOut.length - b) = zOut.length := by omega
      rw [e, List.take_length] at hins
      have hd := putInt_length_le 5 (zOut.length - b) (by decide) (by norm_num; omega) (by omega)
      refine ⟨c1 ++ (putInt (zOut.length - b) ++ 58 :: (zOut.drop b).take (zOut.length - b)),
        n1 + 1, ?_, ?_, Run_append hrun1 hins, ?_⟩
      · simp only [List.append_assoc, List.singleton_append, List.cons_append, List.nil_append]
      · simp only [List.length_append, List.length_cons]; omega
      · simp only [List.length_append, List.length_cons, List.length_take, List.length_drop]
        omega
    · simp only [hfin, if_false]
      have e : b = zOut.length := by omega
      subst e
      rw [List.take_length] at hrun1
      refine ⟨c1, n1, ?_, hn1, hrun1, by omega⟩
      simp only [List.append_assoc, List.singleton_append, List.cons_append, List.nil_append]

/-! ## Round trip and size of a delta -/

/-- `delta_apply` on a script that starts with a written length and a newline
enters the command loop behind them. -/
theorem delta_apply_header (fuel : Nat) (zSrc rest : List Nat) (limit : Nat) (len : Int)
    (hl : limit < 4294967296) :
    delta_apply fuel zSrc (putInt limit ++ 10 :: rest) len
      = applyLoop zSrc limit fuel rest (len - ((putInt limit).length : Int) - 1) 0 [] := by
  unfold delta_apply
  simp only [getInt_putInt limit 10 rest len hl (by decide), List.headD_cons, ne_eq,
    not_true_eq_false, if_false, List.tail_cons]

/-- A script of the shape `delta_create` produces is applied successfully. -/
theorem delta_apply_shape (zSrc zOut cmds : List Nat) (n : Nat) (hT : zOut.length < 1073741824)
    (hn : n ≤ cmds.length) (hlen : cmds.length ≤ zOut.length + 6)
    (hrun : Run zSrc zOut.length n cmds 0 [] zOut.length zOut) (fuel : Nat)
    (hfuel : (putInt zOut.length ++ 10 :: (cmds ++ (putInt (checksum zOut) ++ [59]))).length ≤ fuel) :
    delta_apply fuel zSrc (putInt zOut.length ++ 10 :: (cmds ++ (putInt (checksum zOut) ++ [59])))
      ((putInt zOut.length ++ 10 :: (cmds ++ (putInt (checksum zOut) ++ [59]))).length : Int)
      = some (ApplyResult.ok zOut.length zOut) := by
  have h6 := putInt_length_le_six (checksum zOut)
  have h5 := putInt_length_le_six zOut.length
  rw [delta_apply_header _ _ _ _ _ (by omega)]
  simp only [List.length_append, List.length_cons, List.length_nil] at hfuel
  have e1 : (((putInt zOut.length ++ 10 :: (cmds ++ (putInt (checksum zOut) ++ [59]))).length : Nat)
      : Int) - ((putInt zOut.length).length : Int) - 1
      = (((cmds ++ (putInt (checksum zOut) ++ [59])).length : Nat) : Int) := by
    simp only [List.length_append, List.length_cons, List.length_nil]; push_cast; omega
  obtain ⟨f, hf⟩ : ∃ f, fuel = (f + 1) + n := ⟨fuel - n - 1, by omega⟩
  rw [e1, hf, hrun (f + 1) (putInt (checksum zOut) ++ [59])
    (by simp only [List.length_append, List.length_cons, List.length_nil]; omega)]
  rw [applyLoop_end zSrc zOut.length (checksum zOut) f zOut.length zOut [] _ (checksum_lt zOut)
    (by simp only [List.length_append, List.length_cons, List.length_nil]; omega)]
  simp

/-! ## More fuel does not change an answer -/

theorem digit_countLoop_mono (v : Nat) : ∀ (fuel fuel' i x d : Nat), fuel ≤ fuel' →
    digit_countLoop v fuel i x = some d → digit_countLoop v fuel' i x = some d := by
  intro fuel
  induction fuel with
  | zero => intro fuel' i x d _ h; simp [digit_countLoop] at h
  | succ fuel ih =>
    intro fuel' i x d hle h
    obtain ⟨f', rfl⟩ : ∃ f', fuel' = f' + 1 := ⟨fuel' - 1, by omega⟩
    rw [digit_countLoop] at h ⊢
    split_ifs at h ⊢ with hc
    · exact ih f' _ _ _ (by omega) h
    · exact h

theorem digit_count_mono (fuel fuel' v d : Nat) (hle : fuel ≤ fuel')
    (h : digit_count fuel v = some d) : digit_count fuel' v = some d :=
  digit_countLoop_mono v fuel fuel' 1 64 d hle h

theorem chainLoop_mono (F F' : Nat) (hFF : F ≤ F') (zSrc zOut : List Nat) (collide : List Int)
    (base i : Nat) : ∀ (limit : Nat) (iBlock : Int) (best b : Best),
    chainLoop F zSrc zOut collide base i limit iBlock best = some b →
    chainLoop F' zSrc zOut collide base i limit iBlock best = some b := by
  intro limit
  induction limit with
  | zero => intro iBlock best b h; simpa [chainLoop] using h
  | succ limit ih =>
    intro iBlock best b h
    rw [chainLoop] at h ⊢
    by_cases hge : iBlock ≥ 0
    · simp only [hge, if_true] at h ⊢
      cases h1 : digit_count F (matchBlock zSrc zOut base i iBlock).litsz with
      | none => simp [h1] at h
      | some d1 =>
        cases h2 : digit_count F (matchBlock zSrc zOut base i iBlock).cnt.toNat with
        | none => simp [h1, h2] at h
        | some d2 =>
          cases h3 : digit_count F (matchBlock zSrc zOut base i iBlock).ofst with
          | none => simp [h1, h2, h3] at h
          | some d3 =>
            simp only [h1, h2, h3] at h
            simp only [digit_count_mono F F' _ _ hFF h1, digit_count_mono F F' _ _ hFF h2,
              digit_count_mono F F' _ _ hFF h3]
            exact ih _ _ _ h
    · simp only [hge, if_false] at h ⊢
      exact h

theorem scanLoop_mono (F F' : Nat) (hFF : F ≤ F') (zSrc zOut : List Nat) (nHash : Nat)
    (collide landmark : List Int) (base : Nat) :
    ∀ (fuel fuel' : Nat) (h : hash) (i : Nat) (zDelta : List Nat) (r : Nat × List Nat),
    fuel ≤ fuel' →
    scanLoop F zSrc zOut nHash collide landmark base fuel h i zDelta = some r →
    scanLoop F' zSrc zOut nHash collide landmark base fuel' h i zDelta = some r := by
  intro fuel
  induction fuel with
  | zero => intro fuel' h i zDelta r _ hr; simp [scanLoop] at hr
  | succ fuel ih =>
    intro fuel' h i zDelta r hle hr
    obtain ⟨f', rfl⟩ : ∃ f', fuel' = f' + 1 := ⟨fuel' - 1, by omega⟩
    rw [scanLoop] at hr ⊢
    cases hc : chainLoop F zSrc zOut collide base i 250
        (landmark.getD (hash_32bit h % nHash) (-1)) { cnt := 0, ofst := 0, litsz := 0 } with
    | none => rw [hc] at hr; cases hr
    | some best =>
      simp only [hc] at hr
      simp only [chainLoop_mono F F' hFF zSrc zOut collide base i _ _ _ _ hc]
      split_ifs at hr ⊢
      all_goals first
        | exact hr
        | exact ih f' _ _ _ _ (by omega) hr

theorem mainLoop_mono (F F' : Nat) (hFF : F ≤ F') (zSrc zOut : List Nat) (nHash : Nat)
    (collide landmark : List Int) :
    ∀ (fuel fuel' : Nat) (base : Nat) (zDelta : List Nat) (r : Nat × List Nat),
    fuel ≤ fuel' →
    mainLoop F zSrc zOut nHash collide landmark fuel base zDelta = some r →
    mainLoop F' zSrc zOut nHash collide landmark fuel' base zDelta = some r := by
  intro fuel
  induction fuel with
  | zero => intro fuel' base zDelta r _ hr; simp [mainLoop] at hr
  | succ fuel ih =>
    intro fuel' base zDelta r hle hr
    obtain ⟨f', rfl⟩ : ∃ f', fuel' = f' + 1 := ⟨fuel' - 1, by omega⟩
    rw [mainLoop] at hr ⊢
    split_ifs at hr ⊢ with h1
    · cases hs : scanLoop F zSrc zOut nHash collide landmark base F (hash_init zOut base) 0 zDelta with
      | none => simp [hs] at hr
      | some q =>
        simp only [hs] at hr
        simp only [scanLoop_mono F F' hFF zSrc zOut nHash collide landmark base F F' _ _ _ _ hFF hs]
        exact ih f' _ _ _ (by omega) hr
    · exact hr

theorem hashLoop_mono (zSrc : List Nat) (nHash : Nat) :
    ∀ (fuel fuel' i : Nat) (collide landmark : List Int) (r : List Int × List Int),
    fuel ≤ fuel' → hashLoop zSrc nHash fuel i collide landmark = some r →
    hashLoop zSrc nHash fuel' i collide landmark = some r := by
  intro fuel
  induction fuel with
  | zero => intro fuel' i c l r _ hr; simp [hashLoop] at hr
  | succ fuel ih =>
    intro fuel' i c l r hle hr
    obtain ⟨f', rfl⟩ : ∃ f', fuel' = f' + 1 := ⟨fuel' - 1, by omega⟩
    rw [hashLoop] at hr ⊢
    split_ifs at hr ⊢ with h1
    · exact ih f' _ _ _ _ (by omega) hr
    · exact hr

/-- An answer of `delta_create` does not depend on the fuel. -/
theorem delta_create_mono (fuel fuel' : Nat) (zSrc zOut d : List Nat) (hle : fuel ≤ fuel')
    (h : delta_create fuel zSrc zOut = some d) : delta_create fuel' zSrc zOut = some d := by
  unfold delta_create at h ⊢
  by_cases hsmall : zSrc.length ≤ NHASH
  · simp only [hsmall, if_true] at h ⊢
    exact h
  · simp only [hsmall, if_false] at h ⊢
    cases hh : hashLoop zSrc (zSrc.length / NHASH) fuel 0
        (List.replicate (zSrc.length / NHASH) (-1)) (List.replicate (zSrc.length / NHASH) (-1)) with
    | none => simp [hh] at h
    | some tb =>
      obtain ⟨c, l⟩ := tb
      simp only [hh] at h
      simp only [hashLoop_mono zSrc _ fuel fuel' 0 _ _ _ hle hh]
      cases hm : mainLoop fuel zSrc zOut (zSrc.length / NHASH) c l fuel 0
          (putInt zOut.length ++ [10]) with
      | none => simp [hm] at h
      | some q =>
        obtain ⟨b, z⟩ := q
        simp only [hm] at h
        simp only [mainLoop_mono fuel fuel' hle zSrc zOut _ c l fuel fuel' 0 _ _ hle hm]
        exact h

theorem applyLoop_mono (zSrc : List Nat) (limit : Nat) :
    ∀ (fuel fuel' : Nat) (z : List Nat) (len : Int) (t : Nat) (o : List Nat) (r : ApplyResult),
    fuel ≤ fuel' → applyLoop zSrc limit fuel z len t o = some r →
    applyLoop zSrc limit fuel' z len t o = some r := by
  intro fuel
  induction fuel with
  | zero => intro fuel' z len t o r _ hr; simp [applyLoop] at hr
  | succ fuel ih =>
    intro fuel' z len t o r hle hr
    obtain ⟨f', rfl⟩ : ∃ f', fuel' = f' + 1 := ⟨fuel' - 1, by omega⟩
    rw [applyLoop] at hr ⊢
    cases hs : applyStep zSrc limit z len t o with
    | done q => rw [hs] at hr; exact hr
    | next z1 l1 t1 o1 => rw [hs] at hr; exact ih f' _ _ _ _ _ (by omega) hr

/-- An answer of `delta_apply` does not depend on the fuel. -/
theorem delta_apply_mono (fuel fuel' : Nat) (zSrc zDelta : List Nat) (len : Int) (r : ApplyResult)
    (hle : fuel ≤ fuel') (h : delta_apply fuel zSrc zDelta len = some r) :
    delta_apply fuel' zSrc zDelta len = some r := by
  simp only [delta_apply] at h ⊢
  split_ifs at h ⊢
  · exact h
  · exact applyLoop_mono zSrc _ fuel fuel' _ _ _ _ _ hle h

/-! ## Round trip and size of a delta -/

/-- For buffers shorter than `2^30` bytes there is one delta that `delta_create`
answers for every sufficient fuel, and it has the shape of `delta_create_spec`. -/
theorem delta_create_shape (zSrc zOut : List Nat) (hS : zSrc.length < 1073741824)
    (hT : zOut.length < 1073741824) :
    ∃ (cmds : List Nat) (n : Nat),
      (∀ fuel, zSrc.length + zOut.length + 6 ≤ fuel → delta_create fuel zSrc zOut
        = some (putInt zOut.length ++ 10 :: (cmds ++ (putInt (checksum zOut) ++ [59])))) ∧
      n ≤ cmds.length ∧ Run zSrc zOut.length n cmds 0 [] zOut.length zOut ∧
      cmds.length ≤ zOut.length + 6 := by
  obtain ⟨cmds, n, hd, hn, hrun, hlen⟩ :=
    delta_create_spec (zSrc.length + zOut.length + 6) zSrc zOut hS hT (le_refl _)
  exact ⟨cmds, n, fun fuel hf => delta_create_mono _ fuel zSrc zOut _ hf hd, hn, hrun, hlen⟩

/-- C1. Round trip: for buffers shorter than `2^30` bytes `delta_create` answers
(for every sufficient fuel) one delta `d`, and `delta_apply` of the source and
`d` succeeds, returns the length of the target and has written exactly the
bytes of the target. -/
theorem delta_roundtrip (zSrc zOut : List Nat) (hS : zSrc.length < 1073741824)
    (hT : zOut.length < 1073741824) :
    ∃ d, (∀ fuel, zSrc.length + zOut.length + 6 ≤ fuel → delta_create fuel zSrc zOut = some d) ∧
      (∀ fuel, d.length ≤ fuel →
        delta_apply fuel zSrc d (d.length : Int) = some (ApplyResult.ok zOut.length zOut)) ∧
      (ApplyResult.ok zOut.length zOut).ret = some (zOut.length : Int) := by
  obtain ⟨cmds, n, hd, hn, hrun, hlen⟩ := delta_create_shape zSrc zOut hS hT
  refine ⟨_, hd, fun fuel hf => delta_apply_shape zSrc zOut cmds n hT hn hlen hrun fuel hf, ?_⟩
  simp only [ApplyResult.ret, toInt32]
  have h1 : zOut.length % 4294967296 = zOut.length := Nat.mod_eq_of_lt (by omega)
  rw [h1, if_pos (by omega)]

/-- The round trip at the source `abcdefghijklmnopqrstuvwxyz` and the target `hello`. -/
theorem delta_roundtrip_witness :
    (abc.length < 1073741824 ∧ hello.length < 1073741824) ∧
    ∃ d, (∀ fuel, abc.length + hello.length + 6 ≤ fuel → delta_create fuel abc hello = some d) ∧
      (∀ fuel, d.length ≤ fuel →
        delta_apply fuel abc d (d.length : Int) = some (ApplyResult.ok hello.length hello)) ∧
      (ApplyResult.ok hello.length hello).ret = some (hello.length : Int) :=
  ⟨by decide, delta_roundtrip abc hello (by decide) (by decide)⟩

/-! ## `putInt` writes the base-64 numeral -/

theorem putIntDigits_eq_digits (n : Nat) : ∀ (v : Nat), v < 64 ^ n →
    putIntDigits n v = (Nat.digits 64 v).map (fun d => zDigits.getD d 0) := by
  induction n with
  | zero =>
    intro v hv
    have : v = 0 := by simpa using hv
    subst this
    simp [putIntDigits]
  | succ n ih =>
    intro v hv
    by_cases h0 : v = 0
    · subst h0; simp [putIntDigits]
    · have hpos : v > 0 := Nat.pos_of_ne_zero h0
      have hand : v &&& 0x3f = v % 64 := Nat.and_pow_two_sub_one_eq_mod v 6
      have hshr : v >>> 6 = v / 64 := by rw [Nat.shiftRight_eq_div_pow]
      have hdiv : v / 64 < 64 ^ n := by
        rw [Nat.div_lt_iff_lt_mul (by decide)]; rw [pow_succ] at hv; exact hv
      rw [Nat.digits_def' (by decide) hpos]
      simp only [putIntDigits, hpos, if_true, hand, hshr, List.map_cons, ih _ hdiv]

/-- `putInt` writes the base-64 numeral of a 32-bit value. -/
theorem putInt_eq_base64 (v : Nat) (hv : v < 4294967296) : putInt v = base64 v := by
  unfold putInt base64
  simp only [Nat.mod_eq_of_lt hv]
  by_cases h0 : v = 0
  · simp [h0]
  · simp only [h0, if_false]
    rw [putIntDigits_eq_digits 20 v (lt_of_lt_of_le hv (by norm_num)), List.map_reverse]

/-- C4. A source of at most 16 bytes: the delta is the base-64 length of the
target, a newline, the base-64 length again, `:`, the bytes of the target, the
base-64 checksum of the target and `;`, that is one literal INSERT and the
checksum.  For the empty source and the target `hello` this is `5\n5:hello`,
the checksum and `;`, and applying it to the empty source gives `hello`. -/
theorem delta_create_small (zSrc zOut : List Nat) (fuel : Nat) (hS : zSrc.length ≤ 16)
    (hT : zOut.length < 4294967296) :
    delta_create fuel zSrc zOut
      = some (base64 zOut.length ++ [10] ++ base64 zOut.length ++ [58] ++ zOut
          ++ base64 (checksum zOut) ++ [59]) ∧
    delta_create fuel [] hello
      = some ([53, 10, 53, 58] ++ hello ++ base64 (checksum hello) ++ [59]) ∧
    (∀ fuel', 2 ≤ fuel' →
      delta_apply fuel' [] ([53, 10, 53, 58] ++ hello ++ base64 (checksum hello) ++ [59])
        (([53, 10, 53, 58] ++ hello ++ base64 (checksum hello) ++ [59]).length : Int)
        = some (ApplyResult.ok 5 hello)) := by
  have hck : base64 (checksum hello) = putInt (checksum hello) :=
    (putInt_eq_base64 _ (checksum_lt hello)).symm
  refine ⟨?_, ?_, ?_⟩
  · unfold delta_create
    have h16 : zSrc.length ≤ NHASH := hS
    simp only [h16, if_true, putInt_eq_base64 _ hT, putInt_eq_base64 _ (checksum_lt zOut)]
  · rw [hck]
    apply delta_create_mono 0 fuel _ _ _ (Nat.zero_le _)
    decide
  · intro fuel' hf
    rw [hck]
    apply delta_apply_mono 2 fuel' _ _ _ _ hf
    decide

/-- The small-source delta at the source `hello` and the target
`abcdefghijklmnopqrstuvwxyz`. -/
theorem delta_create_small_witness :
    (hello.length ≤ 16 ∧ abc.length < 4294967296) ∧
    (delta_create 0 hello abc
      = some (base64 abc.length ++ [10] ++ base64 abc.length ++ [58] ++ abc
          ++ base64 (checksum abc) ++ [59]) ∧
    delta_create 0 [] hello
      = some ([53, 10, 53, 58] ++ hello ++ base64 (checksum hello) ++ [59]) ∧
    (∀ fuel', 2 ≤ fuel' →
      delta_apply fuel' [] ([53, 10, 53, 58] ++ hello ++ base64 (checksum hello) ++ [59])
        (([53, 10, 53, 58] ++ hello ++ base64 (checksum hello) ++ [59]).length : Int)
        = some (ApplyResult.ok 5 hello))) :=
  ⟨by decide, delta_create_small hello abc 0 (by decide) (by decide)⟩

/-- C5. Source and target both `abcdefghijklmnopqrstuvwxyz`: the delta is
`Q\nQ@0,`, the base-64 checksum and `;`, that is one COPY of 26 bytes from
offset 0 and no INSERT; applying it to the source gives the source back. -/
theorem delta_create_abc :
    (∀ fuel, 58 ≤ fuel →
      delta_create fuel abc abc = some ([81, 10, 81, 64, 48, 44] ++ base64 (checksum abc) ++ [59])) ∧
    (∀ fuel, 2 ≤ fuel →
      delta_apply fuel abc ([81, 10, 81, 64, 48, 44] ++ base64 (checksum abc) ++ [59])
        (([81, 10, 81, 64, 48, 44] ++ base64 (checksum abc) ++ [59]).length : Int)
        = some (ApplyResult.ok 26 abc)) := by
  have hck : base64 (checksum abc) = putInt (checksum abc) :=
    (putInt_eq_base64 _ (checksum_lt abc)).symm
  rw [hck]
  constructor
  · intro fuel hf
    apply delta_create_mono 58 fuel _ _ _ hf
    decide
  · intro fuel hf
    apply delta_apply_mono 2 fuel _ _ _ _ hf
    decide
/-! ## A delta that does not fit the buffer of `blob_delta_create` -/

theorem checksum16_replicate (m : Nat) : ∀ (s0 s1 s2 s3 : Nat),
    s0 < 4294967296 → s1 < 4294967296 → s2 < 4294967296 → s3 < 4294967296 →
    checksum16 (List.replicate (16 * m) 255) s0 s1 s2 s3
      = checksum16 [] ((s0 + 1020 * m) % 4294967296) ((s1 + 1020 * m) % 4294967296)
          ((s2 + 1020 * m) % 4294967296) ((s3 + 1020 * m) % 4294967296) := by
  induction m with
  | zero =>
    intro s0 s1 s2 s3 h0 h1 h2 h3
    simp only [Nat.mul_zero, List.replicate_zero, Nat.add_zero, Nat.mod_eq_of_lt h0,
      Nat.mod_eq_of_lt h1, Nat.mod_eq_of_lt h2, Nat.mod_eq_of_lt h3]
  | succ m ih =>
    intro s0 s1 s2 s3 h0 h1 h2 h3
    have e : 16 * (m + 1) = 16 + 16 * m := by ring
    have e16 : List.replicate 16 255
        = [255, 255, 255, 255, 255, 255, 255, 255, 255, 255, 255, 255, 255, 255, 255, 255] := rfl
    have step : ∀ s : Nat, ((s + (255 + 255 + 255 + 255)) % 4294967296 + 1020 * m) % 4294967296
        = (s + 1020 * (m + 1)) % 4294967296 := by
      intro s; omega
    rw [e, List.replicate_add, e16]
    simp only [List.cons_append, List.nil_append]
    rw [checksum16, ih _ _ _ _ (Nat.mod_lt _ (by decide)) (Nat.mod_lt _ (by decide))
      (Nat.mod_lt _ (by decide)) (Nat.mod_lt _ (by decide))]
    rw [step s0, step s1, step s2, step s3]

theorem ffBlock_length : ffBlock.length = 262144 := by
  unfold ffBlock
  rw [List.length_replicate]

theorem checksum_ffBlock : checksum ffBlock = 4294901760 := by
  have h := checksum16_replicate 16384 0 0 0 0 (by decide) (by decide) (by decide) (by decide)
  unfold checksum ffBlock
  rw [h]
  decide

/-- The delta for an empty source. -/
theorem delta_create_nil (T : List Nat) (fuel : Nat) :
    delta_create fuel [] T
      = some (putInt T.length ++ [10] ++ putInt T.length ++ [58] ++ T
          ++ putInt (checksum T) ++ [59]) := by
  unfold delta_create
  simp only [List.length_nil, Nat.zero_le, if_true]

theorem delta_nil_length (T : List Nat) (hl : T.length = 262144)
    (hc : checksum T = 4294901760) :
    (putInt T.length ++ [10] ++ putInt T.length ++ [58] ++ T
        ++ putInt (checksum T) ++ [59]).length = T.length + 17 ∧
      blob_delta_create_bufsize T.length
        < (putInt T.length ++ [10] ++ putInt T.length ++ [58] ++ T
            ++ putInt (checksum T) ++ [59]).length := by
  have h4 : (putInt 262144).length = 4 := by decide
  have h6 : (putInt 4294901760).length = 6 := by decide
  simp only [List.length_append, List.length_cons, List.length_nil,
      hc, hl, h4, h6, blob_delta_create_bufsize]
  decide

/-- C3 (evaluation at the failing input). For the empty source and a target of
262144 bytes `0xFF` the delta takes 262144 + 17 bytes, one byte more than the
buffer that `blob_delta_create` provides. -/
theorem delta_create_exceeds_buffer :
    ∀ fuel, ∃ d, delta_create fuel [] ffBlock = some d ∧
      d.length = ffBlock.length + 17 ∧
      blob_delta_create_bufsize ffBlock.length < d.length := by
  intro fuel
  exact ⟨_, delta_create_nil ffBlock fuel,
    delta_nil_length ffBlock ffBlock_length checksum_ffBlock⟩

/-! ## The declared size of a delta -/

theorem getIntLoop_lt : ∀ (z : List Nat) (v : Nat), v < 4294967296 →
    (getIntLoop z v).1 < 4294967296 := by
  intro z
  induction z with
  | nil => intro v hv; simpa [getIntLoop] using hv
  | cons c rest ih =>
    intro v hv
    rw [getIntLoop]
    split_ifs
    · exact ih _ (Nat.mod_lt _ (by decide))
    · exact hv

theorem scanLoop_prefix (F : Nat) (zSrc zOut : List Nat) (nHash : Nat)
    (collide landmark : List Int) (base : Nat) :
    ∀ (fuel : Nat) (h : hash) (i : Nat) (zDelta : List Nat) (r : Nat × List Nat),
    scanLoop F zSrc zOut nHash collide landmark base fuel h i zDelta = some r →
    ∃ c, r.2 = zDelta ++ c := by
  intro fuel
  induction fuel with
  | zero => intro h i zDelta r hr; simp [scanLoop] at hr
  | succ fuel ih =>
    intro h i zDelta r hr
    rw [scanLoop] at hr
    cases hc : chainLoop F zSrc zOut collide base i 250
        (landmark.getD (hash_32bit h % nHash) (-1)) { cnt := 0, ofst := 0, litsz := 0 } with
    | none => rw [hc] at hr; cases hr
    | some best =>
      simp only [hc] at hr
      split_ifs at hr
      · cases hr; exact ⟨_, by first | rfl | (simp only [List.append_assoc]; rfl)⟩
      · cases hr; exact ⟨_, by first | rfl | (simp only [List.append_assoc]; rfl)⟩
      · cases hr; exact ⟨_, by first | rfl | (simp only [List.append_assoc]; rfl)⟩
      · exact ih _ _ _ _ hr

theorem mainLoop_prefix (F : Nat) (zSrc zOut : List Nat) (nHash : Nat)
    (collide landmark : List Int) :
    ∀ (fuel : Nat) (base : Nat) (zDelta : List Nat) (r : Nat × List Nat),
    mainLoop F zSrc zOut nHash collide landmark fuel base zDelta = some r →
    ∃ c, r.2 = zDelta ++ c := by
  intro fuel
  induction fuel with
  | zero => intro base zDelta r hr; simp [mainLoop] at hr
  | succ fuel ih =>
    intro base zDelta r hr
    rw [mainLoop] at hr
    split_ifs at hr with h1
    · cases hs : scanLoop F zSrc zOut nHash collide landmark base F (hash_init zOut base) 0 zDelta with
      | none => rw [hs] at hr; cases hr
      | some q =>
        rw [hs] at hr
        obtain ⟨c1, hc1⟩ := scanLoop_prefix F zSrc zOut nHash collide landmark base F _ _ _ _ hs
        obtain ⟨c2, hc2⟩ := ih _ _ _ hr
        exact ⟨c1 ++ c2, by rw [hc2, hc1, List.append_assoc]⟩
    · cases hr; exact ⟨[], by simp⟩

/-- Whatever `delta_create` answers starts with the written target length and
a newline. -/
theorem delta_create_header (fuel : Nat) (zSrc zOut d : List Nat)
    (h : delta_create fuel zSrc zOut = some d) :
    ∃ rest, d = putInt zOut.length ++ 10 :: rest := by
  unfold delta_create at h
  by_cases hsmall : zSrc.length ≤ NHASH
  · simp only [hsmall, if_true] at h
    cases h
    exact ⟨_, by simp only [List.append_assoc, List.singleton_append]; rfl⟩
  · simp only [hsmall, if_false] at h
    cases hh : hashLoop zSrc (zSrc.length / NHASH) fuel 0
        (List.replicate (zSrc.length / NHASH) (-1)) (List.replicate (zSrc.length / NHASH) (-1)) with
    | none => rw [hh] at h; cases h
    | some tb =>
      obtain ⟨c, l⟩ := tb
      simp only [hh] at h
      cases hm : mainLoop fuel zSrc zOut (zSrc.length / NHASH) c l fuel 0
          (putInt zOut.length ++ [10]) with
      | none => rw [hm] at h; cases h
      | some q =>
        obtain ⟨b, z⟩ := q
        obtain ⟨c1, hc1⟩ := mainLoop_prefix fuel zSrc zOut _ c l fuel 0 _ _ hm
        simp only at hc1
        subst hc1
        simp only [hm] at h
        split_ifs at h
        · cases h; exact ⟨_, by simp only [List.append_assoc, List.singleton_append]; rfl⟩
        · cases h; exact ⟨_, by simp only [List.append_assoc, List.singleton_append]; rfl⟩

theorem toInt32_eq_neg_one (v : Nat) (hv : v < 4294967296) : toInt32 v = -1 ↔ v = 4294967295 := by
  unfold toInt32
  rw [Nat.mod_eq_of_lt hv]
  split_ifs with h1 <;> constructor <;> intro h <;> first | omega | contradiction

/-- C6 (as stated, refuted). The script `3~~~~~\n` declares the size `2^32-1`: the
integer is followed at once by the newline, and still `delta_output_size`
returns `-1`. -/
theorem delta_output_size_newline_neg_one :
    putInt 4294967295 = [51, 126, 126, 126, 126, 126] ∧
    (getInt (putInt 4294967295 ++ [10]) 7).2.1.headD 0 = 10 ∧
    delta_output_size (putInt 4294967295 ++ [10]) 7 = -1 := by
  decide

/-- C6 (amended). Whatever `delta_create` answers for a target shorter than
`2^31` bytes has the length of the target as its `delta_output_size` (and it
does answer when both buffers are shorter than `2^30` bytes); and for every
script `delta_output_size` returns `-1` exactly when the leading base-64
integer is not followed at once by a newline or its value is `2^32-1`. -/
theorem delta_output_size_spec :
    (∀ (fuel : Nat) (zSrc zOut d : List Nat), zOut.length < 2147483648 →
      delta_create fuel zSrc zOut = some d →
      delta_output_size d (d.length : Int) = (zOut.length : Int)) ∧
    (∀ (zSrc zOut : List Nat), zSrc.length < 1073741824 → zOut.length < 1073741824 →
      ∃ d, ∀ fuel, zSrc.length + zOut.length + 6 ≤ fuel → delta_create fuel zSrc zOut = some d) ∧
    (∀ (z : List Nat) (len : Int), delta_output_size z len = -1 ↔
      ((getInt z len).2.1.headD 0 ≠ 10 ∨ (getInt z len).1 = 4294967295)) := by
  refine ⟨?_, ?_, ?_⟩
  · intro fuel zSrc zOut d hT hd
    obtain ⟨rest, rfl⟩ := delta_create_header fuel zSrc zOut d hd
    unfold delta_output_size
    simp only [getInt_putInt zOut.length 10 rest _ (by omega) (by decide), List.headD_cons, ne_eq,
      not_true_eq_false, if_false]
    unfold toInt32
    rw [Nat.mod_eq_of_lt (by omega), if_pos hT]
  · intro zSrc zOut hS hT
    obtain ⟨cmds, n, hd, _⟩ := delta_create_shape zSrc zOut hS hT
    exact ⟨_, hd⟩
  · intro z len
    unfold delta_output_size
    simp only
    have hlt : (getInt z len).1 < 4294967296 := getIntLoop_lt z 0 (by decide)
    by_cases hn : (getInt z len).2.1.headD 0 = 10
    · simp only [hn, ne_eq, not_true_eq_false, if_false, false_or]
      exact toInt32_eq_neg_one _ hlt
    · simp only [hn, ne_eq, not_false_eq_true, if_true, true_or]

/-! ## What a successful run of the command loop guarantees -/

theorem getIntLoop_suffix : ∀ (z : List Nat) (v : Nat), (getIntLoop z v).2 <:+ z := by
  intro z
  induction z with
  | nil => intro v; simp [getIntLoop]
  | cons c rest ih =>
    intro v
    rw [getIntLoop]
    split_ifs
    · exact (ih _).trans (List.suffix_cons c rest)
    · exact List.suffix_refl _

theorem tail_suffix (z : List Nat) : z.tail <:+ z := by
  cases z with
  | nil => exact List.suffix_refl _
  | cons c rest => exact List.suffix_cons c rest

theorem tail_length_lt (z : List Nat) (c : Nat) (hc : c ≠ 0) (h : z.headD 0 = c) :
    z.tail.length < z.length := by
  cases z with
  | nil => simp at h; omega
  | cons a rest => simp

/-- A round of the command loop that goes on has consumed at least one byte of
the script and has appended `cnt` bytes, where the new total is `total + cnt`
reduced to 32 bits and `cnt` is bounded by the length of the source or of the
script. -/
theorem applyStep_next (zSrc : List Nat) (limit : Nat) (z : List Nat) (len : Int) (t : Nat)
    (o z' : List Nat) (len' : Int) (t' : Nat) (o' : List Nat)
    (h : applyStep zSrc limit z len t o = StepResult.next z' len' t' o') :
    z' <:+ z ∧ z'.length < z.length ∧ t' ≤ limit ∧
    ∃ (cnt : Nat) (seg : List Nat), t' = (t + cnt) % 4294967296 ∧ o' = o ++ seg ∧
      seg.length = cnt ∧ (cnt ≤ zSrc.length ∨ cnt ≤ z.length) := by
  unfold applyStep at h
  have hs1 : (getInt z len).2.1 <:+ z := getIntLoop_suffix z 0
  by_cases h0 : z.headD 0 ≠ 0 ∧ len > 0
  · rw [if_pos h0] at h
    simp only at h
    by_cases h64 : (getInt z len).2.1.headD 0 = 64
    · rw [if_pos h64] at h
      have hs2 : (getInt (getInt z len).2.1.tail ((getInt z len).2.2 - 1)).2.1
          <:+ (getInt z len).2.1.tail := getIntLoop_suffix _ 0
      have hl1 := tail_length_lt _ 64 (by decide) h64
      split_ifs at h with h1 h2 h3 h4
      all_goals cases h
      refine ⟨((tail_suffix _).trans hs2).trans ((tail_suffix _).trans hs1), ?_, ?_, ?_⟩
      · have a1 := (tail_suffix (getInt (getInt z len).2.1.tail ((getInt z len).2.2 - 1)).2.1).length_le
        have a2 := hs2.length_le
        have a3 := hs1.length_le
        omega
      · omega
      · refine ⟨(getInt z len).1, _, rfl, rfl, ?_, Or.inl (by omega)⟩
        rw [List.length_take, List.length_drop]
        omega
    · rw [if_neg h64] at h
      by_cases h58 : (getInt z len).2.1.headD 0 = 58
      · rw [if_pos h58] at h
        have hl1 := tail_length_lt _ 58 (by decide) h58
        split_ifs at h with h1 h2 h3
        all_goals cases h
        have a3 := hs1.length_le
        refine ⟨((List.drop_suffix _ _).trans (tail_suffix _)).trans hs1, ?_, ?_, ?_⟩
        · rw [List.length_drop]; omega
        · omega
        · refine ⟨(getInt z len).1, _, rfl, rfl, ?_, Or.inr (by omega)⟩
          rw [List.length_take]
          omega
      · rw [if_neg h58] at h
        split_ifs at h
  · rw [if_neg h0] at h
    cases h

/-- A round of the command loop that returns success has read an integer and a
`;`, the integer is the checksum of the output, and the total is the declared
length. -/
theorem applyStep_ok (zSrc : List Nat) (limit : Nat) (z : List Nat) (len : Int) (t : Nat)
    (o : List Nat) (n : Nat) (out : List Nat)
    (h : applyStep zSrc limit z len t o = StepResult.done (ApplyResult.ok n out)) :
    n = t ∧ out = o ∧ t = limit ∧ (getInt z len).2.1.headD 0 = 59 ∧
      (getInt z len).1 = checksum (o.take t) := by
  unfold applyStep at h
  by_cases h0 : z.headD 0 ≠ 0 ∧ len > 0
  · rw [if_pos h0] at h
    simp only at h
    by_cases h64 : (getInt z len).2.1.headD 0 = 64
    · rw [if_pos h64] at h
      split_ifs at h
      all_goals cases h
    · rw [if_neg h64] at h
      by_cases h58 : (getInt z len).2.1.headD 0 = 58
      · rw [if_pos h58] at h
        split_ifs at h
        all_goals cases h
      · rw [if_neg h58] at h
        split_ifs at h with h1 h2 h3
        all_goals cases h
        exact ⟨rfl, rfl, not_not.mp h3, h1, not_not.mp h2⟩
  · rw [if_neg h0] at h
    cases h

/-- A successful run returns the declared length. -/
theorem applyLoop_ok_limit (zSrc : List Nat) (limit : Nat) :
    ∀ (fuel : Nat) (z : List Nat) (len : Int) (t : Nat) (o : List Nat) (n : Nat) (out : List Nat),
    applyLoop zSrc limit fuel z len t o = some (ApplyResult.ok n out) → n = limit := by
  intro fuel
  induction fuel with
  | zero => intro z len t o n out h; simp [applyLoop] at h
  | succ fuel ih =>
    intro z len t o n out h
    rw [applyLoop] at h
    cases hs : applyStep zSrc limit z len t o with
    | done r =>
      rw [hs] at h
      simp only [Option.some.injEq] at h
      subst h
      obtain ⟨h1, _, h3, _⟩ := applyStep_ok zSrc limit z len t o n out hs
      omega
    | next z1 l1 t1 o1 =>
      rw [hs] at h
      exact ih _ _ _ _ _ _ h

/-- A successful run with a declared length below `2^31`, on a source and a
script shorter than `2^31` bytes: the output extends what had been written, has
the declared length, and its checksum is the integer before a `;` of the
script. -/
theorem applyLoop_ok (zSrc : List Nat) (limit : Nat) (hS : zSrc.length < 2147483648)
    (hlim : limit < 2147483648) :
    ∀ (fuel : Nat) (z : List Nat) (len : Int) (t : Nat) (o : List Nat) (n : Nat) (out : List Nat),
    z.length < 2147483648 → t = o.length → t ≤ limit →
    applyLoop zSrc limit fuel z len t o = some (ApplyResult.ok n out) →
    n = limit ∧ out.length = n ∧ o <+: out ∧
      ∃ (zt : List Nat) (lt : Int), zt <:+ z ∧ (getInt zt lt).2.1.headD 0 = 59 ∧
        (getInt zt lt).1 = checksum out := by
  intro fuel
  induction fuel with
  | zero => intro z len t o n out _ _ _ h; simp [applyLoop] at h
  | succ fuel ih =>
    intro z len t o n out hz ht htl h
    rw [applyLoop] at h
    cases hs : applyStep zSrc limit z len t o with
    | done r =>
      rw [hs] at h
      simp only [Option.some.injEq] at h
      subst h
      obtain ⟨h1, h2, h3, h4, h5⟩ := applyStep_ok zSrc limit z len t o n out hs
      subst h2
      refine ⟨by omega, by omega, List.prefix_refl _, z, len, List.suffix_refl _, h4, ?_⟩
      rw [h5, ht, List.take_length]
    | next z1 l1 t1 o1 =>
      rw [hs] at h
      obtain ⟨hsuf, hlt, htl1, cnt, seg, ht1, ho1, hseg, hcnt⟩ :=
        applyStep_next zSrc limit z len t o z1 l1 t1 o1 hs
      have hnw : (t + cnt) % 4294967296 = t + cnt := Nat.mod_eq_of_lt (by omega)
      obtain ⟨r1, r2, r3, zt, lt, r4, r5, r6⟩ := ih z1 l1 t1 o1 n out (by omega)
        (by rw [ht1, hnw, ho1, List.length_append]; omega) htl1 h
      refine ⟨r1, r2, ?_, zt, lt, r4.trans hsuf, r5, r6⟩
      rw [ho1] at r3
      exact (List.prefix_append o seg).trans r3

/-- What a non-negative return value of `delta_apply` guarantees (source and
script shorter than `2^31` bytes): it is the length declared in the first field
of the script, it is the number of bytes written, and the checksum of these
bytes is the integer that stands before a `;` in the script. -/
theorem delta_apply_ok (fuel : Nat) (zSrc zDelta : List Nat) (lenDelta : Int) (n : Nat)
    (out : List Nat) (hS : zSrc.length < 2147483648) (hD : zDelta.length < 2147483648)
    (h : delta_apply fuel zSrc zDelta lenDelta = some (ApplyResult.ok n out))
    (hn : 0 ≤ toInt32 n) :
    n = (getInt zDelta lenDelta).1 ∧ out.length = n ∧
      ∃ (zt : List Nat) (lt : Int), zt <:+ zDelta ∧ (getInt zt lt).2.1.headD 0 = 59 ∧
        (getInt zt lt).1 = checksum out := by
  simp only [delta_apply] at h
  split_ifs at h with h1
  · cases h
  have hlim := applyLoop_ok_limit zSrc _ fuel _ _ _ _ n out h
  have hlt : (getInt zDelta lenDelta).1 < 4294967296 := getIntLoop_lt zDelta 0 (by decide)
  have hn31 : (getInt zDelta lenDelta).1 < 2147483648 := by
    rw [← hlim]
    rw [hlim] at hn
    unfold toInt32 at hn
    rw [Nat.mod_eq_of_lt hlt] at hn
    split_ifs at hn with h2
    · omega
    · omega
  have hsuf : (getInt zDelta lenDelta).2.1.tail <:+ zDelta :=
    (tail_suffix _).trans (getIntLoop_suffix zDelta 0)
  obtain ⟨r1, r2, _, zt, lt, r4, r5, r6⟩ := applyLoop_ok zSrc _ hS hn31 fuel _ _ 0 [] n out
    (lt_of_le_of_lt hsuf.length_le hD) rfl (Nat.zero_le _) h
  exact ⟨r1, r2, zt, lt, r4.trans hsuf, r5, r6⟩

/-! ## COPY commands whose 32-bit arithmetic wraps around -/

/-- C7 (evaluation at the failing input, and the part of the claim that holds).
On the source `a` and the script `3~~~~~\n3~~~~~@1,` (declared length and copy
count `2^32-1`, offset 1) `delta_apply` passes both bound checks of the COPY
and copies from behind the source: it does not return `-1`, it does not return.
What the claim says about a non-negative return value holds (source and script
shorter than `2^31` bytes). -/
theorem delta_apply_not_closed :
    (∀ fuel, 1 ≤ fuel →
      delta_apply fuel [97]
        (putInt 4294967295 ++ [10] ++ putInt 4294967295 ++ [64] ++ putInt 1 ++ [44]) 16
        = some ApplyResult.fault) ∧
    ApplyResult.fault.ret = none ∧
    (∀ (fuel : Nat) (zSrc zDelta : List Nat) (lenDelta : Int) (n : Nat) (out : List Nat),
      zSrc.length < 2147483648 → zDelta.length < 2147483648 →
      delta_apply fuel zSrc zDelta lenDelta = some (ApplyResult.ok n out) → 0 ≤ toInt32 n →
      n = (getInt zDelta lenDelta).1 ∧ out.length = n ∧
        ∃ (zt : List Nat) (lt : Int), zt <:+ zDelta ∧ (getInt zt lt).2.1.headD 0 = 59 ∧
          (getInt zt lt).1 = checksum out) := by
  refine ⟨?_, rfl, ?_⟩
  · intro fuel hf
    apply delta_apply_mono 1 fuel _ _ _ _ hf
    decide
  · intro fuel zSrc zDelta lenDelta n out hS hD h hn
    exact delta_apply_ok fuel zSrc zDelta lenDelta n out hS hD h hn

/-- C8 (evaluation at the failing input). On the source `a` and the script
`2\n2@3~~~~~,` the COPY has count 2 and offset `2^32-1`; offset plus count
exceeds the length of the source, but the 32-bit sum is 1, the check passes and
`delta_apply` copies from behind the source instead of returning the error. -/
theorem delta_apply_copy_past_source :
    [97].length < 4294967295 + 2 ∧
    (4294967295 + 2) % 4294967296 ≤ [97].length ∧
    (∀ fuel, 1 ≤ fuel →
      delta_apply fuel [97] (putInt 2 ++ [10] ++ putInt 2 ++ [64] ++ putInt 4294967295 ++ [44]) 11
        = some ApplyResult.fault) := by
  refine ⟨by decide, by decide, ?_⟩
  intro fuel hf
  apply delta_apply_mono 1 fuel _ _ _ _ hf
  decide

/-- C9 (evaluation at the failing input). On the source `a` and the script
`1\n1:a3~~~~~@1,` the declared length is 1 and the INSERT has written one byte;
the COPY of `2^32-1` bytes would push the total to `2^32`, but the 32-bit total
wraps to 0, so does offset plus count, and `delta_apply` copies instead of
returning the error. -/
theorem delta_apply_total_wraps :
    1 < 1 + 4294967295 ∧
    (1 + 4294967295) % 4294967296 ≤ 1 ∧
    (∀ fuel, 2 ≤ fuel →
      delta_apply fuel [97]
        (putInt 1 ++ [10] ++ putInt 1 ++ [58, 97] ++ putInt 4294967295 ++ [64] ++ putInt 1 ++ [44]) 14
        = some ApplyResult.fault) := by
  refine ⟨by decide, by decide, ?_⟩
  intro fuel hf
  apply delta_apply_mono 2 fuel _ _ _ _ hf
  decide

/-! ## Fields of digits -/

theorem zValue_le : ∀ i, i < 128 → zValue.getD i (-1) ≤ 63 := by
  decide

theorem zv_le (c : Nat) : zv c ≤ 63 := by
  unfold zv
  apply zValue_le
  have : 0x7f &&& c ≤ 0x7f := Nat.and_le_left
  omega

theorem dval_lt (c : Nat) : dval c < 64 := by
  unfold dval
  have := zv_le c
  omega

theorem zv_zDigits (d : Nat) (hd : d < 64) : zv (zDigits.getD d 0) = (d : Int) :=
  zValue_zDigits d hd

theorem dval_zDigits (d : Nat) (hd : d < 64) : dval (zDigits.getD d 0) = d := by
  unfold dval
  rw [zv_zDigits d hd, Int.toNat_ofNat]

theorem zv_zero : zv 0 = -1 := by decide

theorem ne_zero_of_zv (c : Nat) (h : 0 ≤ zv c) : c ≠ 0 := by
  intro h0
  rw [h0, zv_zero] at h
  omega

/-- Reading a byte that counts as a digit. -/
theorem getIntLoop_isDigit (c v : Nat) (rest : List Nat) (hc : 0 ≤ zv c) :
    getIntLoop (c :: rest) v = getIntLoop rest ((v * 64 + dval c) % 4294967296) := by
  have h2 : v <<< 6 = v * 64 := by rw [Nat.shiftLeft_eq]
  rw [getIntLoop]
  unfold zv at hc
  simp only [ge_iff_le, hc, if_true, h2, dval, zv]

theorem val_append (a b : List Nat) : val (a ++ b) = val a * 64 ^ b.length + val b := by
  induction a with
  | nil => simp [val]
  | cons c a ih =>
    rw [List.cons_append, val, ih, List.length_append, pow_add, val]
    ring

theorem val_lt (l : List Nat) : val l < 64 ^ l.length := by
  induction l with
  | nil => simp [val]
  | cons c l ih =>
    simp only [val, List.length_cons, pow_succ]
    have := dval_lt c
    nlinarith [Nat.zero_le (64 ^ l.length)]

/-- Reading a field of digits that ends at a byte that is no digit. -/
theorem getIntLoop_digits (l : List Nat) : ∀ (v c0 : Nat) (r : List Nat),
    (∀ c, c ∈ l → 0 ≤ zv c) → zv c0 < 0 → v < 4294967296 →
    getIntLoop (l ++ c0 :: r) v = ((v * 64 ^ l.length + val l) % 4294967296, c0 :: r) := by
  induction l with
  | nil =>
    intro v c0 r _ hc0 hv
    simp only [List.nil_append, List.length_nil, pow_zero, Nat.mul_one, val, Nat.add_zero,
      Nat.mod_eq_of_lt hv]
    exact getIntLoop_stop c0 v r hc0
  | cons c l ih =>
    intro v c0 r hl hc0 hv
    rw [List.cons_append, getIntLoop_isDigit c v _ (hl c (List.mem_cons_self _ _)),
      ih _ c0 r (fun x hx => hl x (List.mem_cons_of_mem _ hx)) hc0 (Nat.mod_lt _ (by decide))]
    congr 1
    have h1 : ((v * 64 + dval c) % 4294967296 * 64 ^ l.length + val l)
        ≡ ((v * 64 + dval c) * 64 ^ l.length + val l) [MOD 4294967296] :=
      ((Nat.mod_modEq _ _).mul_right _).add_right _
    have h2 : (v * 64 + dval c) * 64 ^ l.length + val l
        = v * 64 ^ (c :: l).length + val (c :: l) := by
      simp only [val, List.length_cons, pow_succ]
      ring
    rw [← h2]
    exact h1

theorem mem_putIntDigits (n : Nat) : ∀ (v c : Nat), c ∈ putIntDigits n v →
    ∃ d, d < 64 ∧ c = zDigits.getD d 0 := by
  induction n with
  | zero => intro v c h; simp [putIntDigits] at h
  | succ n ih =>
    intro v c h
    by_cases hpos : v > 0
    · simp only [putIntDigits, hpos, if_true, List.mem_cons] at h
      rcases h with h | h
      · exact ⟨v % 64, Nat.mod_lt _ (by decide), by rw [h, Nat.and_pow_two_sub_one_eq_mod v 6]⟩
      · exact ih _ _ h
    · simp [putIntDigits, hpos] at h

/-- Every byte `putInt` writes counts as a digit. -/
theorem putInt_isDigit (v c : Nat) (h : c ∈ putInt v) : 0 ≤ zv c := by
  unfold putInt at h
  by_cases h0 : v % 4294967296 = 0
  · simp only [h0, if_true, List.mem_singleton] at h
    rw [h]; decide
  · simp only [h0, if_false, List.mem_reverse] at h
    obtain ⟨d, hd, rfl⟩ := mem_putIntDigits _ _ _ h
    rw [zv_zDigits d hd]
    exact Int.ofNat_nonneg d

theorem val_putIntDigits (n : Nat) : ∀ (v : Nat), v < 64 ^ n →
    val (putIntDigits n v).reverse = v := by
  induction n with
  | zero =>
    intro v hv
    have : v = 0 := by simpa using hv
    subst this
    simp [putIntDigits, val]
  | succ n ih =>
    intro v hv
    by_cases h0 : v = 0
    · subst h0; simp [putIntDigits, val]
    · have hpos : v > 0 := Nat.pos_of_ne_zero h0
      have hand : v &&& 0x3f = v % 64 := Nat.and_pow_two_sub_one_eq_mod v 6
      have hshr : v >>> 6 = v / 64 := by rw [Nat.shiftRight_eq_div_pow]
      have hlt : v % 64 < 64 := Nat.mod_lt _ (by decide)
      have hdiv : v / 64 < 64 ^ n := by
        rw [Nat.div_lt_iff_lt_mul (by decide)]; rw [pow_succ] at hv; exact hv
      simp only [putIntDigits, hpos, if_true, List.reverse_cons, hand, hshr]
      rw [val_append, ih _ hdiv]
      simp only [val, List.length_cons, List.length_nil, dval_zDigits _ hlt]
      omega

/-- The bytes `putInt` writes denote the value written. -/
theorem val_putInt (v : Nat) (hv : v < 4294967296) : val (putInt v) = v := by
  unfold putInt
  simp only [Nat.mod_eq_of_lt hv]
  by_cases h0 : v = 0
  · subst h0; decide
  · simp only [h0, if_false]
    exact val_putIntDigits 20 v (lt_of_lt_of_le hv (by norm_num))

theorem putIntDigits_lower (n : Nat) : ∀ (v : Nat), 0 < v →
    64 ^ ((putIntDigits (n + 1) v).length - 1) ≤ v := by
  induction n with
  | zero =>
    intro v hv
    simp [putIntDigits, hv]
    omega
  | succ n ih =>
    intro v hv
    have hshr : v >>> 6 = v / 64 := by rw [Nat.shiftRight_eq_div_pow]
    rw [putIntDigits]
    simp only [hv, if_true, List.length_cons, hshr, Nat.add_sub_cancel]
    by_cases h0 : v / 64 = 0
    · rw [h0]
      simp [putIntDigits]
      omega
    · have h1 := ih (v / 64) (Nat.pos_of_ne_zero h0)
      have h2 : (putIntDigits (n + 1) (v / 64)).length ≠ 0 := by
        simp [putIntDigits, Nat.pos_of_ne_zero h0]
      obtain ⟨k, hk⟩ : ∃ k, (putIntDigits (n + 1) (v / 64)).length = k + 1 :=
        ⟨_, (Nat.succ_pred_eq_of_ne_zero h2).symm⟩
      rw [hk] at h1 ⊢
      simp only [Nat.add_sub_cancel] at h1
      rw [pow_succ]
      have := Nat.div_mul_le_self v 64
      omega

/-- A positive value is at least `64^(k-1)` when `putInt` writes it with `k` digits. -/
theorem putInt_lower (v : Nat) (hv : v < 4294967296) (h0 : 0 < v) :
    64 ^ ((putInt v).length - 1) ≤ v := by
  unfold putInt
  simp only [Nat.mod_eq_of_lt hv]
  have : ¬ v = 0 := by omega
  simp only [this, if_false, List.length_reverse]
  exact putIntDigits_lower 19 v h0

/-! ## Single rounds of the command loop -/

theorem applyStep_stop (zSrc : List Nat) (limit : Nat) (z : List Nat) (len : Int) (t : Nat)
    (o : List Nat) (h : ¬ (z.headD 0 ≠ 0 ∧ len > 0)) :
    applyStep zSrc limit z len t o = StepResult.done ApplyResult.error := by
  unfold applyStep
  rw [if_neg h]

theorem applyStep_semicolon (zSrc : List Nat) (limit : Nat) (z : List Nat) (len : Int) (t : Nat)
    (o : List Nat) (h0 : z.headD 0 ≠ 0) (hl : len > 0) (h59 : (getInt z len).2.1.headD 0 = 59) :
    applyStep zSrc limit z len t o
      = StepResult.done (if (getInt z len).1 ≠ checksum (o.take t) then ApplyResult.error
          else if t ≠ limit then ApplyResult.error else ApplyResult.ok t o) := by
  unfold applyStep
  rw [if_pos ⟨h0, hl⟩]
  simp only [h59]
  have h1 : ¬ (59 : Nat) = 64 := by decide
  have h2 : ¬ (59 : Nat) = 58 := by decide
  simp only [h1, h2, if_false, if_true]
  split_ifs <;> rfl

theorem applyStep_unknown (zSrc : List Nat) (limit : Nat) (z : List Nat) (len : Int) (t : Nat)
    (o : List Nat) (h64 : (getInt z len).2.1.headD 0 ≠ 64) (h58 : (getInt z len).2.1.headD 0 ≠ 58)
    (h59 : (getInt z len).2.1.headD 0 ≠ 59) :
    applyStep zSrc limit z len t o = StepResult.done ApplyResult.error := by
  unfold applyStep
  by_cases h : z.headD 0 ≠ 0 ∧ len > 0
  · rw [if_pos h]
    simp only [h64, h58, h59, if_false]
  · rw [if_neg h]

theorem applyStep_insert (zSrc : List Nat) (limit : Nat) (z : List Nat) (len : Int) (t : Nat)
    (o : List Nat) (h0 : z.headD 0 ≠ 0) (hl : len > 0) (h58 : (getInt z len).2.1.headD 0 = 58) :
    applyStep zSrc limit z len t o
      = if (t + (getInt z len).1) % 4294967296 > limit then StepResult.done ApplyResult.error
        else if (getInt z len).1 > u32 ((getInt z len).2.2 - 1) then
          StepResult.done ApplyResult.error
        else if (getInt z len).1 > (getInt z len).2.1.tail.length then
          StepResult.done ApplyResult.fault
        else StepResult.next ((getInt z len).2.1.tail.drop (getInt z len).1)
          ((getInt z len).2.2 - 1 - (getInt z len).1) ((t + (getInt z len).1) % 4294967296)
          (o ++ (getInt z len).2.1.tail.take (getInt z len).1) := by
  unfold applyStep
  rw [if_pos ⟨h0, hl⟩]
  simp only [h58]
  have h1 : ¬ (58 : Nat) = 64 := by decide
  simp only [h1, if_false, if_true]

theorem applyStep_copy_no_comma (zSrc : List Nat) (limit : Nat) (z : List Nat) (len : Int)
    (t : Nat) (o : List Nat) (h64 : (getInt z len).2.1.headD 0 = 64)
    (hl3 : (getInt (getInt z len).2.1.tail ((getInt z len).2.2 - 1)).2.2 > 0)
    (h44 : (getInt (getInt z len).2.1.tail ((getInt z len).2.2 - 1)).2.1.headD 0 ≠ 44) :
    applyStep zSrc limit z len t o = StepResult.done ApplyResult.error := by
  unfold applyStep
  by_cases h : z.headD 0 ≠ 0 ∧ len > 0
  · rw [if_pos h]
    simp only [h64, if_true, hl3, h44, ne_eq, not_false_eq_true, and_self]
  · rw [if_neg h]

/-- `getInt` on a field of digits that ends at a byte that is no digit. -/
theorem getInt_digits (l : List Nat) (c0 : Nat) (r : List Nat) (len : Int)
    (hl : ∀ c, c ∈ l → 0 ≤ zv c) (hc0 : zv c0 < 0) :
    getInt (l ++ c0 :: r) len = (val l % 4294967296, c0 :: r, len - (l.length : Int)) := by
  unfold getInt
  rw [getIntLoop_digits l 0 c0 r hl hc0 (by decide)]
  simp only [Nat.zero_mul, Nat.zero_add, List.length_append, List.length_cons]
  congr 2
  push_cast
  omega

/-! ## The checksum field of a delta, with one byte changed -/

theorem field_facts (ck : Nat) (hck : ck < 4294967296) (pre suf : List Nat) (old : Nat)
    (hF : putInt ck = pre ++ old :: suf) :
    (∀ c, c ∈ pre → 0 ≤ zv c) ∧ 0 ≤ zv old ∧ (∀ c, c ∈ suf → 0 ≤ zv c) ∧
    ck = (val pre * 64 + dval old) * 64 ^ suf.length + val suf ∧
    pre.length + suf.length ≤ 5 ∧ (0 < ck → 64 ^ (pre.length + suf.length) ≤ ck) ∧
    (ck = 0 → pre = [] ∧ suf = []) := by
  have hdig : ∀ c, c ∈ pre ++ old :: suf → 0 ≤ zv c := by
    intro c hc; rw [← hF] at hc; exact putInt_isDigit ck c hc
  have hval := val_putInt ck hck
  rw [hF, val_append, val] at hval
  have hlen := putInt_length_le_six ck
  rw [hF] at hlen
  simp only [List.length_append, List.length_cons] at hlen
  refine ⟨fun c hc => hdig c (List.mem_append_left _ hc),
    hdig old (List.mem_append_right _ (List.mem_cons_self _ _)),
    fun c hc => hdig c (List.mem_append_right _ (List.mem_cons_of_mem _ hc)), ?_, by omega, ?_, ?_⟩
  · rw [← hval, List.length_cons, pow_succ]; ring
  · intro h0
    have := putInt_lower ck hck h0
    rw [hF] at this
    simp only [List.length_append, List.length_cons] at this
    have e : pre.length + (suf.length + 1) - 1 = pre.length + suf.length := by omega
    rw [e] at this
    exact this
  · intro h0
    subst h0
    have h48 : putInt 0 = [48] := by decide
    rw [h48] at hF
    have hl := congrArg List.length hF
    simp only [List.length_append, List.length_cons, List.length_nil] at hl
    exact ⟨List.length_eq_zero.mp (by omega), List.length_eq_zero.mp (by omega)⟩

theorem field_arith_digit (m vp vs db dold ck : Nat) (hm : m ≤ 5) (hdb : db < 64)
    (hdold : dold < 64) (hvs : vs < 64 ^ m) (hck : ck < 4294967296)
    (heq : ck = (vp * 64 + dold) * 64 ^ m + vs) :
    ((vp * 64 + db) * 64 ^ m + vs) % 4294967296 = ck ↔
      (db = dold ∨ (m = 5 ∧ db % 4 = dold % 4)) := by
  interval_cases m <;> norm_num at hvs heq ⊢ <;> omega

theorem headD_append_ne_zero (l r : List Nat) (hl : ∀ c, c ∈ l → 0 ≤ zv c) (hne : l ≠ []) :
    (l ++ r).headD 0 ≠ 0 := by
  cases l with
  | nil => exact absurd rfl hne
  | cons c l =>
    simp only [List.cons_append, List.headD_cons]
    exact ne_zero_of_zv c (hl c (List.mem_cons_self _ _))

theorem zv_toNat (c : Nat) (h : 0 ≤ zv c) : ((dval c : Nat) : Int) = zv c := by
  unfold dval
  exact Int.toNat_of_nonneg h

/-- The changed byte counts as a digit: the field is read as one integer, and
the script is accepted exactly when that integer is still the checksum. -/
theorem applyLoop_field_digit (zSrc zOut : List Nat) (pre suf : List Nat) (old b f : Nat)
    (hF : putInt (checksum zOut) = pre ++ old :: suf) (hd : 0 ≤ zv b) :
    applyLoop zSrc zOut.length (f + 1) (pre ++ b :: (suf ++ [59]))
        ((pre ++ b :: (suf ++ [59])).length : Int) zOut.length zOut
      = some (if zv b = zv old ∨ (suf.length = 5 ∧ zv b % 4 = zv old % 4) then
          ApplyResult.ok zOut.length zOut else ApplyResult.error) := by
  obtain ⟨hpre, hold, hsuf, heq, hlen, _, _⟩ :=
    field_facts (checksum zOut) (checksum_lt zOut) pre suf old hF
  have hdig : ∀ c, c ∈ pre ++ b :: suf → 0 ≤ zv c := by
    intro c hc
    rcases List.mem_append.mp hc with h | h
    · exact hpre c h
    · rcases List.mem_cons.mp h with h | h
      · rw [h]; exact hd
      · exact hsuf c h
  have ez : pre ++ b :: (suf ++ [59]) = (pre ++ b :: suf) ++ 59 :: [] := by simp
  have hg := getInt_digits (pre ++ b :: suf) 59 [] (((pre ++ b :: suf) ++ 59 :: []).length : Int)
    hdig (by decide)
  have hv : val (pre ++ b :: suf) = (val pre * 64 + dval b) * 64 ^ suf.length + val suf := by
    rw [val_append, val, List.length_cons, pow_succ]; ring
  have harith := field_arith_digit suf.length (val pre) (val suf) (dval b) (dval old)
    (checksum zOut) (by omega) (dval_lt b) (dval_lt old) (val_lt suf) (checksum_lt zOut) heq
  have hb := zv_toNat b hd
  have ho := zv_toNat old hold
  rw [ez, applyLoop, applyStep_semicolon zSrc zOut.length _ _ _ _
    (headD_append_ne_zero _ _ hdig (by simp))
    (by simp only [List.length_append, List.length_cons]; omega) (by rw [hg]; rfl)]
  simp only [hg, List.take_length, hv, ne_eq, not_true_eq_false, if_false]
  by_cases hk : zv b = zv old ∨ (suf.length = 5 ∧ zv b % 4 = zv old % 4)
  · have : ((val pre * 64 + dval b) * 64 ^ suf.length + val suf) % 4294967296 = checksum zOut := by
      apply harith.mpr
      rcases hk with h | ⟨h1, h2⟩
      · left; omega
      · right; exact ⟨h1, by omega⟩
    simp only [hk, this, not_true_eq_false, if_false, if_true]
  · have : ¬ ((val pre * 64 + dval b) * 64 ^ suf.length + val suf) % 4294967296
        = checksum zOut := by
      intro h
      apply hk
      rcases harith.mp h with h | ⟨h1, h2⟩
      · left; omega
      · right; exact ⟨h1, by omega⟩
    simp only [hk, this, not_false_eq_true, if_false, if_true]

theorem field_arith_pre (m vp vs dold ck : Nat) (hm : m ≤ 5)
    (heq : ck = (vp * 64 + dold) * 64 ^ m + vs) : vp * 64 ≤ ck := by
  interval_cases m <;> norm_num at heq ⊢ <;> omega

theorem field_arith_lead (m P vp vs dold ck : Nat) (hm : m ≤ 5) (hdold : dold < 64)
    (hvs : vs < 64 ^ m) (heq : ck = (vp * 64 + dold) * 64 ^ m + vs) (hP : P * 64 ^ m ≤ ck)
    (hP64 : 64 ≤ P) : 1 ≤ vp := by
  interval_cases m <;> norm_num at heq hvs hP ⊢ <;> omega

theorem field_arith_suf (m vs dold ck : Nat) (hm : m ≤ 5) (hvs : vs < 64 ^ m)
    (heq : ck = dold * 64 ^ m + vs) (hlow : 0 < ck → 64 ^ m ≤ ck) : vs = ck ↔ ck = 0 := by
  interval_cases m <;> norm_num at heq hvs hlow ⊢ <;> omega

/-- The changed byte does not count as a digit: the script is accepted only
when the checksum is 0 and the byte is `:` or `;`. -/
theorem applyLoop_field_other (zSrc zOut : List Nat) (pre suf : List Nat) (old b f : Nat)
    (hT : zOut.length < 1073741824)
    (hF : putInt (checksum zOut) = pre ++ old :: suf) (hd : zv b < 0) :
    applyLoop zSrc zOut.length (f + 2) (pre ++ b :: (suf ++ [59]))
        ((pre ++ b :: (suf ++ [59])).length : Int) zOut.length zOut
      = some (if checksum zOut = 0 ∧ (b = 58 ∨ b = 59) then
          ApplyResult.ok zOut.length zOut else ApplyResult.error) := by
  obtain ⟨hpre, hold, hsuf, heq, hlen, hlow, hzero⟩ :=
    field_facts (checksum zOut) (checksum_lt zOut) pre suf old hF
  have hck := checksum_lt zOut
  have hm : suf.length ≤ 5 := by omega
  have hvp64 := field_arith_pre suf.length (val pre) (val suf) (dval old) (checksum zOut) hm heq
  have hvpM : val pre % 4294967296 = val pre := Nat.mod_eq_of_lt (by omega)
  have hvsM : val suf % 4294967296 = val suf := by
    apply Nat.mod_eq_of_lt
    have h1 := val_lt suf
    have h2 : 64 ^ suf.length ≤ 64 ^ 5 := Nat.pow_le_pow_right (by decide) hm
    have h3 : (64 : Nat) ^ 5 = 1073741824 := by norm_num
    omega
  have hlead : pre ≠ [] → 1 ≤ val pre := by
    intro hne
    have hck0 : 0 < checksum zOut := by
      rcases Nat.eq_zero_or_pos (checksum zOut) with h | h
      · exact absurd (hzero h).1 hne
      · exact h
    have hp1 : 1 ≤ pre.length := by
      rcases Nat.eq_zero_or_pos pre.length with h | h
      · exact absurd (List.length_eq_zero.mp h) hne
      · exact h
    have hP := hlow hck0
    rw [pow_add] at hP
    have h64 : 64 ^ 1 ≤ 64 ^ pre.length := Nat.pow_le_pow_right (by decide) hp1
    exact field_arith_lead suf.length (64 ^ pre.length) (val pre) (val suf) (dval old)
      (checksum zOut) hm (dval_lt old) (val_lt suf) heq hP (by omega)
  have hg := getInt_digits pre b (suf ++ [59]) ((pre ++ b :: (suf ++ [59])).length : Int) hpre hd
  rw [hvpM] at hg
  have hlenpos : ((pre ++ b :: (suf ++ [59])).length : Int) > 0 := by
    simp only [List.length_append, List.length_cons]; omega
  have hg2 := getInt_digits suf 59 []
    (((pre ++ b :: (suf ++ [59])).length : Int) - (pre.length : Int) - 1) hsuf (by decide)
  rw [hvsM] at hg2
  have hl2 : ((pre ++ b :: (suf ++ [59])).length : Int) - (pre.length : Int) - 1
      - (suf.length : Int) = 1 := by
    simp only [List.length_append, List.length_cons, List.length_nil]; push_cast; omega
  have e59 : suf ++ [59] = suf ++ 59 :: [] := rfl
  rw [applyLoop]
  by_cases hb64 : b = 64
  · -- a COPY whose offset is followed by `;`
    subst hb64
    have hk : ¬ (checksum zOut = 0 ∧ ((64 : Nat) = 58 ∨ (64 : Nat) = 59)) := by omega
    rw [applyStep_copy_no_comma zSrc zOut.length _ _ _ _ (by rw [hg]; rfl)
      (by rw [hg]; simp only [List.tail_cons]; rw [e59, hg2, hl2]; simp)
      (by rw [hg]; simp only [List.tail_cons]; rw [e59, hg2]; simp), if_neg hk]
  · by_cases hb59 : b = 59
    · -- the terminal command after the first digits of the field
      subst hb59
      have hhead : (pre ++ 59 :: (suf ++ [59])).headD 0 ≠ 0 := by
        cases pre with
        | nil => simp
        | cons c l => exact headD_append_ne_zero _ _ hpre (by simp)
      rw [applyStep_semicolon zSrc zOut.length _ _ _ _ hhead hlenpos (by rw [hg]; rfl)]
      simp only [hg, List.take_length, ne_eq, not_true_eq_false, if_false, or_true, and_true]
      by_cases hk : checksum zOut = 0
      · have hp := (hzero hk).1
        subst hp
        simp only [hk, val, not_true_eq_false, if_false, if_true]
      · have : ¬ val pre = checksum zOut := by
          intro h
          by_cases hp : pre = []
          · subst hp; simp only [val] at h; omega
          · have := hlead hp; omega
        simp only [hk, this, not_false_eq_true, if_true, if_false]
    · by_cases hb58 : b = 58
      · -- an INSERT whose count is the first digits of the field
        subst hb58
        have hhead : (pre ++ 58 :: (suf ++ [59])).headD 0 ≠ 0 := by
          cases pre with
          | nil => simp
          | cons c l => exact headD_append_ne_zero _ _ hpre (by simp)
        rw [applyStep_insert zSrc zOut.length _ _ _ _ hhead hlenpos (by rw [hg]; rfl)]
        simp only [hg, List.tail_cons]
        by_cases hp : pre = []
        · subst hp
          simp only [val, Nat.add_zero, List.nil_append, List.length_nil, List.drop_zero,
            List.take_zero, List.append_nil] at hg2 hl2 heq hlow ⊢
          have h1 : zOut.length % 4294967296 = zOut.length := Nat.mod_eq_of_lt (by omega)
          have h2 : ¬ zOut.length > zOut.length := by omega
          have h3 : ¬ 0 > u32 (((58 :: (suf ++ [59])).length : Int) - (0 : Nat) - 1) := by omega
          have h4 : ¬ 0 > (suf ++ [59]).length := by omega
          simp only [h1, h2, h3, h4, if_false]
          have hhead2 : (suf ++ [59]).headD 0 ≠ 0 := by
            cases suf with
            | nil => simp
            | cons c l => exact headD_append_ne_zero _ _ hsuf (by simp)
          have hl3 : ((58 :: (suf ++ [59])).length : Int) - (0 : Nat) - 1 - (0 : Nat) > 0 := by
            simp only [List.length_append, List.length_cons, List.length_nil]; push_cast; omega
          have hg3 := getInt_digits suf 59 []
            (((58 :: (suf ++ [59])).length : Int) - (0 : Nat) - 1 - (0 : Nat)) hsuf (by decide)
          rw [hvsM] at hg3
          rw [applyLoop, applyStep_semicolon zSrc zOut.length _ _ _ _ hhead2 hl3
            (by rw [e59, hg3]; rfl)]
          simp only [e59, hg3, List.take_length, ne_eq, not_true_eq_false, if_false, true_or,
            and_true]
          have hiff := field_arith_suf suf.length (val suf) (dval old) (checksum zOut) hm
            (val_lt suf) (by rw [heq]; ring) (by simpa using hlow)
          by_cases hk : checksum zOut = 0
          · simp only [hk, hiff.mpr hk, not_true_eq_false, if_false, if_true]
          · have : ¬ val suf = checksum zOut := fun h => hk (hiff.mp h)
            simp only [hk, this, not_false_eq_true, if_true, if_false]
        · have h1 := hlead hp
          have hk : ¬ checksum zOut = 0 := by omega
          have h2 : (zOut.length + val pre) % 4294967296 > zOut.length := by
            rw [Nat.mod_eq_of_lt (by omega)]; omega
          simp only [h2, if_true, hk, false_and, if_false]
      · -- no command at all
        have hk : ¬ (checksum zOut = 0 ∧ (b = 58 ∨ b = 59)) := by
          intro h; rcases h.2 with h | h
          · exact hb58 h
          · exact hb59 h
        rw [applyStep_unknown zSrc zOut.length _ _ _ _ (by rw [hg]; exact hb64)
          (by rw [hg]; exact hb58) (by rw [hg]; exact hb59), if_neg hk]

theorem set_in_field (A F B : List Nat) (p b : Nat) (hp : p < F.length) :
    (A ++ (F ++ B)).set (A.length + p) b
      = A ++ (F.take p ++ b :: (F.drop (p + 1) ++ B)) ∧
    (A ++ (F ++ B)).getD (A.length + p) 0 = F.getD p 0 ∧
    F = F.take p ++ F.getD p 0 :: F.drop (p + 1) := by
  refine ⟨?_, ?_, ?_⟩
  · rw [List.set_append_right _ _ (Nat.le_add_right _ _), Nat.add_sub_cancel_left,
      List.set_append_left _ _ hp, List.set_eq_take_append_cons_drop, if_pos hp]
    simp only [List.append_assoc, List.cons_append]
  · rw [List.getD_append_right _ _ _ _ (Nat.le_add_right _ _), Nat.add_sub_cancel_left,
      List.getD_append _ _ _ _ hp]
  · rw [List.getD_eq_getElem _ _ hp, ← List.drop_eq_getElem_cons hp, List.take_append_drop]

/-- C10 (as stated, refuted). The delta of the empty source and `hello` is
`5\n5:hello3NPMmh;`.  Its byte 14, the last digit `h` (104) of the checksum
field, is changed to the different value 232: `getInt` masks the top bit, reads
the same checksum, and `delta_apply` succeeds. -/
theorem delta_apply_accepts_changed_checksum :
    delta_create 0 [] hello
      = some [53, 10, 53, 58, 104, 101, 108, 108, 111, 51, 78, 80, 77, 109, 104, 59] ∧
    putInt (checksum hello) = [51, 78, 80, 77, 109, 104] ∧
    [53, 10, 53, 58, 104, 101, 108, 108, 111, 51, 78, 80, 77, 109, 104, 59].getD 14 0 = 104 ∧
    (232 : Nat) ≠ 104 ∧
    delta_apply 2 []
        ([53, 10, 53, 58, 104, 101, 108, 108, 111, 51, 78, 80, 77, 109, 104, 59].set 14 232) 16
      = some (ApplyResult.ok 5 hello) := by
  decide

/-- C10 (amended). In the delta `d` of buffers shorter than `2^30` bytes let one
byte of the checksum field be replaced by `b`.  Then `delta_apply` returns the
error, except that it returns the target itself in these cases: `b` counts as
a digit for `getInt` (its top bit is masked off) and has the value of the old
digit, or a value that differs from it by a multiple of 4 when the byte is the
first of six digits; or the checksum is 0 and `b` is `:` or `;`. -/
theorem delta_apply_checksum_changed (zSrc zOut : List Nat) (hS : zSrc.length < 1073741824)
    (hT : zOut.length < 1073741824) :
    ∃ d, (∀ fuel, zSrc.length + zOut.length + 6 ≤ fuel → delta_create fuel zSrc zOut = some d) ∧
      ∀ (q b : Nat), d.length - 1 - (putInt (checksum zOut)).length ≤ q → q < d.length - 1 →
        ∀ fuel, d.length ≤ fuel →
          delta_apply fuel zSrc (d.set q b) (d.length : Int)
            = some (if (0 ≤ zv b ∧ (zv b = zv (d.getD q 0) ∨
                          (q + 7 = d.length ∧ zv b % 4 = zv (d.getD q 0) % 4))) ∨
                        (zv b < 0 ∧ checksum zOut = 0 ∧ (b = 58 ∨ b = 59))
                    then ApplyResult.ok zOut.length zOut else ApplyResult.error) := by
  obtain ⟨cmds, n, hd, hn, hrun, hlen⟩ := delta_create_shape zSrc zOut hS hT
  refine ⟨_, hd, ?_⟩
  intro q b hq1 hq2 fuel hfuel
  have h6 := putInt_length_le_six (checksum zOut)
  have h5 := putInt_length_le_six zOut.length
  have hF1 : 1 ≤ (putInt (checksum zOut)).length := by
    have := putInt_ne_nil (checksum zOut)
    rcases Nat.eq_zero_or_pos (putInt (checksum zOut)).length with h | h
    · exact absurd (List.length_eq_zero.mp h) this
    · exact h
  have ed : putInt zOut.length ++ 10 :: (cmds ++ (putInt (checksum zOut) ++ [59]))
      = (putInt zOut.length ++ 10 :: cmds) ++ (putInt (checksum zOut) ++ [59]) := by simp
  have hdl : (putInt zOut.length ++ 10 :: (cmds ++ (putInt (checksum zOut) ++ [59]))).length
      = (putInt zOut.length ++ 10 :: cmds).length + (putInt (checksum zOut)).length + 1 := by
    simp only [List.length_append, List.length_cons, List.length_nil]; omega
  rw [hdl] at hq1 hq2 hfuel
  obtain ⟨p, hp⟩ : ∃ p, q = (putInt zOut.length ++ 10 :: cmds).length + p :=
    ⟨q - (putInt zOut.length ++ 10 :: cmds).length, by omega⟩
  have hpF : p < (putInt (checksum zOut)).length := by omega
  obtain ⟨hset, hget, hsplit⟩ := set_in_field (putInt zOut.length ++ 10 :: cmds)
    (putInt (checksum zOut)) [59] p b hpF
  have hdl2 : ((putInt zOut.length ++ 10 :: cmds) ++ (putInt (checksum zOut) ++ [59])).length
      = (putInt zOut.length ++ 10 :: cmds).length + (putInt (checksum zOut)).length + 1 := by
    simp only [List.length_append, List.length_cons, List.length_nil]; omega
  rw [ed, hp, hset, hget, hdl2]
  generalize hpre : (putInt (checksum zOut)).take p = pre at hset hsplit ⊢
  generalize hsuf : (putInt (checksum zOut)).drop (p + 1) = suf at hset hsplit ⊢
  generalize hold : (putInt (checksum zOut)).getD p 0 = old at hsplit ⊢
  have hFl : (putInt (checksum zOut)).length = pre.length + suf.length + 1 := by
    rw [hsplit]; simp only [List.length_append, List.length_cons]; omega
  have hpl : pre.length = p := by
    rw [← hpre, List.length_take]; omega
  have e2 : (putInt zOut.length ++ 10 :: cmds) ++ (pre ++ b :: (suf ++ [59]))
      = putInt zOut.length ++ 10 :: (cmds ++ (pre ++ b :: (suf ++ [59]))) := by simp
  rw [e2, delta_apply_header _ _ _ _ _ (by omega)]
  have e3 : (((putInt zOut.length ++ 10 :: cmds).length + (putInt (checksum zOut)).length + 1
      : Nat) : Int) - ((putInt zOut.length).length : Int) - 1
      = (((cmds ++ (pre ++ b :: (suf ++ [59]))).length : Nat) : Int) := by
    simp only [List.length_append, List.length_cons, List.length_nil, hFl]; push_cast; omega
  simp only [List.length_append, List.length_cons] at hfuel
  obtain ⟨f, hf⟩ : ∃ f, fuel = (f + 2) + n := ⟨fuel - n - 2, by omega⟩
  rw [e3, hf, hrun (f + 2) (pre ++ b :: (suf ++ [59]))
    (by simp only [List.length_append, List.length_cons, List.length_nil]; omega)]
  have hm5 : (putInt zOut.length ++ 10 :: cmds).length + p + 7
      = (putInt zOut.length ++ 10 :: cmds).length + (putInt (checksum zOut)).length + 1
      ↔ suf.length = 5 := by
    constructor <;> intro h <;> omega
  by_cases hdg : 0 ≤ zv b
  · have hnot : ¬ zv b < 0 := by omega
    rw [applyLoop_field_digit zSrc zOut pre suf old b (f + 1) hsplit hdg]
    simp only [hdg, true_and, hnot, false_and, or_false, hm5]
  · have hlt : zv b < 0 := by omega
    rw [applyLoop_field_other zSrc zOut pre suf old b f hT hsplit hlt]
    simp only [hdg, false_and, false_or, hlt, true_and]

/-- The changed checksum field at the source `abcdefghijklmnopqrstuvwxyz` and the
target `hello`. -/
theorem delta_apply_checksum_changed_witness :
    (abc.length < 1073741824 ∧ hello.length < 1073741824) ∧
    ∃ d, (∀ fuel, abc.length + hello.length + 6 ≤ fuel → delta_create fuel abc hello = some d) ∧
      ∀ (q b : Nat), d.length - 1 - (putInt (checksum hello)).length ≤ q → q < d.length - 1 →
        ∀ fuel, d.length ≤ fuel →
          delta_apply fuel abc (d.set q b) (d.length : Int)
            = some (if (0 ≤ zv b ∧ (zv b = zv (d.getD q 0) ∨
                          (q + 7 = d.length ∧ zv b % 4 = zv (d.getD q 0) % 4))) ∨
                        (zv b < 0 ∧ checksum hello = 0 ∧ (b = 58 ∨ b = 59))
                    then ApplyResult.ok hello.length hello else ApplyResult.error) :=
  ⟨by decide, delta_apply_checksum_changed abc hello (by decide) (by decide)⟩

/-! ## A script cut one byte short -/

/-- The round of the command loop that meets a checksum with nothing behind it:
`getInt` reads the digits, the next byte read is the terminating NUL, which is
no command character, and the loop returns the error. -/
theorem applyLoop_cut (zSrc : List Nat) (limit ck fuel t : Nat) (o : List Nat) (len : Int)
    (hck : ck < 4294967296) :
    applyLoop zSrc limit (fuel + 1) (putInt ck) len t o = some ApplyResult.error := by
  have hg : (getInt (putInt ck) len).2.1 = [] := by
    have h := getIntLoop_putInt ck [] hck
    rw [List.append_nil] at h
    simp only [getInt, h, getIntLoop]
  rw [applyLoop, applyStep_unknown zSrc limit (putInt ck) len t o (by rw [hg]; decide)
    (by rw [hg]; decide) (by rw [hg]; decide)]

/-- C11. A delta whose length is given one too small is not rejected. The delta
for `hello` from `abcdefghijklmnopqrstuvwxyz` is `5\n5:hello3NPMmh;`; handed to
`delta_apply` with the length 15 instead of 16, so that the closing `;` lies
behind the script, it is accepted: after the checksum digits the remaining
length is 0, the `;` is still read from the buffer without a look at the
length, and the call returns 5 with `hello` written. The error is returned
only when the buffer itself ends after the digits. -/
theorem delta_apply_short_length :
    delta_create 37 abc hello = some ([53, 10, 53, 58] ++ hello ++ putInt (checksum hello) ++ [59]) ∧
    delta_apply 3 abc ([53, 10, 53, 58] ++ hello ++ putInt (checksum hello) ++ [59])
      ((([53, 10, 53, 58] ++ hello ++ putInt (checksum hello) ++ [59]).length : Int) - 1)
      = some (ApplyResult.ok 5 hello) ∧
    (ApplyResult.ok 5 hello).ret = some 5 ∧
    delta_apply 3 abc ([53, 10, 53, 58] ++ hello ++ putInt (checksum hello) ++ [59]).dropLast
      ((([53, 10, 53, 58] ++ hello ++ putInt (checksum hello) ++ [59]).length : Int) - 1)
      = some ApplyResult.error := by
  refine ⟨?_, ?_, ?_, ?_⟩ <;> decide

/-- A delta whose last byte is cut off the buffer is rejected: for buffers
shorter than `2^30` bytes `delta_create` answers one delta `d` (for every
sufficient fuel), and `delta_apply` on the source and the buffer `d` without
its last byte, with the length `len(d) - 1`, returns the error. -/
theorem delta_apply_truncated (zSrc zOut : List Nat) (hS : zSrc.length < 1073741824)
    (hT : zOut.length < 1073741824) :
    ∃ d, (∀ fuel, zSrc.length + zOut.length + 6 ≤ fuel → delta_create fuel zSrc zOut = some d) ∧
      (∀ fuel, d.length ≤ fuel →
        delta_apply fuel zSrc d.dropLast ((d.length : Int) - 1) = some ApplyResult.error) ∧
      ApplyResult.error.ret = some (-1) := by
  obtain ⟨cmds, n, hd, hn, hrun, hlen⟩ := delta_create_shape zSrc zOut hS hT
  refine ⟨_, hd, fun fuel hf => ?_, rfl⟩
  have h6 := putInt_length_le_six (checksum zOut)
  have h5 := putInt_length_le_six zOut.length
  have e0 : putInt zOut.length ++ 10 :: (cmds ++ (putInt (checksum zOut) ++ [59]))
      = (putInt zOut.length ++ 10 :: (cmds ++ putInt (checksum zOut))) ++ [59] := by
    simp only [List.append_assoc, List.cons_append]
  rw [e0] at hf ⊢
  rw [List.dropLast_concat, delta_apply_header _ _ _ _ _ (by omega)]
  simp only [List.length_append, List.length_cons, List.length_nil] at hf
  have e1 : (((putInt zOut.length ++ 10 :: (cmds ++ putInt (checksum zOut)) ++ [59]).length : Nat)
      : Int) - 1 - ((putInt zOut.length).length : Int) - 1
      = (((cmds ++ putInt (checksum zOut)).length : Nat) : Int) := by
    simp only [List.length_append, List.length_cons, List.length_nil]; push_cast; omega
  obtain ⟨f, hf2⟩ : ∃ f, fuel = (f + 1) + n := ⟨fuel - n - 1, by omega⟩
  rw [e1, hf2, hrun (f + 1) (putInt (checksum zOut))
    (by simp only [List.length_append]; omega)]
  exact applyLoop_cut zSrc zOut.length (checksum zOut) f zOut.length zOut _ (checksum_lt zOut)

/-- The cut delta for the target `hello` and the source `abcdefghijklmnopqrstuvwxyz`. -/
theorem delta_apply_truncated_witness :
    (abc.length < 1073741824 ∧ hello.length < 1073741824) ∧
    ∃ d, (∀ fuel, abc.length + hello.length + 6 ≤ fuel → delta_create fuel abc hello = some d) ∧
      (∀ fuel, d.length ≤ fuel →
        delta_apply fuel abc d.dropLast ((d.length : Int) - 1) = some ApplyResult.error) ∧
      ApplyResult.error.ret = some (-1) :=
  ⟨by decide, delta_apply_truncated abc hello (by decide) (by decide)⟩

/-! ## The size of a delta, whatever the lengths of the buffers -/

/-- Whenever `digit_count` answers, its answer is at least the number of digits
that `putInt` writes. -/
theorem digit_count_ge (fuel v d : Nat) (h : digit_count fuel v = some d) :
    (putInt v).length ≤ d := by
  by_cases hv : v < 1073741824
  · obtain ⟨d1, hd1, hl, _, _⟩ := digit_count_spec (max fuel 6) v (le_max_right _ _) hv
    have h2 := digit_count_mono fuel (max fuel 6) v d (le_max_left _ _) h
    rw [hd1] at h2
    cases h2
    exact hl
  · rw [digit_count_diverges v (by omega) fuel] at h
    cases h

/-- Whatever the chain loop answers is a good best match. -/
theorem chainLoop_cost (F : Nat) (zSrc zOut : List Nat) (collide : List Int) (base i : Nat)
    (hcol : TableOK zSrc collide) (hbi : base + i ≤ zOut.length) :
    ∀ (limit : Nat) (iBlock : Int) (best b : Best), BlockOK zSrc iBlock →
      GoodBest zSrc zOut base best →
      chainLoop F zSrc zOut collide base i limit iBlock best = some b →
      GoodBest zSrc zOut base b := by
  intro limit
  induction limit with
  | zero =>
    intro iBlock best b _ hg h
    rw [chainLoop] at h
    cases h
    exact hg
  | succ limit ih =>
    intro iBlock best b hblk hg h
    rw [chainLoop] at h
    by_cases hge : iBlock ≥ 0
    · simp only [hge, if_true] at h
      have hb : iBlock.toNat * NHASH + NHASH < zSrc.length := by
        rcases hblk with h1 | h1
        · omega
        · exact h1.2
      obtain ⟨n, hc1, hc2, hc3, hc4, hc5, hc6⟩ := matchBlock_spec zSrc zOut base i iBlock hb hbi
      generalize matchBlock zSrc zOut base i iBlock = c at *
      have hcn : c.cnt.toNat = n := by rw [hc1]; exact Int.toNat_ofNat n
      rw [hcn] at h
      cases hd1 : digit_count F c.litsz with
      | none => rw [hd1] at h; cases h
      | some d1 =>
        cases hd2 : digit_count F n with
        | none => rw [hd1, hd2] at h; cases h
        | some d2 =>
          cases hd3 : digit_count F c.ofst with
          | none => rw [hd1, hd2, hd3] at h; cases h
          | some d3 =>
            rw [hd1, hd2, hd3] at h
            have hl1 := digit_count_ge F _ _ hd1
            have hl2 := digit_count_ge F _ _ hd2
            have hl3 := digit_count_ge F _ _ hd3
            refine ih _ _ b (TableOK_getD zSrc collide hcol _) ?_ h
            split_ifs with hacc
            · right
              simp only
              rw [hc1] at hacc
              refine ⟨hc4, hc5, hc6, ?_⟩
              have := hacc.1
              omega
            · exact hg
    · simp only [hge, if_false] at h
      cases h
      exact hg

/-- Whatever the scan loop answers: the new `base` is larger and within the
target, and the bytes written are no more than the target bytes covered, or
`base` is the end of the target and at most 7 bytes more are written. -/
theorem scanLoop_cost (F : Nat) (zSrc zOut : List Nat) (nHash : Nat) (collide landmark : List Int)
    (base : Nat) (hcol : TableOK zSrc collide) (hland : TableOK zSrc landmark) :
    ∀ (fuel : Nat) (h : hash) (i : Nat) (zDelta : List Nat) (r : Nat × List Nat),
      base + i + NHASH ≤ zOut.length →
      scanLoop F zSrc zOut nHash collide landmark base fuel h i zDelta = some r →
      base < r.1 ∧ r.1 ≤ zOut.length ∧
        (r.2.length ≤ zDelta.length + (r.1 - base) ∨
          (r.1 = zOut.length ∧ r.2.length ≤ zDelta.length + (r.1 - base) + 7)) := by
  intro fuel
  induction fuel with
  | zero => intro h i zDelta r _ hr; rw [scanLoop] at hr; cases hr
  | succ fuel ih =>
    intro h i zDelta r h1 hr
    have hN : NHASH = 16 := rfl
    rw [scanLoop] at hr
    cases hbest : chainLoop F zSrc zOut collide base i 250
        (landmark.getD (hash_32bit h % nHash) (-1)) { cnt := 0, ofst := 0, litsz := 0 } with
    | none => simp only [hbest] at hr; cases hr
    | some best =>
      have hgood := chainLoop_cost F zSrc zOut collide base i hcol (by omega) 250
        (landmark.getD (hash_32bit h % nHash) (-1)) { cnt := 0, ofst := 0, litsz := 0 } best
        (TableOK_getD zSrc landmark hland _) (Or.inl rfl) hbest
      simp only [hbest] at hr
      by_cases hcnt : best.cnt > 0
      · simp only [hcnt, if_true] at hr
        rcases hgood with h0 | ⟨hg1, hg2, hg3, hg4⟩
        · omega
        by_cases hl : best.litsz > 0
        · simp only [hl, if_true, Option.some.injEq] at hr
          subst hr
          refine ⟨by simp only; omega, by simp only; omega, Or.inl ?_⟩
          simp only [List.length_append, List.length_cons, List.length_take, List.length_drop,
            List.length_nil]
          omega
        · simp only [hl, if_false, Option.some.injEq] at hr
          subst hr
          have hl0 : best.litsz = 0 := by omega
          rw [hl0] at hg4
          have h48 : (putInt 0).length = 1 := by decide
          refine ⟨by simp only; omega, by simp only; omega, Or.inl ?_⟩
          simp only [List.length_append, List.length_cons, List.length_nil]
          omega
      · simp only [hcnt, if_false] at hr
        by_cases hend : base + i + NHASH ≥ zOut.length
        · simp only [hend, if_true, Option.some.injEq] at hr
          subst hr
          have h6 := putInt_length_le_six (zOut.length - base)
          refine ⟨by simp only; omega, le_refl _, Or.inr ⟨rfl, ?_⟩⟩
          simp only [List.length_append, List.length_cons, List.length_take, List.length_drop,
            List.length_nil]
          omega
        · simp only [hend, if_false] at hr
          exact ih _ (i + 1) zDelta r (by omega) hr

/-- Whatever the main loop answers: `base` stays within the target, and the
bytes written are no more than the target bytes covered, or `base` is the end
of the target and at most 7 bytes more are written. -/
theorem mainLoop_cost (F : Nat) (zSrc zOut : List Nat) (nHash : Nat) (collide landmark : List Int)
    (hcol : TableOK zSrc collide) (hland : TableOK zSrc landmark) :
    ∀ (fuel : Nat) (base : Nat) (zDelta : List Nat) (r : Nat × List Nat),
      base ≤ zOut.length →
      mainLoop F zSrc zOut nHash collide landmark fuel base zDelta = some r →
      base ≤ r.1 ∧ r.1 ≤ zOut.length ∧
        (r.2.length ≤ zDelta.length + (r.1 - base) ∨
          (r.1 = zOut.length ∧ r.2.length ≤ zDelta.length + (r.1 - base) + 7)) ∧
        (¬ (base + NHASH < zOut.length) → r = (base, zDelta)) := by
  intro fuel
  induction fuel with
  | zero => intro base zDelta r _ hr; rw [mainLoop] at hr; cases hr
  | succ fuel ih =>
    intro base zDelta r h1 hr
    have hN : NHASH = 16 := rfl
    rw [mainLoop] at hr
    by_cases hc : base + NHASH < zOut.length
    · simp only [hc, if_true] at hr
      cases hs : scanLoop F zSrc zOut nHash collide landmark base F (hash_init zOut base) 0 zDelta with
      | none => simp only [hs] at hr; cases hr
      | some r1 =>
        simp only [hs] at hr
        obtain ⟨a1, a2, a3⟩ := scanLoop_cost F zSrc zOut nHash collide landmark base hcol hland F
          (hash_init zOut base) 0 zDelta r1 (by omega) hs
        obtain ⟨b1, b2, b3, b4⟩ := ih r1.1 r1.2 r a2 hr
        refine ⟨by omega, b2, ?_, fun hn => absurd hc hn⟩
        rcases a3 with a3 | ⟨a3, a4⟩
        · rcases b3 with b3 | ⟨b3, b5⟩
          · left; omega
          · right; exact ⟨b3, by omega⟩
        · have e := b4 (by omega)
          subst e
          right
          exact ⟨a3, a4⟩
    · simp only [hc, if_false, Option.some.injEq] at hr
      subst hr
      exact ⟨le_refl _, h1, Or.inl (by simp), fun _ => rfl⟩

/-- Whatever the hash-table loop answers from empty tables are tables of block
indices. -/
theorem hashLoop_tables (zSrc : List Nat) (nHash fuel : Nat) (c l : List Int)
    (h : hashLoop zSrc nHash fuel 0 (List.replicate nHash (-1)) (List.replicate nHash (-1))
      = some (c, l)) : TableOK zSrc c ∧ TableOK zSrc l := by
  obtain ⟨c1, l1, h1, hc, hl⟩ := hashLoop_spec zSrc nHash (max fuel (zSrc.length + 1)) 0
    (List.replicate nHash (-1)) (List.replicate nHash (-1))
    (lt_of_lt_of_le (by omega) (le_max_right _ _)) (TableOK_replicate _ _) (TableOK_replicate _ _)
  have h2 := hashLoop_mono zSrc nHash fuel (max fuel (zSrc.length + 1)) 0 _ _ _ (le_max_left _ _) h
  rw [h1] at h2
  cases h2
  exact ⟨hc, hl⟩

/-- Whatever `delta_create` answers, for buffers of any length, is at most 21
bytes longer than the target. -/
theorem delta_create_length_any (fuel : Nat) (zSrc zOut d : List Nat)
    (h : delta_create fuel zSrc zOut = some d) : d.length ≤ zOut.length + 21 := by
  have h6 := putInt_length_le_six (checksum zOut)
  have h5 := putInt_length_le_six zOut.length
  unfold delta_create at h
  by_cases hsmall : zSrc.length ≤ NHASH
  · simp only [hsmall, if_true, Option.some.injEq] at h
    subst h
    simp only [List.length_append, List.length_cons, List.length_nil]
    omega
  · simp only [hsmall, if_false] at h
    cases hh : hashLoop zSrc (zSrc.length / NHASH) fuel 0
        (List.replicate (zSrc.length / NHASH) (-1)) (List.replicate (zSrc.length / NHASH) (-1)) with
    | none => simp only [hh] at h; cases h
    | some tb =>
      obtain ⟨c, l⟩ := tb
      obtain ⟨hc, hl⟩ := hashLoop_tables zSrc _ fuel c l hh
      simp only [hh] at h
      cases hm : mainLoop fuel zSrc zOut (zSrc.length / NHASH) c l fuel 0
          (putInt zOut.length ++ [10]) with
      | none => simp only [hm] at h; cases h
      | some r =>
        obtain ⟨b, z⟩ := r
        obtain ⟨_, m2, m3, _⟩ := mainLoop_cost fuel zSrc zOut _ c l hc hl fuel 0 _ (b, z)
          (Nat.zero_le _) hm
        simp only [hm, Option.some.injEq] at h
        subst h
        have h7 := putInt_length_le_six (zOut.length - b)
        simp only [List.length_append, List.length_cons, List.length_nil] at m3
        simp only at m2 m3
        split_ifs with hb
        · simp only [List.length_append, List.length_cons, List.length_nil, List.length_take,
            List.length_drop]
          omega
        · simp only [List.length_append, List.length_cons, List.length_nil]
          omega

theorem ffGiga_length : ffGiga.length = 1073741824 := by
  unfold ffGiga
  rw [List.length_replicate]

theorem checksum_ffGiga : checksum ffGiga = 4026531840 := by
  have h := checksum16_replicate 67108864 0 0 0 0 (by decide) (by decide) (by decide) (by decide)
  unfold checksum ffGiga
  rw [h]
  decide

theorem delta_nil_length_giga (T : List Nat) (hl : T.length = 1073741824)
    (hc : checksum T = 4026531840) :
    (putInt T.length ++ [10] ++ putInt T.length ++ [58] ++ T
        ++ putInt (checksum T) ++ [59]).length = T.length + 21 := by
  have h4 : (putInt 1073741824).length = 6 := by decide
  have h6 : (putInt 4026531840).length = 6 := by decide
  simp only [List.length_append, List.length_cons, List.length_nil, hc, hl, h4, h6]

/-- The bound of 21 bytes is reached: for the empty source and a target of
`2^30` bytes `0xFF` the delta is `2^30 + 21` bytes long (two lengths of 6
digits with `\n` and `:`, the target, a checksum of 6 digits and `;`). -/
theorem delta_create_length_reached :
    ∀ fuel, ∃ d, delta_create fuel [] ffGiga = some d ∧ d.length = ffGiga.length + 21 := by
  intro fuel
  exact ⟨_, delta_create_nil ffGiga fuel, delta_nil_length_giga ffGiga ffGiga_length checksum_ffGiga⟩

/-- Non-expansion, for every source and every target, with the constant 21:
whatever `delta_create` answers is at most 21 bytes longer than the target (the
written length with its newline, the header of one trailing INSERT and the
checksum with `;`, each at most 7 bytes), because every COPY, together with the
INSERT header before it, is no longer than the target bytes it covers.
`delta_create` does answer: for every fuel when the source has at most 16
bytes, and for every fuel from `len S + len T + 6` when both buffers are
shorter than `2^30` bytes, where the delta is at most 19 bytes longer than the
target. -/
theorem delta_create_length_le (zSrc zOut : List Nat) :
    (∀ fuel d, delta_create fuel zSrc zOut = some d → d.length ≤ zOut.length + 21) ∧
    (zSrc.length ≤ NHASH → ∀ fuel, ∃ d, delta_create fuel zSrc zOut = some d) ∧
    (zSrc.length < 1073741824 → zOut.length < 1073741824 →
      ∃ d, (∀ fuel, zSrc.length + zOut.length + 6 ≤ fuel →
          delta_create fuel zSrc zOut = some d) ∧
        d.length ≤ zOut.length + 19) := by
  refine ⟨fun fuel d h => delta_create_length_any fuel zSrc zOut d h, ?_, ?_⟩
  · intro hsmall fuel
    unfold delta_create
    simp only [hsmall, if_true]
    exact ⟨_, rfl⟩
  · intro hS hT
    obtain ⟨cmds, n, hd, hn, hrun, hlen⟩ := delta_create_shape zSrc zOut hS hT
    refine ⟨_, hd, ?_⟩
    have h6 := putInt_length_le_six (checksum zOut)
    have h5 := putInt_length_le 5 zOut.length (by decide) (by norm_num; omega) (by omega)
    simp only [List.length_append, List.length_cons, List.length_nil]
    omega

/-- The size bound at source and target `abcdefghijklmnopqrstuvwxyz`, and the
answer for the source `hello`. -/
theorem delta_create_length_le_witness :
    (delta_create 58 abc abc = some ([81, 10, 81, 64, 48, 44] ++ putInt (checksum abc) ++ [59]) ∧
      ([81, 10, 81, 64, 48, 44] ++ putInt (checksum abc) ++ [59]).length ≤ abc.length + 21) ∧
    (hello.length ≤ NHASH ∧ ∀ fuel, ∃ d, delta_create fuel hello abc = some d) ∧
    ((abc.length < 1073741824 ∧ abc.length < 1073741824) ∧
      ∃ d, (∀ fuel, abc.length + abc.length + 6 ≤ fuel → delta_create fuel abc abc = some d) ∧
        d.length ≤ abc.length + 19) :=
  ⟨⟨by decide, (delta_create_length_le abc abc).1 58 _ (by decide)⟩,
    ⟨by decide, (delta_create_length_le hello abc).2.1 (by decide)⟩,
    ⟨⟨by decide, by decide⟩, (delta_create_length_le abc abc).2.2 (by decide) (by decide)⟩⟩

/-! ## A source of more than `2^30` bytes for which nothing is answered -/

theorem getD_replicate_zero_byte (n t : Nat) : (List.replicate n (0 : Nat)).getD t 0 = 0 := by
  by_cases h : t < n
  · rw [List.getD_eq_getElem _ _ (by rw [List.length_replicate]; exact h), List.getElem_replicate]
  · rw [List.getD_eq_default _ _ (by rw [List.length_replicate]; omega)]

/-- The hash of a window of zero bytes is zero. -/
theorem hash_init_zero (z : List Nat) (ofs : Nat) (hz : ∀ t, z.getD t 0 = 0) :
    hash_32bit (hash_init z ofs) = 0 := by
  unfold hash_init
  simp only [hz]
  decide

/-- The hash-table loop over a source of zero bytes leaves in `landmark[0]` the
last block it has seen. -/
theorem hashLoop_zero (zSrc : List Nat) (nHash : Nat) (hz : ∀ t, zSrc.getD t 0 = 0)
    (hL : 1073741824 + 32 ≤ zSrc.length) :
    ∀ (fuel i : Nat) (collide landmark c l : List Int), 0 < landmark.length →
      (i = 0 ∨ ∃ m : Nat, landmark.getD 0 (-1) = (m : Int) ∧ m * 16 + 16 = i) →
      hashLoop zSrc nHash fuel i collide landmark = some (c, l) →
      ∃ m : Nat, l.getD 0 (-1) = (m : Int) ∧ 1073741824 ≤ m * 16 := by
  intro fuel
  induction fuel with
  | zero => intro i collide landmark c l _ _ h; rw [hashLoop] at h; cases h
  | succ fuel ih =>
    intro i collide landmark c l hlen hinv h
    have hN : NHASH = 16 := rfl
    rw [hashLoop] at h
    by_cases hi : i < zSrc.length - NHASH
    · simp only [hi, if_true, hash_init_zero zSrc i hz, Nat.zero_mod] at h
      refine ih (i + NHASH) _ _ c l (by rw [List.length_set]; exact hlen) ?_ h
      right
      refine ⟨i / NHASH, ?_, ?_⟩
      · rw [List.getD_eq_getElem _ _ (by rw [List.length_set]; exact hlen), List.getElem_set_self]
      · rcases hinv with h0 | ⟨m, _, hm⟩
        · subst h0; rfl
        · rw [← hm, hN]; omega
    · simp only [hi, if_false, Option.some.injEq, Prod.mk.injEq] at h
      obtain ⟨_, h2⟩ := h
      subst h2
      rcases hinv with h0 | ⟨m, hm1, hm2⟩
      · omega
      · exact ⟨m, hm1, by omega⟩

/-- The chain loop does not answer when the first candidate lies at an offset
from `2^30`: `digit_count` does not return for it. -/
theorem chainLoop_no_answer (F : Nat) (zSrc zOut : List Nat) (collide : List Int) (base : Nat)
    (limit m : Nat) (best : Best) (hm : 1073741824 ≤ m * 16) :
    chainLoop F zSrc zOut collide base 0 (limit + 1) (m : Int) best = none := by
  have hN : NHASH = 16 := rfl
  rw [chainLoop]
  have hge : (m : Int) ≥ 0 := Int.ofNat_nonneg m
  simp only [hge, if_true]
  have ho : (matchBlock zSrc zOut base 0 (m : Int)).ofst = m * 16 := by
    simp only [matchBlock, matchBack, Int.toNat_ofNat, hN]
    omega
  rw [ho, digit_count_diverges (m * 16) hm F]
  cases digit_count F (matchBlock zSrc zOut base 0 (m : Int)).litsz <;>
    cases digit_count F (matchBlock zSrc zOut base 0 (m : Int)).cnt.toNat <;> rfl

/-- For a source of zero bytes that is longer than `2^30 + 32` bytes and a target
of more than 16 bytes that begins with 16 zero bytes `delta_create` answers
nothing, whatever the fuel: the first candidate match lies in the last block of
the source, and `digit_count` does not return for its offset. -/
theorem delta_create_no_answer_of (zSrc zOut : List Nat) (hz : ∀ t, zSrc.getD t 0 = 0)
    (hL : 1073741824 + 32 ≤ zSrc.length) (ho : ∀ t, zOut.getD t 0 = 0)
    (hT : 16 < zOut.length) : ∀ fuel, delta_create fuel zSrc zOut = none := by
  intro fuel
  have hN : NHASH = 16 := rfl
  unfold delta_create
  have hsmall : ¬ zSrc.length ≤ NHASH := by omega
  simp only [hsmall, if_false]
  cases hh : hashLoop zSrc (zSrc.length / NHASH) fuel 0
      (List.replicate (zSrc.length / NHASH) (-1)) (List.replicate (zSrc.length / NHASH) (-1)) with
  | none => rfl
  | some tb =>
    obtain ⟨c, l⟩ := tb
    obtain ⟨m, hm1, hm2⟩ := hashLoop_zero zSrc _ hz hL fuel 0 _ _ c l
      (by rw [List.length_replicate, hN]; omega) (Or.inl rfl) hh
    simp only
    cases fuel with
    | zero => rfl
    | succ f =>
      have hb : 0 + NHASH < zOut.length := by omega
      rw [mainLoop]
      simp only [hb, if_true]
      rw [scanLoop]
      simp only [hash_init_zero zOut 0 ho, Nat.zero_mod, hm1, chainLoop_no_answer _ _ _ _ _ 249 m _ hm2]

theorem zeroGiga_length : zeroGiga.length = 1073741872 := by
  unfold zeroGiga
  rw [List.length_replicate]

theorem zero17_length : zero17.length = 17 := by
  unfold zero17
  rw [List.length_replicate]

/-- C2. The bound holds for whatever `delta_create` answers, but `delta_create`
does not answer for every source and target. For the source of `2^30 + 48` zero
bytes and the target of 17 zero bytes nothing is answered, whatever the fuel:
the first candidate match lies in the last block of the source, at the offset
`2^30 + 16`, and `digit_count` does not return for it. What holds for every
source and every target: a delta that is answered is at most 21 bytes longer
than the target; one is answered for every fuel when the source has at most 16
bytes, and for every fuel from `len S + len T + 6` when both buffers are
shorter than `2^30` bytes, where it is at most 19 bytes longer than the
target. -/
theorem delta_create_no_answer :
    zeroGiga.length = 1073741872 ∧ zero17.length = 17 ∧
    (∀ fuel, delta_create fuel zeroGiga zero17 = none) ∧
    (∀ zSrc zOut : List Nat,
      (∀ fuel d, delta_create fuel zSrc zOut = some d → d.length ≤ zOut.length + 21) ∧
      (zSrc.length ≤ NHASH → ∀ fuel, ∃ d, delta_create fuel zSrc zOut = some d) ∧
      (zSrc.length < 1073741824 → zOut.length < 1073741824 →
        ∃ d, (∀ fuel, zSrc.length + zOut.length + 6 ≤ fuel →
            delta_create fuel zSrc zOut = some d) ∧
          d.length ≤ zOut.length + 19)) :=
  ⟨zeroGiga_length, zero17_length,
    delta_create_no_answer_of zeroGiga zero17 (fun t => getD_replicate_zero_byte _ t)
      (by rw [zeroGiga_length]; decide) (fun t => getD_replicate_zero_byte _ t)
      (by rw [zero17_length]; decide),
    fun zSrc zOut => delta_create_length_le zSrc zOut⟩

/-! ## The checksum is the sum of the big-endian words -/

theorem checksumTail_wordSum (z : List Nat) (s0 s1 s2 s3 : Nat)
    (h : ∀ z0 z1 z2 z3 rest, z = z0 :: z1 :: z2 :: z3 :: rest → False) :
    checksumTail z s0 s1 s2 s3
      = (s3 + s2 * 256 + s1 * 65536 + s0 * 16777216 + wordSum z) % 4294967296 := by
  match z, h with
  | [], _ =>
    simp only [checksumTail, wordSum, Nat.shiftLeft_eq]
    omega
  | [a], _ =>
    simp only [checksumTail, wordSum, beWord, Nat.shiftLeft_eq, List.getD_cons_zero,
      List.getD_cons_succ, List.getD_nil]
    omega
  | [a, b], _ =>
    simp only [checksumTail, wordSum, beWord, Nat.shiftLeft_eq, List.getD_cons_zero,
      List.getD_cons_succ, List.getD_nil]
    omega
  | [a, b, c], _ =>
    simp only [checksumTail, wordSum, beWord, Nat.shiftLeft_eq, List.getD_cons_zero,
      List.getD_cons_succ, List.getD_nil]
    omega
  | a :: b :: c :: d :: rest, h => exact absurd rfl (fun e => h a b c d rest e)

theorem checksum4_wordSum (z : List Nat) (s0 s1 s2 s3 : Nat) :
    checksum4 z s0 s1 s2 s3
      = (s3 + s2 * 256 + s1 * 65536 + s0 * 16777216 + wordSum z) % 4294967296 := by
  induction z, s0, s1, s2, s3 using checksum4.induct with
  | case1 z0 z1 z2 z3 rest s0 s1 s2 s3 ih =>
    rw [checksum4, ih]
    simp only [wordSum, beWord, List.getD_cons_zero, List.getD_cons_succ]
    omega
  | case2 z s0 s1 s2 s3 h =>
    rw [checksum4]
    · exact checksumTail_wordSum z s0 s1 s2 s3 h
    · exact h

theorem wordSum_four (z0 z1 z2 z3 : Nat) (rest : List Nat) :
    wordSum (z0 :: z1 :: z2 :: z3 :: rest)
      = (z0 * 16777216 + z1 * 65536 + z2 * 256 + z3 + wordSum rest) % 4294967296 := by
  simp only [wordSum, beWord, List.getD_cons_zero, List.getD_cons_succ]

theorem checksum16_wordSum (z : List Nat) (s0 s1 s2 s3 : Nat) :
    checksum16 z s0 s1 s2 s3
      = (s3 + s2 * 256 + s1 * 65536 + s0 * 16777216 + wordSum z) % 4294967296 := by
  induction z, s0, s1, s2, s3 using checksum16.induct with
  | case1 z0 z1 z2 z3 z4 z5 z6 z7 z8 z9 z10 z11 z12 z13 z14 z15 rest s0 s1 s2 s3 ih =>
    rw [checksum16, ih, wordSum_four, wordSum_four, wordSum_four, wordSum_four]
    omega
  | case2 z s0 s1 s2 s3 h =>
    rw [checksum16]
    · exact checksum4_wordSum z s0 s1 s2 s3
    · exact h

/-- C25. For every buffer `z` the value of `checksum`, computed by the loop over
16 bytes, the loop over 4 bytes and the final fold of the four sums, is the sum
modulo `2^32` of the buffer read as consecutive big-endian 32-bit words, the
last one to three bytes padded with zero bytes on the right. -/
theorem checksum_eq_wordSum (z : List Nat) : checksum z = wordSum z := by
  unfold checksum
  rw [checksum16_wordSum]
  have h : wordSum z < 4294967296 := by
    match z with
    | [] => simp [wordSum]
    | [a] => simp only [wordSum]; exact Nat.mod_lt _ (by decide)
    | [a, b] => simp only [wordSum]; exact Nat.mod_lt _ (by decide)
    | [a, b, c] => simp only [wordSum]; exact Nat.mod_lt _ (by decide)
    | a :: b :: c :: d :: rest => rw [wordSum_four]; exact Nat.mod_lt _ (by decide)
  omega

/-! ## The rolling hash: advancing is initialising one byte further -/

theorem winSum_shift (z : List Nat) (k : Nat) : ∀ n,
    winSum z (k + 1) n = winSum z k n - schar (z.getD k 0) + schar (z.getD (k + n) 0) := by
  intro n
  induction n with
  | zero => simp [winSum]
  | succ n ih =>
    rw [winSum, ih, winSum]
    have e : k + 1 + n = k + (n + 1) := by omega
    rw [e]
    ring

theorem winWeighted_shift (z : List Nat) (k : Nat) : ∀ n,
    winWeighted z (k + 1) n
      = winWeighted z k (n + 1) - (NHASH : Int) * schar (z.getD k 0) + winSum z (k + 1) n := by
  intro n
  induction n with
  | zero => simp [winWeighted, winSum]
  | succ n ih =>
    have e1 : winWeighted z (k + 1) (n + 1) = winWeighted z (k + 1) n
        + ((NHASH : Int) - (n : Int)) * schar (z.getD (k + 1 + n) 0) := rfl
    have e2 : winWeighted z k (n + 1 + 1) = winWeighted z k (n + 1)
        + ((NHASH : Int) - ((n + 1 : Nat) : Int)) * schar (z.getD (k + (n + 1)) 0) := rfl
    have e3 : winSum z (k + 1) (n + 1) = winSum z (k + 1) n + schar (z.getD (k + 1 + n) 0) := rfl
    have e : k + 1 + n = k + (n + 1) := by omega
    rw [e1, e2, e3, ih, e]
    push_cast
    ring

theorem u16_cast (x : Int) : ((u16 x : Nat) : Int) = x % 65536 := by
  unfold u16
  omega

theorem u16_congr (x y : Int) (h : x % 65536 = y % 65536) : u16 x = u16 y := by
  unfold u16
  rw [h]

/-- The loop of `hash_init` after `n` rounds. -/
theorem hash_init_fold (z : List Nat) (k : Nat) : ∀ n, n ≤ 16 →
    ((List.range n).foldl (fun h i => hash_init_step (z.getD (k + i) 0) i h)
        { a := 0, b := 0, i := 0, z := List.replicate NHASH 0 }).a = u16 (winSum z k n) ∧
    ((List.range n).foldl (fun h i => hash_init_step (z.getD (k + i) 0) i h)
        { a := 0, b := 0, i := 0, z := List.replicate NHASH 0 }).b = u16 (winWeighted z k n) ∧
    ((List.range n).foldl (fun h i => hash_init_step (z.getD (k + i) 0) i h)
        { a := 0, b := 0, i := 0, z := List.replicate NHASH 0 }).z.length = 16 ∧
    ∀ t, t < n →
      ((List.range n).foldl (fun h i => hash_init_step (z.getD (k + i) 0) i h)
        { a := 0, b := 0, i := 0, z := List.replicate NHASH 0 }).z.getD t 0
        = z.getD (k + t) 0 := by
  intro n
  induction n with
  | zero =>
    intro _
    refine ⟨rfl, rfl, rfl, fun t ht => absurd ht (Nat.not_lt_zero t)⟩
  | succ n ih =>
    intro hn
    obtain ⟨h1, h2, h3, h4⟩ := ih (by omega)
    rw [List.range_succ, List.foldl_append]
    simp only [List.foldl_cons, List.foldl_nil]
    generalize (List.range n).foldl (fun h i => hash_init_step (z.getD (k + i) 0) i h)
      { a := 0, b := 0, i := 0, z := List.replicate NHASH 0 } = h at h1 h2 h3 h4
    unfold hash_init_step
    dsimp only
    refine ⟨?_, ?_, ?_, ?_⟩
    · rw [h1, winSum]
      unfold u16
      omega
    · rw [h2, winWeighted]
      unfold u16
      generalize schar (z.getD (k + n) 0) = s
      generalize winWeighted z k n = w
      have e : ((NHASH : Nat) : Int) = 16 := rfl
      rw [e]
      have hm : ((16 : Int) - (n : Int)) * s = 16 * s - (n : Int) * s := by ring
      rw [hm]
      generalize (n : Int) * s = ns
      omega
    · rw [List.length_set]
      exact h3
    · intro t ht
      rw [List.getD_eq_getElem?_getD, List.getElem?_set]
      by_cases e : n = t
      · subst e
        rw [if_pos rfl, h3, if_pos (by omega)]
        rfl
      · rw [if_neg e, ← List.getD_eq_getElem?_getD]
        exact h4 t (by omega)

/-- What `hash_init` computes for the window at the offset `k`. -/
theorem hash_init_spec (z : List Nat) (k : Nat) :
    (hash_init z k).a = u16 (winSum z k 16) ∧ (hash_init z k).b = u16 (winWeighted z k 16) ∧
    (hash_init z k).i = 0 ∧ (hash_init z k).z.length = 16 ∧
    ∀ t, t < 16 → (hash_init z k).z.getD t 0 = z.getD (k + t) 0 := by
  obtain ⟨h1, h2, h3, h4⟩ := hash_init_fold z k 16 (le_refl _)
  have hN : NHASH = 16 := rfl
  unfold hash_init
  dsimp only
  rw [hN] at h1 h2 h3 h4 ⊢
  rw [h1, h2]
  have m1 : ∀ x : Int, u16 x &&& 0xffff = u16 x := by
    intro x
    have := Nat.and_pow_two_sub_one_eq_mod (u16 x) 16
    have e : (2 : Nat) ^ 16 - 1 = 0xffff := by norm_num
    rw [e] at this
    rw [this]
    unfold u16
    omega
  rw [m1, m1]
  exact ⟨rfl, rfl, rfl, h3, h4⟩

/-- The state of the rolling hash after `k` advances. -/
theorem hash_advance_spec (z : List Nat) : ∀ k,
    (hash_advance z k).a = u16 (winSum z k 16) ∧
    (hash_advance z k).b = u16 (winWeighted z k 16) ∧
    (hash_advance z k).i = k % 16 ∧ (hash_advance z k).z.length = 16 ∧
    ∀ m, k ≤ m → m < k + 16 → (hash_advance z k).z.getD (m % 16) 0 = z.getD m 0 := by
  intro k
  induction k with
  | zero =>
    obtain ⟨h1, h2, h3, h4, h5⟩ := hash_init_spec z 0
    refine ⟨h1, h2, h3, h4, ?_⟩
    intro m _ hm
    have e : m % 16 = m := Nat.mod_eq_of_lt (by omega)
    rw [e]
    have := h5 m (by omega)
    rw [Nat.zero_add] at this
    exact this
  | succ k ih =>
    obtain ⟨h1, h2, h3, h4, h5⟩ := ih
    have hN : NHASH = 16 := rfl
    have hold : (hash_advance z k).z.getD (hash_advance z k).i 0 = z.getD k 0 := by
      rw [h3]
      exact h5 k (le_refl _) (by omega)
    rw [hash_advance]
    unfold hash_next
    dsimp only
    rw [hold, h1, h2, hN]
    refine ⟨?_, ?_, ?_, ?_, ?_⟩
    · rw [winSum_shift]
      apply u16_congr
      rw [u16_cast, u16_cast]
      omega
    · have eS : winSum z (k + 1) 16
          = winSum z k 16 - schar (z.getD k 0) + schar (z.getD (k + 16) 0) := winSum_shift z k 16
      have eW : winWeighted z (k + 1) 16
          = winWeighted z k 16 - 16 * schar (z.getD k 0) + winSum z (k + 1) 16 := by
        have e2 : winWeighted z k (16 + 1) = winWeighted z k 16
            + ((NHASH : Int) - ((16 : Nat) : Int)) * schar (z.getD (k + 16) 0) := rfl
        have e : ((NHASH : Nat) : Int) = 16 := rfl
        rw [winWeighted_shift, e2, e]
        push_cast
        ring
      rw [eW, eS]
      generalize schar (z.getD k 0) = s
      generalize schar (z.getD (k + 16) 0) = s2
      generalize winWeighted z k 16 = w
      generalize winSum z k 16 = sm
      apply u16_congr
      rw [u16_cast, u16_cast, u16_cast, u16_cast]
      push_cast
      omega
    · rw [h3]
      have := Nat.and_pow_two_sub_one_eq_mod (k % 16 + 1) 4
      have e : (2 : Nat) ^ 4 - 1 = 16 - 1 := by norm_num
      rw [e] at this
      rw [this]
      omega
    · rw [List.length_set]
      exact h4
    · intro m hm1 hm2
      rw [h3, List.getD_eq_getElem?_getD, List.getElem?_set]
      by_cases e : k % 16 = m % 16
      · rw [if_pos e, h4, if_pos (Nat.mod_lt _ (by decide))]
        have hm : m = k + 16 := by omega
        rw [hm]
        rfl
      · rw [if_neg e, ← List.getD_eq_getElem?_getD]
        exact h5 m (by omega) (by omega)

/-- C26. For every text `z` and every `k`, the rolling hash that is initialised
at the start of `z` and advanced `k` times, with the bytes `z[16]`, ...,
`z[15+k]`, has the 32-bit value of the rolling hash that is initialised at the
offset `k`; for `k = 1` this is one advance with the byte `z[16]`.  The low half
of the value is the sum of the 16 characters of the window and the high half
their weighted sum, the first with the weight 16 and the last with the weight
1, both modulo `2^16`. -/
theorem hash_advance_eq_init (z : List Nat) (k : Nat) :
    hash_32bit (hash_advance z k) = hash_32bit (hash_init z k) ∧
    hash_32bit (hash_next (hash_init z 0) (z.getD 16 0)) = hash_32bit (hash_init z 1) ∧
    (hash_init z k).a = u16 (winSum z k 16) ∧ (hash_init z k).b = u16 (winWeighted z k 16) ∧
    hash_32bit (hash_init z k)
      = u16 (winSum z k 16) + u16 (winWeighted z k 16) * 65536 := by
  obtain ⟨a1, a2, _, _, _⟩ := hash_advance_spec z k
  obtain ⟨b1, b2, _, _, _⟩ := hash_init_spec z k
  obtain ⟨c1, c2, _, _, _⟩ := hash_advance_spec z 1
  obtain ⟨d1, d2, _, _, _⟩ := hash_init_spec z 1
  have e1 : hash_advance z 1 = hash_next (hash_init z 0) (z.getD 16 0) := rfl
  refine ⟨?_, ?_, b1, b2, ?_⟩
  · unfold hash_32bit
    rw [a1, a2, b1, b2]
  · rw [← e1]
    unfold hash_32bit
    rw [c1, c2, d1, d2]
  · unfold hash_32bit
    rw [b1, b2]
    have m1 : ∀ x : Int, u16 x &&& 0xffff = u16 x := by
      intro x
      have := Nat.and_pow_two_sub_one_eq_mod (u16 x) 16
      have e : (2 : Nat) ^ 16 - 1 = 0xffff := by norm_num
      rw [e] at this
      rw [this]
      unfold u16
      omega
    rw [m1, m1, Nat.shiftLeft_eq]
    have hlt : u16 (winSum z k 16) < 2 ^ 16 := by
      unfold u16
      omega
    rw [Nat.mul_comm, Nat.or_comm, Nat.add_comm]
    exact (Nat.mul_add_lt_is_or hlt _).symm

/-! ## The digits that `putInt` writes -/

theorem zDigits_getD_mem : ∀ d, d < 64 → zDigits.getD d 0 ∈ zDigits := by
  decide

theorem putInt_mem_zDigits (v c : Nat) (h : c ∈ putInt v) : c ∈ zDigits := by
  unfold putInt at h
  by_cases h0 : v % 4294967296 = 0
  · simp only [h0, if_true, List.mem_singleton] at h
    rw [h]; decide
  · simp only [h0, if_false, List.mem_reverse] at h
    obtain ⟨d, hd, rfl⟩ := mem_putIntDigits _ _ _ h
    exact zDigits_getD_mem d hd

/-- The first digit that `putInt` writes for a positive value is not `0`. -/
theorem putInt_head_ne_zero (v : Nat) (hv : v < 4294967296) (h0 : 0 < v) :
    (putInt v).headD 0 ≠ 48 := by
  intro hh
  have hl := putInt_lower v hv h0
  have hval := val_putInt v hv
  cases hp : putInt v with
  | nil => exact putInt_ne_nil v hp
  | cons c t =>
    rw [hp] at hh hl hval
    simp only [List.headD_cons] at hh
    subst hh
    have ht := val_lt t
    simp only [List.length_cons, Nat.add_sub_cancel] at hl
    have hd : dval 48 = 0 := by decide
    rw [val, hd] at hval
    omega

/-- The claim C27 fails for a byte from 128 on whose low seven bits are a digit:
the byte 176 is none of the 64 digits, and behind the digit `1` that `putInt`
writes for 1 it is read as the digit `0`, so that `getInt` answers 64 and
consumes two bytes. -/
theorem getInt_putInt_high_byte :
    176 ∉ zDigits ∧ putInt 1 = [49] ∧ getInt (putInt 1 ++ [176, 10]) 3 = (64, [10], 1) := by
  refine ⟨by decide, by decide, by decide⟩

/-- C27, amended. For a 32-bit value `v`, `putInt` writes between 1 and 6
bytes, each one of the 64 digits; they are the base-64 numeral of `v`, most
significant digit first, which is the single digit `0` for 0 and does not start
with `0` otherwise; and `getInt` on these bytes followed by a byte whose low
seven bits are no digit answers `v` and stops at that byte, the length reduced
by the number of bytes written. -/
theorem putInt_getInt_spec (v : Nat) (hv : v < 4294967296) :
    1 ≤ (putInt v).length ∧ (putInt v).length ≤ 6 ∧ (∀ c, c ∈ putInt v → c ∈ zDigits) ∧
    putInt v = base64 v ∧ val (putInt v) = v ∧ (v = 0 → putInt v = [48]) ∧
    (0 < v → (putInt v).headD 0 ≠ 48) ∧
    ∀ (c : Nat) (rest : List Nat) (len : Int), zValue.getD (0x7f &&& c) (-1) < 0 →
      getInt (putInt v ++ c :: rest) len = (v, c :: rest, len - ((putInt v).length : Int)) := by
  refine ⟨?_, putInt_length_le_six v, putInt_mem_zDigits v, putInt_eq_base64 v hv,
    val_putInt v hv, ?_, putInt_head_ne_zero v hv, ?_⟩
  · have := putInt_ne_nil v
    cases hp : putInt v with
    | nil => exact absurd hp this
    | cons c t => simp
  · intro h
    subst h
    rfl
  · intro c rest len hc
    exact getInt_putInt v c rest len hv hc

/-- The amended claim for the value 4096, written `100`. -/
theorem putInt_getInt_spec_witness :
    (4096 : Nat) < 4294967296 ∧
    (1 ≤ (putInt 4096).length ∧ (putInt 4096).length ≤ 6 ∧
    (∀ c, c ∈ putInt 4096 → c ∈ zDigits) ∧
    putInt 4096 = base64 4096 ∧ val (putInt 4096) = 4096 ∧ ((4096 : Nat) = 0 → putInt 4096 = [48]) ∧
    (0 < 4096 → (putInt 4096).headD 0 ≠ 48) ∧
    ∀ (c : Nat) (rest : List Nat) (len : Int), zValue.getD (0x7f &&& c) (-1) < 0 →
      getInt (putInt 4096 ++ c :: rest) len
        = (4096, c :: rest, len - ((putInt 4096).length : Int))) :=
  ⟨by decide, putInt_getInt_spec 4096 (by decide)⟩

/-! ## Integer fields without a digit -/

/-- At a byte that is no digit, or at the end of the buffer, `getInt` answers 0
and consumes nothing. -/
theorem getInt_empty (c : Nat) (rest : List Nat) (len : Int) (hc : zv c < 0) :
    getInt (c :: rest) len = (0, c :: rest, len) := by
  unfold getInt
  rw [getIntLoop_stop c 0 rest hc]
  simp

/-- The digit `0` in front of a byte that is no digit: `getInt` answers 0 and
consumes the digit. -/
theorem getInt_zero (c : Nat) (rest : List Nat) (len : Int) (hc : zv c < 0) :
    getInt (48 :: c :: rest) (len + 1) = (0, c :: rest, len) := by
  unfold getInt
  have h48 : getIntLoop (48 :: c :: rest) 0 = getIntLoop (c :: rest) 0 := by
    rw [getIntLoop]
    rfl
  rw [h48, getIntLoop_stop c 0 rest hc]
  simp

/-- The claim C28 fails: the script `\n;`, whose target length and whose
checksum are fields without a digit, is applied with success to the empty
source and to the source `ab`; the output is empty. -/
theorem delta_apply_empty_fields :
    delta_apply 1 [] [10, 59] 2 = some (ApplyResult.ok 0 []) ∧
    delta_apply 2 [97, 98] [10, 59] 2 = some (ApplyResult.ok 0 []) :=
  ⟨rfl, rfl⟩

/-- C28, amended. A field without a digit is not an error: `getInt` reads it
as 0 and consumes nothing.  A script with an empty target length is handled as
the script with the digit `0` in that field, a command with an empty count as
the command with the count `0`, each with one byte more of length; the script
`\n;` is applied to every source with success and gives the empty output. -/
theorem delta_apply_empty_field_zero (zSrc : List Nat) (fuel : Nat) (s : List Nat) (len : Int)
    (limit c : Nat) (rest : List Nat) (total : Nat) (out : List Nat) (hc : zv c < 0)
    (hc0 : c ≠ 0) (hlen : 0 < len) :
    getInt (c :: rest) len = (0, c :: rest, len) ∧
    delta_apply fuel zSrc (10 :: s) len = delta_apply fuel zSrc (48 :: 10 :: s) (len + 1) ∧
    applyStep zSrc limit (c :: rest) len total out
      = applyStep zSrc limit (48 :: c :: rest) (len + 1) total out ∧
    delta_apply (fuel + 1) zSrc [10, 59] 2 = some (ApplyResult.ok 0 []) := by
  refine ⟨getInt_empty c rest len hc, ?_, ?_, rfl⟩
  · unfold delta_apply
    rw [getInt_empty 10 s len (by decide), getInt_zero 10 s len (by decide)]
  · unfold applyStep
    have h1 : (c :: rest).headD 0 ≠ 0 ∧ len > 0 := ⟨hc0, hlen⟩
    have h2 : (48 :: c :: rest).headD 0 ≠ 0 ∧ len + 1 > 0 := ⟨by simp, by omega⟩
    rw [if_pos h1, if_pos h2, getInt_empty c rest len hc, getInt_zero c rest len hc]

/-- The amended claim for the command `;` behind the script `\n`. -/
theorem delta_apply_empty_field_zero_witness :
    (zv 59 < 0 ∧ (59 : Nat) ≠ 0 ∧ (0 : Int) < 1) ∧
    (getInt (59 :: []) 1 = (0, 59 :: [], 1) ∧
    delta_apply 1 [] (10 :: [59]) 1 = delta_apply 1 [] (48 :: 10 :: [59]) (1 + 1) ∧
    applyStep [] 0 (59 :: []) 1 0 [] = applyStep [] 0 (48 :: 59 :: []) (1 + 1) 0 [] ∧
    delta_apply (1 + 1) [] [10, 59] 2 = some (ApplyResult.ok 0 [])) :=
  ⟨⟨by decide, by decide, by decide⟩,
    delta_apply_empty_field_zero [] 1 [59] 1 0 59 [] 0 [] (by decide) (by decide) (by decide)⟩

/-! ## `digit_count` and the digits that `putInt` writes -/

/-- Below `2^30` the loop of `digit_count` ends with the number of bytes that
`putInt` writes. -/
theorem digit_count_exact (fuel v : Nat) (hf : 6 ≤ fuel) (hv : v < 1073741824) :
    digit_count fuel v = some (putInt v).length := by
  obtain ⟨f, rfl⟩ : ∃ f, fuel = f + 6 := ⟨fuel - 6, by omega⟩
  have hv32 : v < 4294967296 := by omega
  have h5 : ¬ 1073741824 ≤ v := by omega
  have hle := fun k hk hvk => putInt_length_le k v hk hvk hv32
  have hne : 1 ≤ (putInt v).length := by
    have := putInt_ne_nil v
    cases h : putInt v with
    | nil => exact absurd h this
    | cons c l => simp
  have hlow : 0 < v → 64 ^ ((putInt v).length - 1) ≤ v := putInt_lower v hv32
  have key : ∀ k, 1 ≤ k → v < 64 ^ k → (k = 1 ∨ 64 ^ (k - 1) ≤ v) → (putInt v).length = k := by
    intro k hk hvk hlo
    have h1 := hle k hk hvk
    rcases Nat.lt_or_ge (putInt v).length k with hlt | hge
    · exfalso
      rcases hlo with rfl | hlo
      · omega
      · have h2 := putInt_length_le ((putInt v).length) v hne
        have h3 : 64 ^ (putInt v).length ≤ 64 ^ (k - 1) :=
          Nat.pow_le_pow_right (by decide) (by omega)
        have h4 : v < 64 ^ (putInt v).length := by
          by_cases h0 : v = 0
          · subst h0
            exact Nat.pow_pos (by decide)
          · have := val_putInt v hv32
            have h5 := val_lt (putInt v)
            omega
        omega
    · omega
  unfold digit_count
  simp only [digit_countLoop]
  norm_num
  by_cases h1 : 64 ≤ v
  · by_cases h2 : 4096 ≤ v
    · by_cases h3 : 262144 ≤ v
      · by_cases h4 : 16777216 ≤ v
        · have e := key 5 (by decide) (by norm_num; omega) (Or.inr (by norm_num; omega))
          simp [h1, h2, h3, h4, h5, e]
        · have e := key 4 (by decide) (by norm_num; omega) (Or.inr (by norm_num; omega))
          simp [h1, h2, h3, h4, e]
      · have e := key 3 (by decide) (by norm_num; omega) (Or.inr (by norm_num; omega))
        simp [h1, h2, h3, e]
    · have e := key 2 (by decide) (by norm_num; omega) (Or.inr (by norm_num; omega))
      simp [h1, h2, e]
  · have e := key 1 (by decide) (by norm_num; omega) (Or.inl rfl)
    simp [h1, e]

/-- The size `sz` that the chain loop of `delta_create` computes for a match is,
below `2^30`, the number of bytes of the head `litsz:` of an insert command and
of the copy command `cnt@ofst,`. -/
theorem chain_cost_exact (fuel litsz cnt ofst : Nat) (hf : 6 ≤ fuel) (h1 : litsz < 1073741824)
    (h2 : cnt < 1073741824) (h3 : ofst < 1073741824) :
    ∃ d1 d2 d3, digit_count fuel litsz = some d1 ∧ digit_count fuel cnt = some d2 ∧
      digit_count fuel ofst = some d3 ∧
      d1 + d2 + d3 + 3
        = (putInt litsz ++ [58]).length + (putInt cnt ++ [64] ++ putInt ofst ++ [44]).length := by
  refine ⟨_, _, _, digit_count_exact fuel litsz hf h1, digit_count_exact fuel cnt hf h2,
    digit_count_exact fuel ofst hf h3, ?_⟩
  simp only [List.length_append, List.length_singleton]
  omega

/-- C40. The claim holds below `2^30` and fails from there on: for the value
`2^30`, which `putInt` writes with 6 digits, the loop of `digit_count` does not
end, whatever the fuel; `x` is `2^30` in the fifth round and `0` from the sixth
round on, and `v >= 0` holds always. -/
theorem digit_count_loops_forever (fuel : Nat) :
    digit_count fuel 1073741824 = none ∧ (putInt 1073741824).length = 6 ∧
    (1073741824 : Nat) < 2147483648 ∧
    digit_countLoop 1073741824 (fuel + 1) 5 1073741824 = digit_countLoop 1073741824 fuel 6 0 :=
  ⟨digit_count_diverges 1073741824 (le_refl _) fuel, by decide, by decide, by
    rw [digit_countLoop]
    rfl⟩

end Delta

namespace Diff

/-! ## The tokenizer rejects binary input -/

/-- A NUL byte stops the first loop of `break_into_lines`. -/
theorem countLines_zero : ∀ (z : List Nat) (j nLine : Nat), 0 ∈ z → countLines z j nLine = none := by
  intro z
  induction z with
  | nil => intro j nLine h; simp at h
  | cons c rest ih =>
    intro j nLine h
    rw [countLines]
    by_cases hc : c = 0
    · rw [if_pos hc]
    · rw [if_neg hc]
      have hr : 0 ∈ rest := by
        rcases List.mem_cons.mp h with h1 | h1
        · exact absurd h1.symm hc
        · exact h1
      split_ifs
      · rfl
      · exact ih _ _ hr
      · exact ih _ _ hr

theorem countLines_over : ∀ (z : List Nat) (j nLine : Nat), j > LENGTH_MASK →
    OverLong (countLines z j nLine) := by
  intro z
  induction z with
  | nil => intro j nLine h; simpa [countLines, OverLong] using h
  | cons c rest ih =>
    intro j nLine h
    rw [countLines]
    split_ifs <;> first | trivial | exact ih _ _ (by omega)

theorem countLines_run (post : List Nat) : ∀ (l : List Nat) (j nLine : Nat), 10 ∉ l →
    j + l.length > LENGTH_MASK → OverLong (countLines (l ++ post) j nLine) := by
  intro l
  induction l with
  | nil => intro j nLine _ h; exact countLines_over post j nLine (by simpa using h)
  | cons c l ih =>
    intro j nLine h10 h
    have hc : c ≠ 10 := fun e => h10 (by rw [e]; exact List.mem_cons_self _ _)
    have hl : 10 ∉ l := fun e => h10 (List.mem_cons_of_mem _ e)
    rw [List.cons_append, countLines]
    simp only [hc, false_and, if_false]
    split_ifs
    · trivial
    · exact ih _ _ hl (by simp only [List.length_cons] at h; omega)

theorem countLines_long (l post : List Nat) (h10 : 10 ∉ l) (hl : l.length > LENGTH_MASK) :
    ∀ (pre : List Nat) (j nLine : Nat), OverLong (countLines (pre ++ (l ++ post)) j nLine) := by
  intro pre
  induction pre with
  | nil => intro j nLine; exact countLines_run post l j nLine h10 (by omega)
  | cons c pre ih =>
    intro j nLine
    rw [List.cons_append, countLines]
    split_ifs
    · trivial
    · trivial
    · exact ih _ _
    · exact ih _ _

/-- C15. `break_into_lines` returns 0 for every buffer that holds a NUL byte
and for every buffer that holds more than 8191 bytes in a row without a
newline, that is, a line longer than 8191 bytes. -/
theorem break_into_lines_binary (E : Env) (z : List Nat) (ignoreWS : Bool)
    (h : 0 ∈ z ∨ ∃ pre l post, z = pre ++ (l ++ post) ∧ 10 ∉ l ∧ 8191 < l.length) :
    break_into_lines E z ignoreWS = none := by
  unfold break_into_lines
  rcases h with h | ⟨pre, l, post, hz, h10, hl⟩
  · rw [countLines_zero z 0 1 h]
  · have ho := countLines_long l post h10 (by simpa [LENGTH_MASK, LENGTH_MASK_SZ] using hl) pre 0 1
    rw [← hz] at ho
    cases hc : countLines z 0 1 with
    | none => rfl
    | some r =>
      rw [hc] at ho
      obtain ⟨j, nLine⟩ := r
      simp only [OverLong] at ho
      simp only [ho, if_true]

/-- A buffer with a NUL byte behind the letter `a`. -/
theorem break_into_lines_binary_witness :
    ((0 ∈ [97, 0, 10]) ∨ ∃ pre l post, [97, 0, 10] = pre ++ (l ++ post) ∧ 10 ∉ l ∧ 8191 < l.length) ∧
    break_into_lines stdEnv [97, 0, 10] false = none :=
  ⟨Or.inl (by decide), break_into_lines_binary stdEnv [97, 0, 10] false (Or.inl (by decide))⟩

/-- C17. If one of the two buffers holds a NUL byte, or is turned down by
`break_into_lines` for another reason, then `text_diff` returns 0 whatever the
flags are, and all it appends to an output blob is the message
`cannot compute difference between binary files` with a newline. -/
theorem text_diff_binary (E : Env) (fuel : Nat) (pA_Blob pB_Blob : List Nat)
    (pOut : Option (List Nat)) (diffFlags : Nat)
    (h : 0 ∈ pA_Blob ∨ 0 ∈ pB_Blob ∨
      break_into_lines E pA_Blob (decide (diffFlags &&& DIFF_IGNORE_EOLWS ≠ 0)) = none ∨
      break_into_lines E pB_Blob (decide (diffFlags &&& DIFF_IGNORE_EOLWS ≠ 0)) = none) :
    text_diff E fuel pA_Blob pB_Blob pOut diffFlags
      = some (none, pOut.map fun out =>
          out ++ str "cannot compute difference between binary files\n") := by
  have hA : 0 ∈ pA_Blob → break_into_lines E pA_Blob (decide (diffFlags &&& DIFF_IGNORE_EOLWS ≠ 0))
      = none := fun h0 => break_into_lines_binary E _ _ (Or.inl h0)
  have hB : 0 ∈ pB_Blob → break_into_lines E pB_Blob (decide (diffFlags &&& DIFF_IGNORE_EOLWS ≠ 0))
      = none := fun h0 => break_into_lines_binary E _ _ (Or.inl h0)
  have h2 : break_into_lines E pA_Blob (decide (diffFlags &&& DIFF_IGNORE_EOLWS ≠ 0)) = none ∨
      break_into_lines E pB_Blob (decide (diffFlags &&& DIFF_IGNORE_EOLWS ≠ 0)) = none := by
    rcases h with h | h | h | h
    · exact Or.inl (hA h)
    · exact Or.inr (hB h)
    · exact Or.inl h
    · exact Or.inr h
  unfold text_diff
  by_cases hi : diffFlags &&& DIFF_INVERT ≠ 0
  · rw [if_pos hi, if_pos hi]
    dsimp only
    rcases h2 with h | h
    · rw [h]
      cases break_into_lines E pB_Blob (decide (diffFlags &&& DIFF_IGNORE_EOLWS ≠ 0)) <;> rfl
    · rw [h]
  · rw [if_neg hi, if_neg hi]
    dsimp only
    rcases h2 with h | h
    · rw [h]
    · rw [h]
      cases break_into_lines E pA_Blob (decide (diffFlags &&& DIFF_IGNORE_EOLWS ≠ 0)) <;> rfl

/-- The buffers `a`, NUL, newline and `b`, with an output blob that holds `x`. -/
theorem text_diff_binary_witness :
    (0 ∈ [97, 0, 10] ∨ 0 ∈ [98] ∨
      break_into_lines stdEnv [97, 0, 10] (decide (0 &&& DIFF_IGNORE_EOLWS ≠ 0)) = none ∨
      break_into_lines stdEnv [98] (decide (0 &&& DIFF_IGNORE_EOLWS ≠ 0)) = none) ∧
    text_diff stdEnv 0 [97, 0, 10] [98] (some [120]) 0
      = some (none, (some [120]).map fun out =>
          out ++ str "cannot compute difference between binary files\n") :=
  ⟨Or.inl (by decide), text_diff_binary stdEnv 0 [97, 0, 10] [98] (some [120]) 0 (Or.inl (by decide))⟩

/-! ## The records of the tokenizer -/

theorem lineEnd_le_length : ∀ z : List Nat, lineEnd z ≤ z.length := by
  intro z
  induction z with
  | nil => simp [lineEnd]
  | cons c rest ih =>
    rw [lineEnd]
    split_ifs
    · simp only [List.length_cons]; omega
    · omega

theorem trimEnd_le (E : Env) (z : List Nat) : ∀ k, trimEnd E z k ≤ k := by
  intro k
  induction k with
  | zero => simp [trimEnd]
  | succ k ih =>
    rw [trimEnd]
    split_ifs
    · omega
    · omega

theorem lineLength_le (E : Env) (ignoreWS : Bool) (z : List Nat) :
    lineLength E ignoreWS z ≤ lineEnd z := by
  unfold lineLength
  split_ifs
  · exact trimEnd_le E z _
  · exact le_refl _

/-- The first loop of `break_into_lines` over one line: it fails, or it ends
behind the line, or it goes on with the next line. -/
theorem countLines_cases : ∀ (z : List Nat) (j n : Nat),
    countLines z j n = none ∨
    (countLines z j n = some (j + lineEnd z, n) ∧ z.drop (lineEnd z) = []) ∨
    (countLines z j n = some (j + lineEnd z + 1, n) ∧ z.drop (lineEnd z) = [10]) ∨
    (∃ c r, z.drop (lineEnd z) = 10 :: c :: r ∧ c ≠ 0 ∧ j + lineEnd z ≤ LENGTH_MASK ∧
      countLines z j n = countLines (c :: r) 1 (n + 1)) := by
  intro z
  induction z with
  | nil => intro j n; right; left; simp [countLines, lineEnd]
  | cons c rest ih =>
    intro j n
    by_cases h0 : c = 0
    · left; rw [countLines, if_pos h0]
    by_cases h10 : c = 10
    · subst h10
      have hl : lineEnd (10 :: rest) = 0 := by simp [lineEnd]
      rw [hl]
      cases rest with
      | nil => right; right; left; simp [countLines]
      | cons c2 r =>
        by_cases h2 : c2 = 0
        · left
          subst h2
          simp [countLines]
        · by_cases hj : j > LENGTH_MASK
          · left
            rw [countLines]
            simp [h2, hj]
          · right; right; right
            refine ⟨c2, r, by simp, h2, by omega, ?_⟩
            rw [countLines]
            simp [h2, hj]
    · have hl : lineEnd (c :: rest) = lineEnd rest + 1 := by simp [lineEnd, h0, h10]
      have hc : countLines (c :: rest) j n = countLines rest (j + 1) n := by
        rw [countLines]; simp [h0, h10]
      rw [hl, hc]
      have e1 : j + (lineEnd rest + 1) = j + 1 + lineEnd rest := by omega
      rw [e1, List.drop_succ_cons]
      exact ih (j + 1) n

theorem countLines_le : ∀ (z : List Nat) (j n j2 n2 : Nat),
    countLines z j n = some (j2, n2) → n ≤ n2 := by
  intro z
  induction z with
  | nil => intro j n j2 n2 h; simp [countLines] at h; omega
  | cons c rest ih =>
    intro j n j2 n2 h
    rw [countLines] at h
    split_ifs at h
    · have := ih _ _ _ _ h; omega
    · exact ih _ _ _ _ h

/-- When the first loop of `break_into_lines` succeeds with a final `j` within
the limit, every line that the second loop finds is within the limit. -/
theorem countLines_bound : ∀ (m : Nat) (z : List Nat) (j n j2 n2 : Nat),
    countLines z j n = some (j2, n2) → j2 ≤ LENGTH_MASK → m + n ≤ n2 →
    lineEnd (lineStart m z) ≤ LENGTH_MASK := by
  intro m
  induction m with
  | zero =>
    intro z j n j2 n2 h hj _
    rw [lineStart]
    rcases countLines_cases z j n with h1 | ⟨h1, _⟩ | ⟨h1, _⟩ | ⟨c, r, _, _, h3, _⟩
    · rw [h1] at h; cases h
    · rw [h1] at h; cases h; omega
    · rw [h1] at h; cases h; omega
    · omega
  | succ m ih =>
    intro z j n j2 n2 h hj hm
    rw [lineStart]
    rcases countLines_cases z j n with h1 | ⟨h1, _⟩ | ⟨h1, _⟩ | ⟨c, r, h2, _, _, h4⟩
    · rw [h1] at h; cases h
    · rw [h1] at h; cases h; omega
    · rw [h1] at h; cases h; omega
    · have hd : z.drop (lineEnd z + 1) = c :: r := by
        rw [← List.drop_drop, h2]; rfl
      rw [hd]
      rw [h4] at h
      exact ih (c :: r) 1 (n + 1) j2 n2 h hj (by omega)

theorem getD_set {α : Type} (l : List α) (i j : Nat) (a d : α) :
    (l.set i a).getD j d = if i = j ∧ i < l.length then a else l.getD j d := by
  simp only [List.getD_eq_getElem?_getD, List.getElem?_set]
  by_cases h : i = j
  · subst h
    by_cases h2 : i < l.length
    · simp [h2]
    · simp [h2, List.getElem?_eq_none (not_lt.mp h2)]
  · simp [h]

theorem set_keep_z (l : List DLine) (i : Nat) (x : DLine) (hx : x.z = (l.getD i DLine.zero).z)
    (t : Nat) : ((l.set i x).getD t DLine.zero).z = (l.getD t DLine.zero).z := by
  rw [getD_set]
  split_ifs with hc
  · obtain ⟨rfl, _⟩ := hc
    exact hx
  · rfl

theorem set_keep_h (l : List DLine) (i : Nat) (x : DLine) (hx : x.h = (l.getD i DLine.zero).h)
    (t : Nat) : ((l.set i x).getD t DLine.zero).h = (l.getD t DLine.zero).h := by
  rw [getD_set]
  split_ifs with hc
  · obtain ⟨rfl, _⟩ := hc
    exact hx
  · rfl

/-- One round of the second loop of `break_into_lines` sets the text and the
hash of the record `i` and leaves those of the other records. -/
theorem fill_round (a : List DLine) (i h2 : Nat) (z : List Nat) (h : Nat) (hi : i < a.length)
    (t : Nat) :
    let a1 := a.set i { (a.getD i DLine.zero) with z := z, h := h }
    let a2 := a1.set i { (a1.getD i DLine.zero) with iNext := (a1.getD h2 DLine.zero).iHash }
    let a3 := a2.set h2 { (a2.getD h2 DLine.zero) with iHash := i + 1 }
    a3.length = a.length ∧
    (a3.getD t DLine.zero).z = (if t = i then z else (a.getD t DLine.zero).z) ∧
    (a3.getD t DLine.zero).h = (if t = i then h else (a.getD t DLine.zero).h) := by
  intro a1 a2 a3
  have l1 : a1.length = a.length := by simp [a1]
  have l2 : a2.length = a.length := by simp [a2, l1]
  refine ⟨by simp [a3, l2], ?_, ?_⟩
  · have k3 : (a3.getD t DLine.zero).z = (a2.getD t DLine.zero).z := set_keep_z a2 h2 { (a2.getD h2 DLine.zero) with iHash := i + 1 } rfl t
    have k2 : (a2.getD t DLine.zero).z = (a1.getD t DLine.zero).z := set_keep_z a1 i { (a1.getD i DLine.zero) with iNext := (a1.getD h2 DLine.zero).iHash } rfl t
    rw [k3, k2]
    simp only [a1]
    rw [getD_set]
    by_cases e : t = i
    · subst e; simp [hi]
    · have e2 : ¬ (i = t ∧ i < a.length) := fun hc => e hc.1.symm
      rw [if_neg e2, if_neg e]
  · have k3 : (a3.getD t DLine.zero).h = (a2.getD t DLine.zero).h := set_keep_h a2 h2 { (a2.getD h2 DLine.zero) with iHash := i + 1 } rfl t
    have k2 : (a2.getD t DLine.zero).h = (a1.getD t DLine.zero).h := set_keep_h a1 i { (a1.getD i DLine.zero) with iNext := (a1.getD h2 DLine.zero).iHash } rfl t
    rw [k3, k2]
    simp only [a1]
    rw [getD_set]
    by_cases e : t = i
    · subst e; simp [hi]
    · have e2 : ¬ (i = t ∧ i < a.length) := fun hc => e hc.1.symm
      rw [if_neg e2, if_neg e]

/-- The second loop of `break_into_lines` stores in the record of every line
from `i` on the start of the line and its hash, and leaves the texts and
hashes of the records before `i`. -/
theorem fillLines_spec (E : Env) (ignoreWS : Bool) (nLine : Nat) :
    ∀ (fuel i : Nat) (z : List Nat) (a : List DLine), a.length = nLine → i + fuel ≤ nLine →
    (fillLines E ignoreWS nLine fuel i z a).length = nLine ∧
    ∀ t, (t < i → ((fillLines E ignoreWS nLine fuel i z a).getD t DLine.zero).z
              = (a.getD t DLine.zero).z ∧
            ((fillLines E ignoreWS nLine fuel i z a).getD t DLine.zero).h
              = (a.getD t DLine.zero).h) ∧
      (i ≤ t → t < i + fuel →
        ((fillLines E ignoreWS nLine fuel i z a).getD t DLine.zero).z = lineStart (t - i) z ∧
        ((fillLines E ignoreWS nLine fuel i z a).getD t DLine.zero).h
          = lineH E ignoreWS (lineStart (t - i) z)) := by
  intro fuel
  induction fuel with
  | zero =>
    intro i z a ha _
    refine ⟨by rw [fillLines]; exact ha, fun t => ⟨fun _ => by rw [fillLines]; exact ⟨rfl, rfl⟩, ?_⟩⟩
    intro h1 h2; omega
  | succ fuel ih =>
    intro i z a ha hi
    rw [fillLines]
    have hr := fill_round a i
      ((((lineHash (z.take (if ignoreWS then trimEnd E z (lineEnd z) else lineEnd z)) 0)
        <<< LENGTH_MASK_SZ) ||| (if ignoreWS then trimEnd E z (lineEnd z) else lineEnd z))
        % 4294967296 % nLine) z
      ((((lineHash (z.take (if ignoreWS then trimEnd E z (lineEnd z) else lineEnd z)) 0)
        <<< LENGTH_MASK_SZ) ||| (if ignoreWS then trimEnd E z (lineEnd z) else lineEnd z))
        % 4294967296) (by omega)
    dsimp only at hr ⊢
    obtain ⟨h1, h2⟩ := ih (i + 1) (z.drop (lineEnd z + 1)) _ ((hr 0).1.trans ha) (by omega)
    refine ⟨h1, fun t => ⟨fun ht => ?_, fun ht1 ht2 => ?_⟩⟩
    · obtain ⟨e1, e2⟩ := (h2 t).1 (by omega)
      rw [e1, e2, (hr t).2.1, (hr t).2.2, if_neg (by omega), if_neg (by omega)]
      exact ⟨rfl, rfl⟩
    · by_cases e : t = i
      · subst e
        obtain ⟨e1, e2⟩ := (h2 t).1 (by omega)
        rw [e1, e2, (hr t).2.1, (hr t).2.2, if_pos rfl, if_pos rfl, Nat.sub_self]
        exact ⟨rfl, rfl⟩
      · obtain ⟨e1, e2⟩ := (h2 t).2 (by omega) (by omega)
        have e3 : t - i = (t - (i + 1)) + 1 := by omega
        rw [e1, e2, e3, lineStart]
        exact ⟨rfl, rfl⟩

theorem length_of_hash (H k : Nat) (hk : k ≤ LENGTH_MASK) :
    (((H <<< LENGTH_MASK_SZ) ||| k) % 4294967296) &&& LENGTH_MASK = k := by
  have hk2 : k < 2 ^ 13 := by
    have : LENGTH_MASK = 8191 := by decide
    omega
  have e1 : (H <<< LENGTH_MASK_SZ) ||| k = 2 ^ 13 * H + k := by
    rw [Nat.mul_add_lt_is_or hk2 H, Nat.shiftLeft_eq, Nat.mul_comm]
    rfl
  have e2 : LENGTH_MASK = 2 ^ 13 - 1 := by decide
  rw [e1, e2, Nat.and_pow_two_sub_one_eq_mod]
  omega

theorem memcmp0_iff : ∀ (n : Nat) (a b : List Nat), n ≤ a.length → n ≤ b.length →
    (memcmp0 a b n = true ↔ a.take n = b.take n) := by
  intro n
  induction n with
  | zero => intro a b _ _; simp [memcmp0]
  | succ n ih =>
    intro a b ha hb
    cases a with
    | nil => simp at ha
    | cons x a =>
      cases b with
      | nil => simp at hb
      | cons y b =>
        simp only [List.length_cons] at ha hb
        rw [memcmp0]
        simp only [List.headD_cons, List.tail_cons, List.take_succ_cons, Bool.and_eq_true,
          decide_eq_true_eq, List.cons.injEq]
        rw [ih a b (by omega) (by omega)]

/-- What `break_into_lines` records for the line `t`: the start of the line,
its hash, and in the low bits of the hash its length, which is at most 8191
and within the buffer. -/
theorem break_into_lines_spec (E : Env) (ignoreWS : Bool) (z : List Nat) (L : List DLine)
    (n t : Nat) (h : break_into_lines E z ignoreWS = some (L, n)) (ht : t < n) :
    (L.getD t DLine.zero).z = lineStart t z ∧
    (L.getD t DLine.zero).h = lineH E ignoreWS (lineStart t z) ∧
    LENGTH (L.getD t DLine.zero) = lineLength E ignoreWS (lineStart t z) ∧
    lineLength E ignoreWS (lineStart t z) ≤ LENGTH_MASK ∧
    lineLength E ignoreWS (lineStart t z) ≤ (lineStart t z).length := by
  unfold break_into_lines at h
  cases hc : countLines z 0 1 with
  | none => rw [hc] at h; cases h
  | some r =>
    obtain ⟨j, nLine⟩ := r
    rw [hc] at h
    dsimp only at h
    split_ifs at h with h1 h2
    · simp only [Option.some.injEq, Prod.mk.injEq] at h
      omega
    · simp only [Option.some.injEq, Prod.mk.injEq] at h
      obtain ⟨hL, hn⟩ := h
      subst hn
      have hs := (fillLines_spec E ignoreWS nLine nLine 0 z (List.replicate nLine DLine.zero)
        (by simp) (by omega)).2 t
      rw [hL] at hs
      obtain ⟨e1, e2⟩ := hs.2 (by omega) (by omega)
      rw [Nat.sub_zero] at e1 e2
      have hb : lineLength E ignoreWS (lineStart t z) ≤ LENGTH_MASK :=
        le_trans (lineLength_le E ignoreWS _)
          (countLines_bound t z 0 1 j nLine hc (by omega) (by omega))
      refine ⟨e1, e2, ?_, hb, le_trans (lineLength_le E ignoreWS _) (lineEnd_le_length _)⟩
      rw [LENGTH, e2, lineH]
      exact length_of_hash _ _ hb

/-- Two records that hold the start, the hash and the length of a line are
the same for `same_dline` exactly if the lengths agree and the bytes agree. -/
theorem same_dline_records (E : Env) (ignoreWS : Bool) (pA pB : DLine)
    (hA : pA.h = lineH E ignoreWS pA.z) (hB : pB.h = lineH E ignoreWS pB.z)
    (lA : lineLength E ignoreWS pA.z ≤ LENGTH_MASK) (lB : lineLength E ignoreWS pB.z ≤ LENGTH_MASK)
    (bA : lineLength E ignoreWS pA.z ≤ pA.z.length) (bB : lineLength E ignoreWS pB.z ≤ pB.z.length) :
    same_dline pA pB = true ↔
      (lineLength E ignoreWS pA.z = lineLength E ignoreWS pB.z ∧
        pA.z.take (lineLength E ignoreWS pA.z) = pB.z.take (lineLength E ignoreWS pB.z)) := by
  have kA : pA.h &&& LENGTH_MASK = lineLength E ignoreWS pA.z := by
    rw [hA, lineH]; exact length_of_hash _ _ lA
  have kB : pB.h &&& LENGTH_MASK = lineLength E ignoreWS pB.z := by
    rw [hB, lineH]; exact length_of_hash _ _ lB
  unfold same_dline
  rw [Bool.and_eq_true, decide_eq_true_eq, kA]
  constructor
  · rintro ⟨h1, h2⟩
    have hk : lineLength E ignoreWS pA.z = lineLength E ignoreWS pB.z := by
      rw [← kA, ← kB, h1]
    refine ⟨hk, ?_⟩
    rw [memcmp0_iff _ _ _ bA (by omega)] at h2
    rw [h2, hk]
  · rintro ⟨h1, h2⟩
    constructor
    · rw [hA, hB, lineH, lineH, h2, h1]
    · rw [memcmp0_iff _ _ _ bA (by omega), h2, h1]

/-- C16. For two records that `break_into_lines` has produced with the same
`ignoreWS`, `same_dline` holds exactly if the recorded lengths agree and the
bytes of the two lines agree over that length: lines with equal content get
equal hashes. -/
theorem same_dline_iff (E : Env) (ignoreWS : Bool) (zA zB : List Nat) (LA LB : List DLine)
    (nA nB i j : Nat) (hA : break_into_lines E zA ignoreWS = some (LA, nA))
    (hB : break_into_lines E zB ignoreWS = some (LB, nB)) (hi : i < nA) (hj : j < nB) :
    same_dline (LA.getD i DLine.zero) (LB.getD j DLine.zero) = true ↔
      (LENGTH (LA.getD i DLine.zero) = LENGTH (LB.getD j DLine.zero) ∧
        (LA.getD i DLine.zero).z.take (LENGTH (LA.getD i DLine.zero))
          = (LB.getD j DLine.zero).z.take (LENGTH (LB.getD j DLine.zero))) := by
  obtain ⟨a1, a2, a3, a4, a5⟩ := break_into_lines_spec E ignoreWS zA LA nA i hA hi
  obtain ⟨b1, b2, b3, b4, b5⟩ := break_into_lines_spec E ignoreWS zB LB nB j hB hj
  rw [← a1] at a2 a3 a4 a5
  rw [← b1] at b2 b3 b4 b5
  rw [a3, b3]
  exact same_dline_records E ignoreWS _ _ a2 b2 a4 b4 a5 b5

/-- The first line of `a\nb\n` and the line of `a\n`. -/
theorem same_dline_iff_witness :
    (break_into_lines stdEnv (str "a\nb\n") false = some (abLines, 2) ∧
      break_into_lines stdEnv (str "a\n") false = some (aLines, 1) ∧ 0 < 2 ∧ 0 < 1) ∧
    (same_dline (abLines.getD 0 DLine.zero) (aLines.getD 0 DLine.zero) = true ↔
      (LENGTH (abLines.getD 0 DLine.zero) = LENGTH (aLines.getD 0 DLine.zero) ∧
        (abLines.getD 0 DLine.zero).z.take (LENGTH (abLines.getD 0 DLine.zero))
          = (aLines.getD 0 DLine.zero).z.take (LENGTH (aLines.getD 0 DLine.zero)))) :=
  ⟨⟨by decide, by decide, by decide, by decide⟩,
    same_dline_iff stdEnv false (str "a\nb\n") (str "a\n") abLines aLines 2 1 0 0
      (by decide) (by decide) (by decide) (by decide)⟩

/-! ## Evaluations -/

/-- Without `ignoreWS` the second loop of `break_into_lines` does not call
`vcs_isspace`. -/
theorem fillLines_env (E E2 : Env) (nLine : Nat) : ∀ (fuel i : Nat) (z : List Nat) (a : List DLine),
    fillLines E false nLine fuel i z a = fillLines E2 false nLine fuel i z a := by
  intro fuel
  induction fuel with
  | zero => intro i z a; rfl
  | succ fuel ih =>
    intro i z a
    rw [fillLines, fillLines]
    simp only [Bool.false_eq_true, if_false]
    rw [ih]

theorem break_into_lines_env (E E2 : Env) (z : List Nat) :
    break_into_lines E z false = break_into_lines E2 z false := by
  unfold break_into_lines
  cases countLines z 0 1 with
  | none => rfl
  | some r =>
    dsimp only
    rw [fillLines_env E E2]

/-- `text_diff` splits the two files into lines, the right one first when
`DIFF_INVERT` is set, and goes on with the lines. -/
theorem text_diff_lines (E : Env) (fuel : Nat) (pA_Blob pB_Blob : List Nat)
    (pOut : Option (List Nat)) (diffFlags : Nat) :
    text_diff E fuel pA_Blob pB_Blob pOut diffFlags
      = diffLines E fuel
          (break_into_lines E (if diffFlags &&& DIFF_INVERT ≠ 0 then pB_Blob else pA_Blob)
            (decide (diffFlags &&& DIFF_IGNORE_EOLWS ≠ 0)))
          (break_into_lines E (if diffFlags &&& DIFF_INVERT ≠ 0 then pA_Blob else pB_Blob)
            (decide (diffFlags &&& DIFF_IGNORE_EOLWS ≠ 0))) pOut diffFlags := by
  rfl

/-- The same for flags without `DIFF_INVERT` and `DIFF_IGNORE_EOLWS`: the lines
do not depend on what is taken as given. -/
theorem text_diff_plain (E : Env) (fuel : Nat) (pA_Blob pB_Blob : List Nat)
    (pOut : Option (List Nat)) (diffFlags : Nat) (hi : diffFlags &&& DIFF_INVERT = 0)
    (hw : diffFlags &&& DIFF_IGNORE_EOLWS = 0) :
    text_diff E fuel pA_Blob pB_Blob pOut diffFlags
      = diffLines E fuel (break_into_lines stdEnv pA_Blob false)
          (break_into_lines stdEnv pB_Blob false) pOut diffFlags := by
  rw [text_diff_lines, hi, hw]
  simp only [ne_eq, not_true_eq_false, if_false, decide_False]
  rw [break_into_lines_env E stdEnv, break_into_lines_env E stdEnv pB_Blob]

/-! ## The context diff of a script with small counts -/

theorem blockTriples_width (R : List Int) (r : Nat) (m n : Int) (hm : 1 ≤ m) (hn : m ≤ n)
    (hR : ∀ i, R.getD i 0 ≤ m) :
    ∀ fuel nr, blockTriples R r n fuel nr = blockTriples R r m fuel nr := by
  intro fuel
  induction fuel with
  | zero => intro nr; rfl
  | succ fuel ih =>
    intro nr
    rw [blockTriples, blockTriples, ih]
    have h := hR (r + nr * 3)
    by_cases h0 : R.getD (r + nr * 3) 0 > 0
    · rw [if_pos ⟨h0, by omega⟩, if_pos ⟨h0, by omega⟩]
    · rw [if_neg (fun hc => h0 hc.1), if_neg (fun hc => h0 hc.1)]

theorem blockLines_width (R : List Int) (r nr : Nat) (m n : Int) (hn : m ≤ n)
    (hR : ∀ i, R.getD i 0 ≤ m) : blockLines R r nr n = blockLines R r nr m := by
  have h1 := hR r
  have h2 := hR (r + nr * 3)
  have e1 : ¬ R.getD r 0 > n := by omega
  have e2 : ¬ R.getD r 0 > m := by omega
  have e3 : ¬ R.getD (r + nr * 3) 0 > n := by omega
  have e4 : ¬ R.getD (r + nr * 3) 0 > m := by omega
  unfold blockLines
  simp only [e1, e2, e3, e4, if_false]

theorem contextBlocks_width (E : Env) (p : DContext) (m n : Int) (showLn html : Bool) (mxr : Nat)
    (hm : 1 ≤ m) (hn : m ≤ n) (hR : ∀ i, p.aEdit.getD i 0 ≤ m) :
    ∀ fuel r s, contextBlocks E p n showLn html mxr fuel r s
      = contextBlocks E p m showLn html mxr fuel r s := by
  intro fuel
  induction fuel with
  | zero => intro r s; rfl
  | succ fuel ih =>
    intro r s
    obtain ⟨pOut, a, b, nChunk⟩ := s
    rw [contextBlocks, contextBlocks]
    by_cases hr : r < mxr
    · rw [if_pos hr, if_pos hr]
      simp only [blockTriples_width p.aEdit r m n hm hn hR, blockLines_width p.aEdit r _ m n hn hR]
      have h2 := hR (r + blockTriples p.aEdit r m p.aEdit.length 1 * 3)
      rw [if_neg (by omega : ¬ _ > n), if_neg (by omega : ¬ _ > m), ih]
    · rw [if_neg hr, if_neg hr]

/-- A script whose counts are all at most `m` gives the same context diff for
every number of context lines from `m` on (`m` at least 1). -/
theorem contextDiff_width (E : Env) (p : DContext) (pOut : List Nat) (m n : Int)
    (showLn html : Bool) (hm : 1 ≤ m) (hn : m ≤ n) (hR : ∀ i, p.aEdit.getD i 0 ≤ m) :
    contextDiff E p pOut n showLn html = contextDiff E p pOut m showLn html := by
  unfold contextDiff
  exact contextBlocks_width E p m n showLn html _ hm hn hR _ _ _

theorem withFmt_eq (E : Env) (w : Nat) (v1 : Int) (s1 : List Nat) (v2 : Int) (s2 : List Nat)
    (h1 : E.fmt_d w v1 = s1) (h2 : E.fmt_d w v2 = s2) : E.withFmt w v1 s1 v2 s2 = E := by
  cases E with
  | mk sp hz sc fd fc =>
    simp only [Env.withFmt, Env.mk.injEq, true_and, and_true]
    funext w2 v
    simp only at h1 h2
    split_ifs with c1 c2
    · rw [c1.1, c1.2, h1]
    · rw [c2.1, c2.2, h2]
    · rfl

/-- C18. For the buffers `a\nb\nc\n` and `a\nx\nc\n` `text_diff` returns the
triples (1,1,1), (1,0,0), (0,0,0), with the optimizer (flags 0) and without it
(`DIFF_NOOPT`), whatever the helpers and the comparison of scores are. -/
theorem text_diff_abc_axc (E : Env) (fuel : Nat) (hf : 1 ≤ fuel) :
    text_diff E fuel (str "a\nb\nc\n") (str "a\nx\nc\n") none 0
      = some (some [1, 1, 1, 1, 0, 0, 0, 0, 0], none) ∧
    text_diff E fuel (str "a\nb\nc\n") (str "a\nx\nc\n") none DIFF_NOOPT
      = some (some [1, 1, 1, 1, 0, 0, 0, 0, 0], none) := by
  obtain ⟨f, rfl⟩ : ∃ f, fuel = f + 1 := ⟨fuel - 1, by omega⟩
  constructor
  · rw [text_diff_plain E _ _ _ _ _ (by decide) (by decide)]
    rfl
  · rw [text_diff_plain E _ _ _ _ _ (by decide) (by decide)]
    rfl

/-- The triples for `a\nb\nc\n` and `a\nx\nc\n` with the fuel 1. -/
theorem text_diff_abc_axc_witness :
    1 ≤ 1 ∧
    (text_diff stdEnv 1 (str "a\nb\nc\n") (str "a\nx\nc\n") none 0
      = some (some [1, 1, 1, 1, 0, 0, 0, 0, 0], none) ∧
    text_diff stdEnv 1 (str "a\nb\nc\n") (str "a\nx\nc\n") none DIFF_NOOPT
      = some (some [1, 1, 1, 1, 0, 0, 0, 0, 0], none)) :=
  ⟨le_refl 1, text_diff_abc_axc stdEnv 1 (le_refl 1)⟩

theorem flag_clear (n k : Nat) (hn : n < 65536) (hk : 16 ≤ k) : n &&& 2 ^ k = 0 := by
  have h : n < 2 ^ k := lt_of_lt_of_le hn (by
    calc 65536 = 2 ^ 16 := by norm_num
      _ ≤ 2 ^ k := Nat.pow_le_pow_right (by norm_num) hk)
  rw [Nat.and_two_pow, Nat.testBit_lt_two_pow h]
  simp

theorem diffLines_context (E : Env) (fuel n : Nat) (rA rB : Option (List DLine × Nat))
    (hn1 : 1 ≤ n) (hn : n < 65536) :
    diffLines E fuel rA rB (some []) n
      = match rA, rB with
        | some (aFrom, nFrom), some (aTo, nTo) =>
          match diff_all E fuel
            { aEdit := [], aFrom := aFrom, nFrom := nFrom, aTo := aTo, nTo := nTo } with
          | none => none
          | some c => some (none, some (contextDiff E (diff_optimize c) [] n false false))
        | _, _ => some (none, some (str "cannot compute difference between binary files\n")) := by
  have h30 : n &&& DIFF_NOOPT = 0 := flag_clear n 30 hn (by norm_num)
  have h29 : n &&& DIFF_LINENO = 0 := flag_clear n 29 hn (by norm_num)
  have h28 : n &&& DIFF_HTML = 0 := flag_clear n 28 hn (by norm_num)
  have h25 : n &&& DIFF_SIDEBYSIDE = 0 := flag_clear n 25 hn (by norm_num)
  have hc : diff_context_lines n = (n : Int) := by
    have e : n &&& DIFF_CONTEXT_MASK = n := by
      have : DIFF_CONTEXT_MASK = 2 ^ 16 - 1 := by decide
      rw [this, Nat.and_pow_two_sub_one_eq_mod]
      omega
    unfold diff_context_lines
    simp only [e]
    rw [if_neg (by omega)]
  unfold diffLines
  simp only [h30, h29, h28, h25, hc, if_true, ne_eq, not_true_eq_false, if_false, decide_False]
  rfl

/-! ## The blocks of a plain context diff -/

/-- Without line numbers and without HTML a loop that shows lines appends the
same bytes whatever is taken as given. -/
theorem contextLines_plain (c : Nat) (L : List DLine) (x : Int) (a b : Option Int) :
    ∀ (fuel : Nat) (E E2 : Env) (j : Int) (pOut : List Nat),
    contextLines E false false c L x a b fuel j pOut
      = pOut ++ contextLines E2 false false c L x a b fuel j [] := by
  intro fuel
  induction fuel with
  | zero => intro E E2 j pOut; simp [contextLines]
  | succ fuel ih =>
    intro E E2 j pOut
    simp only [contextLines, Bool.false_eq_true, if_false]
    rw [ih E E2, ih E2 E2 (j + 1) (appendDiffLine E2 [] c (lineAt L (x + j)) false)]
    simp [appendDiffLine]

theorem contextChanges_plain (p : DContext) (r nr : Nat) :
    ∀ (fuel : Nat) (E E2 : Env) (i : Nat) (pOut : List Nat) (a b : Int),
    contextChanges E p false false r nr fuel i (pOut, a, b)
      = (pOut ++ (contextChanges E2 p false false r nr fuel i ([], a, b)).1,
         (contextChanges E2 p false false r nr fuel i ([], a, b)).2) := by
  intro fuel
  induction fuel with
  | zero => intro E E2 i pOut a b; simp [contextChanges]
  | succ fuel ih =>
    intro E E2 i pOut a b
    simp only [contextChanges]
    by_cases hi : i < nr
    · rw [if_pos hi, if_pos hi]
      by_cases h2 : i + 1 < nr
      · simp only [h2, if_true]
        rw [ih E E2, ih E2 E2 (i + 1) (contextLines E2 _ _ _ _ _ _ _ _ _ _)]
        rw [contextLines_plain 32 _ _ _ _ _ E E2, contextLines_plain 43 _ _ _ _ _ E E2,
          contextLines_plain 45 _ _ _ _ _ E E2,
          contextLines_plain 32 _ _ _ _ _ E2 E2 _ (contextLines E2 _ _ _ _ _ _ _ _ _ _),
          contextLines_plain 43 _ _ _ _ _ E2 E2 _ (contextLines E2 _ _ _ _ _ _ _ _ _ _)]
        simp only [List.append_assoc]
      · simp only [h2, if_false]
        rw [ih E E2, ih E2 E2 (i + 1) (contextLines E2 _ _ _ _ _ _ _ _ _ _)]
        rw [contextLines_plain 43 _ _ _ _ _ E E2, contextLines_plain 45 _ _ _ _ _ E E2,
          contextLines_plain 43 _ _ _ _ _ E2 E2 _ (contextLines E2 _ _ _ _ _ _ _ _ _ _)]
        simp only [List.append_assoc]
    · rw [if_neg hi, if_neg hi]
      simp

/-- One round of the loop over the blocks, without line numbers and without
HTML: the header with its four numbers and the lines of the block are
appended. -/
theorem contextBlocks_plain (E : Env) (p : DContext) (nContext : Int) (mxr fuel r : Nat)
    (pOut : List Nat) (a b nChunk : Int) :
    contextBlocks E p nContext false false mxr (fuel + 1) r (pOut, a, b, nChunk)
      = if r < mxr then
          contextBlocks E p nContext false false mxr fuel
            (r + 3 * blockTriples p.aEdit r nContext p.aEdit.length 1)
            (pOut ++ (str "@@ -" ++ (E.fmt_d 0 (hunk p nContext r a b).1.1
              ++ (str "," ++ (E.fmt_d 0 (hunk p nContext r a b).1.2.1
              ++ (str " +" ++ (E.fmt_d 0 (hunk p nContext r a b).1.2.2.1
              ++ (str "," ++ (E.fmt_d 0 (hunk p nContext r a b).1.2.2.2
              ++ (str " @@" ++ (str "\n" ++ (hunk p nContext r a b).2.1)))))))))),
             (hunk p nContext r a b).2.2.1, (hunk p nContext r a b).2.2.2, nChunk + 1)
        else pOut := by
  rw [contextBlocks]
  by_cases hr : r < mxr
  · rw [if_pos hr, if_pos hr]
    unfold hunk
    dsimp only
    cases hb : blockLines p.aEdit r (blockTriples p.aEdit r nContext p.aEdit.length 1) nContext with
    | mk na rest =>
      obtain ⟨nb, skip⟩ := rest
      dsimp only
      simp only [Bool.false_eq_true, if_false]
      rw [contextLines_plain 32 _ _ _ _ _ E stdEnv,
        contextChanges_plain p r _ _ E stdEnv,
        contextChanges_plain p r _ _ stdEnv stdEnv _ (contextLines stdEnv _ _ _ _ _ _ _ _ _ _)]
      dsimp only
      rw [contextLines_plain 32 _ _ _ _ _ E stdEnv,
        contextLines_plain 32 _ _ _ _ _ stdEnv stdEnv _ (_ ++ _)]
      simp only [List.append_assoc]
  · rw [if_neg hr, if_neg hr]

theorem abcScript_small : ∀ i, abcScript.aEdit.getD i 0 ≤ 1 := by
  intro i
  by_cases h : i < 9
  · interval_cases i <;> decide
  · rw [List.getD_eq_default _ _ (by simpa [abcScript] using h)]
    decide

/-- C19. For the buffers `a\nb\nc\n` and `a\nx\nc\n`, without line numbers and
without HTML, the context diff is `@@ -1,3 +1,3 @@`, ` a`, `-b`, `+x`, ` c` for
every number `n >= 1` of context lines: `text_diff` with the flags `n` gives it
for `n` up to 65535, and `contextDiff` gives it for the edit script of the two
buffers and every `int` `w >= 1`.  The formatted output is taken to write `1`
and `3` for `%d` with these values. -/
theorem context_diff_abc_axc (E : Env) (h1 : E.fmt_d 0 1 = str "1") (h3 : E.fmt_d 0 3 = str "3") :
    break_into_lines E (str "a\nb\nc\n") false = some (abcLines, 3) ∧
    break_into_lines E (str "a\nx\nc\n") false = some (axcLines, 3) ∧
    (∀ fuel, 1 ≤ fuel →
      diff_all E fuel { aEdit := [], aFrom := abcLines, nFrom := 3, aTo := axcLines, nTo := 3 }
        = some abcScript) ∧
    diff_optimize abcScript = abcScript ∧
    (∀ w : Int, 1 ≤ w →
      contextDiff E abcScript [] w false false = str "@@ -1,3 +1,3 @@\n a\n-b\n+x\n c\n") ∧
    (∀ fuel n, 1 ≤ fuel → 1 ≤ n → n < 65536 →
      text_diff E fuel (str "a\nb\nc\n") (str "a\nx\nc\n") (some []) n
        = some (none, some (str "@@ -1,3 +1,3 @@\n a\n-b\n+x\n c\n"))) := by
  have hA : break_into_lines E (str "a\nb\nc\n") false = some (abcLines, 3) := by
    rw [break_into_lines_env E stdEnv]; decide
  have hB : break_into_lines E (str "a\nx\nc\n") false = some (axcLines, 3) := by
    rw [break_into_lines_env E stdEnv]; decide
  have hD : ∀ fuel, 1 ≤ fuel →
      diff_all E fuel { aEdit := [], aFrom := abcLines, nFrom := 3, aTo := axcLines, nTo := 3 }
        = some abcScript := by
    intro fuel hf
    obtain ⟨f, rfl⟩ : ∃ f, fuel = f + 1 := ⟨fuel - 1, by omega⟩
    rfl
  have hO : diff_optimize abcScript = abcScript := by decide
  have hC : ∀ w : Int, 1 ≤ w →
      contextDiff E abcScript [] w false false = str "@@ -1,3 +1,3 @@\n a\n-b\n+x\n c\n" := by
    intro w hw
    have e1 : trimEdit abcScript.aEdit abcScript.aEdit.length abcScript.aEdit.length = 2 + 1 := by
      decide
    have e2 : blockTriples abcScript.aEdit 0 1 abcScript.aEdit.length 1 = 2 := by decide
    have e3 : hunk abcScript 1 0 0 0
        = ((1, 3, 1, 3), [32, 97, 10, 45, 98, 10, 43, 120, 10, 32, 99, 10], 3, 3) := by decide
    rw [contextDiff_width E abcScript [] 1 w false false (le_refl 1) hw abcScript_small]
    unfold contextDiff
    rw [e1, contextBlocks_plain, if_pos (by decide), e2, e3]
    dsimp only
    rw [show (0 + 3 * 2 : Nat) = 6 from rfl, show (2 : Nat) = 1 + 1 from rfl, contextBlocks_plain,
      if_neg (by decide), h1, h3]
    decide
  refine ⟨hA, hB, hD, hO, hC, ?_⟩
  intro fuel n hf hn1 hn
  rw [text_diff_plain E _ _ _ _ _ (flag_clear n 31 hn (by norm_num)) (flag_clear n 24 hn (by norm_num)),
    ← break_into_lines_env E stdEnv, ← break_into_lines_env E stdEnv, hA, hB,
    diffLines_context E fuel n _ _ hn1 hn]
  dsimp only
  rw [hD fuel hf]
  dsimp only
  rw [hO, hC n (by exact_mod_cast hn1)]

/-- The context diff with decimal numbers, for one line of context and more. -/
theorem context_diff_abc_axc_witness :
    (stdEnv.fmt_d 0 1 = str "1" ∧ stdEnv.fmt_d 0 3 = str "3") ∧
    break_into_lines stdEnv (str "a\nb\nc\n") false = some (abcLines, 3) ∧
    break_into_lines stdEnv (str "a\nx\nc\n") false = some (axcLines, 3) ∧
    (∀ fuel, 1 ≤ fuel →
      diff_all stdEnv fuel { aEdit := [], aFrom := abcLines, nFrom := 3, aTo := axcLines, nTo := 3 }
        = some abcScript) ∧
    diff_optimize abcScript = abcScript ∧
    (∀ w : Int, 1 ≤ w →
      contextDiff stdEnv abcScript [] w false false = str "@@ -1,3 +1,3 @@\n a\n-b\n+x\n c\n") ∧
    (∀ fuel n, 1 ≤ fuel → 1 ≤ n → n < 65536 →
      text_diff stdEnv fuel (str "a\nb\nc\n") (str "a\nx\nc\n") (some []) n
        = some (none, some (str "@@ -1,3 +1,3 @@\n a\n-b\n+x\n c\n"))) :=
  ⟨⟨by decide, by decide⟩, context_diff_abc_axc stdEnv (by decide) (by decide)⟩

/-! ## The flag `DIFF_INVERT` -/

theorem flags_invert (diffFlags m : Nat) (hm : DIFF_INVERT &&& m = 0) :
    (diffFlags ||| DIFF_INVERT) &&& m = diffFlags &&& m := by
  rw [Nat.and_distrib_right, hm, Nat.or_zero]

/-- With `DIFF_INVERT` set `text_diff` does what it does without the flag for
the two files in the other order. -/
theorem text_diff_invert (E : Env) (fuel : Nat) (pA_Blob pB_Blob : List Nat)
    (pOut : Option (List Nat)) (diffFlags : Nat) (h : diffFlags &&& DIFF_INVERT = 0) :
    text_diff E fuel pA_Blob pB_Blob pOut (diffFlags ||| DIFF_INVERT)
      = text_diff E fuel pB_Blob pA_Blob pOut diffFlags := by
  have hi : (diffFlags ||| DIFF_INVERT) &&& DIFF_INVERT ≠ 0 := by
    rw [Nat.and_distrib_right, h, Nat.zero_or]
    decide
  have hn : ¬ diffFlags &&& DIFF_INVERT ≠ 0 := fun hc => hc h
  unfold text_diff diff_context_lines diff_width
  rw [if_pos hi, if_pos hi, if_neg hn, if_neg hn]
  simp only [flags_invert diffFlags DIFF_IGNORE_EOLWS (by decide),
    flags_invert diffFlags DIFF_CONTEXT_MASK (by decide),
    flags_invert diffFlags DIFF_WIDTH_MASK (by decide),
    flags_invert diffFlags DIFF_NOOPT (by decide),
    flags_invert diffFlags DIFF_HTML (by decide),
    flags_invert diffFlags DIFF_SIDEBYSIDE (by decide),
    flags_invert diffFlags DIFF_LINENO (by decide)]

/-- The claim C14 fails: for `a\n` and `a\nb\n` the script of `text_diff` with
`DIFF_INVERT` is (1,1,0), (0,0,0), the same as the script for the two files in
the other order without the flag, whose mirror is (1,0,1), (0,0,0). -/
theorem text_diff_invert_not_mirror :
    text_diff stdEnv 1 (str "a\n") (str "a\nb\n") none DIFF_INVERT
      = some (some [1, 1, 0, 0, 0, 0], none) ∧
    text_diff stdEnv 1 (str "a\nb\n") (str "a\n") none 0 = some (some [1, 1, 0, 0, 0, 0], none) ∧
    mirror [1, 1, 0, 0, 0, 0] = [1, 0, 1, 0, 0, 0] ∧
    ([1, 1, 0, 0, 0, 0] : List Int) ≠ mirror [1, 1, 0, 0, 0, 0] := by
  refine ⟨by decide, by decide, by decide, by decide⟩

/-- C14, amended. The edit script that `text_diff` returns for the buffers `A`
and `B` with `DIFF_INVERT` is the edit script that it returns for `B` and `A`
without the flag, triple by triple and not mirrored. -/
theorem text_diff_invert_script (E : Env) (fuel : Nat) (A B : List Nat) (diffFlags : Nat)
    (h : diffFlags &&& DIFF_INVERT = 0) :
    text_diff E fuel A B none (diffFlags ||| DIFF_INVERT) = text_diff E fuel B A none diffFlags :=
  text_diff_invert E fuel A B none diffFlags h

/-- The amended claim for `a\n` and `a\nb\n` and no other flag. -/
theorem text_diff_invert_script_witness :
    0 &&& DIFF_INVERT = 0 ∧
    text_diff stdEnv 1 (str "a\n") (str "a\nb\n") none (0 ||| DIFF_INVERT)
      = text_diff stdEnv 1 (str "a\nb\n") (str "a\n") none 0 :=
  ⟨by decide, text_diff_invert_script stdEnv 1 (str "a\n") (str "a\nb\n") 0 (by decide)⟩

/-! ## The side-by-side diff of `foo` and `foo`, `bar` -/

/-- With no line on the left every line on the right is tagged 3, and with no
line on the right every line on the left is tagged 1. -/
theorem sbsAlignment_empty (E : Env) (aLeft aRight : List DLine) (n : Nat) :
    sbsAlignment E aLeft 0 aRight n = List.replicate n 3 ∧
    sbsAlignment E aLeft n aRight 0 = List.replicate n 1 := by
  constructor
  · unfold sbsAlignment
    rw [if_pos rfl]
  · unfold sbsAlignment
    by_cases h : n = 0
    · subst h
      rw [if_pos rfl]
      rfl
    · rw [if_neg h, if_pos rfl]

/-- A side-by-side diff without HTML of a script that is shown as one block:
the rows of the common lines before the changes, the rows of the changes, and
the rows of the common lines behind them. -/
theorem sbsBlocks_single (E : Env) (p : DContext) (nContext width : Int) (mxr fuel : Nat)
    (s : SbsLine) (nr : Nat) (skip : Int) (u1 : SbsLine × List Nat)
    (t : SbsLine × List Nat × Int × Int) (u2 : SbsLine × List Nat)
    (hnr : blockTriples p.aEdit 0 nContext p.aEdit.length 1 = nr)
    (hskip : (blockLines p.aEdit 0 nr nContext).2.2 = skip)
    (hu1 : sbsPairs E p (0 + skip) (0 + skip) (p.aEdit.getD 0 0 - skip).toNat 0 (s, []) = u1)
    (ht : sbsChanges E p 0 nr nr 0
      (u1.1, u1.2, 0 + skip + (p.aEdit.getD 0 0 - skip), 0 + skip + (p.aEdit.getD 0 0 - skip)) = t)
    (hu2 : sbsPairs E p t.2.2.1 t.2.2.2
      (if p.aEdit.getD (0 + nr * 3) 0 > nContext then nContext
        else p.aEdit.getD (0 + nr * 3) 0).toNat 0 (t.1, t.2.1) = u2)
    (h0 : 0 < mxr) (hend : ¬ 0 + 3 * nr < mxr) :
    sbsBlocks E p nContext width false mxr (fuel + 2) 0 (s, [], 0, 0, 0) = u2.2 := by
  subst hnr hskip hu1 ht hu2
  rw [sbsBlocks]
  dsimp only
  simp only [Bool.false_eq_true, if_false, gt_iff_lt, lt_self_iff_false]
  rw [if_pos h0, sbsBlocks, if_neg hend]

set_option maxRecDepth 100000 in
/-- The side-by-side diff of the script for `foo\n` and `foo\nbar\n`, 80 columns
wide: the row of the line `foo` on both sides and the row of the line `bar` on
the right. -/
theorem sbsDiff_foo (E : Env) (h1 : E.fmt_d 5 1 = str "    1") (h2 : E.fmt_d 5 2 = str "    2") :
    sbsDiff E fooScript [] 5 80 false
      = str "    1  foo" ++ List.replicate 77 32 ++ str "       1  foo\n"
          ++ (List.replicate 87 32 ++ str " >     2  bar\n") := by
  rw [← withFmt_eq E 5 1 (str "    1") 2 (str "    2") h1 h2]
  have k := sbsBlocks_single (E.withFmt 5 1 (str "    1") 2 (str "    2")) fooScript 5 80 (1 + 2) 1
    sbsStart 1 0
    (sbsPairs stdEnv fooScript 0 0 1 0 (sbsStart, []))
    (sbsChanges stdEnv fooScript 0 1 1 0 ((sbsPairs stdEnv fooScript 0 0 1 0 (sbsStart, [])).1,
      (sbsPairs stdEnv fooScript 0 0 1 0 (sbsStart, [])).2, 1, 1))
    (sbsPairs stdEnv fooScript 1 2 0 0
      ((sbsChanges stdEnv fooScript 0 1 1 0 ((sbsPairs stdEnv fooScript 0 0 1 0 (sbsStart, [])).1,
        (sbsPairs stdEnv fooScript 0 0 1 0 (sbsStart, [])).2, 1, 1)).1,
       (sbsChanges stdEnv fooScript 0 1 1 0 ((sbsPairs stdEnv fooScript 0 0 1 0 (sbsStart, [])).1,
        (sbsPairs stdEnv fooScript 0 0 1 0 (sbsStart, [])).2, 1, 1)).2.1))
    rfl rfl rfl rfl rfl (by decide) (by decide)
  unfold sbsDiff
  dsimp only
  rw [show trimEdit fooScript.aEdit fooScript.aEdit.length fooScript.aEdit.length = 1 + 2 from rfl]
  exact k.trans (by decide)

/-- C20. For the buffers `foo\n` and `foo\nbar\n` the edit script is (1,0,1),
(0,0,0); the alignment of its change block, which has no line on the left and
one on the right, is the single tag 3 (right only); and the side-by-side diff
(80 columns, no HTML) has the row of `foo` on both sides and the row of `bar` on
the right only.  In general `sbsAlignment` answers `nRight` tags 3 when there is
no line on the left and `nLeft` tags 1 when there is no line on the right.  The
formatted output is taken to write `    1` and `    2` for `%5d` with these
values. -/
theorem sbs_diff_foo_bar (E : Env) (h1 : E.fmt_d 5 1 = str "    1")
    (h2 : E.fmt_d 5 2 = str "    2") :
    break_into_lines E (str "foo\n") false = some (fooLines, 1) ∧
    break_into_lines E (str "foo\nbar\n") false = some (foobarLines, 2) ∧
    (∀ fuel, 1 ≤ fuel → text_diff E fuel (str "foo\n") (str "foo\nbar\n") none 0
      = some (some [1, 0, 1, 0, 0, 0], none)) ∧
    (∀ fuel, 1 ≤ fuel →
      diff_all E fuel { aEdit := [], aFrom := fooLines, nFrom := 1, aTo := foobarLines, nTo := 2 }
        = some fooScript) ∧
    sbsAlignment E (fooScript.aFrom.drop 1) 0 (fooScript.aTo.drop 1) 1 = [3] ∧
    (∀ fuel, 1 ≤ fuel →
      text_diff E fuel (str "foo\n") (str "foo\nbar\n") (some []) DIFF_SIDEBYSIDE
        = some (none, some (str "    1  foo" ++ List.replicate 77 32 ++ str "       1  foo\n"
            ++ (List.replicate 87 32 ++ str " >     2  bar\n")))) ∧
    (∀ (aLeft aRight : List DLine) (n : Nat),
      sbsAlignment E aLeft 0 aRight n = List.replicate n 3 ∧
      sbsAlignment E aLeft n aRight 0 = List.replicate n 1) := by
  have hA : break_into_lines stdEnv (str "foo\n") false = some (fooLines, 1) := by decide
  have hB : break_into_lines stdEnv (str "foo\nbar\n") false = some (foobarLines, 2) := by decide
  have hD : ∀ fuel, 1 ≤ fuel →
      diff_all E fuel { aEdit := [], aFrom := fooLines, nFrom := 1, aTo := foobarLines, nTo := 2 }
        = some fooScript := by
    intro fuel hf
    obtain ⟨f, rfl⟩ : ∃ f, fuel = f + 1 := ⟨fuel - 1, by omega⟩
    rfl
  have hO : diff_optimize fooScript = fooScript := by decide
  refine ⟨by rw [break_into_lines_env E stdEnv]; exact hA,
    by rw [break_into_lines_env E stdEnv]; exact hB, ?_, hD, ?_, ?_,
    fun aLeft aRight n => sbsAlignment_empty E aLeft aRight n⟩
  · intro fuel hf
    rw [text_diff_plain E _ _ _ _ _ (by decide) (by decide), hA, hB]
    unfold diffLines
    dsimp only
    rw [hD fuel hf]
    dsimp only
    rw [if_pos (by decide), hO]
    rfl
  · exact (sbsAlignment_empty E _ _ 1).1
  · intro fuel hf
    rw [text_diff_plain E _ _ _ _ _ (by decide) (by decide), hA, hB]
    unfold diffLines
    dsimp only
    rw [hD fuel hf]
    dsimp only
    rw [if_pos (by decide), hO, if_pos (by decide),
      show diff_context_lines DIFF_SIDEBYSIDE = 5 from by decide,
      show diff_width DIFF_SIDEBYSIDE = 80 from by decide,
      show decide (DIFF_SIDEBYSIDE &&& DIFF_HTML ≠ 0) = false from by decide,
      sbsDiff_foo E h1 h2]

/-- The side-by-side diff of `foo\n` and `foo\nbar\n` with decimal line numbers. -/
theorem sbs_diff_foo_bar_witness :
    (stdEnv.fmt_d 5 1 = str "    1" ∧ stdEnv.fmt_d 5 2 = str "    2") ∧
    break_into_lines stdEnv (str "foo\n") false = some (fooLines, 1) ∧
    break_into_lines stdEnv (str "foo\nbar\n") false = some (foobarLines, 2) ∧
    (∀ fuel, 1 ≤ fuel → text_diff stdEnv fuel (str "foo\n") (str "foo\nbar\n") none 0
      = some (some [1, 0, 1, 0, 0, 0], none)) ∧
    (∀ fuel, 1 ≤ fuel →
      diff_all stdEnv fuel
        { aEdit := [], aFrom := fooLines, nFrom := 1, aTo := foobarLines, nTo := 2 }
        = some fooScript) ∧
    sbsAlignment stdEnv (fooScript.aFrom.drop 1) 0 (fooScript.aTo.drop 1) 1 = [3] ∧
    (∀ fuel, 1 ≤ fuel →
      text_diff stdEnv fuel (str "foo\n") (str "foo\nbar\n") (some []) DIFF_SIDEBYSIDE
        = some (none, some (str "    1  foo" ++ List.replicate 77 32 ++ str "       1  foo\n"
            ++ (List.replicate 87 32 ++ str " >     2  bar\n")))) ∧
    (∀ (aLeft aRight : List DLine) (n : Nat),
      sbsAlignment stdEnv aLeft 0 aRight n = List.replicate n 3 ∧
      sbsAlignment stdEnv aLeft n aRight 0 = List.replicate n 1) :=
  ⟨⟨by decide, by decide⟩, sbs_diff_foo_bar stdEnv (by decide) (by decide)⟩

/-! ## The exhaustive search `optimalLCS` -/

/-- The loop that extends a run stops at the first pair of lines that differ or
at the end of a range. -/
theorem runLength_spec (p : DContext) (i j iE1 iE2 : Nat) :
    ∀ (fuel k : Nat), CommonRun p i j k → i + k ≤ iE1 → j + k ≤ iE2 → iE1 < i + k + fuel →
    k ≤ runLength p i j iE1 iE2 fuel k ∧
    CommonRun p i j (runLength p i j iE1 iE2 fuel k) ∧
    i + runLength p i j iE1 iE2 fuel k ≤ iE1 ∧ j + runLength p i j iE1 iE2 fuel k ≤ iE2 ∧
    ∀ L, CommonRun p i j L → i + L ≤ iE1 → j + L ≤ iE2 → L ≤ runLength p i j iE1 iE2 fuel k := by
  intro fuel
  induction fuel with
  | zero => intro k _ h1 _ h3; omega
  | succ fuel ih =>
    intro k hc h1 h2 h3
    rw [runLength]
    by_cases hcond : i + k < iE1 ∧ j + k < iE2 ∧
        same_dline (p.aFrom.getD (i + k) DLine.zero) (p.aTo.getD (j + k) DLine.zero) = true
    · rw [if_pos hcond]
      have hc2 : CommonRun p i j (k + 1) := by
        intro t ht
        by_cases e : t = k
        · rw [e]; exact hcond.2.2
        · exact hc t (by omega)
      obtain ⟨r1, r2, r3, r4, r5⟩ := ih (k + 1) hc2 (by omega) (by omega) (by omega)
      exact ⟨by omega, r2, r3, r4, r5⟩
    · rw [if_neg hcond]
      refine ⟨le_refl _, hc, h1, h2, ?_⟩
      intro L hL a1 a2
      by_contra hlt
      exact hcond ⟨by omega, by omega, hL k (by omega)⟩

theorem Covered_mono (p : DContext) (iS1 iE1 iS2 iE2 i0 j0 mx mx2 : Nat) (h : mx ≤ mx2)
    (hc : Covered p iS1 iE1 iS2 iE2 i0 j0 mx) : Covered p iS1 iE1 iS2 iE2 i0 j0 mx2 :=
  fun i j L hr ho => le_trans (hc i j L hr ho) h

theorem Covered_next (p : DContext) (iS1 iE1 iS2 iE2 i j mx : Nat)
    (hc : Covered p iS1 iE1 iS2 iE2 i j mx)
    (hn : ∀ L, RunIn p iS1 iE1 iS2 iE2 i j L → L ≤ mx) :
    Covered p iS1 iE1 iS2 iE2 i (j + 1) mx := by
  intro i2 j2 L hr ho
  by_cases e : i2 = i ∧ j2 = j
  · obtain ⟨e1, e2⟩ := e
    subst e1 e2
    exact hn L hr
  · exact hc i2 j2 L hr (by omega)

theorem Covered_row (p : DContext) (iS1 iE1 iS2 iE2 i j mx : Nat)
    (hc : Covered p iS1 iE1 iS2 iE2 i j mx) (hj : iE2 ≤ j + mx) :
    Covered p iS1 iE1 iS2 iE2 (i + 1) iS2 mx := by
  intro i2 j2 L hr ho
  obtain ⟨r1, r2, r3, r4, r5⟩ := hr
  by_cases e : i2 < i ∨ (i2 = i ∧ j2 < j)
  · exact hc i2 j2 L ⟨r1, r2, r3, r4, r5⟩ e
  · omega

/-- The inner loop of `optimalLCS` keeps a common run within the ranges, does
not shorten it, and leaves no longer run that starts in the row `i` or before. -/
theorem optimalLCS_inner_spec (p : DContext) (iS1 iE1 iS2 iE2 i : Nat) (hi1 : iS1 ≤ i)
    (hi2 : i < iE1) :
    ∀ (fuel j mx sx sy : Nat), iS2 ≤ j → iE2 ≤ j + fuel →
    RunIn p iS1 iE1 iS2 iE2 sx sy mx → Covered p iS1 iE1 iS2 iE2 i j mx →
    RunIn p iS1 iE1 iS2 iE2 (optimalLCS_inner p i iE1 iE2 fuel j (mx, sx, sy)).2.1
      (optimalLCS_inner p i iE1 iE2 fuel j (mx, sx, sy)).2.2
      (optimalLCS_inner p i iE1 iE2 fuel j (mx, sx, sy)).1 ∧
    mx ≤ (optimalLCS_inner p i iE1 iE2 fuel j (mx, sx, sy)).1 ∧
    Covered p iS1 iE1 iS2 iE2 (i + 1) iS2 (optimalLCS_inner p i iE1 iE2 fuel j (mx, sx, sy)).1 := by
  intro fuel
  induction fuel with
  | zero =>
    intro j mx sx sy hj hf hr hc
    rw [optimalLCS_inner]
    exact ⟨hr, le_refl _, Covered_row p iS1 iE1 iS2 iE2 i j mx hc (by omega)⟩
  | succ fuel ih =>
    intro j mx sx sy hj hf hr hc
    rw [optimalLCS_inner]
    by_cases h1 : j < iE2 - mx
    · rw [if_pos h1]
      by_cases h2 : same_dline (p.aFrom.getD i DLine.zero) (p.aTo.getD j DLine.zero) = true
      · rw [if_neg (not_not.mpr h2)]
        by_cases h3 : mx ≠ 0 ∧ ¬ same_dline (p.aFrom.getD (i + mx) DLine.zero)
            (p.aTo.getD (j + mx) DLine.zero) = true
        · rw [if_pos h3]
          refine ih (j + 1) mx sx sy (by omega) (by omega) hr
            (Covered_next p iS1 iE1 iS2 iE2 i j mx hc ?_)
          intro L hL
          by_contra hlt
          exact h3.2 (hL.2.2.2.2 mx (by omega))
        · rw [if_neg h3]
          have hc1 : CommonRun p i j 1 := by
            intro t ht
            have : t = 0 := by omega
            subst this
            exact h2
          obtain ⟨r1, r2, r3, r4, r5⟩ := runLength_spec p i j iE1 iE2 (iE1 - i) 1 hc1
            (by omega) (by omega) (by omega)
          dsimp only
          by_cases h4 : runLength p i j iE1 iE2 (iE1 - i) 1 > mx
          · rw [if_pos h4]
            obtain ⟨q1, q2, q3⟩ := ih (j + 1) (runLength p i j iE1 iE2 (iE1 - i) 1) i j
              (by omega) (by omega) ⟨hi1, r3, hj, r4, r2⟩
              (Covered_next p iS1 iE1 iS2 iE2 i j _
                (Covered_mono p iS1 iE1 iS2 iE2 i j mx _ (by omega) hc)
                (fun L hL => r5 L hL.2.2.2.2 hL.2.1 hL.2.2.2.1))
            exact ⟨q1, by omega, q3⟩
          · rw [if_neg h4]
            exact ih (j + 1) mx sx sy (by omega) (by omega) hr
              (Covered_next p iS1 iE1 iS2 iE2 i j mx hc
                (fun L hL => le_trans (r5 L hL.2.2.2.2 hL.2.1 hL.2.2.2.1) (by omega)))
      · rw [if_pos h2]
        refine ih (j + 1) mx sx sy (by omega) (by omega) hr
          (Covered_next p iS1 iE1 iS2 iE2 i j mx hc ?_)
        intro L hL
        by_contra hlt
        have := hL.2.2.2.2 0 (by omega)
        rw [Nat.add_zero, Nat.add_zero] at this
        exact h2 this
    · rw [if_neg h1]
      exact ⟨hr, le_refl _, Covered_row p iS1 iE1 iS2 iE2 i j mx hc (by omega)⟩

/-- The outer loop of `optimalLCS` ends with a common run within the ranges
that no common run within the ranges exceeds. -/
theorem optimalLCS_outer_spec (p : DContext) (iS1 iE1 iS2 iE2 : Nat) :
    ∀ (fuel i : Nat) (s : Nat × Nat × Nat), iS1 ≤ i → iE1 ≤ i + fuel →
    RunIn p iS1 iE1 iS2 iE2 s.2.1 s.2.2 s.1 → Covered p iS1 iE1 iS2 iE2 i iS2 s.1 →
    RunIn p iS1 iE1 iS2 iE2 (optimalLCS_outer p iE1 iS2 iE2 fuel i s).2.1
      (optimalLCS_outer p iE1 iS2 iE2 fuel i s).2.2 (optimalLCS_outer p iE1 iS2 iE2 fuel i s).1 ∧
    ∀ i2 j2 L, RunIn p iS1 iE1 iS2 iE2 i2 j2 L → L ≤ (optimalLCS_outer p iE1 iS2 iE2 fuel i s).1 := by
  intro fuel
  induction fuel with
  | zero =>
    intro i s hi hf hr hc
    rw [optimalLCS_outer]
    refine ⟨hr, fun i2 j2 L hL => ?_⟩
    by_cases e : i2 < i ∨ (i2 = i ∧ j2 < iS2)
    · exact hc i2 j2 L hL e
    · obtain ⟨r1, r2, r3, r4, r5⟩ := hL
      omega
  | succ fuel ih =>
    intro i s hi hf hr hc
    obtain ⟨mx, sx, sy⟩ := s
    rw [optimalLCS_outer]
    by_cases h1 : i < iE1 - mx
    · rw [if_pos h1]
      obtain ⟨q1, q2, q3⟩ := optimalLCS_inner_spec p iS1 iE1 iS2 iE2 i hi (by omega)
        (iE2 - iS2) iS2 mx sx sy (le_refl _) (by omega) hr hc
      exact ih (i + 1) _ (by omega) (by omega) q1 q3
    · rw [if_neg h1]
      refine ⟨hr, fun i2 j2 L hL => ?_⟩
      by_cases e : i2 < i ∨ (i2 = i ∧ j2 < iS2)
      · exact hc i2 j2 L hL e
      · obtain ⟨r1, r2, r3, r4, r5⟩ := hL
        simp only at h1
        omega

/-- C30. For ranges `iS1 <= iE1` and `iS2 <= iE2` `optimalLCS` returns bounds
within the ranges of two runs of the same length whose lines are the same, pair
by pair, for `same_dline`; no common run of lines within the two ranges is
longer; and the runs are empty when no line of the one range is the same as a
line of the other. -/
theorem optimalLCS_spec (p : DContext) (iS1 iE1 iS2 iE2 : Nat) (h1 : iS1 ≤ iE1) (h2 : iS2 ≤ iE2) :
    iS1 ≤ (optimalLCS p iS1 iE1 iS2 iE2).1 ∧
    (optimalLCS p iS1 iE1 iS2 iE2).1 ≤ (optimalLCS p iS1 iE1 iS2 iE2).2.1 ∧
    (optimalLCS p iS1 iE1 iS2 iE2).2.1 ≤ iE1 ∧
    iS2 ≤ (optimalLCS p iS1 iE1 iS2 iE2).2.2.1 ∧
    (optimalLCS p iS1 iE1 iS2 iE2).2.2.1 ≤ (optimalLCS p iS1 iE1 iS2 iE2).2.2.2 ∧
    (optimalLCS p iS1 iE1 iS2 iE2).2.2.2 ≤ iE2 ∧
    (optimalLCS p iS1 iE1 iS2 iE2).2.1 - (optimalLCS p iS1 iE1 iS2 iE2).1
      = (optimalLCS p iS1 iE1 iS2 iE2).2.2.2 - (optimalLCS p iS1 iE1 iS2 iE2).2.2.1 ∧
    CommonRun p (optimalLCS p iS1 iE1 iS2 iE2).1 (optimalLCS p iS1 iE1 iS2 iE2).2.2.1
      ((optimalLCS p iS1 iE1 iS2 iE2).2.1 - (optimalLCS p iS1 iE1 iS2 iE2).1) ∧
    (∀ i j L, iS1 ≤ i → i + L ≤ iE1 → iS2 ≤ j → j + L ≤ iE2 → CommonRun p i j L →
      L ≤ (optimalLCS p iS1 iE1 iS2 iE2).2.1 - (optimalLCS p iS1 iE1 iS2 iE2).1) ∧
    ((∀ i j, iS1 ≤ i → i < iE1 → iS2 ≤ j → j < iE2 →
        same_dline (p.aFrom.getD i DLine.zero) (p.aTo.getD j DLine.zero) = false) →
      (optimalLCS p iS1 iE1 iS2 iE2).2.1 = (optimalLCS p iS1 iE1 iS2 iE2).1) := by
  have h0 : RunIn p iS1 iE1 iS2 iE2 iS1 iS2 0 :=
    ⟨le_refl _, by omega, le_refl _, by omega, fun t ht => by omega⟩
  have hc0 : Covered p iS1 iE1 iS2 iE2 iS1 iS2 0 := by
    intro i j L hL ho
    obtain ⟨r1, r2, r3, r4, r5⟩ := hL
    omega
  obtain ⟨⟨a1, a2, a3, a4, a5⟩, b⟩ := optimalLCS_outer_spec p iS1 iE1 iS2 iE2 (iE1 - iS1) iS1
    (0, iS1, iS2) (le_refl _) (by omega) h0 hc0
  unfold optimalLCS
  dsimp only
  refine ⟨a1, by omega, a2, a3, by omega, a4, by omega, ?_, ?_, ?_⟩
  · rw [Nat.add_sub_cancel_left]
    exact a5
  · intro i j L c1 c2 c3 c4 c5
    rw [Nat.add_sub_cancel_left]
    exact b i j L ⟨c1, c2, c3, c4, c5⟩
  · intro hno
    by_contra hne
    have hpos : 0 < (optimalLCS_outer p iE1 iS2 iE2 (iE1 - iS1) iS1 (0, iS1, iS2)).1 := by
      by_contra hz
      apply hne
      omega
    have hs := a5 0 hpos
    rw [Nat.add_zero, Nat.add_zero] at hs
    rw [hno _ _ a1 (by omega) a3 (by omega)] at hs
    cases hs

/-- The search in the lines of `a\nb\nc\n` and `a\nx\nc\n`. -/
theorem optimalLCS_spec_witness :
    ((0 : Nat) ≤ 3 ∧ (0 : Nat) ≤ 3) ∧
    (0 ≤ (optimalLCS abcScript 0 3 0 3).1 ∧
    (optimalLCS abcScript 0 3 0 3).1 ≤ (optimalLCS abcScript 0 3 0 3).2.1 ∧
    (optimalLCS abcScript 0 3 0 3).2.1 ≤ 3 ∧
    0 ≤ (optimalLCS abcScript 0 3 0 3).2.2.1 ∧
    (optimalLCS abcScript 0 3 0 3).2.2.1 ≤ (optimalLCS abcScript 0 3 0 3).2.2.2 ∧
    (optimalLCS abcScript 0 3 0 3).2.2.2 ≤ 3 ∧
    (optimalLCS abcScript 0 3 0 3).2.1 - (optimalLCS abcScript 0 3 0 3).1
      = (optimalLCS abcScript 0 3 0 3).2.2.2 - (optimalLCS abcScript 0 3 0 3).2.2.1 ∧
    CommonRun abcScript (optimalLCS abcScript 0 3 0 3).1 (optimalLCS abcScript 0 3 0 3).2.2.1
      ((optimalLCS abcScript 0 3 0 3).2.1 - (optimalLCS abcScript 0 3 0 3).1) ∧
    (∀ i j L, 0 ≤ i → i + L ≤ 3 → 0 ≤ j → j + L ≤ 3 → CommonRun abcScript i j L →
      L ≤ (optimalLCS abcScript 0 3 0 3).2.1 - (optimalLCS abcScript 0 3 0 3).1) ∧
    ((∀ i j, 0 ≤ i → i < 3 → 0 ≤ j → j < 3 →
        same_dline (abcScript.aFrom.getD i DLine.zero) (abcScript.aTo.getD j DLine.zero) = false) →
      (optimalLCS abcScript 0 3 0 3).2.1 = (optimalLCS abcScript 0 3 0 3).1)) :=
  ⟨⟨by decide, by decide⟩, optimalLCS_spec abcScript 0 3 0 3 (by decide) (by decide)⟩

/-! ## The test `same_dline` is an equivalence -/

theorem memcmp0_refl : ∀ (n : Nat) (a : List Nat), memcmp0 a a n = true := by
  intro n
  induction n with
  | zero => intro a; rfl
  | succ n ih => intro a; rw [memcmp0, ih]; simp

theorem memcmp0_symm : ∀ (n : Nat) (a b : List Nat), memcmp0 a b n = true → memcmp0 b a n = true := by
  intro n
  induction n with
  | zero => intro a b _; rfl
  | succ n ih =>
    intro a b h
    rw [memcmp0] at h ⊢
    simp only [Bool.and_eq_true, decide_eq_true_eq] at h ⊢
    exact ⟨h.1.symm, ih _ _ h.2⟩

theorem memcmp0_trans : ∀ (n : Nat) (a b c : List Nat), memcmp0 a b n = true →
    memcmp0 b c n = true → memcmp0 a c n = true := by
  intro n
  induction n with
  | zero => intro a b c _ _; rfl
  | succ n ih =>
    intro a b c h1 h2
    rw [memcmp0] at h1 h2 ⊢
    simp only [Bool.and_eq_true, decide_eq_true_eq] at h1 h2 ⊢
    exact ⟨h1.1.trans h2.1, ih _ _ _ h1.2 h2.2⟩

theorem same_dline_refl (a : DLine) : same_dline a a = true := by
  unfold same_dline
  rw [memcmp0_refl]
  simp

theorem same_dline_symm (a b : DLine) (h : same_dline a b = true) : same_dline b a = true := by
  unfold same_dline at h ⊢
  simp only [Bool.and_eq_true, decide_eq_true_eq] at h ⊢
  refine ⟨h.1.symm, ?_⟩
  rw [← h.1]
  exact memcmp0_symm _ _ _ h.2

theorem same_dline_trans (a b c : DLine) (h1 : same_dline a b = true)
    (h2 : same_dline b c = true) : same_dline a c = true := by
  unfold same_dline at h1 h2 ⊢
  simp only [Bool.and_eq_true, decide_eq_true_eq] at h1 h2 ⊢
  refine ⟨h1.1.trans h2.1, ?_⟩
  rw [← h1.1] at h2
  exact memcmp0_trans _ _ _ _ h1.2 h2.2

/-! ## The search `longestCommonSequence` returns a common run -/

/-- The walk along a hash chain ends with `0` or with the number, counted from
one, of a line of the range of the right file that is the same as the line `i`. -/
theorem chainWalk_spec (p : DContext) (i iS2 iE2 : Nat) :
    ∀ (n j : Nat), chainWalk p i iS2 iE2 n j = 0 ∨
      (0 < chainWalk p i iS2 iE2 n j ∧ iS2 ≤ chainWalk p i iS2 iE2 n j - 1 ∧
        chainWalk p i iS2 iE2 n j < iE2 ∧
        same_dline (p.aFrom.getD i DLine.zero)
          (p.aTo.getD (chainWalk p i iS2 iE2 n j - 1) DLine.zero) = true) := by
  intro n
  induction n with
  | zero =>
    intro j
    rw [chainWalk]
    by_cases c : j > 0 ∧ (j - 1 < iS2 ∨ j ≥ iE2 ∨
        ¬ same_dline (p.aFrom.getD i DLine.zero) (p.aTo.getD (j - 1) DLine.zero))
    · rw [if_pos c]; exact Or.inl rfl
    · rw [if_neg c]
      by_cases j0 : j = 0
      · exact Or.inl j0
      · right
        have c2 : ¬ (j - 1 < iS2 ∨ j ≥ iE2 ∨
            ¬ same_dline (p.aFrom.getD i DLine.zero) (p.aTo.getD (j - 1) DLine.zero)) :=
          fun h => c ⟨by omega, h⟩
        simp only [not_or, not_not] at c2
        exact ⟨by omega, by omega, by omega, c2.2.2⟩
  | succ n ih =>
    intro j
    rw [chainWalk]
    by_cases c : j > 0 ∧ (j - 1 < iS2 ∨ j ≥ iE2 ∨
        ¬ same_dline (p.aFrom.getD i DLine.zero) (p.aTo.getD (j - 1) DLine.zero))
    · rw [if_pos c]; exact ih _
    · rw [if_neg c]
      by_cases j0 : j = 0
      · exact Or.inl j0
      · right
        have c2 : ¬ (j - 1 < iS2 ∨ j ≥ iE2 ∨
            ¬ same_dline (p.aFrom.getD i DLine.zero) (p.aTo.getD (j - 1) DLine.zero)) :=
          fun h => c ⟨by omega, h⟩
        simp only [not_or, not_not] at c2
        exact ⟨by omega, by omega, by omega, c2.2.2⟩

theorem extendBack_spec (p : DContext) (iSX iSY n : Nat) :
    ∀ (fuel k : Nat), k ≤ n →
    (∀ t, t < k → same_dline (p.aFrom.getD (iSX - 1 - t) DLine.zero)
      (p.aTo.getD (iSY - 1 - t) DLine.zero) = true) →
    extendBack p iSX iSY n fuel k ≤ n ∧
    (∀ t, t < extendBack p iSX iSY n fuel k → same_dline (p.aFrom.getD (iSX - 1 - t) DLine.zero)
      (p.aTo.getD (iSY - 1 - t) DLine.zero) = true) := by
  intro fuel
  induction fuel with
  | zero => intro k hk h; rw [extendBack]; exact ⟨hk, h⟩
  | succ fuel ih =>
    intro k hk h
    rw [extendBack]
    by_cases c : k < n ∧ same_dline (p.aFrom.getD (iSX - 1 - k) DLine.zero)
        (p.aTo.getD (iSY - 1 - k) DLine.zero) = true
    · rw [if_pos c]
      apply ih (k + 1) (by omega)
      intro t ht
      by_cases e : t = k
      · rw [e]; exact c.2
      · exact h t (by omega)
    · rw [if_neg c]; exact ⟨hk, h⟩

theorem extendFwd_spec (p : DContext) (iEX iEY n : Nat) :
    ∀ (fuel k : Nat), k ≤ n →
    (∀ t, t < k → same_dline (p.aFrom.getD (iEX + t) DLine.zero)
      (p.aTo.getD (iEY + t) DLine.zero) = true) →
    extendFwd p iEX iEY n fuel k ≤ n ∧
    (∀ t, t < extendFwd p iEX iEY n fuel k → same_dline (p.aFrom.getD (iEX + t) DLine.zero)
      (p.aTo.getD (iEY + t) DLine.zero) = true) := by
  intro fuel
  induction fuel with
  | zero => intro k hk h; rw [extendFwd]; exact ⟨hk, h⟩
  | succ fuel ih =>
    intro k hk h
    rw [extendFwd]
    by_cases c : k < n ∧ same_dline (p.aFrom.getD (iEX + k) DLine.zero)
        (p.aTo.getD (iEY + k) DLine.zero) = true
    · rw [if_pos c]
      apply ih (k + 1) (by omega)
      intro t ht
      by_cases e : t = k
      · rw [e]; exact c.2
      · exact h t (by omega)
    · rw [if_neg c]; exact ⟨hk, h⟩

theorem minInt_toNat (a b c d : Nat) (h1 : c ≤ a) (h2 : d ≤ b) :
    (minInt ((a : Int) - c) ((b : Int) - d)).toNat ≤ a - c ∧
    (minInt ((a : Int) - c) ((b : Int) - d)).toNat ≤ b - d := by
  unfold minInt
  split_ifs <;> omega

/-- A match that is extended by `k` lines toward the beginning and by `k2` lines
toward the end is a common run within the ranges. -/
theorem candidate_run (p : DContext) (iS1 iE1 iS2 iE2 i j k k2 : Nat)
    (hi1 : iS1 ≤ i) (hj0 : 0 < j) (hj1 : iS2 ≤ j - 1)
    (hij : same_dline (p.aFrom.getD i DLine.zero) (p.aTo.getD (j - 1) DLine.zero) = true)
    (hk1 : k ≤ i - iS1) (hk2 : k ≤ j - 1 - iS2)
    (hb : ∀ t, t < k → same_dline (p.aFrom.getD (i - 1 - t) DLine.zero)
      (p.aTo.getD (j - 1 - 1 - t) DLine.zero) = true)
    (hf1 : k2 ≤ iE1 - (i + 1)) (hf2 : k2 ≤ iE2 - j) (hi2 : i < iE1) (hj2 : j < iE2)
    (hf : ∀ t, t < k2 → same_dline (p.aFrom.getD (i + 1 + t) DLine.zero)
      (p.aTo.getD (j + t) DLine.zero) = true) :
    i - k ≤ i + 1 + k2 ∧ j + k2 = j - 1 - k + (i + 1 + k2 - (i - k)) ∧
    RunIn p iS1 iE1 iS2 iE2 (i - k) (j - 1 - k) (i + 1 + k2 - (i - k)) := by
  refine ⟨by omega, by omega, by omega, by omega, by omega, by omega, ?_⟩
  intro t ht
  by_cases c1 : t < k
  · have e1 : i - k + t = i - 1 - (k - 1 - t) := by omega
    have e2 : j - 1 - k + t = j - 1 - 1 - (k - 1 - t) := by omega
    rw [e1, e2]
    exact hb _ (by omega)
  · by_cases c2 : t = k
    · have e1 : i - k + t = i := by omega
      have e2 : j - 1 - k + t = j - 1 := by omega
      rw [e1, e2]
      exact hij
    · have e1 : i - k + t = i + 1 + (t - k - 1) := by omega
      have e2 : j - 1 - k + t = j + (t - k - 1) := by omega
      rw [e1, e2]
      exact hf _ (by omega)

theorem lcsStep_valid (E : Env) (p : DContext) (iS1 iE1 iS2 iE2 i : Nat) (s : LCSState)
    (hi1 : iS1 ≤ i) (hi2 : i < iE1) (hs : LCSValid p iS1 iE1 iS2 iE2 s) :
    LCSValid p iS1 iE1 iS2 iE2 (lcsStep E p iS1 iE1 iS2 iE2 i s) := by
  unfold lcsStep
  dsimp only
  have hj := chainWalk_spec p i iS2 iE2 11
    (p.aTo.getD ((p.aFrom.getD i DLine.zero).h % p.nTo) DLine.zero).iHash
  generalize chainWalk p i iS2 iE2 11
    (p.aTo.getD ((p.aFrom.getD i DLine.zero).h % p.nTo) DLine.zero).iHash = j at hj ⊢
  by_cases c1 : j = 0
  · rw [if_pos c1]; exact hs
  · rw [if_neg c1]
    rcases hj with hj | ⟨j0, j1, j2, jsame⟩
    · exact absurd hj c1
    · have m1 := minInt_toNat i (j - 1) iS1 iS2 hi1 j1
      have m2 := minInt_toNat iE1 iE2 (i + 1) j (by omega) (by omega)
      have b := extendBack_spec p i (j - 1)
        (minInt ((i : Int) - iS1) (((j - 1 : Nat) : Int) - iS2)).toNat
        (minInt ((i : Int) - iS1) (((j - 1 : Nat) : Int) - iS2)).toNat 0 (Nat.zero_le _)
        (fun t ht => absurd ht (Nat.not_lt_zero _))
      have f := extendFwd_spec p (i + 1) j
        (minInt ((iE1 : Int) - ((i + 1 : Nat) : Int)) ((iE2 : Int) - (j : Int))).toNat
        (minInt ((iE1 : Int) - ((i + 1 : Nat) : Int)) ((iE2 : Int) - (j : Int))).toNat 0
        (Nat.zero_le _) (fun t ht => absurd ht (Nat.not_lt_zero _))
      have hc := candidate_run p iS1 iE1 iS2 iE2 i j _ _ hi1 j0 j1 jsame
        (le_trans b.1 m1.1) (le_trans b.1 m1.2) b.2 (le_trans f.1 m2.1) (le_trans f.1 m2.2)
        hi2 j2 f.2
      split_ifs <;> first | exact hs | exact hc

theorem lcsLoop_valid (E : Env) (p : DContext) (iS1 iE1 iS2 iE2 : Nat) :
    ∀ (fuel i : Nat) (s : LCSState), iS1 ≤ i → LCSValid p iS1 iE1 iS2 iE2 s →
    LCSValid p iS1 iE1 iS2 iE2 (lcsLoop E p iS1 iE1 iS2 iE2 fuel i s) := by
  intro fuel
  induction fuel with
  | zero => intro i s _ hs; exact hs
  | succ fuel ih =>
    intro i s hi hs
    rw [lcsLoop]
    by_cases c : i < iE1
    · rw [if_pos c]
      exact ih (i + 1) _ (by omega) (lcsStep_valid E p iS1 iE1 iS2 iE2 i s hi c hs)
    · rw [if_neg c]; exact hs

/-- For ranges `iS1 <= iE1` and `iS2 <= iE2` the search
`longestCommonSequence` returns two runs within the ranges, of the same length,
whose lines are the same pair by pair. -/
theorem longestCommonSequence_valid (E : Env) (p : DContext) (iS1 iE1 iS2 iE2 : Nat)
    (h1 : iS1 ≤ iE1) (h2 : iS2 ≤ iE2) :
    ∀ r, longestCommonSequence E p iS1 iE1 iS2 iE2 = r →
    r.1 ≤ r.2.1 ∧ r.2.2.2 = r.2.2.1 + (r.2.1 - r.1) ∧
    RunIn p iS1 iE1 iS2 iE2 r.1 r.2.2.1 (r.2.1 - r.1) := by
  intro r hr
  have h0 : LCSValid p iS1 iE1 iS2 iE2
      { bestScore := none, iSXb := iS1, iSYb := iS2, iEXb := iS1, iEYb := iS2,
        iSXp := iS1, iSYp := iS2, iEXp := iS1, iEYp := iS2 } :=
    ⟨le_refl _, by simp, le_refl _, by simp; omega, le_refl _, by simp; omega,
      fun t ht => by simp at ht⟩
  have hv := lcsLoop_valid E p iS1 iE1 iS2 iE2 (iE1 - iS1) iS1 _ (le_refl _) h0
  unfold longestCommonSequence at hr
  dsimp only at hr
  split_ifs at hr with c
  · obtain ⟨a1, a2, a3, a4, a5, a6, a7, a8, _, _⟩ := optimalLCS_spec p iS1 iE1 iS2 iE2 h1 h2
    rw [hr] at a1 a2 a3 a4 a5 a6 a7 a8
    exact ⟨a2, by omega, a1, by omega, a4, by omega, a8⟩
  · rw [← hr]
    exact hv

theorem int32_small (x : Int) (h0 : 0 ≤ x) (h1 : x < 400) : int32 x = x := by
  unfold int32
  omega

/-- C24. When the product of the lengths of the two ranges is below 400 and
some line of the left range is the same as some line of the right range,
`longestCommonSequence` returns a run that is not empty, within the ranges and
common to both, and `diff_step` goes on with the ranges on either side of that
run: it does not write the triple that deletes the left range and inserts the
right range. -/
theorem longestCommonSequence_small (E : Env) (p : DContext) (iS1 iE1 iS2 iE2 i j : Nat)
    (hprod : (iE1 - iS1) * (iE2 - iS2) < 400)
    (hi1 : iS1 ≤ i) (hi2 : i < iE1) (hj1 : iS2 ≤ j) (hj2 : j < iE2)
    (hsame : same_dline (p.aFrom.getD i DLine.zero) (p.aTo.getD j DLine.zero) = true) :
    ∀ r, longestCommonSequence E p iS1 iE1 iS2 iE2 = r →
    r.1 < r.2.1 ∧ r.2.2.1 < r.2.2.2 ∧ r.2.2.2 - r.2.2.1 = r.2.1 - r.1 ∧
    iS1 ≤ r.1 ∧ r.2.1 ≤ iE1 ∧ iS2 ≤ r.2.2.1 ∧ r.2.2.2 ≤ iE2 ∧
    CommonRun p r.1 r.2.2.1 (r.2.1 - r.1) ∧
    ∀ fuel, diff_step E (fuel + 1) p iS1 iE1 iS2 iE2 =
      (diff_step E fuel p iS1 r.1 iS2 r.2.2.1).bind fun q =>
        diff_step E fuel (appendTriple q ((r.2.1 : Int) - r.1) 0 0) r.2.1 iE1 r.2.2.2 iE2 := by
  intro r hr
  obtain ⟨v1, v2, v3, v4, v5, v6, v7⟩ :=
    longestCommonSequence_valid E p iS1 iE1 iS2 iE2 (by omega) (by omega) r hr
  have hne : r.1 < r.2.1 := by
    by_contra hcon
    have heq : r.1 = r.2.1 := by omega
    have hr2 := hr
    unfold longestCommonSequence at hr2
    dsimp only at hr2
    have hp : int32 (((iE1 : Int) - iS1) * ((iE2 : Int) - iS2)) < 400 := by
      have e : ((iE1 : Int) - iS1) * ((iE2 : Int) - iS2)
          = (((iE1 - iS1) * (iE2 - iS2) : Nat) : Int) := by
        rw [Nat.cast_mul, Nat.cast_sub (by omega), Nat.cast_sub (by omega)]
      rw [e, int32_small _ (Int.natCast_nonneg _) (by exact_mod_cast hprod)]
      exact_mod_cast hprod
    by_cases c : (lcsLoop E p iS1 iE1 iS2 iE2 (iE1 - iS1) iS1
        { bestScore := none, iSXb := iS1, iSYb := iS2, iEXb := iS1, iEYb := iS2,
          iSXp := iS1, iSYp := iS2, iEXp := iS1, iEYp := iS2 }).iSXb =
        (lcsLoop E p iS1 iE1 iS2 iE2 (iE1 - iS1) iS1
        { bestScore := none, iSXb := iS1, iSYb := iS2, iEXb := iS1, iEYb := iS2,
          iSXp := iS1, iSYp := iS2, iEXp := iS1, iEYp := iS2 }).iEXb
    · rw [if_pos ⟨c, hp⟩] at hr2
      obtain ⟨_, _, _, _, _, _, _, _, a9, _⟩ :=
        optimalLCS_spec p iS1 iE1 iS2 iE2 (by omega) (by omega)
      have h1 := a9 i j 1 hi1 (by omega) hj1 (by omega) (by
        intro t ht
        have e : t = 0 := by omega
        rw [e]
        exact hsame)
      rw [hr2] at h1
      omega
    · rw [if_neg (fun h => c h.1)] at hr2
      rw [← hr2] at heq
      exact c heq
  refine ⟨hne, by omega, by omega, v3, by omega, v5, by omega, v7, ?_⟩
  intro fuel
  rw [diff_step, if_neg (by omega), if_neg (by omega)]
  dsimp only
  rw [hr, if_pos (by omega)]
  cases diff_step E fuel p iS1 r.1 iS2 r.2.2.1 <;> rfl

/-- The search in the lines of `a\nb\nc\n` and `a\nx\nc\n`: the third line of
the one is the third line of the other. -/
theorem longestCommonSequence_small_witness :
    ((3 - 0) * (3 - 0) < 400 ∧ 0 ≤ 2 ∧ 2 < 3 ∧ 0 ≤ 2 ∧ 2 < 3 ∧
      same_dline (abcScript.aFrom.getD 2 DLine.zero) (abcScript.aTo.getD 2 DLine.zero) = true) ∧
    ∀ r, longestCommonSequence stdEnv abcScript 0 3 0 3 = r →
    r.1 < r.2.1 ∧ r.2.2.1 < r.2.2.2 ∧ r.2.2.2 - r.2.2.1 = r.2.1 - r.1 ∧
    0 ≤ r.1 ∧ r.2.1 ≤ 3 ∧ 0 ≤ r.2.2.1 ∧ r.2.2.2 ≤ 3 ∧
    CommonRun abcScript r.1 r.2.2.1 (r.2.1 - r.1) ∧
    ∀ fuel, diff_step stdEnv (fuel + 1) abcScript 0 3 0 3 =
      (diff_step stdEnv fuel abcScript 0 r.1 0 r.2.2.1).bind fun q =>
        diff_step stdEnv fuel (appendTriple q ((r.2.1 : Int) - r.1) 0 0) r.2.1 3 r.2.2.2 3 :=
  ⟨⟨by decide, by decide, by decide, by decide, by decide, by decide⟩,
    longestCommonSequence_small stdEnv abcScript 0 3 0 3 2 2 (by decide) (by decide) (by decide)
      (by decide) (by decide) (by decide)⟩

/-! ## Edit scripts -/

theorem getD_append_add (Pre L : List Int) (k : Nat) :
    (Pre ++ L).getD (Pre.length + k) 0 = L.getD k 0 := by
  induction Pre with
  | nil => simp
  | cons x Pre ih =>
    have e : (x :: Pre).length + k = (Pre.length + k) + 1 := by simp; omega
    rw [List.cons_append, e, List.getD_cons_succ]
    exact ih

theorem set_append_add (Pre L : List Int) (k : Nat) (v : Int) :
    (Pre ++ L).set (Pre.length + k) v = Pre ++ L.set k v := by
  induction Pre with
  | nil => simp
  | cons x Pre ih =>
    have e : (x :: Pre).length + k = (Pre.length + k) + 1 := by simp; omega
    rw [List.cons_append, e, List.set_cons_succ, ih]
    rfl

theorem CommonRun_congr (p q : DContext) (h1 : q.aFrom = p.aFrom) (h2 : q.aTo = p.aTo)
    (i j k : Nat) : CommonRun q i j k ↔ CommonRun p i j k := by
  unfold CommonRun
  rw [h1, h2]

theorem CommonRun_append (p : DContext) (i j k k2 : Nat) (h1 : CommonRun p i j k)
    (h2 : CommonRun p (i + k) (j + k) k2) : CommonRun p i j (k + k2) := by
  intro t ht
  by_cases c : t < k
  · exact h1 t c
  · have e1 : i + t = i + k + (t - k) := by omega
    have e2 : j + t = j + k + (t - k) := by omega
    rw [e1, e2]
    exact h2 _ (by omega)

theorem Script_nil (p : DContext) (a b a2 b2 : Nat) :
    Script p [] a b a2 b2 ↔ (a = a2 ∧ b = b2) := by
  unfold Script
  exact Iff.rfl

theorem Script_cons (p : DContext) (c d i : Int) (R : List Int) (a b a2 b2 : Nat) :
    Script p (c :: d :: i :: R) a b a2 b2 ↔
      (0 ≤ c ∧ 0 ≤ d ∧ 0 ≤ i ∧ CommonRun p a b c.toNat ∧
        Script p R (a + c.toNat + d.toNat) (b + c.toNat + i.toNat) a2 b2) := by
  rw [Script]

theorem Script_one (p : DContext) (x : Int) (a b a2 b2 : Nat) :
    ¬ Script p [x] a b a2 b2 := by
  unfold Script
  exact fun h => h

theorem Script_two (p : DContext) (x y : Int) (a b a2 b2 : Nat) :
    ¬ Script p [x, y] a b a2 b2 := by
  unfold Script
  exact fun h => h

/-- A script followed by a script is a script. -/
theorem Script_append (p : DContext) : ∀ (R R2 : List Int) (a b a1 b1 a2 b2 : Nat),
    Script p R a b a1 b1 → Script p R2 a1 b1 a2 b2 → Script p (R ++ R2) a b a2 b2
  | [], R2, a, b, a1, b1, a2, b2, h1, h2 => by
    rw [Script_nil] at h1
    rw [h1.1, h1.2]
    exact h2
  | [x], _, a, b, a1, b1, _, _, h1, _ => absurd h1 (Script_one p x a b a1 b1)
  | [x, y], _, a, b, a1, b1, _, _, h1, _ => absurd h1 (Script_two p x y a b a1 b1)
  | c :: d :: i :: R, R2, a, b, a1, b1, a2, b2, h1, h2 => by
    rw [Script_cons] at h1
    obtain ⟨q1, q2, q3, q4, q5⟩ := h1
    show Script p (c :: d :: i :: (R ++ R2)) a b a2 b2
    rw [Script_cons]
    exact ⟨q1, q2, q3, q4, Script_append p R R2 _ _ _ _ _ _ q5 h2⟩

/-- A script of at least one triple is a script followed by its last triple. -/
theorem Script_last (p : DContext) : ∀ (R : List Int) (a b a2 b2 : Nat),
    Script p R a b a2 b2 → 3 ≤ R.length →
    ∃ R0 c0 d0 i0 a1 b1, R = R0 ++ [c0, d0, i0] ∧ Script p R0 a b a1 b1 ∧
      Script p [c0, d0, i0] a1 b1 a2 b2
  | [], _, _, _, _, _, hl => by simp at hl
  | [_], _, _, _, _, _, hl => by simp at hl
  | [_, _], _, _, _, _, _, hl => by simp at hl
  | c :: d :: i :: R, a, b, a2, b2, h, _ => by
    by_cases hR : 3 ≤ R.length
    · have h2 := h
      rw [Script_cons] at h2
      obtain ⟨q1, q2, q3, q4, q5⟩ := h2
      obtain ⟨R0, c0, d0, i0, a1, b1, e, s1, s2⟩ := Script_last p R _ _ _ _ q5 hR
      refine ⟨c :: d :: i :: R0, c0, d0, i0, a1, b1, by rw [e]; rfl, ?_, s2⟩
      rw [Script_cons]
      exact ⟨q1, q2, q3, q4, s1⟩
    · have h2 := h
      rw [Script_cons] at h2
      obtain ⟨q1, q2, q3, q4, q5⟩ := h2
      match R, q5, hR with
      | [], q5, _ =>
        refine ⟨[], c, d, i, a, b, rfl, ?_, h⟩
        rw [Script_nil]
        exact ⟨rfl, rfl⟩
      | [x], q5, _ => exact absurd q5 (Script_one p x _ _ _ _)
      | [x, y], q5, _ => exact absurd q5 (Script_two p x y _ _ _ _)
      | _ :: _ :: _ :: _, _, hR => simp at hR

/-- The length of a script is a multiple of three. -/
theorem Script_length (p : DContext) : ∀ (R : List Int) (a b a2 b2 : Nat),
    Script p R a b a2 b2 → R.length % 3 = 0
  | [], _, _, _, _, _ => rfl
  | [x], a, b, a2, b2, h => absurd h (Script_one p x a b a2 b2)
  | [x, y], a, b, a2, b2, h => absurd h (Script_two p x y a b a2 b2)
  | c :: d :: i :: R, a, b, a2, b2, h => by
    rw [Script_cons] at h
    have := Script_length p R _ _ _ _ h.2.2.2.2
    simp only [List.length_cons]
    omega

theorem Script_congr (p q : DContext) (h1 : q.aFrom = p.aFrom) (h2 : q.aTo = p.aTo) :
    ∀ (R : List Int) (a b a2 b2 : Nat), Script q R a b a2 b2 → Script p R a b a2 b2
  | [], a, b, a2, b2, h => by rw [Script_nil] at h ⊢; exact h
  | [x], a, b, a2, b2, h => absurd h (Script_one q x a b a2 b2)
  | [x, y], a, b, a2, b2, h => absurd h (Script_two q x y a b a2 b2)
  | c :: d :: i :: R, a, b, a2, b2, h => by
    rw [Script_cons] at h ⊢
    exact ⟨h.1, h.2.1, h.2.2.1, (CommonRun_congr p q h1 h2 _ _ _).1 h.2.2.2.1,
      Script_congr p q h1 h2 R _ _ _ _ h.2.2.2.2⟩

/-- The counts of a script are not negative. -/
theorem Script_nonneg (p : DContext) : ∀ (R : List Int) (a b a2 b2 : Nat),
    Script p R a b a2 b2 → ∀ x, x ∈ R → 0 ≤ x
  | [], _, _, _, _, _, x, hx => by simp at hx
  | [y], a, b, a2, b2, h, _, _ => absurd h (Script_one p y a b a2 b2)
  | [y, z], a, b, a2, b2, h, _, _ => absurd h (Script_two p y z a b a2 b2)
  | c :: d :: i :: R, a, b, a2, b2, h, x, hx => by
    rw [Script_cons] at h
    simp only [List.mem_cons] at hx
    rcases hx with e | e | e | e
    · rw [e]; exact h.1
    · rw [e]; exact h.2.1
    · rw [e]; exact h.2.2.1
    · exact Script_nonneg p R _ _ _ _ h.2.2.2.2 x e

/-- The sums of a script are the distances between its ends. -/
theorem Script_sums (p : DContext) : ∀ (R : List Int) (a b a2 b2 : Nat),
    Script p R a b a2 b2 →
    (a : Int) + sumCopyDelete R = a2 ∧ (b : Int) + sumCopyInsert R = b2
  | [], a, b, a2, b2, h => by
    rw [Script_nil] at h
    simp [sumCopyDelete, sumCopyInsert, h.1, h.2]
  | [y], a, b, a2, b2, h => absurd h (Script_one p y a b a2 b2)
  | [y, z], a, b, a2, b2, h => absurd h (Script_two p y z a b a2 b2)
  | c :: d :: i :: R, a, b, a2, b2, h => by
    rw [Script_cons] at h
    obtain ⟨q1, q2, q3, _, q5⟩ := h
    have ih := Script_sums p R _ _ _ _ q5
    rw [sumCopyDelete, sumCopyInsert]
    omega

/-! ## `appendTriple` extends a script -/

theorem appendTriple_fields (p : DContext) (nCopy nDel nIns : Int) :
    (appendTriple p nCopy nDel nIns).aFrom = p.aFrom ∧
    (appendTriple p nCopy nDel nIns).aTo = p.aTo ∧
    (appendTriple p nCopy nDel nIns).nFrom = p.nFrom ∧
    (appendTriple p nCopy nDel nIns).nTo = p.nTo := by
  unfold appendTriple
  dsimp only
  split_ifs <;> exact ⟨rfl, rfl, rfl, rfl⟩

theorem appendTriple_short (p : DContext) (nCopy nDel nIns : Int) (h : p.aEdit.length < 3) :
    (appendTriple p nCopy nDel nIns).aEdit = p.aEdit ++ [nCopy, nDel, nIns] := by
  unfold appendTriple
  dsimp only
  rw [if_neg (by omega), if_neg (by omega), if_neg (by omega)]

/-- The three ways in which `appendTriple` merges a triple into the last triple
`(c0, d0, i0)` of the script, and the way in which it appends a triple. -/
theorem appendTriple_snoc (p : DContext) (R0 : List Int) (c0 d0 i0 : Int)
    (h : p.aEdit = R0 ++ [c0, d0, i0]) (nCopy nDel nIns : Int) :
    (appendTriple p nCopy nDel nIns).aEdit =
      if i0 = 0 ∧ d0 = 0 then R0 ++ [c0 + nCopy, d0 + nDel, i0 + nIns]
      else if i0 = 0 ∧ nCopy = 0 then R0 ++ [c0, d0 + nDel, i0 + nIns]
      else if nCopy = 0 ∧ nDel = 0 then R0 ++ [c0, d0, i0 + nIns]
      else R0 ++ [c0, d0, i0, nCopy, nDel, nIns] := by
  have e1 : (R0 ++ [c0, d0, i0]).length - 1 = R0.length + 2 := by simp
  have e2 : (R0 ++ [c0, d0, i0]).length - 2 = R0.length + 1 := by simp
  have e3 : (R0 ++ [c0, d0, i0]).length - 3 = R0.length + 0 := by simp
  have ge : (R0 ++ [c0, d0, i0]).length ≥ 3 := by simp
  unfold appendTriple
  dsimp only
  rw [h, e1, e2, e3]
  simp only [getD_append_add, set_append_add, ge, true_and]
  by_cases c1 : i0 = 0 ∧ d0 = 0
  · rw [if_pos c1]
    have c1b : [c0, d0, i0].getD 2 0 = 0 ∧ [c0, d0, i0].getD 1 0 = 0 := c1
    rw [if_pos c1b]
    rfl
  · rw [if_neg c1]
    have c1b : ¬ ([c0, d0, i0].getD 2 0 = 0 ∧ [c0, d0, i0].getD 1 0 = 0) := c1
    rw [if_neg c1b]
    by_cases c2 : i0 = 0 ∧ nCopy = 0
    · rw [if_pos c2]
      have c2b : [c0, d0, i0].getD 2 0 = 0 ∧ nCopy = 0 := c2
      rw [if_pos c2b]
      rfl
    · rw [if_neg c2]
      have c2b : ¬ ([c0, d0, i0].getD 2 0 = 0 ∧ nCopy = 0) := c2
      rw [if_neg c2b]
      by_cases c3 : nCopy = 0 ∧ nDel = 0
      · rw [if_pos c3, if_pos c3]
        rfl
      · rw [if_neg c3, if_neg c3]
        simp

theorem Script_triple (p : DContext) (c d i : Int) (a b : Nat) (hc : 0 ≤ c) (hd : 0 ≤ d)
    (hi : 0 ≤ i) (h : CommonRun p a b c.toNat) :
    Script p [c, d, i] a b (a + c.toNat + d.toNat) (b + c.toNat + i.toNat) := by
  rw [Script_cons, Script_nil]
  exact ⟨hc, hd, hi, h, rfl, rfl⟩

/-- A script followed by `appendTriple` is a script, whether the triple is
merged into the last one or not. -/
theorem appendTriple_script (p0 q : DContext) (a0 b0 a b : Nat)
    (h : Script p0 q.aEdit a0 b0 a b) (nCopy nDel nIns : Int) (hc : 0 ≤ nCopy) (hd : 0 ≤ nDel)
    (hi : 0 ≤ nIns) (hr : CommonRun p0 a b nCopy.toNat) :
    Script p0 (appendTriple q nCopy nDel nIns).aEdit a0 b0 (a + nCopy.toNat + nDel.toNat)
      (b + nCopy.toNat + nIns.toNat) := by
  by_cases hl : q.aEdit.length < 3
  · rw [appendTriple_short q _ _ _ hl]
    exact Script_append p0 _ _ _ _ _ _ _ _ h (Script_triple p0 _ _ _ _ _ hc hd hi hr)
  · obtain ⟨R0, c0, d0, i0, a1, b1, e, s1, s2⟩ := Script_last p0 _ _ _ _ _ h (by omega)
    rw [appendTriple_snoc q R0 c0 d0 i0 e]
    rw [Script_cons, Script_nil] at s2
    obtain ⟨t1, t2, t3, t4, t5, t6⟩ := s2
    split_ifs with c1 c2 c3
    · apply Script_append p0 _ _ _ _ _ _ _ _ s1
      rw [Script_cons, Script_nil]
      obtain ⟨c1a, c1b⟩ := c1
      subst c1a c1b
      refine ⟨by omega, by omega, by omega, ?_, by omega, by omega⟩
      have e2 : (c0 + nCopy).toNat = c0.toNat + nCopy.toNat := by omega
      rw [e2]
      apply CommonRun_append p0 _ _ _ _ t4
      have e3 : a1 + c0.toNat = a := by omega
      have e4 : b1 + c0.toNat = b := by omega
      rw [e3, e4]
      exact hr
    · apply Script_append p0 _ _ _ _ _ _ _ _ s1
      rw [Script_cons, Script_nil]
      obtain ⟨c2a, c2b⟩ := c2
      subst c2a c2b
      exact ⟨t1, by omega, by omega, t4, by omega, by omega⟩
    · apply Script_append p0 _ _ _ _ _ _ _ _ s1
      rw [Script_cons, Script_nil]
      obtain ⟨c3a, c3b⟩ := c3
      subst c3a c3b
      exact ⟨t1, t2, by omega, t4, by omega, by omega⟩
    · have e5 : R0 ++ [c0, d0, i0, nCopy, nDel, nIns] = q.aEdit ++ [nCopy, nDel, nIns] := by
        rw [e]; simp
      rw [e5]
      exact Script_append p0 _ _ _ _ _ _ _ _ h (Script_triple p0 _ _ _ _ _ hc hd hi hr)

/-! ## `diff_step` and `diff_all` write a script -/

theorem appendTriple_script_to (p0 q : DContext) (a0 b0 a b a2 b2 : Nat)
    (h : Script p0 q.aEdit a0 b0 a b) (nCopy nDel nIns : Int) (hc : 0 ≤ nCopy) (hd : 0 ≤ nDel)
    (hi : 0 ≤ nIns) (hr : CommonRun p0 a b nCopy.toNat)
    (ha : a2 = a + nCopy.toNat + nDel.toNat) (hb : b2 = b + nCopy.toNat + nIns.toNat) :
    Script p0 (appendTriple q nCopy nDel nIns).aEdit a0 b0 a2 b2 := by
  rw [ha, hb]
  exact appendTriple_script p0 q a0 b0 a b h nCopy nDel nIns hc hd hi hr

theorem CommonRun_zero (p : DContext) (i j : Nat) : CommonRun p i j 0 :=
  fun t ht => absurd ht (Nat.not_lt_zero t)

/-- With more fuel than the left range has lines, `diff_step` returns, and it
extends a script that ends at the starts of the two ranges to a script that ends
at the ends of the two ranges. -/
theorem diff_step_script (E : Env) (p0 : DContext) (a0 b0 : Nat) :
    ∀ (fuel : Nat) (q : DContext) (iS1 iE1 iS2 iE2 : Nat), iE1 - iS1 < fuel → iS1 ≤ iE1 →
    iS2 ≤ iE2 → q.aFrom = p0.aFrom → q.aTo = p0.aTo → Script p0 q.aEdit a0 b0 iS1 iS2 →
    ∃ q2, diff_step E fuel q iS1 iE1 iS2 iE2 = some q2 ∧ q2.aFrom = p0.aFrom ∧
      q2.aTo = p0.aTo ∧ q2.nFrom = q.nFrom ∧ q2.nTo = q.nTo ∧
      Script p0 q2.aEdit a0 b0 iE1 iE2 := by
  intro fuel
  induction fuel with
  | zero => intro q iS1 iE1 iS2 iE2 hf; omega
  | succ fuel ih =>
    intro q iS1 iE1 iS2 iE2 hf h1 h2 qf qt hs
    rw [diff_step]
    by_cases c1 : iE1 ≤ iS1
    · rw [if_pos c1]
      by_cases c2 : iE2 > iS2
      · rw [if_pos c2]
        obtain ⟨f1, f2, f3, f4⟩ := appendTriple_fields q 0 0 ((iE2 : Int) - iS2)
        refine ⟨_, rfl, f1.trans qf, f2.trans qt, f3, f4, ?_⟩
        exact appendTriple_script_to p0 q a0 b0 iS1 iS2 iE1 iE2 hs 0 0 _ (le_refl _) (le_refl _)
          (by omega) (CommonRun_zero p0 _ _) (by simp; omega) (by simp; omega)
      · rw [if_neg c2]
        have e1 : iE1 = iS1 := by omega
        have e2 : iE2 = iS2 := by omega
        rw [e1, e2]
        exact ⟨q, rfl, qf, qt, rfl, rfl, hs⟩
    · rw [if_neg c1]
      by_cases c2 : iE2 ≤ iS2
      · rw [if_pos c2]
        obtain ⟨f1, f2, f3, f4⟩ := appendTriple_fields q 0 ((iE1 : Int) - iS1) 0
        refine ⟨_, rfl, f1.trans qf, f2.trans qt, f3, f4, ?_⟩
        exact appendTriple_script_to p0 q a0 b0 iS1 iS2 iE1 iE2 hs 0 _ 0 (le_refl _) (by omega)
          (le_refl _) (CommonRun_zero p0 _ _) (by simp; omega) (by simp; omega)
      · rw [if_neg c2]
        dsimp only
        obtain ⟨v1, v2, v3, v4, v5, v6, v7⟩ :=
          longestCommonSequence_valid E q iS1 iE1 iS2 iE2 h1 h2 _ rfl
        generalize longestCommonSequence E q iS1 iE1 iS2 iE2 = r at v1 v2 v3 v4 v5 v6 v7 ⊢
        obtain ⟨iSX, iEX, iSY, iEY⟩ := r
        simp only at v1 v2 v3 v4 v5 v6 v7 ⊢
        by_cases c3 : iEX > iSX
        · rw [if_pos c3]
          obtain ⟨q1, g1, g2, g3, g4, g5, g6⟩ :=
            ih q iS1 iSX iS2 iSY (by omega) v3 v5 qf qt hs
          rw [g1]
          dsimp only
          obtain ⟨f1, f2, f3, f4⟩ := appendTriple_fields q1 ((iEX : Int) - iSX) 0 0
          have hs2 : Script p0 (appendTriple q1 ((iEX : Int) - iSX) 0 0).aEdit a0 b0 iEX iEY := by
            apply appendTriple_script_to p0 q1 a0 b0 iSX iSY iEX iEY g6 _ 0 0 (by omega)
              (le_refl _) (le_refl _) _ (by simp; omega) (by simp; omega)
            have e : ((iEX : Int) - iSX).toNat = iEX - iSX := by omega
            rw [e]
            exact (CommonRun_congr p0 q qf qt _ _ _).1 v7
          obtain ⟨q2, k1, k2, k3, k4, k5, k6⟩ :=
            ih (appendTriple q1 ((iEX : Int) - iSX) 0 0) iEX iE1 iEY iE2 (by omega) (by omega)
              (by omega) (f1.trans g2) (f2.trans g3) hs2
          exact ⟨q2, k1, k2, k3, by rw [k4, f3, g4], by rw [k5, f4, g5], k6⟩
        · rw [if_neg c3]
          obtain ⟨f1, f2, f3, f4⟩ :=
            appendTriple_fields q 0 ((iE1 : Int) - iS1) ((iE2 : Int) - iS2)
          refine ⟨_, rfl, f1.trans qf, f2.trans qt, f3, f4, ?_⟩
          exact appendTriple_script_to p0 q a0 b0 iS1 iS2 iE1 iE2 hs 0 _ _ (le_refl _) (by omega)
            (by omega) (CommonRun_zero p0 _ _) (by simp; omega) (by simp; omega)

/-- The first loop of `diff_all` stops at the start of a common tail of the two
files, in front of a pair of lines that differ or at the start of a file. -/
theorem stripSuffix_spec (p : DContext) (n1 n2 : Nat) :
    ∀ (fuel iE1 iE2 : Nat), iE1 ≤ fuel → iE1 ≤ n1 → iE2 ≤ n2 → n1 - iE1 = n2 - iE2 →
    CommonRun p iE1 iE2 (n1 - iE1) →
    (stripSuffix p fuel iE1 iE2).1 ≤ iE1 ∧ (stripSuffix p fuel iE1 iE2).2 ≤ iE2 ∧
    n1 - (stripSuffix p fuel iE1 iE2).1 = n2 - (stripSuffix p fuel iE1 iE2).2 ∧
    CommonRun p (stripSuffix p fuel iE1 iE2).1 (stripSuffix p fuel iE1 iE2).2
      (n1 - (stripSuffix p fuel iE1 iE2).1) ∧
    ¬ ((stripSuffix p fuel iE1 iE2).1 > 0 ∧ (stripSuffix p fuel iE1 iE2).2 > 0 ∧
      same_dline (p.aFrom.getD ((stripSuffix p fuel iE1 iE2).1 - 1) DLine.zero)
        (p.aTo.getD ((stripSuffix p fuel iE1 iE2).2 - 1) DLine.zero) = true) := by
  intro fuel
  induction fuel with
  | zero =>
    intro iE1 iE2 hf h1 h2 h3 h4
    rw [stripSuffix]
    exact ⟨le_refl _, le_refl _, h3, h4, fun h => by omega⟩
  | succ fuel ih =>
    intro iE1 iE2 hf h1 h2 h3 h4
    rw [stripSuffix]
    by_cases c : iE1 > 0 ∧ iE2 > 0 ∧
        same_dline (p.aFrom.getD (iE1 - 1) DLine.zero) (p.aTo.getD (iE2 - 1) DLine.zero) = true
    · rw [if_pos c]
      have hc : CommonRun p (iE1 - 1) (iE2 - 1) (n1 - (iE1 - 1)) := by
        intro t ht
        by_cases t0 : t = 0
        · rw [t0]; exact c.2.2
        · have e1 : iE1 - 1 + t = iE1 + (t - 1) := by omega
          have e2 : iE2 - 1 + t = iE2 + (t - 1) := by omega
          rw [e1, e2]
          exact h4 _ (by omega)
      obtain ⟨r1, r2, r3, r4, r5⟩ := ih (iE1 - 1) (iE2 - 1) (by omega) (by omega) (by omega)
        (by omega) hc
      exact ⟨by omega, by omega, r3, r4, r5⟩
    · rw [if_neg c]
      exact ⟨le_refl _, le_refl _, h3, h4, c⟩

/-- The second loop of `diff_all` stops at the end of a common head of the two
files that is not longer than `mnE`. -/
theorem stripPrefix_spec (p : DContext) (mnE : Nat) :
    ∀ (fuel iS : Nat), iS ≤ mnE → CommonRun p 0 0 iS →
    stripPrefix p mnE fuel iS ≤ mnE ∧ CommonRun p 0 0 (stripPrefix p mnE fuel iS) := by
  intro fuel
  induction fuel with
  | zero => intro iS h1 h2; rw [stripPrefix]; exact ⟨h1, h2⟩
  | succ fuel ih =>
    intro iS h1 h2
    rw [stripPrefix]
    by_cases c : iS < mnE ∧
        same_dline (p.aFrom.getD iS DLine.zero) (p.aTo.getD iS DLine.zero) = true
    · rw [if_pos c]
      apply ih (iS + 1) (by omega)
      intro t ht
      by_cases e : t = iS
      · rw [e, Nat.zero_add]; exact c.2
      · exact h2 t (by omega)
    · rw [if_neg c]; exact ⟨h1, h2⟩

theorem LastPlain_snoc : ∀ (R0 : List Int) (c : Int), R0.length % 3 = 0 →
    LastPlain (R0 ++ [c, 0, 0])
  | [], c, _ => by
    show LastPlain [c, 0, 0]
    rw [LastPlain, if_pos rfl]
    exact ⟨rfl, rfl⟩
  | [_], _, h => by simp at h
  | [_, _], _, h => by simp at h
  | x :: y :: z :: R0, c, h => by
    show LastPlain (x :: y :: z :: (R0 ++ [c, 0, 0]))
    rw [LastPlain, if_neg (by simp)]
    apply LastPlain_snoc R0 c
    simp only [List.length_cons] at h
    omega

theorem appendTriple_copy_last (p0 q : DContext) (a0 b0 a b : Nat)
    (h : Script p0 q.aEdit a0 b0 a b) (nCopy : Int) (hc : 0 < nCopy) :
    LastPlain (appendTriple q nCopy 0 0).aEdit := by
  by_cases hl : q.aEdit.length < 3
  · rw [appendTriple_short q _ _ _ hl]
    exact LastPlain_snoc _ _ (Script_length p0 _ _ _ _ _ h)
  · obtain ⟨R0, c0, d0, i0, a1, b1, e, s1, _⟩ := Script_last p0 _ _ _ _ _ h (by omega)
    rw [appendTriple_snoc q R0 c0 d0 i0 e]
    split_ifs with c1 c2 c3
    · rw [c1.1, c1.2]
      exact LastPlain_snoc _ _ (Script_length p0 _ _ _ _ _ s1)
    · omega
    · omega
    · have e5 : R0 ++ [c0, d0, i0, nCopy, 0, 0] = q.aEdit ++ [nCopy, 0, 0] := by
        rw [e]; simp
      rw [e5]
      exact LastPlain_snoc _ _ (Script_length p0 _ _ _ _ _ h)

/-- With more fuel than the left file has lines, `diff_all` returns: it writes a
script that leads from the starts of the two files to their ends, and the three
zeros behind it.  Unless the files have no common last line, the last triple of
the script deletes nothing and inserts nothing. -/
theorem diff_all_script (E : Env) (p : DContext) (h0 : p.aEdit = []) (fuel : Nat)
    (hf : p.nFrom < fuel) :
    ∃ q R, diff_all E fuel p = some q ∧ q.aFrom = p.aFrom ∧ q.aTo = p.aTo ∧
      q.nFrom = p.nFrom ∧ q.nTo = p.nTo ∧ q.aEdit = R ++ [0, 0, 0] ∧
      Script p R 0 0 p.nFrom p.nTo ∧ (LastPlain R ∨ NoCommonTail p) := by
  unfold diff_all
  dsimp only
  obtain ⟨s1, s2, s3, s4, s5⟩ := stripSuffix_spec p p.nFrom p.nTo p.nFrom p.nFrom p.nTo
    (le_refl _) (le_refl _) (le_refl _) (by omega) (by rw [Nat.sub_self]; exact CommonRun_zero p _ _)
  generalize stripSuffix p p.nFrom p.nFrom p.nTo = e at s1 s2 s3 s4 s5 ⊢
  obtain ⟨iE1, iE2⟩ := e
  simp only at s1 s2 s3 s4 s5 ⊢
  obtain ⟨t1, t2⟩ := stripPrefix_spec p (if iE1 < iE2 then iE1 else iE2)
    (if iE1 < iE2 then iE1 else iE2) 0 (Nat.zero_le _) (CommonRun_zero p _ _)
  generalize stripPrefix p (if iE1 < iE2 then iE1 else iE2)
    (if iE1 < iE2 then iE1 else iE2) 0 = iS at t1 t2 ⊢
  have hS1 : iS ≤ iE1 := by split_ifs at t1 <;> omega
  have hS2 : iS ≤ iE2 := by split_ifs at t1 <;> omega
  have hp1 : ∃ p1, (if iS > 0 then appendTriple p (iS : Int) 0 0 else p) = p1 ∧
      p1.aFrom = p.aFrom ∧ p1.aTo = p.aTo ∧ p1.nFrom = p.nFrom ∧ p1.nTo = p.nTo ∧
      Script p p1.aEdit 0 0 iS iS := by
    by_cases c : iS > 0
    · rw [if_pos c]
      obtain ⟨f1, f2, f3, f4⟩ := appendTriple_fields p (iS : Int) 0 0
      refine ⟨_, rfl, f1, f2, f3, f4, ?_⟩
      apply appendTriple_script_to p p 0 0 0 0 iS iS _ _ 0 0 (by omega) (le_refl _) (le_refl _)
        _ (by simp) (by simp)
      · rw [h0, Script_nil]; exact ⟨rfl, rfl⟩
      · rw [Int.toNat_ofNat]; exact t2
    · rw [if_neg c]
      have e : iS = 0 := by omega
      refine ⟨p, rfl, rfl, rfl, rfl, rfl, ?_⟩
      rw [h0, Script_nil, e]
      exact ⟨rfl, rfl⟩
  obtain ⟨p1, e1, a1, a2, a3, a4, a5⟩ := hp1
  rw [e1]
  obtain ⟨q2, g1, g2, g3, g4, g5, g6⟩ :=
    diff_step_script E p 0 0 fuel p1 iS iE1 iS iE2 (by omega) hS1 hS2 a1 a2 a5
  rw [g1]
  dsimp only
  by_cases c : iE1 < q2.nFrom
  · rw [if_pos c]
    obtain ⟨f1, f2, f3, f4⟩ := appendTriple_fields q2 ((q2.nFrom : Int) - iE1) 0 0
    refine ⟨_, (appendTriple q2 ((q2.nFrom : Int) - iE1) 0 0).aEdit, rfl, f1.trans g2,
      f2.trans g3, by rw [← a3, ← g4]; exact f3, by rw [← a4, ← g5]; exact f4, rfl, ?_, ?_⟩
    · have e3 : q2.nFrom = p.nFrom := by rw [g4, a3]
      apply appendTriple_script_to p q2 0 0 iE1 iE2 p.nFrom p.nTo g6 _ 0 0 (by omega) (le_refl _)
        (le_refl _) _ (by simp; omega) (by simp; omega)
      have e4 : ((q2.nFrom : Int) - iE1).toNat = p.nFrom - iE1 := by omega
      rw [e4]
      exact s4
    · exact Or.inl (appendTriple_copy_last p q2 0 0 iE1 iE2 g6 _ (by omega))
  · rw [if_neg c]
    have e3 : q2.nFrom = p.nFrom := by rw [g4, a3]
    have e5 : iE1 = p.nFrom := by omega
    have e6 : iE2 = p.nTo := by omega
    refine ⟨_, q2.aEdit, rfl, g2, g3, e3, by rw [g5, a4], rfl, ?_, ?_⟩
    · rw [← e5, ← e6]; exact g6
    · right
      unfold NoCommonTail
      rw [← e5, ← e6]
      exact s5

/-! ## Replaying a script -/

theorem getD_map_range (f : Nat → DLine) (n t : Nat) (h : t < n) :
    ((List.range n).map f).getD t DLine.zero = f t := by
  rw [List.getD_eq_getElem _ _ (by simpa using h)]
  simp

theorem Script_le (p : DContext) : ∀ (R : List Int) (a b a2 b2 : Nat),
    Script p R a b a2 b2 → a ≤ a2 ∧ b ≤ b2
  | [], a, b, a2, b2, h => by rw [Script_nil] at h; omega
  | [y], a, b, a2, b2, h => absurd h (Script_one p y a b a2 b2)
  | [y, z], a, b, a2, b2, h => absurd h (Script_two p y z a b a2 b2)
  | c :: d :: i :: R, a, b, a2, b2, h => by
    rw [Script_cons] at h
    have := Script_le p R _ _ _ _ h.2.2.2.2
    omega

/-- The replay of a script writes the lines of the right file between the two
positions of the script in the right file, up to `same_dline`. -/
theorem replay_script (p : DContext) : ∀ (R : List Int) (a b a2 b2 : Nat),
    Script p R a b a2 b2 →
    (replay p.aFrom p.aTo R a b).length = b2 - b ∧
    ∀ t, t < b2 - b → same_dline ((replay p.aFrom p.aTo R a b).getD t DLine.zero)
      (p.aTo.getD (b + t) DLine.zero) = true
  | [], a, b, a2, b2, h => by
    rw [Script_nil] at h
    have e : replay p.aFrom p.aTo [] a b = [] := by simp [replay]
    rw [e]
    exact ⟨by simp; omega, fun t ht => by omega⟩
  | [y], a, b, a2, b2, h => absurd h (Script_one p y a b a2 b2)
  | [y, z], a, b, a2, b2, h => absurd h (Script_two p y z a b a2 b2)
  | c :: d :: i :: R, a, b, a2, b2, h => by
    rw [Script_cons] at h
    obtain ⟨q1, q2, q3, q4, q5⟩ := h
    obtain ⟨ih1, ih2⟩ := replay_script p R _ _ _ _ q5
    have hle := Script_le p R _ _ _ _ q5
    rw [replay]
    constructor
    · simp only [List.length_append, List.length_map, List.length_range, ih1]
      omega
    · intro t ht
      by_cases c1 : t < c.toNat
      · rw [List.getD_append _ _ _ _ (by simp; omega),
          List.getD_append _ _ _ _ (by simpa using c1), getD_map_range _ _ _ c1]
        exact q4 t c1
      · by_cases c2 : t < c.toNat + i.toNat
        · rw [List.getD_append _ _ _ _ (by simp; omega),
            List.getD_append_right _ _ _ _ (by simp; omega)]
          simp only [List.length_map, List.length_range]
          rw [getD_map_range _ _ _ (by omega)]
          have e : b + c.toNat + (t - c.toNat) = b + t := by omega
          rw [e]
          exact same_dline_refl _
        · rw [List.getD_append_right _ _ _ _ (by simp; omega)]
          simp only [List.length_append, List.length_map, List.length_range]
          have e : b + t = b + c.toNat + i.toNat + (t - (c.toNat + i.toNat)) := by omega
          rw [e]
          exact ih2 _ (by omega)

/-- C13. For line arrays with an empty script and more fuel than the left file
has lines, `diff_all` returns a script that ends with three zeros and leads from
the starts of the two files to their ends: no count is negative, the lines that
a copy count covers are the same, pair by pair, in the left and in the right
file, and a replay of the triples (copy lines of the left file, skip lines of
the left file, take lines of the right file) writes as many lines as the right
file has, each the same as the line of the right file at its position. -/
theorem diff_all_replay (E : Env) (p : DContext) (h0 : p.aEdit = []) (fuel : Nat)
    (hf : p.nFrom < fuel) :
    ∃ q R, diff_all E fuel p = some q ∧ q.aFrom = p.aFrom ∧ q.aTo = p.aTo ∧
      q.aEdit = R ++ [0, 0, 0] ∧ Script p R 0 0 p.nFrom p.nTo ∧
      (replay p.aFrom p.aTo q.aEdit 0 0).length = p.nTo ∧
      ∀ t, t < p.nTo → same_dline ((replay p.aFrom p.aTo q.aEdit 0 0).getD t DLine.zero)
        (p.aTo.getD t DLine.zero) = true := by
  obtain ⟨q, R, e1, e2, e3, _, _, e6, e7, _⟩ := diff_all_script E p h0 fuel hf
  have hs : Script p (R ++ [0, 0, 0]) 0 0 p.nFrom p.nTo := by
    apply Script_append p R [0, 0, 0] 0 0 p.nFrom p.nTo p.nFrom p.nTo e7
    rw [Script_cons, Script_nil]
    exact ⟨le_refl _, le_refl _, le_refl _, CommonRun_zero p _ _, by simp, by simp⟩
  obtain ⟨r1, r2⟩ := replay_script p _ _ _ _ _ hs
  refine ⟨q, R, e1, e2, e3, e6, e7, ?_, ?_⟩
  · rw [e6, r1]; omega
  · intro t ht
    have := r2 t (by omega)
    rw [Nat.zero_add] at this
    rw [e6]
    exact this

/-- The script for the lines of `a\nb\nc\n` and `a\nx\nc\n`. -/
theorem diff_all_replay_witness :
    (abcInput.aEdit = [] ∧ abcInput.nFrom < 4) ∧
    ∃ q R, diff_all stdEnv 4 abcInput = some q ∧ q.aFrom = abcInput.aFrom ∧
      q.aTo = abcInput.aTo ∧ q.aEdit = R ++ [0, 0, 0] ∧
      Script abcInput R 0 0 abcInput.nFrom abcInput.nTo ∧
      (replay abcInput.aFrom abcInput.aTo q.aEdit 0 0).length = abcInput.nTo ∧
      ∀ t, t < abcInput.nTo →
        same_dline ((replay abcInput.aFrom abcInput.aTo q.aEdit 0 0).getD t DLine.zero)
          (abcInput.aTo.getD t DLine.zero) = true :=
  ⟨⟨rfl, by decide⟩, diff_all_replay stdEnv abcInput rfl 4 (by decide)⟩

/-! ## The shifts of `diff_optimize` keep a script a script -/

theorem getD_append_len (Pre L : List Int) : (Pre ++ L).getD Pre.length 0 = L.getD 0 0 :=
  getD_append_add Pre L 0

theorem set_append_len (Pre L : List Int) (v : Int) :
    (Pre ++ L).set Pre.length v = Pre ++ L.set 0 v :=
  set_append_add Pre L 0 v

theorem up_aEdit (s : OptState) (Pre Tl : List Int) (c d i c2 d2 i2 : Int)
    (h : s.aEdit = Pre ++ (c :: d :: i :: c2 :: d2 :: i2 :: Tl)) :
    (s.up Pre.length).aEdit = Pre ++ ((c - 1) :: d :: i :: (c2 + 1) :: d2 :: i2 :: Tl) := by
  unfold OptState.up
  dsimp only
  rw [h]
  simp only [getD_append_len, set_append_len, getD_append_add, set_append_add]
  rfl

theorem down_aEdit (s : OptState) (Pre Tl : List Int) (c d i c2 d2 i2 : Int)
    (h : s.aEdit = Pre ++ (c :: d :: i :: c2 :: d2 :: i2 :: Tl)) :
    (s.down Pre.length).aEdit = Pre ++ ((c + 1) :: d :: i :: (c2 - 1) :: d2 :: i2 :: Tl) := by
  unfold OptState.down
  dsimp only
  rw [h]
  simp only [getD_append_len, set_append_len, getD_append_add, set_append_add]
  rfl

/-- A line moves from the end of the copied lines of a triple to the start of
the copied lines of the next triple. -/
theorem shift_up_script (p : DContext) (c d i c2 d2 i2 : Int) (a1 b1 a3 b3 : Nat)
    (h : Script p [c, d, i, c2, d2, i2] a1 b1 a3 b3) (hc : 0 < c)
    (hs : same_dline (p.aFrom.getD (a1 + c.toNat - 1 + d.toNat) DLine.zero)
      (p.aTo.getD (b1 + c.toNat - 1 + i.toNat) DLine.zero) = true) :
    Script p [c - 1, d, i, c2 + 1, d2, i2] a1 b1 a3 b3 := by
  rw [Script_cons, Script_cons, Script_nil] at h ⊢
  obtain ⟨p1, p2, p3, r1, p4, p5, p6, r2, ea, eb⟩ := h
  have n1 : (c - 1).toNat = c.toNat - 1 := by omega
  have n2 : (c2 + 1).toNat = c2.toNat + 1 := by omega
  have n3 : 0 < c.toNat := by omega
  rw [n1, n2]
  generalize c.toNat = cn at *
  generalize d.toNat = dn at *
  generalize i.toNat = jn at *
  generalize c2.toNat = cn2 at *
  generalize d2.toNat = dn2 at *
  generalize i2.toNat = jn2 at *
  refine ⟨by omega, p2, p3, fun t ht => r1 t (by omega), by omega, p5, p6, ?_, by omega,
    by omega⟩
  intro t ht
  by_cases t0 : t = 0
  · have e1 : a1 + (cn - 1) + dn + t = a1 + cn - 1 + dn := by omega
    have e2 : b1 + (cn - 1) + jn + t = b1 + cn - 1 + jn := by omega
    rw [e1, e2]
    exact hs
  · have e1 : a1 + (cn - 1) + dn + t = a1 + cn + dn + (t - 1) := by omega
    have e2 : b1 + (cn - 1) + jn + t = b1 + cn + jn + (t - 1) := by omega
    rw [e1, e2]
    exact r2 _ (by omega)

/-- A line moves from the start of the copied lines of a triple to the end of
the copied lines of the triple before it. -/
theorem shift_down_script (p : DContext) (c d i c2 d2 i2 : Int) (a1 b1 a3 b3 : Nat)
    (h : Script p [c, d, i, c2, d2, i2] a1 b1 a3 b3) (hc : 0 < c2)
    (hs : same_dline (p.aFrom.getD (a1 + c.toNat) DLine.zero)
      (p.aTo.getD (b1 + c.toNat) DLine.zero) = true) :
    Script p [c + 1, d, i, c2 - 1, d2, i2] a1 b1 a3 b3 := by
  rw [Script_cons, Script_cons, Script_nil] at h ⊢
  obtain ⟨p1, p2, p3, r1, p4, p5, p6, r2, ea, eb⟩ := h
  have n1 : (c + 1).toNat = c.toNat + 1 := by omega
  have n2 : (c2 - 1).toNat = c2.toNat - 1 := by omega
  have n3 : 0 < c2.toNat := by omega
  rw [n1, n2]
  generalize c.toNat = cn at *
  generalize d.toNat = dn at *
  generalize i.toNat = jn at *
  generalize c2.toNat = cn2 at *
  generalize d2.toNat = dn2 at *
  generalize i2.toNat = jn2 at *
  refine ⟨by omega, p2, p3, ?_, by omega, p5, p6, ?_, by omega, by omega⟩
  · intro t ht
    by_cases t0 : t = cn
    · rw [t0]; exact hs
    · exact r1 t (by omega)
  · intro t ht
    have e1 : a1 + (cn + 1) + dn + t = a1 + cn + dn + (t + 1) := by omega
    have e2 : b1 + (cn + 1) + jn + t = b1 + cn + jn + (t + 1) := by omega
    rw [e1, e2]
    exact r2 _ (by omega)

theorem OptInv_up (p : DContext) (Pre : List Int) (d i d2 i2 : Int) (Tl : List Int)
    (a1 b1 a3 b3 : Nat) (s : OptState) (h : OptInv p Pre d i d2 i2 Tl a1 b1 a3 b3 s)
    (hc : 0 < s.cpy)
    (hs : same_dline (p.aFrom.getD (a1 + s.cpy.toNat - 1 + d.toNat) DLine.zero)
      (p.aTo.getD (b1 + s.cpy.toNat - 1 + i.toNat) DLine.zero) = true) :
    OptInv p Pre d i d2 i2 Tl a1 b1 a3 b3 (s.up Pre.length) := by
  obtain ⟨c, c2, e, k1, k2, k3, k4⟩ := h
  rw [k1] at hc hs
  refine ⟨c - 1, c2 + 1, up_aEdit s Pre Tl c d i c2 d2 i2 e, ?_, ?_, ?_,
    shift_up_script p c d i c2 d2 i2 a1 b1 a3 b3 k4 hc hs⟩
  · show s.cpy - 1 = c - 1
    rw [k1]
  · show s.lnFrom - 1 = (a1 : Int) + (c - 1)
    rw [k2]; ring
  · show s.lnTo - 1 = (b1 : Int) + (c - 1)
    rw [k3]; ring

theorem OptInv_down (p : DContext) (Pre : List Int) (d i d2 i2 : Int) (Tl : List Int)
    (a1 b1 a3 b3 : Nat) (s : OptState) (h : OptInv p Pre d i d2 i2 Tl a1 b1 a3 b3 s)
    (hc : 0 < s.aEdit.getD (Pre.length + 3) 0)
    (hs : same_dline (p.aFrom.getD (a1 + s.cpy.toNat) DLine.zero)
      (p.aTo.getD (b1 + s.cpy.toNat) DLine.zero) = true) :
    OptInv p Pre d i d2 i2 Tl a1 b1 a3 b3 (s.down Pre.length) := by
  obtain ⟨c, c2, e, k1, k2, k3, k4⟩ := h
  rw [e, getD_append_add] at hc
  rw [k1] at hs
  refine ⟨c + 1, c2 - 1, down_aEdit s Pre Tl c d i c2 d2 i2 e, ?_, ?_, ?_,
    shift_down_script p c d i c2 d2 i2 a1 b1 a3 b3 k4 hc hs⟩
  · show s.cpy + 1 = c + 1
    rw [k1]
  · show s.lnFrom + 1 = (a1 : Int) + (c + 1)
    rw [k2]; ring
  · show s.lnTo + 1 = (b1 : Int) + (c + 1)
    rw [k3]; ring

theorem not_false_true (b : Bool) (h : ¬ b = false) : b = true := by
  cases b
  · exact absurd rfl h
  · rfl

theorem shiftInsUp_inv (p : DContext) (Pre : List Int) (d i d2 i2 : Int) (Tl : List Int)
    (a1 b1 a3 b3 : Nat) :
    ∀ (fuel : Nat) (s : OptState), OptInv p Pre d i d2 i2 Tl a1 b1 a3 b3 s →
    OptInv p Pre d i d2 i2 Tl a1 b1 a3 b3 (shiftInsUp p Pre.length d i fuel s) := by
  intro fuel
  induction fuel with
  | zero => intro s h; exact h
  | succ fuel ih =>
    intro s h
    rw [shiftInsUp]
    split_ifs with c1 c2 c3
    · exact h
    · exact h
    · apply ih
      apply OptInv_up p Pre d i d2 i2 Tl a1 b1 a3 b3 s h c1.1
      obtain ⟨c, c2v, e, k1, k2, k3, k4⟩ := h
      have hs := not_false_true _ c2
      clear c2 c3
      unfold lineAt at hs
      have e1 : (s.lnFrom - 1).toNat = a1 + s.cpy.toNat - 1 + d.toNat := by omega
      have e2 : (s.lnTo + i - 1).toNat = b1 + s.cpy.toNat - 1 + i.toNat := by omega
      rw [e1, e2] at hs
      exact hs
    · exact h

theorem shiftInsDown_inv (p : DContext) (Pre : List Int) (d i d2 i2 : Int) (Tl : List Int)
    (a1 b1 a3 b3 : Nat) :
    ∀ (fuel : Nat) (s : OptState), OptInv p Pre d i d2 i2 Tl a1 b1 a3 b3 s →
    OptInv p Pre d i d2 i2 Tl a1 b1 a3 b3 (shiftInsDown p Pre.length d i fuel s) := by
  intro fuel
  induction fuel with
  | zero => intro s h; exact h
  | succ fuel ih =>
    intro s h
    rw [shiftInsDown]
    split_ifs with c1 c2 c3
    · exact h
    · exact h
    · apply ih
      apply OptInv_down p Pre d i d2 i2 Tl a1 b1 a3 b3 s h c1.2.1
      obtain ⟨c, c2v, e, k1, k2, k3, k4⟩ := h
      have hc2 : 0 < c2v := by
        have := c1.2.1
        rw [e, getD_append_add] at this
        exact this
      have hs := not_false_true _ c2
      clear c2 c3
      unfold lineAt at hs
      have hc0 : 0 ≤ c := by
        rw [Script_cons] at k4
        exact k4.1
      have e1 : (s.lnTo).toNat = b1 + s.cpy.toNat := by omega
      have e2 : (s.lnTo + i).toNat = b1 + c.toNat + i.toNat + 0 := by omega
      have e3 : a1 + c.toNat + d.toNat + 0 = a1 + s.cpy.toNat := by omega
      have hpos : 0 < c2v.toNat := by omega
      rw [e1, e2] at hs
      rw [Script_cons, Script_cons, Script_nil] at k4
      have h0 := k4.2.2.2.2.2.2.2.1 0 hpos
      rw [e3] at h0
      exact same_dline_trans _ _ _ h0 (same_dline_symm _ _ hs)
    · exact h

theorem shiftDelUp_inv (p : DContext) (Pre : List Int) (d i d2 i2 : Int) (Tl : List Int)
    (a1 b1 a3 b3 : Nat) :
    ∀ (fuel : Nat) (s : OptState), OptInv p Pre d i d2 i2 Tl a1 b1 a3 b3 s →
    OptInv p Pre d i d2 i2 Tl a1 b1 a3 b3 (shiftDelUp p Pre.length d i fuel s) := by
  intro fuel
  induction fuel with
  | zero => intro s h; exact h
  | succ fuel ih =>
    intro s h
    rw [shiftDelUp]
    split_ifs with c1 c2 c3
    · exact h
    · exact h
    · apply ih
      apply OptInv_up p Pre d i d2 i2 Tl a1 b1 a3 b3 s h c1.1
      obtain ⟨c, c2v, e, k1, k2, k3, k4⟩ := h
      have hs := not_false_true _ c2
      clear c2 c3
      unfold lineAt at hs
      have e1 : (s.lnFrom - 1).toNat = a1 + (c.toNat - 1) := by omega
      have e2 : (s.lnFrom + d - 1).toNat = a1 + s.cpy.toNat - 1 + d.toNat := by omega
      have e3 : b1 + (c.toNat - 1) = b1 + s.cpy.toNat - 1 + i.toNat := by omega
      have hpos : c.toNat - 1 < c.toNat := by omega
      rw [e1, e2] at hs
      rw [Script_cons, Script_cons, Script_nil] at k4
      have h0 := k4.2.2.2.1 (c.toNat - 1) hpos
      rw [e3] at h0
      exact same_dline_trans _ _ _ (same_dline_symm _ _ hs) h0
    · exact h

theorem shiftDelDown_inv (p : DContext) (Pre : List Int) (d i d2 i2 : Int) (Tl : List Int)
    (a1 b1 a3 b3 : Nat) :
    ∀ (fuel : Nat) (s : OptState), OptInv p Pre d i d2 i2 Tl a1 b1 a3 b3 s →
    OptInv p Pre d i d2 i2 Tl a1 b1 a3 b3 (shiftDelDown p Pre.length d i fuel s) := by
  intro fuel
  induction fuel with
  | zero => intro s h; exact h
  | succ fuel ih =>
    intro s h
    rw [shiftDelDown]
    split_ifs with c1 c2 c3
    · exact h
    · exact h
    · apply ih
      apply OptInv_down p Pre d i d2 i2 Tl a1 b1 a3 b3 s h c1.2.1
      obtain ⟨c, c2v, e, k1, k2, k3, k4⟩ := h
      have hc2 : 0 < c2v := by
        have := c1.2.1
        rw [e, getD_append_add] at this
        exact this
      have hs := not_false_true _ c2
      clear c2 c3
      unfold lineAt at hs
      have hc0 : 0 ≤ c := by
        rw [Script_cons] at k4
        exact k4.1
      have e1 : (s.lnFrom).toNat = a1 + s.cpy.toNat := by omega
      have e2 : (s.lnFrom + d).toNat = a1 + c.toNat + d.toNat + 0 := by omega
      have e3 : b1 + c.toNat + i.toNat + 0 = b1 + s.cpy.toNat := by omega
      have hpos : 0 < c2v.toNat := by omega
      rw [e1, e2] at hs
      rw [Script_cons, Script_cons, Script_nil] at k4
      have h0 := k4.2.2.2.2.2.2.2.1 0 hpos
      rw [e3] at h0
      exact same_dline_trans _ _ _ hs h0
    · exact h

/-! ## The inner loops of `diff_optimize` end before the fuel does -/

theorem down_getD (s : OptState) (r : Nat) (h : r + 3 < s.aEdit.length) :
    (s.down r).aEdit.getD (r + 3) 0 = s.aEdit.getD (r + 3) 0 - 1 := by
  unfold OptState.down
  dsimp only
  rw [getD_set, if_pos ⟨rfl, by rw [List.length_set]; exact h⟩, getD_set,
    if_neg (fun hh => by omega)]

theorem down_length (s : OptState) (r : Nat) : (s.down r).aEdit.length = s.aEdit.length := by
  unfold OptState.down
  dsimp only
  rw [List.length_set, List.length_set]

theorem up_length (s : OptState) (r : Nat) : (s.up r).aEdit.length = s.aEdit.length := by
  unfold OptState.up
  dsimp only
  rw [List.length_set, List.length_set]

theorem shiftInsUp_step (p : DContext) (r : Nat) (del ins : Int) :
    ∀ (fuel : Nat) (s : OptState), s.cpy.toNat ≤ fuel →
    shiftInsUp p r del ins (fuel + 1) s = shiftInsUp p r del ins fuel s := by
  intro fuel
  induction fuel with
  | zero =>
    intro s h
    conv_lhs => rw [shiftInsUp]
    rw [if_neg (fun hh => by omega)]
    rfl
  | succ fuel ih =>
    intro s h
    conv_lhs => rw [shiftInsUp]
    conv_rhs => rw [shiftInsUp]
    split_ifs with c1 c2 c3
    · rfl
    · rfl
    · apply ih
      show (s.cpy - 1).toNat ≤ fuel
      omega
    · rfl

theorem shiftInsUp_fuel (p : DContext) (r : Nat) (del ins : Int) (s : OptState) :
    ∀ (k : Nat), shiftInsUp p r del ins (s.cpy.toNat + k) s
      = shiftInsUp p r del ins s.cpy.toNat s := by
  intro k
  induction k with
  | zero => rfl
  | succ k ih =>
    rw [← Nat.add_assoc, shiftInsUp_step p r del ins _ s (by omega), ih]

theorem shiftDelUp_step (p : DContext) (r : Nat) (del ins : Int) :
    ∀ (fuel : Nat) (s : OptState), s.cpy.toNat ≤ fuel →
    shiftDelUp p r del ins (fuel + 1) s = shiftDelUp p r del ins fuel s := by
  intro fuel
  induction fuel with
  | zero =>
    intro s h
    conv_lhs => rw [shiftDelUp]
    rw [if_neg (fun hh => by omega)]
    rfl
  | succ fuel ih =>
    intro s h
    conv_lhs => rw [shiftDelUp]
    conv_rhs => rw [shiftDelUp]
    split_ifs with c1 c2 c3
    · rfl
    · rfl
    · apply ih
      show (s.cpy - 1).toNat ≤ fuel
      omega
    · rfl

theorem shiftDelUp_fuel (p : DContext) (r : Nat) (del ins : Int) (s : OptState) :
    ∀ (k : Nat), shiftDelUp p r del ins (s.cpy.toNat + k) s
      = shiftDelUp p r del ins s.cpy.toNat s := by
  intro k
  induction k with
  | zero => rfl
  | succ k ih =>
    rw [← Nat.add_assoc, shiftDelUp_step p r del ins _ s (by omega), ih]

theorem shiftInsDown_step (p : DContext) (r : Nat) (del ins : Int) :
    ∀ (fuel : Nat) (s : OptState), (s.aEdit.getD (r + 3) 0).toNat ≤ fuel →
    shiftInsDown p r del ins (fuel + 1) s = shiftInsDown p r del ins fuel s := by
  intro fuel
  induction fuel with
  | zero =>
    intro s h
    conv_lhs => rw [shiftInsDown]
    rw [if_neg (fun hh => by omega)]
    rfl
  | succ fuel ih =>
    intro s h
    conv_lhs => rw [shiftInsDown]
    conv_rhs => rw [shiftInsDown]
    split_ifs with c1 c2 c3
    · rfl
    · rfl
    · apply ih
      rw [down_getD s r c1.1]
      omega
    · rfl

theorem shiftInsDown_fuel (p : DContext) (r : Nat) (del ins : Int) (s : OptState) :
    ∀ (k : Nat), shiftInsDown p r del ins ((s.aEdit.getD (r + 3) 0).toNat + k) s
      = shiftInsDown p r del ins (s.aEdit.getD (r + 3) 0).toNat s := by
  intro k
  induction k with
  | zero => rfl
  | succ k ih =>
    rw [← Nat.add_assoc, shiftInsDown_step p r del ins _ s (by omega), ih]

theorem shiftDelDown_step (p : DContext) (r : Nat) (del ins : Int) :
    ∀ (fuel : Nat) (s : OptState), (s.aEdit.getD (r + 3) 0).toNat ≤ fuel →
    shiftDelDown p r del ins (fuel + 1) s = shiftDelDown p r del ins fuel s := by
  intro fuel
  induction fuel with
  | zero =>
    intro s h
    conv_lhs => rw [shiftDelDown]
    rw [if_neg (fun hh => by omega)]
    rfl
  | succ fuel ih =>
    intro s h
    conv_lhs => rw [shiftDelDown]
    conv_rhs => rw [shiftDelDown]
    split_ifs with c1 c2 c3
    · rfl
    · rfl
    · apply ih
      rw [down_getD s r c1.1]
      omega
    · rfl

theorem shiftDelDown_fuel (p : DContext) (r : Nat) (del ins : Int) (s : OptState) :
    ∀ (k : Nat), shiftDelDown p r del ins ((s.aEdit.getD (r + 3) 0).toNat + k) s
      = shiftDelDown p r del ins (s.aEdit.getD (r + 3) 0).toNat s := by
  intro k
  induction k with
  | zero => rfl
  | succ k ih =>
    rw [← Nat.add_assoc, shiftDelDown_step p r del ins _ s (by omega), ih]

/-- The rounds of fuel that the inner loops get beyond the counts that they
decrement change nothing. -/
theorem optRound_fuel (p : DContext) (k r : Nat) (aEdit : List Int) (lnFrom lnTo : Int) :
    optRound p k r aEdit lnFrom lnTo = optRound p 0 r aEdit lnFrom lnTo := by
  have e1 : ∀ del ins s, loopInsUp p k r del ins s = loopInsUp p 0 r del ins s :=
    fun del ins s => shiftInsUp_fuel p r del ins s k
  have e2 : ∀ del ins s, loopInsDown p k r del ins s = loopInsDown p 0 r del ins s :=
    fun del ins s => shiftInsDown_fuel p r del ins s k
  have e3 : ∀ del ins s, loopDelUp p k r del ins s = loopDelUp p 0 r del ins s :=
    fun del ins s => shiftDelUp_fuel p r del ins s k
  have e4 : ∀ del ins s, loopDelDown p k r del ins s = loopDelDown p 0 r del ins s :=
    fun del ins s => shiftDelDown_fuel p r del ins s k
  unfold optRound
  rw [e1, e2, e3, e4]

theorem optimizeLoop_succ (p : DContext) (k fuel r : Nat) (aEdit : List Int)
    (lnFrom lnTo : Int) :
    optimizeLoop p k (fuel + 1) r aEdit lnFrom lnTo =
      if r < aEdit.length then
        optimizeLoop p k fuel (r + 3) (optRound p k r aEdit lnFrom lnTo).aEdit
          ((optRound p k r aEdit lnFrom lnTo).lnFrom + aEdit.getD (r + 1) 0)
          ((optRound p k r aEdit lnFrom lnTo).lnTo + aEdit.getD (r + 2) 0)
      else aEdit := by
  rw [optimizeLoop]
  rfl

/-! ## The loops that change nothing -/

theorem shiftInsUp_zero (p : DContext) (r : Nat) (del ins : Int) (s : OptState)
    (h : s.cpy ≤ 0) : ∀ fuel, shiftInsUp p r del ins fuel s = s := by
  intro fuel
  cases fuel with
  | zero => rfl
  | succ fuel => rw [shiftInsUp, if_neg (fun hh => by omega)]

theorem shiftDelUp_zero (p : DContext) (r : Nat) (del ins : Int) (s : OptState)
    (h : s.cpy ≤ 0) : ∀ fuel, shiftDelUp p r del ins fuel s = s := by
  intro fuel
  cases fuel with
  | zero => rfl
  | succ fuel => rw [shiftDelUp, if_neg (fun hh => by omega)]

theorem shiftInsDown_zero (p : DContext) (r : Nat) (del ins : Int) (s : OptState)
    (h : s.aEdit.getD (r + 3) 0 ≤ 0) : ∀ fuel, shiftInsDown p r del ins fuel s = s := by
  intro fuel
  cases fuel with
  | zero => rfl
  | succ fuel => rw [shiftInsDown, if_neg (fun hh => by omega)]

theorem shiftDelDown_zero (p : DContext) (r : Nat) (del ins : Int) (s : OptState)
    (h : s.aEdit.getD (r + 3) 0 ≤ 0) : ∀ fuel, shiftDelDown p r del ins fuel s = s := by
  intro fuel
  cases fuel with
  | zero => rfl
  | succ fuel => rw [shiftDelDown, if_neg (fun hh => by omega)]

/-- In front of the last triple of a script that ends where the files end, the
first loop changes nothing: the triple inserts nothing, or the last lines of the
two files differ. -/
theorem shiftInsUp_last (p : DContext) (r : Nat) (c d i : Int) (a1 b1 : Nat)
    (hS : Script p [c, d, i] a1 b1 p.nFrom p.nTo)
    (hT : (d = 0 ∧ i = 0) ∨ NoCommonTail p) (s : OptState) (h1 : s.cpy = c)
    (h2 : s.lnFrom = (a1 : Int) + c) (h3 : s.lnTo = (b1 : Int) + c) :
    ∀ fuel, shiftInsUp p r d i fuel s = s := by
  intro fuel
  cases fuel with
  | zero => rfl
  | succ fuel =>
    rw [shiftInsUp]
    split_ifs with c1 c2 c3
    · rfl
    · rfl
    · exfalso
      rw [Script_cons, Script_nil] at hS
      obtain ⟨p1, p2, p3, r1, ea, eb⟩ := hS
      have hs := not_false_true _ c2
      clear c2 c3
      unfold lineAt at hs
      have hcn := Int.toNat_of_nonneg p1
      have hdn := Int.toNat_of_nonneg p2
      have hjn := Int.toNat_of_nonneg p3
      generalize c.toNat = cn at *
      generalize d.toNat = dn at *
      generalize i.toNat = jn at *
      rcases hT with hT | hT
      · omega
      · apply hT
        have e1 : (s.lnFrom - 1).toNat = p.nFrom - 1 := by omega
        have e2 : (s.lnTo + i - 1).toNat = p.nTo - 1 := by omega
        rw [e1, e2] at hs
        exact ⟨by omega, by omega, hs⟩
    · rfl

/-- In front of the last triple of a script that ends where the files end, the
third loop changes nothing: the triple deletes nothing, or the last lines of the
two files differ. -/
theorem shiftDelUp_last (p : DContext) (r : Nat) (c d i : Int) (a1 b1 : Nat)
    (hS : Script p [c, d, i] a1 b1 p.nFrom p.nTo)
    (hT : (d = 0 ∧ i = 0) ∨ NoCommonTail p) (s : OptState) (h1 : s.cpy = c)
    (h2 : s.lnFrom = (a1 : Int) + c) (h3 : s.lnTo = (b1 : Int) + c) :
    ∀ fuel, shiftDelUp p r d i fuel s = s := by
  intro fuel
  cases fuel with
  | zero => rfl
  | succ fuel =>
    rw [shiftDelUp]
    split_ifs with c1 c2 c3
    · rfl
    · rfl
    · exfalso
      rw [Script_cons, Script_nil] at hS
      obtain ⟨p1, p2, p3, r1, ea, eb⟩ := hS
      have hs := not_false_true _ c2
      clear c2 c3
      unfold lineAt at hs
      have hcn := Int.toNat_of_nonneg p1
      have hdn := Int.toNat_of_nonneg p2
      have hjn := Int.toNat_of_nonneg p3
      generalize c.toNat = cn at *
      generalize d.toNat = dn at *
      generalize i.toNat = jn at *
      rcases hT with hT | hT
      · omega
      · apply hT
        have e1 : (s.lnFrom - 1).toNat = a1 + (cn - 1) := by omega
        have e2 : (s.lnFrom + d - 1).toNat = p.nFrom - 1 := by omega
        have e3 : b1 + (cn - 1) = p.nTo - 1 := by omega
        rw [e1, e2] at hs
        have h0 := r1 (cn - 1) (by omega)
        rw [e3] at h0
        exact ⟨by omega, by omega, same_dline_trans _ _ _ (same_dline_symm _ _ hs) h0⟩
    · rfl

/-! ## `diff_optimize` keeps a script a script -/

theorem LastPlain_single (c d i : Int) : LastPlain [c, d, i] ↔ (d = 0 ∧ i = 0) := by
  rw [LastPlain, if_pos rfl]

theorem LastPlain_next (c d i c2 d2 i2 : Int) (R : List Int) :
    LastPlain (c :: d :: i :: c2 :: d2 :: i2 :: R) ↔ LastPlain (c2 :: d2 :: i2 :: R) := by
  rw [LastPlain, if_neg (by simp)]

theorem LastPlain_head (c c2 d i : Int) (R : List Int) :
    LastPlain (c :: d :: i :: R) ↔ LastPlain (c2 :: d :: i :: R) := by
  rw [LastPlain, LastPlain]

/-- In front of two triples of a script, the four inner loops of `diff_optimize`
change the copy counts of the two triples at most, and the two triples stay a
script between the same positions. -/
theorem optRound_two (p : DContext) (Pre Tl : List Int) (c d i c2 d2 i2 : Int)
    (a1 b1 a3 b3 : Nat) (hS : Script p [c, d, i, c2, d2, i2] a1 b1 a3 b3) :
    OptInv p Pre d i d2 i2 Tl a1 b1 a3 b3
      (optRound p 0 Pre.length (Pre ++ (c :: d :: i :: c2 :: d2 :: i2 :: Tl)) a1 b1) := by
  have e0 : (Pre ++ (c :: d :: i :: c2 :: d2 :: i2 :: Tl)).getD Pre.length 0 = c := by
    rw [getD_append_len]; rfl
  have e1 : (Pre ++ (c :: d :: i :: c2 :: d2 :: i2 :: Tl)).getD (Pre.length + 1) 0 = d := by
    rw [getD_append_add]; rfl
  have e2 : (Pre ++ (c :: d :: i :: c2 :: d2 :: i2 :: Tl)).getD (Pre.length + 2) 0 = i := by
    rw [getD_append_add]; rfl
  unfold optRound loopDelDown loopDelUp loopInsDown loopInsUp
  rw [e0, e1, e2]
  exact shiftDelDown_inv p Pre d i d2 i2 Tl a1 b1 a3 b3 _ _
    (shiftDelUp_inv p Pre d i d2 i2 Tl a1 b1 a3 b3 _ _
      (shiftInsDown_inv p Pre d i d2 i2 Tl a1 b1 a3 b3 _ _
        (shiftInsUp_inv p Pre d i d2 i2 Tl a1 b1 a3 b3 _ _ ⟨c, c2, rfl, rfl, rfl, rfl, hS⟩)))

/-- In front of the last triple of a script that ends where the files end, and
that deletes and inserts nothing unless the last lines of the files differ, the
four inner loops of `diff_optimize` change nothing. -/
theorem optRound_last (p : DContext) (Pre : List Int) (c d i : Int) (a1 b1 : Nat)
    (hS : Script p [c, d, i] a1 b1 p.nFrom p.nTo) (hT : (d = 0 ∧ i = 0) ∨ NoCommonTail p) :
    optRound p 0 Pre.length (Pre ++ [c, d, i, 0, 0, 0]) a1 b1 =
      OptState.mk (Pre ++ [c, d, i, 0, 0, 0]) ((a1 : Int) + c) ((b1 : Int) + c) c := by
  have e0 : (Pre ++ [c, d, i, 0, 0, 0]).getD Pre.length 0 = c := by
    rw [getD_append_len]; rfl
  have e1 : (Pre ++ [c, d, i, 0, 0, 0]).getD (Pre.length + 1) 0 = d := by
    rw [getD_append_add]; rfl
  have e2 : (Pre ++ [c, d, i, 0, 0, 0]).getD (Pre.length + 2) 0 = i := by
    rw [getD_append_add]; rfl
  have e3 : (Pre ++ [c, d, i, 0, 0, 0]).getD (Pre.length + 3) 0 ≤ 0 := by
    rw [getD_append_add]; exact le_refl _
  unfold optRound
  rw [e0, e1, e2]
  have key : ∀ s0 : OptState, s0.cpy = c → s0.lnFrom = (a1 : Int) + c →
      s0.lnTo = (b1 : Int) + c → s0.aEdit.getD (Pre.length + 3) 0 ≤ 0 →
      loopDelDown p 0 Pre.length d i (loopDelUp p 0 Pre.length d i
        (loopInsDown p 0 Pre.length d i (loopInsUp p 0 Pre.length d i s0))) = s0 := by
    intro s0 h1 h2 h3 h4
    have l1 : loopInsUp p 0 Pre.length d i s0 = s0 :=
      shiftInsUp_last p Pre.length c d i a1 b1 hS hT s0 h1 h2 h3 _
    have l2 : loopInsDown p 0 Pre.length d i s0 = s0 :=
      shiftInsDown_zero p Pre.length d i s0 h4 _
    have l3 : loopDelUp p 0 Pre.length d i s0 = s0 :=
      shiftDelUp_last p Pre.length c d i a1 b1 hS hT s0 h1 h2 h3 _
    have l4 : loopDelDown p 0 Pre.length d i s0 = s0 :=
      shiftDelDown_zero p Pre.length d i s0 h4 _
    rw [l1, l2, l3, l4]
  exact key _ rfl rfl rfl e3

/-- In front of the three zeros the four inner loops of `diff_optimize` change
nothing. -/
theorem optRound_sentinel (p : DContext) (Pre : List Int) (x y : Int) :
    optRound p 0 Pre.length (Pre ++ [0, 0, 0]) x y =
      OptState.mk (Pre ++ [0, 0, 0]) (x + 0) (y + 0) 0 := by
  have e0 : (Pre ++ [0, 0, 0]).getD Pre.length 0 = 0 := by
    rw [getD_append_len]; rfl
  have e3 : (Pre ++ [0, 0, 0]).getD (Pre.length + 3) 0 ≤ 0 := by
    rw [getD_append_add]; exact le_refl _
  unfold optRound
  rw [e0]
  generalize (Pre ++ [0, 0, 0]).getD (Pre.length + 1) 0 = d
  generalize (Pre ++ [0, 0, 0]).getD (Pre.length + 2) 0 = i
  have key : ∀ s0 : OptState, s0.cpy ≤ 0 → s0.aEdit.getD (Pre.length + 3) 0 ≤ 0 →
      loopDelDown p 0 Pre.length d i (loopDelUp p 0 Pre.length d i
        (loopInsDown p 0 Pre.length d i (loopInsUp p 0 Pre.length d i s0))) = s0 := by
    intro s0 h1 h4
    have l1 : loopInsUp p 0 Pre.length d i s0 = s0 := shiftInsUp_zero p Pre.length d i s0 h1 _
    have l2 : loopInsDown p 0 Pre.length d i s0 = s0 :=
      shiftInsDown_zero p Pre.length d i s0 h4 _
    have l3 : loopDelUp p 0 Pre.length d i s0 = s0 := shiftDelUp_zero p Pre.length d i s0 h1 _
    have l4 : loopDelDown p 0 Pre.length d i s0 = s0 :=
      shiftDelDown_zero p Pre.length d i s0 h4 _
    rw [l1, l2, l3, l4]
  exact key _ (le_refl _) e3

/-- The loop of `diff_optimize` from the triple behind the script `Pre` on: when
the rest `Rest` of the script leads to the ends of the files, with three zeros
behind it, the loop ends with a script of the same length that leads from the
starts of the files to their ends, with three zeros behind it, whatever the
fuel beyond one round for each triple. -/
theorem optimizeLoop_script (p : DContext) :
    ∀ (n : Nat) (Rest Pre : List Int) (a1 b1 : Nat), Rest.length = 3 * n →
    Script p Pre 0 0 a1 b1 → Script p Rest a1 b1 p.nFrom p.nTo →
    (LastPlain Rest ∨ NoCommonTail p) →
    ∃ R2, R2.length = Pre.length + Rest.length ∧ Script p R2 0 0 p.nFrom p.nTo ∧
      ∀ k fuel, n < fuel →
        optimizeLoop p k fuel Pre.length (Pre ++ (Rest ++ [0, 0, 0])) a1 b1 = R2 ++ [0, 0, 0] := by
  intro n
  induction n with
  | zero =>
    intro Rest Pre a1 b1 hl hP hR _
    have hn : Rest = [] := List.length_eq_zero.mp (by omega)
    subst hn
    rw [Script_nil] at hR
    refine ⟨Pre, by simp, by rw [← hR.1, ← hR.2]; exact hP, ?_⟩
    intro k fuel hf
    obtain ⟨f, rfl⟩ : ∃ f, fuel = f + 1 := ⟨fuel - 1, by omega⟩
    rw [optimizeLoop_succ, if_pos (by simp), optRound_fuel, List.nil_append,
      optRound_sentinel]
    dsimp only
    cases f with
    | zero => rfl
    | succ f => rw [optimizeLoop_succ, if_neg (by simp)]
  | succ n ih =>
    intro Rest Pre a1 b1 hl hP hR hT
    match Rest, hl, hR, hT with
    | [], hl, _, _ => simp at hl
    | [_], hl, _, _ => simp at hl; omega
    | [_, _], hl, _, _ => simp at hl; omega
    | [c, d, i], hl, hR, hT =>
      have hn : n = 0 := by simp at hl; omega
      subst hn
      have hR2 := hR
      rw [Script_cons, Script_nil] at hR2
      obtain ⟨p1, p2, p3, r1, ea, eb⟩ := hR2
      have hT2 : (d = 0 ∧ i = 0) ∨ NoCommonTail p := by
        rcases hT with h | h
        · exact Or.inl ((LastPlain_single c d i).1 h)
        · exact Or.inr h
      have hP2 : Script p (Pre ++ [c, d, i]) 0 0 p.nFrom p.nTo :=
        Script_append p Pre [c, d, i] 0 0 a1 b1 _ _ hP hR
      obtain ⟨R2, q1, q2, q3⟩ := ih [] (Pre ++ [c, d, i]) p.nFrom p.nTo rfl hP2
        (by rw [Script_nil]; exact ⟨rfl, rfl⟩) (Or.inl trivial)
      refine ⟨R2, by rw [q1]; simp, q2, ?_⟩
      intro k fuel hf
      obtain ⟨f, rfl⟩ : ∃ f, fuel = f + 1 := ⟨fuel - 1, by omega⟩
      have e1 : (Pre ++ ([c, d, i] ++ [0, 0, 0])).getD (Pre.length + 1) 0 = d := by
        rw [getD_append_add]; rfl
      have e2 : (Pre ++ ([c, d, i] ++ [0, 0, 0])).getD (Pre.length + 2) 0 = i := by
        rw [getD_append_add]; rfl
      rw [optimizeLoop_succ, if_pos (by simp), optRound_fuel, e1, e2]
      have e3 : [c, d, i] ++ [(0 : Int), 0, 0] = [c, d, i, 0, 0, 0] := rfl
      rw [e3, optRound_last p Pre c d i a1 b1 hR hT2]
      dsimp only
      have e4 : (a1 : Int) + c + d = (p.nFrom : Int) := by omega
      have e5 : (b1 : Int) + c + i = (p.nTo : Int) := by omega
      have e6 : Pre.length + 3 = (Pre ++ [c, d, i]).length := by simp
      have e7 : Pre ++ [c, d, i, 0, 0, 0] = (Pre ++ [c, d, i]) ++ ([] ++ [0, 0, 0]) := by simp
      rw [e4, e5, e6, e7]
      exact q3 k f (by omega)
    | c :: d :: i :: [_], hl, hR, _ =>
      rw [Script_cons] at hR
      exact absurd hR.2.2.2.2 (Script_one p _ _ _ _ _)
    | c :: d :: i :: [_, _], hl, hR, _ =>
      rw [Script_cons] at hR
      exact absurd hR.2.2.2.2 (Script_two p _ _ _ _ _ _)
    | c :: d :: i :: c2 :: d2 :: i2 :: Rest2, hl, hR, hT =>
      have hR2 := hR
      rw [Script_cons, Script_cons] at hR2
      obtain ⟨p1, p2, p3, r1, p4, p5, p6, r2, hRest⟩ := hR2
      have hS : Script p [c, d, i, c2, d2, i2] a1 b1
          (a1 + c.toNat + d.toNat + c2.toNat + d2.toNat)
          (b1 + c.toNat + i.toNat + c2.toNat + i2.toNat) := by
        rw [Script_cons, Script_cons, Script_nil]
        exact ⟨p1, p2, p3, r1, p4, p5, p6, r2, rfl, rfl⟩
      have hI := optRound_two p Pre (Rest2 ++ [0, 0, 0]) c d i c2 d2 i2 a1 b1 _ _ hS
      obtain ⟨cn, cn2, g1, g2, g3, g4, g5⟩ := hI
      have g6 := g5
      rw [Script_cons] at g6
      obtain ⟨t1, t2, t3, t4, t5⟩ := g6
      have hP2 : Script p (Pre ++ [cn, d, i]) 0 0 (a1 + cn.toNat + d.toNat)
          (b1 + cn.toNat + i.toNat) :=
        Script_append p Pre [cn, d, i] 0 0 a1 b1 _ _ hP (Script_triple p cn d i a1 b1 t1 t2 t3 t4)
      have hR3 : Script p (cn2 :: d2 :: i2 :: Rest2) (a1 + cn.toNat + d.toNat)
          (b1 + cn.toNat + i.toNat) p.nFrom p.nTo :=
        Script_append p [cn2, d2, i2] Rest2 _ _ _ _ _ _ t5 hRest
      have hT3 : LastPlain (cn2 :: d2 :: i2 :: Rest2) ∨ NoCommonTail p := by
        rcases hT with h | h
        · left
          rw [LastPlain_next] at h
          exact (LastPlain_head c2 cn2 d2 i2 Rest2).1 h
        · exact Or.inr h
      obtain ⟨R2, q1, q2, q3⟩ := ih (cn2 :: d2 :: i2 :: Rest2) (Pre ++ [cn, d, i]) _ _
        (by simp at hl ⊢; omega) hP2 hR3 hT3
      refine ⟨R2, by rw [q1]; simp; omega, q2, ?_⟩
      intro k fuel hf
      obtain ⟨f, rfl⟩ : ∃ f, fuel = f + 1 := ⟨fuel - 1, by omega⟩
      have e0 : (c :: d :: i :: c2 :: d2 :: i2 :: Rest2) ++ [(0 : Int), 0, 0]
          = c :: d :: i :: c2 :: d2 :: i2 :: (Rest2 ++ [0, 0, 0]) := rfl
      have e1 : (Pre ++ (c :: d :: i :: c2 :: d2 :: i2 :: (Rest2 ++ [0, 0, 0]))).getD
          (Pre.length + 1) 0 = d := by
        rw [getD_append_add]; rfl
      have e2 : (Pre ++ (c :: d :: i :: c2 :: d2 :: i2 :: (Rest2 ++ [0, 0, 0]))).getD
          (Pre.length + 2) 0 = i := by
        rw [getD_append_add]; rfl
      rw [e0, optimizeLoop_succ, if_pos (by simp), optRound_fuel, e1, e2, g1, g3, g4]
      have e4 : (a1 : Int) + cn + d = ((a1 + cn.toNat + d.toNat : Nat) : Int) := by omega
      have e5 : (b1 : Int) + cn + i = ((b1 + cn.toNat + i.toNat : Nat) : Int) := by omega
      have e6 : Pre.length + 3 = (Pre ++ [cn, d, i]).length := by simp
      have e7 : Pre ++ (cn :: d :: i :: cn2 :: d2 :: i2 :: (Rest2 ++ [0, 0, 0]))
          = (Pre ++ [cn, d, i]) ++ ((cn2 :: d2 :: i2 :: Rest2) ++ [0, 0, 0]) := by simp
      rw [e4, e5, e6, e7]
      exact q3 k f (by omega)

/-! ## The script that `diff_optimize` leaves -/

theorem Script_sentinel (p : DContext) (R : List Int) (a b a2 b2 : Nat)
    (h : Script p R a b a2 b2) : Script p (R ++ [0, 0, 0]) a b a2 b2 := by
  apply Script_append p R [0, 0, 0] a b a2 b2 a2 b2 h
  rw [Script_cons, Script_nil]
  exact ⟨le_refl _, le_refl _, le_refl _, CommonRun_zero p _ _, by simp, by simp⟩

/-- For a script `R` with three zeros behind it that leads from the starts of
the files to their ends, and whose last triple deletes and inserts nothing
unless the last lines of the files differ, `diff_optimize` leaves a script of
the same length with three zeros behind it that leads from the starts of the
files to their ends; more fuel for its loops changes nothing. -/
theorem diff_optimize_script (q : DContext) (R : List Int) (hq : q.aEdit = R ++ [0, 0, 0])
    (hS : Script q R 0 0 q.nFrom q.nTo) (hT : LastPlain R ∨ NoCommonTail q) :
    ∃ R2, R2.length = R.length ∧ Script q R2 0 0 q.nFrom q.nTo ∧
      (diff_optimize q).aEdit = R2 ++ [0, 0, 0] ∧
      ∀ k fuel, q.aEdit.length ≤ fuel → optimizeLoop q k fuel 0 q.aEdit 0 0 = R2 ++ [0, 0, 0] := by
  have hl := Script_length q R _ _ _ _ hS
  obtain ⟨R2, q1, q2, q3⟩ := optimizeLoop_script q (R.length / 3) R [] 0 0 (by omega)
    (by rw [Script_nil]; exact ⟨rfl, rfl⟩) hS hT
  have hlen : q.aEdit.length = R.length + 3 := by rw [hq]; simp
  have key : ∀ k fuel, q.aEdit.length ≤ fuel →
      optimizeLoop q k fuel 0 q.aEdit 0 0 = R2 ++ [0, 0, 0] := by
    intro k fuel hf
    rw [hq]
    exact q3 k fuel (by omega)
  refine ⟨R2, by rw [q1]; simp, q2, ?_, key⟩
  unfold diff_optimize
  exact key 0 _ (le_refl _)

/-- C29. For line arrays with an empty script and more fuel than the left file
has lines, `diff_all` returns a script `R` with three zeros behind it, and
`diff_optimize` turns it into a script `R2` with three zeros behind it that has
as many triples, the same sum of copy plus delete and the same sum of copy plus
insert and no negative count, and in which the lines that a copy count covers
are the same, pair by pair: a replay still writes the lines of the right file.
The loops of `diff_optimize` end by themselves: with more fuel the same script
comes out. -/
theorem diff_optimize_preserves (E : Env) (p : DContext) (h0 : p.aEdit = []) (fuel : Nat)
    (hf : p.nFrom < fuel) :
    ∃ q R R2, diff_all E fuel p = some q ∧ q.aEdit = R ++ [0, 0, 0] ∧
      (diff_optimize q).aEdit = R2 ++ [0, 0, 0] ∧ R2.length = R.length ∧
      sumCopyDelete R2 = sumCopyDelete R ∧ sumCopyInsert R2 = sumCopyInsert R ∧
      (∀ x, x ∈ R2 → 0 ≤ x) ∧ Script p R2 0 0 p.nFrom p.nTo ∧
      (replay p.aFrom p.aTo (diff_optimize q).aEdit 0 0).length = p.nTo ∧
      (∀ t, t < p.nTo →
        same_dline ((replay p.aFrom p.aTo (diff_optimize q).aEdit 0 0).getD t DLine.zero)
          (p.aTo.getD t DLine.zero) = true) ∧
      (∀ k fuel2, q.aEdit.length ≤ fuel2 →
        optimizeLoop q k fuel2 0 q.aEdit 0 0 = (diff_optimize q).aEdit) := by
  obtain ⟨q, R, e1, e2, e3, e4, e5, e6, e7, e8⟩ := diff_all_script E p h0 fuel hf
  have hSq : Script q R 0 0 q.nFrom q.nTo := by
    rw [e4, e5]
    exact Script_congr q p e2.symm e3.symm R _ _ _ _ e7
  have hTq : LastPlain R ∨ NoCommonTail q := by
    rcases e8 with h | h
    · exact Or.inl h
    · right
      unfold NoCommonTail at h ⊢
      rw [e2, e3, e4, e5]
      exact h
  obtain ⟨R2, g1, g2, g3, g4⟩ := diff_optimize_script q R e6 hSq hTq
  have hS2 : Script p R2 0 0 p.nFrom p.nTo := by
    rw [← e4, ← e5]
    exact Script_congr p q e2 e3 R2 _ _ _ _ g2
  have s1 := Script_sums p R _ _ _ _ e7
  have s2 := Script_sums p R2 _ _ _ _ hS2
  obtain ⟨r1, r2⟩ := replay_script p _ _ _ _ _ (Script_sentinel p R2 _ _ _ _ hS2)
  refine ⟨q, R, R2, e1, e6, g3, g1, by omega, by omega, Script_nonneg p R2 _ _ _ _ hS2, hS2,
    ?_, ?_, ?_⟩
  · rw [g3, r1]; omega
  · intro t ht
    have := r2 t (by omega)
    rw [Nat.zero_add] at this
    rw [g3]
    exact this
  · intro k fuel2 hf2
    rw [g3]
    exact g4 k fuel2 hf2

/-- The scripts for the lines of `a\nb\nc\n` and `a\nx\nc\n`. -/
theorem diff_optimize_preserves_witness :
    (abcInput.aEdit = [] ∧ abcInput.nFrom < 4) ∧
    ∃ q R R2, diff_all stdEnv 4 abcInput = some q ∧ q.aEdit = R ++ [0, 0, 0] ∧
      (diff_optimize q).aEdit = R2 ++ [0, 0, 0] ∧ R2.length = R.length ∧
      sumCopyDelete R2 = sumCopyDelete R ∧ sumCopyInsert R2 = sumCopyInsert R ∧
      (∀ x, x ∈ R2 → 0 ≤ x) ∧ Script abcInput R2 0 0 abcInput.nFrom abcInput.nTo ∧
      (replay abcInput.aFrom abcInput.aTo (diff_optimize q).aEdit 0 0).length = abcInput.nTo ∧
      (∀ t, t < abcInput.nTo →
        same_dline ((replay abcInput.aFrom abcInput.aTo (diff_optimize q).aEdit 0 0).getD t
          DLine.zero) (abcInput.aTo.getD t DLine.zero) = true) ∧
      (∀ k fuel2, q.aEdit.length ≤ fuel2 →
        optimizeLoop q k fuel2 0 q.aEdit 0 0 = (diff_optimize q).aEdit) :=
  ⟨⟨rfl, by decide⟩, diff_optimize_preserves stdEnv abcInput rfl 4 (by decide)⟩

/-! ## The script that `text_diff` returns -/

/-- Once the two files are split into lines, `text_diff` without an output
buffer returns, with more fuel than the left file has lines, a script that
leads from the starts of the files to their ends, and three zeros behind it. -/
theorem diffLines_script (E : Env) (fuel : Nat) (aF : List DLine) (nF : Nat) (aT : List DLine)
    (nT : Nat) (diffFlags : Nat) (hf : nF < fuel) :
    ∃ R, diffLines E fuel (some (aF, nF)) (some (aT, nT)) none diffFlags
        = some (some (R ++ [0, 0, 0]), none) ∧
      Script (DContext.mk [] aF nF aT nT) R 0 0 nF nT := by
  obtain ⟨q, R, e1, e2, e3, e4, e5, e6, e7, e8⟩ :=
    diff_all_script E (DContext.mk [] aF nF aT nT) rfl fuel hf
  unfold diffLines
  dsimp only
  rw [e1]
  dsimp only
  by_cases hn : diffFlags &&& DIFF_NOOPT = 0
  · rw [if_pos hn]
    have hSq : Script q R 0 0 q.nFrom q.nTo := by
      rw [e4, e5]
      exact Script_congr q _ e2.symm e3.symm R _ _ _ _ e7
    have hTq : LastPlain R ∨ NoCommonTail q := by
      rcases e8 with h | h
      · exact Or.inl h
      · right
        unfold NoCommonTail at h ⊢
        rw [e2, e3, e4, e5]
        exact h
    obtain ⟨R2, g1, g2, g3, _⟩ := diff_optimize_script q R e6 hSq hTq
    refine ⟨R2, by rw [g3], ?_⟩
    have := Script_congr (DContext.mk [] aF nF aT nT) q e2 e3 R2 _ _ _ _ g2
    rw [e4, e5] at this
    exact this
  · rw [if_neg hn]
    exact ⟨R, by rw [e6], e7⟩

/-- The claim C12 fails with `DIFF_INVERT`: for the left buffer `a\n`, of one
line, and the right buffer `a\nb\n`, of two lines, the script is (1,1,0),
(0,0,0), in which copy plus delete is 2 and copy plus insert is 1. -/
theorem text_diff_invert_sums :
    (break_into_lines stdEnv (str "a\n") false).map Prod.snd = some 1 ∧
    (break_into_lines stdEnv (str "a\nb\n") false).map Prod.snd = some 2 ∧
    text_diff stdEnv 3 (str "a\n") (str "a\nb\n") none DIFF_INVERT
      = some (some ([1, 1, 0] ++ [0, 0, 0]), none) ∧
    sumCopyDelete [1, 1, 0] = 2 ∧ sumCopyInsert [1, 1, 0] = 1 := by
  refine ⟨by decide, by decide, by decide, by decide, by decide⟩

/-- C12, amended. When the two buffers split into lines, `text_diff` without an
output buffer and with more fuel than either has lines returns, for every value
of the flags, triples without a negative count and the triple (0,0,0) behind
them; the sum of copy plus delete is the number of lines of the left buffer and
the sum of copy plus insert that of the right buffer when `DIFF_INVERT` is not
set, and the other way round when it is set. -/
theorem text_diff_script (E : Env) (fuel : Nat) (pA_Blob pB_Blob : List Nat) (diffFlags : Nat)
    (aA : List DLine) (nA : Nat) (aB : List DLine) (nB : Nat)
    (hA : break_into_lines E pA_Blob (decide (diffFlags &&& DIFF_IGNORE_EOLWS ≠ 0))
      = some (aA, nA))
    (hB : break_into_lines E pB_Blob (decide (diffFlags &&& DIFF_IGNORE_EOLWS ≠ 0))
      = some (aB, nB))
    (hfA : nA < fuel) (hfB : nB < fuel) :
    ∃ R, text_diff E fuel pA_Blob pB_Blob none diffFlags = some (some (R ++ [0, 0, 0]), none) ∧
      R.length % 3 = 0 ∧ (∀ x, x ∈ R → 0 ≤ x) ∧
      sumCopyDelete R = (if diffFlags &&& DIFF_INVERT ≠ 0 then (nB : Int) else nA) ∧
      sumCopyInsert R = (if diffFlags &&& DIFF_INVERT ≠ 0 then (nA : Int) else nB) := by
  rw [text_diff_lines]
  by_cases hi : diffFlags &&& DIFF_INVERT ≠ 0
  · rw [if_pos hi, if_pos hi, if_pos hi, if_pos hi, hA, hB]
    obtain ⟨R, e1, e2⟩ := diffLines_script E fuel aB nB aA nA diffFlags hfB
    have s := Script_sums _ R _ _ _ _ e2
    exact ⟨R, e1, Script_length _ R _ _ _ _ e2, Script_nonneg _ R _ _ _ _ e2, by omega, by omega⟩
  · rw [if_neg hi, if_neg hi, if_neg hi, if_neg hi, hA, hB]
    obtain ⟨R, e1, e2⟩ := diffLines_script E fuel aA nA aB nB diffFlags hfA
    have s := Script_sums _ R _ _ _ _ e2
    exact ⟨R, e1, Script_length _ R _ _ _ _ e2, Script_nonneg _ R _ _ _ _ e2, by omega, by omega⟩

/-- The amended claim for `a\n` and `a\nb\n` with `DIFF_INVERT`. -/
theorem text_diff_script_witness :
    (break_into_lines stdEnv (str "a\n") (decide (DIFF_INVERT &&& DIFF_IGNORE_EOLWS ≠ 0))
        = some (aLines, 1) ∧
      break_into_lines stdEnv (str "a\nb\n") (decide (DIFF_INVERT &&& DIFF_IGNORE_EOLWS ≠ 0))
        = some (abLines, 2) ∧ 1 < 3 ∧ 2 < 3) ∧
    ∃ R, text_diff stdEnv 3 (str "a\n") (str "a\nb\n") none DIFF_INVERT
        = some (some (R ++ [0, 0, 0]), none) ∧
      R.length % 3 = 0 ∧ (∀ x, x ∈ R → 0 ≤ x) ∧
      sumCopyDelete R = (if DIFF_INVERT &&& DIFF_INVERT ≠ 0 then ((2 : Nat) : Int) else (1 : Nat)) ∧
      sumCopyInsert R = (if DIFF_INVERT &&& DIFF_INVERT ≠ 0 then ((1 : Nat) : Int) else (2 : Nat)) :=
  ⟨⟨by decide, by decide, by decide, by decide⟩,
    text_diff_script stdEnv 3 (str "a\n") (str "a\nb\n") DIFF_INVERT aLines 1 abLines 2
      (by decide) (by decide) (by decide) (by decide)⟩

/-! ## The score of `match_dline` -/

theorem memcmp0_of_take : ∀ (n : Nat) (a b : List Nat), a.take n = b.take n →
    memcmp0 a b n = true := by
  intro n
  induction n with
  | zero => intro a b _; rfl
  | succ n ih =>
    intro a b h
    rw [memcmp0]
    cases a with
    | nil =>
      cases b with
      | nil => simp [ih [] [] rfl]
      | cons y b => simp at h
    | cons x a =>
      cases b with
      | nil => simp at h
      | cons y b =>
        simp only [List.take_succ_cons, List.cons.injEq] at h
        simp [h.1, ih a b h.2]

/-- What `match_dline` returns, in terms of the two lines without the white
space around them. -/
theorem match_dline_eq (E : Env) (pA pB : DLine) :
    match_dline E pA pB =
      if (min (trimLine E pA).2 250 + min (trimLine E pB).2 250) / 2 = 0 then 0
      else if min (trimLine E pA).2 250 = min (trimLine E pB).2 250 ∧
          memcmp0 (trimLine E pA).1 (trimLine E pB).1 (min (trimLine E pA).2 250) = true then 0
      else if matchScan (trimLine E pA).1 (trimLine E pB).1
            (matchIndex (trimLine E pB).1 (min (trimLine E pB).2 250)
              (List.replicate 256 0, List.replicate 252 0)).1
            (matchIndex (trimLine E pB).1 (min (trimLine E pB).2 250)
              (List.replicate 256 0, List.replicate 252 0)).2
            (min (trimLine E pA).2 250) (min (trimLine E pB).2 250)
            (min (trimLine E pA).2 250) 1 0
          > (min (trimLine E pA).2 250 + min (trimLine E pB).2 250) / 2 then 0
      else ((((min (trimLine E pA).2 250 + min (trimLine E pB).2 250) / 2 : Nat) : Int)
          - (matchScan (trimLine E pA).1 (trimLine E pB).1
            (matchIndex (trimLine E pB).1 (min (trimLine E pB).2 250)
              (List.replicate 256 0, List.replicate 252 0)).1
            (matchIndex (trimLine E pB).1 (min (trimLine E pB).2 250)
              (List.replicate 256 0, List.replicate 252 0)).2
            (min (trimLine E pA).2 250) (min (trimLine E pB).2 250)
            (min (trimLine E pA).2 250) 1 0 : Nat)) * 100
        / (((min (trimLine E pA).2 250 + min (trimLine E pB).2 250) / 2 : Nat) : Int) := by
  have hmin : ∀ n : Nat, (if n > 250 then 250 else n) = min n 250 := by
    intro n
    split_ifs <;> omega
  unfold match_dline trimLine
  simp only [hmin]

/-- C21. For every pair of line records `match_dline` returns an integer from 0
to 100, and it returns 0 when the two lines without the white space around
them have the same length and the same bytes. -/
theorem match_dline_range (E : Env) (pA pB : DLine) :
    0 ≤ match_dline E pA pB ∧ match_dline E pA pB ≤ 100 ∧
    ((trimLine E pA).2 = (trimLine E pB).2 →
      (trimLine E pA).1.take (trimLine E pA).2 = (trimLine E pB).1.take (trimLine E pB).2 →
      match_dline E pA pB = 0) := by
  rw [match_dline_eq]
  generalize (trimLine E pA).1 = zA
  generalize (trimLine E pA).2 = nA
  generalize (trimLine E pB).1 = zB
  generalize (trimLine E pB).2 = nB
  generalize matchScan zA zB (matchIndex zB (min nB 250)
    (List.replicate 256 0, List.replicate 252 0)).1 (matchIndex zB (min nB 250)
    (List.replicate 256 0, List.replicate 252 0)).2 (min nA 250) (min nB 250) (min nA 250) 1 0
    = best
  generalize hav : (min nA 250 + min nB 250) / 2 = avg
  refine ⟨?_, ?_, ?_⟩
  · split_ifs with c1 c2 c3
    · exact le_refl _
    · exact le_refl _
    · exact le_refl _
    · apply Int.ediv_nonneg
      · have : (best : Int) ≤ avg := by exact_mod_cast (not_lt.mp c3)
        nlinarith
      · exact Int.natCast_nonneg _
  · split_ifs with c1 c2 c3
    · decide
    · decide
    · decide
    · apply Int.ediv_le_of_le_mul
      · exact_mod_cast Nat.pos_of_ne_zero c1
      · have h1 : (0 : Int) ≤ best := Int.natCast_nonneg _
        nlinarith
  · intro hn hz
    subst hn
    by_cases c1 : avg = 0
    · rw [if_pos c1]
    · rw [if_neg c1, if_pos]
      refine ⟨rfl, memcmp0_of_take _ _ _ ?_⟩
      have e1 := List.take_take (min nA 250) nA zA
      have e2 := List.take_take (min nA 250) nA zB
      have e3 : min (min nA 250) nA = min nA 250 := by omega
      rw [e3] at e1 e2
      rw [← e1, ← e2, hz]

/-! ## The search of `match_dline` for a common substring -/

/-- The index that `match_dline` builds: `aFirst[c]` is the first position of
the byte `c` in `zB` and `aNext[j]` the next position of the byte at `j`. -/
theorem matchIndex_spec (zB : List Nat) (nB : Nat) (hn : nB ≤ 250) :
    ∀ (i : Nat) (s : List Nat × List Nat), i ≤ nB → s.1.length = 256 → s.2.length = 252 →
    (∀ c, c < 256 → NextOcc zB nB c i (s.1.getD c 0)) →
    (∀ j, i < j → j ≤ nB → NextOcc zB nB (zB.getD (j - 1) 0 % 256) j (s.2.getD j 0)) →
    (∀ c, c < 256 → NextOcc zB nB c 0 ((matchIndex zB i s).1.getD c 0)) ∧
    (∀ j, 0 < j → j ≤ nB →
      NextOcc zB nB (zB.getD (j - 1) 0 % 256) j ((matchIndex zB i s).2.getD j 0)) := by
  intro i
  induction i with
  | zero =>
    intro s _ _ _ h1 h2
    obtain ⟨aFirst, aNext⟩ := s
    rw [matchIndex]
    exact ⟨h1, h2⟩
  | succ i ih =>
    intro s hi l1 l2 h1 h2
    obtain ⟨aFirst, aNext⟩ := s
    rw [matchIndex]
    dsimp only at l1 l2 h1 h2 ⊢
    have hc0 : zB.getD i 0 % 256 < 256 := Nat.mod_lt _ (by decide)
    apply ih _ (by omega)
    · dsimp only; rw [List.length_set]; exact l1
    · dsimp only; rw [List.length_set]; exact l2
    · intro c hc
      dsimp only
      rw [getD_set]
      by_cases e : zB.getD i 0 % 256 = c
      · rw [if_pos ⟨e, by rw [l1]; exact hc0⟩]
        right
        refine ⟨by omega, hi, ?_, fun j2 a1 a2 => by omega⟩
        rw [Nat.add_sub_cancel]
        exact e
      · rw [if_neg (fun hh => e hh.1)]
        rcases h1 c hc with ⟨q1, q2⟩ | ⟨q1, q2, q3, q4⟩
        · left
          refine ⟨q1, fun j2 a1 a2 => ?_⟩
          by_cases e2 : j2 = i + 1
          · rw [e2, Nat.add_sub_cancel]; exact e
          · exact q2 j2 (by omega) a2
        · right
          refine ⟨by omega, q2, q3, fun j2 a1 a2 => ?_⟩
          by_cases e2 : j2 = i + 1
          · rw [e2, Nat.add_sub_cancel]; exact e
          · exact q4 j2 (by omega) a2
    · intro j hj1 hj2
      dsimp only
      rw [getD_set]
      by_cases e : i + 1 = j
      · rw [if_pos ⟨e, by rw [l2]; omega⟩]
        have := h1 (zB.getD i 0 % 256) hc0
        rw [← e, Nat.add_sub_cancel]
        exact this
      · rw [if_neg (fun hh => e hh.1)]
        exact h2 j (by omega) hj2

/-- The loop of `match_dline` that extends a match stops behind the last pair
of bytes that are the same, or at the end of a line. -/
theorem matchRun_spec (zA zB : List Nat) (i j : Nat) (limit : Int) :
    ∀ (fuel k : Nat), limit + 1 ≤ (k : Int) + fuel → (k : Int) ≤ limit + 1 →
    (∀ t, 1 ≤ t → t < k → zA.getD (t + i - 1) 0 = zB.getD (t + j - 1) 0) →
    k ≤ matchRun zA zB i j limit fuel k ∧
    (matchRun zA zB i j limit fuel k : Int) ≤ limit + 1 ∧
    (∀ t, 1 ≤ t → t < matchRun zA zB i j limit fuel k →
      zA.getD (t + i - 1) 0 = zB.getD (t + j - 1) 0) ∧
    ((matchRun zA zB i j limit fuel k : Int) ≤ limit →
      zA.getD (matchRun zA zB i j limit fuel k + i - 1) 0
        ≠ zB.getD (matchRun zA zB i j limit fuel k + j - 1) 0) := by
  intro fuel
  induction fuel with
  | zero =>
    intro k h1 h2 h3
    rw [matchRun]
    exact ⟨le_refl _, h2, h3, fun hh => by omega⟩
  | succ fuel ih =>
    intro k h1 h2 h3
    rw [matchRun]
    by_cases c : (k : Int) ≤ limit ∧ zA.getD (k + i - 1) 0 = zB.getD (k + j - 1) 0
    · rw [if_pos c]
      obtain ⟨r1, r2, r3, r4⟩ := ih (k + 1) (by push_cast; omega) (by push_cast; omega) (by
        intro t ht1 ht2
        by_cases e : t = k
        · rw [e]; exact c.2
        · exact h3 t ht1 (by omega))
      exact ⟨by omega, r2, r3, r4⟩
    · rw [if_neg c]
      refine ⟨le_refl _, h2, h3, fun hh hne => c ⟨hh, hne⟩⟩

theorem minInt_spec (a b : Int) :
    minInt a b ≤ a ∧ minInt a b ≤ b ∧ (minInt a b = a ∨ minInt a b = b) := by
  unfold minInt
  split_ifs <;> omega

theorem RowOK_mono (zA zB : List Nat) (nA nB a b0 best best2 : Nat) (h : best ≤ best2)
    (hr : RowOK zA zB nA nB a b0 best) : RowOK zA zB nA nB a b0 best2 := by
  intro b k hb hc
  obtain ⟨r1, r2⟩ := hr b k hb hc
  exact ⟨by omega, fun hh => by have := r2 hh; omega⟩

theorem ScanOK_mono (zA zB : List Nat) (nA nB a0 best best2 : Nat) (h : best ≤ best2)
    (hr : ScanOK zA zB nA nB a0 best) : ScanOK zA zB nA nB a0 best2 := by
  intro a b k ha hc
  obtain ⟨r1, r2⟩ := hr a b k ha hc
  exact ⟨by omega, fun hh => by have := r2 hh; omega⟩

/-- A common substring of at least one byte starts at a position of `zB` at
which `zB` has the first byte of the substring. -/
theorem ComSub_first (zA zB : List Nat) (nA nB a b k : Nat) (hk : 0 < k)
    (h : ComSub zA zB nA nB a b k) : zB.getD b 0 % 256 = zA.getD a 0 % 256 := by
  have := h.2.2 0 hk
  rw [Nat.add_zero, Nat.add_zero] at this
  rw [this]

/-- The loop of `match_dline` along the chain of the positions of one byte:
behind it no common substring that starts at the position `i` of `zA` is more
than one byte longer than `best`, and none of them that ends before the last
byte of `zB` is longer than `best`. -/
theorem matchChain_spec (zA zB aNext : List Nat) (nA nB i : Nat) (hi1 : 1 ≤ i) (hi2 : i ≤ nA)
    (hbA : ∀ t, t < nA → zA.getD t 0 < 256) (hbB : ∀ t, t < nB → zB.getD t 0 < 256)
    (hNext : ∀ j, 0 < j → j ≤ nB →
      NextOcc zB nB (zB.getD (j - 1) 0 % 256) j (aNext.getD j 0)) :
    ∀ (fuel j jp best : Nat), nB + 1 ≤ jp + fuel →
    NextOcc zB nB (zA.getD (i - 1) 0 % 256) jp j → RowOK zA zB nA nB (i - 1) jp best →
    Achieved zA zB nA nB best →
    best ≤ matchChain zA zB aNext nA nB i fuel j best ∧
    Achieved zA zB nA nB (matchChain zA zB aNext nA nB i fuel j best) ∧
    RowOK zA zB nA nB (i - 1) nB (matchChain zA zB aNext nA nB i fuel j best) := by
  have hend : ∀ (j jp best : Nat), NextOcc zB nB (zA.getD (i - 1) 0 % 256) jp j →
      RowOK zA zB nA nB (i - 1) jp best → ¬ (j > 0 ∧ (j : Int) < (nB : Int) - best) →
      RowOK zA zB nA nB (i - 1) nB best := by
    intro j jp best hN hR hc b k hb hk
    by_cases c1 : b < jp
    · exact hR b k c1 hk
    · by_cases k0 : k = 0
      · subst k0
        exact ⟨by omega, fun _ => by omega⟩
      · have hf := ComSub_first zA zB nA nB (i - 1) b k (by omega) hk
        obtain ⟨k1, k2, _⟩ := hk
        rcases hN with ⟨q1, q2⟩ | ⟨q1, q2, q3, q4⟩
        · exfalso
          have := q2 (b + 1) (by omega) (by omega)
          rw [Nat.add_sub_cancel] at this
          exact this hf
        · have hjb : j ≤ b + 1 := by
            by_contra hlt
            have := q4 (b + 1) (by omega) (by omega)
            rw [Nat.add_sub_cancel] at this
            exact this hf
          have hj : ¬ ((j : Int) < (nB : Int) - best) := fun hh => hc ⟨by omega, hh⟩
          exact ⟨by omega, fun _ => by omega⟩
  intro fuel
  induction fuel with
  | zero =>
    intro j jp best hf hN hR hA
    rw [matchChain]
    refine ⟨le_refl _, hA, ?_⟩
    apply hend j jp best hN hR
    intro hc
    rcases hN with ⟨q1, _⟩ | ⟨q1, q2, _, _⟩
    · omega
    · omega
  | succ fuel ih =>
    intro j jp best hf hN hR hA
    rw [matchChain]
    by_cases c : j > 0 ∧ (j : Int) < (nB : Int) - best
    · rw [if_pos c]
      dsimp only
      rcases hN with ⟨q1, _⟩ | ⟨q1, q2, q3, q4⟩
      · omega
      · obtain ⟨m1, m2, m3⟩ := minInt_spec ((nA : Int) - i) ((nB : Int) - j)
        generalize minInt ((nA : Int) - i) ((nB : Int) - j) = limit at m1 m2 m3 ⊢
        have hl0 : 0 ≤ limit := by omega
        obtain ⟨r1, r2, r3, r4⟩ := matchRun_spec zA zB i j limit limit.toNat 1
          (by push_cast; omega) (by push_cast; omega) (fun t a1 a2 => by omega)
        generalize matchRun zA zB i j limit limit.toNat 1 = r at r1 r2 r3 r4 ⊢
        have h0 : zA.getD (i - 1) 0 = zB.getD (j - 1) 0 := by
          have e1 := hbA (i - 1) (by omega)
          have e2 := hbB (j - 1) (by omega)
          omega
        have hcs : ComSub zA zB nA nB (i - 1) (j - 1) r := by
          refine ⟨by omega, by omega, fun t ht => ?_⟩
          by_cases t0 : t = 0
          · rw [t0, Nat.add_zero, Nat.add_zero]; exact h0
          · have e1 : i - 1 + t = t + i - 1 := by omega
            have e2 : j - 1 + t = t + j - 1 := by omega
            rw [e1, e2]
            exact r3 t (by omega) ht
        have hmax : ∀ k, ComSub zA zB nA nB (i - 1) (j - 1) k → k ≤ r := by
          intro k hk
          by_contra hlt
          obtain ⟨k1, k2, k3⟩ := hk
          have := k3 r (by omega)
          have e1 : i - 1 + r = r + i - 1 := by omega
          have e2 : j - 1 + r = r + j - 1 := by omega
          rw [e1, e2] at this
          exact r4 (by omega) this
        have hR2 : RowOK zA zB nA nB (i - 1) j (if r > best then r else best) := by
          intro b k hb hk
          by_cases c1 : b < jp
          · exact RowOK_mono zA zB nA nB (i - 1) jp best _ (by split_ifs <;> omega) hR b k c1 hk
          · by_cases c2 : b = j - 1
            · subst c2
              have := hmax k hk
              refine ⟨by split_ifs <;> omega, fun _ => by split_ifs <;> omega⟩
            · by_cases k0 : k = 0
              · subst k0
                exact ⟨by omega, fun _ => by omega⟩
              · exfalso
                have hf := ComSub_first zA zB nA nB (i - 1) b k (by omega) hk
                have := q4 (b + 1) (by omega) (by omega)
                rw [Nat.add_sub_cancel] at this
                exact this hf
        have hA2 : Achieved zA zB nA nB (if r > best then r else best) := by
          by_cases c1 : r > best
          · rw [if_pos c1]
            exact Or.inr ⟨i - 1, j - 1, hcs⟩
          · rw [if_neg c1]
            exact hA
        have hN2 : NextOcc zB nB (zA.getD (i - 1) 0 % 256) j (aNext.getD j 0) := by
          have := hNext j (by omega) q2
          rw [q3] at this
          exact this
        obtain ⟨s1, s2, s3⟩ := ih (aNext.getD j 0) j (if r > best then r else best) (by omega)
          hN2 hR2 hA2
        refine ⟨?_, s2, s3⟩
        have : best ≤ (if r > best then r else best) := by split_ifs <;> omega
        omega
    · rw [if_neg c]
      exact ⟨le_refl _, hA, hend j jp best hN hR c⟩

/-- The loop of `match_dline` over the positions of `zA`: behind it no common
substring is more than one byte longer than `best`, and none that ends before
the last byte of `zB` is longer than `best`. -/
theorem matchScan_spec (zA zB aFirst aNext : List Nat) (nA nB : Nat)
    (hbA : ∀ t, t < nA → zA.getD t 0 < 256) (hbB : ∀ t, t < nB → zB.getD t 0 < 256)
    (hFirst : ∀ c, c < 256 → NextOcc zB nB c 0 (aFirst.getD c 0))
    (hNext : ∀ j, 0 < j → j ≤ nB →
      NextOcc zB nB (zB.getD (j - 1) 0 % 256) j (aNext.getD j 0)) :
    ∀ (fuel i best : Nat), 1 ≤ i → nA + 1 ≤ i + fuel → ScanOK zA zB nA nB (i - 1) best →
    Achieved zA zB nA nB best →
    Achieved zA zB nA nB (matchScan zA zB aFirst aNext nA nB fuel i best) ∧
    ∀ a b k, ComSub zA zB nA nB a b k →
      k ≤ matchScan zA zB aFirst aNext nA nB fuel i best + 1 ∧
      (b + k < nB → k ≤ matchScan zA zB aFirst aNext nA nB fuel i best) := by
  have hend : ∀ (i best : Nat), 1 ≤ i → ScanOK zA zB nA nB (i - 1) best →
      ¬ ((i : Int) ≤ (nA : Int) - best) →
      ∀ a b k, ComSub zA zB nA nB a b k → k ≤ best + 1 ∧ (b + k < nB → k ≤ best) := by
    intro i best hi hS hc a b k hk
    by_cases c1 : a < i - 1
    · exact hS a b k c1 hk
    · obtain ⟨k1, _, _⟩ := hk
      exact ⟨by omega, fun _ => by omega⟩
  intro fuel
  induction fuel with
  | zero =>
    intro i best hi hf hS hA
    rw [matchScan]
    exact ⟨hA, hend i best hi hS (by omega)⟩
  | succ fuel ih =>
    intro i best hi hf hS hA
    rw [matchScan]
    by_cases c : (i : Int) ≤ (nA : Int) - best
    · rw [if_pos c]
      dsimp only
      have hc256 : zA.getD (i - 1) 0 % 256 < 256 := Nat.mod_lt _ (by decide)
      obtain ⟨s1, s2, s3⟩ := matchChain_spec zA zB aNext nA nB i hi (by omega) hbA hbB hNext
        (nB + 1) (aFirst.getD (zA.getD (i - 1) 0 % 256) 0) 0 best (by omega)
        (hFirst _ hc256) (fun b k hb _ => absurd hb (Nat.not_lt_zero b)) hA
      apply ih (i + 1) _ (by omega) (by omega) _ s2
      intro a b k ha hk
      by_cases c1 : a < i - 1
      · exact ScanOK_mono zA zB nA nB (i - 1) best _ s1 hS a b k c1 hk
      · have e : a = i - 1 := by omega
        subst e
        by_cases c2 : b < nB
        · exact s3 b k c2 hk
        · obtain ⟨_, k2, _⟩ := hk
          exact ⟨by omega, fun _ => by omega⟩
    · rw [if_neg c]
      exact ⟨hA, hend i best hi hS c⟩

theorem getD_tail (a : List Nat) (t : Nat) : a.tail.getD t 0 = a.getD (t + 1) 0 := by
  cases a with
  | nil => rfl
  | cons x a => rfl

theorem memcmp0_getD : ∀ (n : Nat) (a b : List Nat), memcmp0 a b n = true →
    ∀ t, t < n → a.getD t 0 = b.getD t 0 := by
  intro n
  induction n with
  | zero => intro a b _ t ht; omega
  | succ n ih =>
    intro a b h t ht
    rw [memcmp0] at h
    simp only [Bool.and_eq_true, decide_eq_true_eq] at h
    cases t with
    | zero =>
      have e1 : a.getD 0 0 = a.headD 0 := by cases a <;> rfl
      have e2 : b.getD 0 0 = b.headD 0 := by cases b <;> rfl
      rw [e1, e2]
      exact h.1
    | succ t =>
      rw [← getD_tail, ← getD_tail]
      exact ih _ _ h.2 t (by omega)

theorem getD_replicate_zero : ∀ (n c : Nat), (List.replicate n (0 : Nat)).getD c 0 = 0 := by
  intro n
  induction n with
  | zero => intro c; rfl
  | succ n ih =>
    intro c
    rw [List.replicate_succ]
    cases c with
    | zero => rfl
    | succ c => rw [List.getD_cons_succ]; exact ih c

/-- C22. `match_dline` misses a longest common substring that begins at the last
byte of the second line: the lines `xa` and `ya` have the common substring `a`
and no longer one, so that the score of the longest common substring is
(2 - 1) * 100 / 2 = 50, and `match_dline` returns 100. The loop over the start
positions in the second line stops at `j < nB - best`, while its sibling over
the first line runs to `i <= nA - best`: the lines `a` and `ab` score 0, and
the same lines in the other order score 100. -/
theorem match_dline_not_longest :
    trimLine stdEnv xaLine = ([120, 97, 10], 2) ∧ trimLine stdEnv yaLine = ([121, 97, 10], 2) ∧
    ComSub [120, 97, 10] [121, 97, 10] 2 2 1 1 1 ∧
    (∀ a b k, ComSub [120, 97, 10] [121, 97, 10] 2 2 a b k → k ≤ 1) ∧
    (((2 : Int) - 1) * 100 / 2 = 50) ∧ match_dline stdEnv xaLine yaLine = 100 ∧
    trimLine stdEnv aLine = ([97, 10], 1) ∧ trimLine stdEnv abLine = ([97, 98, 10], 2) ∧
    match_dline stdEnv aLine abLine = 0 ∧ match_dline stdEnv abLine aLine = 100 := by
  refine ⟨by decide, by decide, ⟨by decide, by decide, ?_⟩, ?_, by decide, by decide,
    by decide, by decide, by decide, by decide⟩
  · intro t ht
    have e : t = 0 := by omega
    subst e
    rfl
  · intro a b k h
    obtain ⟨h1, h2, h3⟩ := h
    by_contra hk
    have ea : a = 0 := by omega
    have eb : b = 0 := by omega
    subst ea eb
    have := h3 0 (by omega)
    simp at this

/-- What `match_dline` computes. For two lines that, without the white space around them and
cut to 250 bytes, hold byte values, are not the same and have the average
length `avg > 0`, `match_dline` returns `(avg - best) * 100 / avg`, where `best`
is 0 or the length of a common substring of the two lines, no common substring
is more than one byte longer than `best`, and no common substring that ends
before the last byte of the second line is longer than `best`. -/
theorem match_dline_score (E : Env) (pA pB : DLine)
    (hbA : ∀ t, t < min (trimLine E pA).2 250 → (trimLine E pA).1.getD t 0 < 256)
    (hbB : ∀ t, t < min (trimLine E pB).2 250 → (trimLine E pB).1.getD t 0 < 256)
    (havg : (min (trimLine E pA).2 250 + min (trimLine E pB).2 250) / 2 ≠ 0)
    (hne : ¬ (min (trimLine E pA).2 250 = min (trimLine E pB).2 250 ∧
      ∀ t, t < min (trimLine E pA).2 250 →
        (trimLine E pA).1.getD t 0 = (trimLine E pB).1.getD t 0)) :
    ∃ best : Nat,
      match_dline E pA pB
        = ((((min (trimLine E pA).2 250 + min (trimLine E pB).2 250) / 2 : Nat) : Int) - best)
            * 100 / (((min (trimLine E pA).2 250 + min (trimLine E pB).2 250) / 2 : Nat) : Int) ∧
      Achieved (trimLine E pA).1 (trimLine E pB).1 (min (trimLine E pA).2 250)
        (min (trimLine E pB).2 250) best ∧
      ∀ a b k, ComSub (trimLine E pA).1 (trimLine E pB).1 (min (trimLine E pA).2 250)
          (min (trimLine E pB).2 250) a b k →
        k ≤ best + 1 ∧ (b + k < min (trimLine E pB).2 250 → k ≤ best) := by
  rw [match_dline_eq]
  generalize (trimLine E pA).1 = zA at *
  generalize min (trimLine E pA).2 250 = nA at *
  generalize (trimLine E pB).1 = zB at *
  have hnB : min (trimLine E pB).2 250 ≤ 250 := by omega
  generalize min (trimLine E pB).2 250 = nB at *
  have hmem : ¬ (nA = nB ∧ memcmp0 zA zB nA = true) :=
    fun h => hne ⟨h.1, memcmp0_getD nA zA zB h.2⟩
  rw [if_neg havg, if_neg hmem]
  obtain ⟨i1, i2⟩ := matchIndex_spec zB nB hnB nB (List.replicate 256 0, List.replicate 252 0)
    (le_refl _) (List.length_replicate 256 0) (List.length_replicate 252 0)
    (fun c _ => Or.inl ⟨getD_replicate_zero 256 c, fun j2 a1 a2 => by omega⟩)
    (fun j a1 a2 => by omega)
  obtain ⟨s1, s2⟩ := matchScan_spec zA zB
    (matchIndex zB nB (List.replicate 256 0, List.replicate 252 0)).1
    (matchIndex zB nB (List.replicate 256 0, List.replicate 252 0)).2 nA nB hbA hbB i1 i2
    nA 1 0 (le_refl _) (by omega) (fun a b k ha _ => absurd ha (Nat.not_lt_zero a))
    (Or.inl rfl)
  generalize matchScan zA zB (matchIndex zB nB (List.replicate 256 0, List.replicate 252 0)).1
    (matchIndex zB nB (List.replicate 256 0, List.replicate 252 0)).2 nA nB nA 1 0 = best
    at s1 s2 ⊢
  have hle : ¬ best > (nA + nB) / 2 := by
    rcases s1 with h | ⟨a, b, h1, h2, _⟩
    · omega
    · omega
  rw [if_neg hle]
  exact ⟨best, rfl, s1, s2⟩

/-- The score of `match_dline` for the lines `abcd` and `axyz`. -/
theorem match_dline_score_witness :
    ((∀ t, t < min (trimLine stdEnv abcdLine).2 250 →
        (trimLine stdEnv abcdLine).1.getD t 0 < 256) ∧
      (∀ t, t < min (trimLine stdEnv axyzLine).2 250 →
        (trimLine stdEnv axyzLine).1.getD t 0 < 256) ∧
      (min (trimLine stdEnv abcdLine).2 250 + min (trimLine stdEnv axyzLine).2 250) / 2 ≠ 0 ∧
      ¬ (min (trimLine stdEnv abcdLine).2 250 = min (trimLine stdEnv axyzLine).2 250 ∧
        ∀ t, t < min (trimLine stdEnv abcdLine).2 250 →
          (trimLine stdEnv abcdLine).1.getD t 0 = (trimLine stdEnv axyzLine).1.getD t 0)) ∧
    ∃ best : Nat,
      match_dline stdEnv abcdLine axyzLine
        = ((((min (trimLine stdEnv abcdLine).2 250
              + min (trimLine stdEnv axyzLine).2 250) / 2 : Nat) : Int) - best) * 100
          / (((min (trimLine stdEnv abcdLine).2 250
              + min (trimLine stdEnv axyzLine).2 250) / 2 : Nat) : Int) ∧
      Achieved (trimLine stdEnv abcdLine).1 (trimLine stdEnv axyzLine).1
        (min (trimLine stdEnv abcdLine).2 250) (min (trimLine stdEnv axyzLine).2 250) best ∧
      ∀ a b k, ComSub (trimLine stdEnv abcdLine).1 (trimLine stdEnv axyzLine).1
          (min (trimLine stdEnv abcdLine).2 250) (min (trimLine stdEnv axyzLine).2 250) a b k →
        k ≤ best + 1 ∧ (b + k < min (trimLine stdEnv axyzLine).2 250 → k ≤ best) :=
  ⟨⟨by decide, by decide, by decide, by decide⟩,
    match_dline_score stdEnv abcdLine axyzLine (by decide) (by decide) (by decide) (by decide)⟩

/-- The score of `match_dline` for the first lines of `a\nb\nc\n` and
`a\nx\nc\n`, which are the same. -/
theorem match_dline_range_witness :
    0 ≤ match_dline stdEnv (abcLines.getD 0 DLine.zero) (axcLines.getD 0 DLine.zero) ∧
    match_dline stdEnv (abcLines.getD 0 DLine.zero) (axcLines.getD 0 DLine.zero) ≤ 100 ∧
    ((trimLine stdEnv (abcLines.getD 0 DLine.zero)).2
        = (trimLine stdEnv (axcLines.getD 0 DLine.zero)).2 →
      (trimLine stdEnv (abcLines.getD 0 DLine.zero)).1.take
          (trimLine stdEnv (abcLines.getD 0 DLine.zero)).2
        = (trimLine stdEnv (axcLines.getD 0 DLine.zero)).1.take
          (trimLine stdEnv (axcLines.getD 0 DLine.zero)).2 →
      match_dline stdEnv (abcLines.getD 0 DLine.zero) (axcLines.getD 0 DLine.zero) = 0) :=
  match_dline_range stdEnv (abcLines.getD 0 DLine.zero) (axcLines.getD 0 DLine.zero)

/-! ## The alignment of `sbsAlignment` -/

theorem idx_lt (nLeft nRight j i : Nat) (hj : j ≤ nLeft) (hi : i ≤ nRight) :
    j * (nRight + 1) + i < (nLeft + 1) * (nRight + 1) := by
  have h1 : j * (nRight + 1) + (nRight + 1) ≤ (nLeft + 1) * (nRight + 1) := by
    have := Nat.mul_le_mul_right (nRight + 1) (Nat.succ_le_succ hj)
    rw [Nat.succ_mul] at this
    exact this
  omega

theorem idx_inj (nRight j i j2 i2 : Nat) (hi : i ≤ nRight) (hi2 : i2 ≤ nRight)
    (h : j * (nRight + 1) + i = j2 * (nRight + 1) + i2) : j = j2 ∧ i = i2 := by
  have e1 : (j * (nRight + 1) + i) / (nRight + 1) = j := by
    rw [Nat.add_comm, Nat.add_mul_div_right _ _ (by omega), Nat.div_eq_of_lt (by omega),
      Nat.zero_add]
  have e2 : (j2 * (nRight + 1) + i2) / (nRight + 1) = j2 := by
    rw [Nat.add_comm, Nat.add_mul_div_right _ _ (by omega), Nat.div_eq_of_lt (by omega),
      Nat.zero_add]
  have e3 : j = j2 := by rw [← e1, ← e2, h]
  subst e3
  exact ⟨rfl, by omega⟩

theorem idx_toNat (j i nRight : Nat) :
    ((j : Int) * ((nRight : Int) + 1) + (i : Int)).toNat = j * (nRight + 1) + i := by
  have e : (j : Int) * ((nRight : Int) + 1) + (i : Int) = ((j * (nRight + 1) + i : Nat) : Int) := by
    push_cast
    ring
  rw [e, Int.toNat_ofNat]

/-- Setting the tag of the cell `(J, I)` extends the part of the matrix that is
as `CellTag` says by this cell. -/
theorem MatOK_set (E : Env) (aLeft aRight : List DLine) (nLeft nRight J I d : Nat)
    (M : List Nat) (hJ : J ≤ nLeft) (hI : I ≤ nRight)
    (h : MatOK E aLeft aRight nLeft nRight J I M) (hd : CellTag E aLeft aRight J I d) :
    MatOK E aLeft aRight nLeft nRight J (I + 1) (M.set (J * (nRight + 1) + I) d) := by
  obtain ⟨h1, h2⟩ := h
  refine ⟨by rw [List.length_set]; exact h1, ?_⟩
  intro j i hj hi hlt hpos
  rw [getD_set]
  by_cases e : J * (nRight + 1) + I = j * (nRight + 1) + i
  · obtain ⟨e1, e2⟩ := idx_inj nRight J I j i hI hi e
    subst e1 e2
    rw [if_pos ⟨rfl, by rw [h1]; exact idx_lt nLeft nRight J I hJ hI⟩]
    exact hd
  · rw [if_neg (fun hh => e hh.1)]
    apply h2 j i hj hi _ hpos
    rcases hlt with c | ⟨c1, c2⟩
    · exact Or.inl c
    · right
      refine ⟨c1, ?_⟩
      by_contra hc
      have : i = I := by omega
      subst this
      subst c1
      exact e rfl

/-- The inner loop of `sbsAlignment` sets the tags of the row `j` from the
column `i` on. -/
theorem alignRow_spec (E : Env) (aLeft aRight : List DLine) (nLeft nRight j : Nat)
    (hj1 : 1 ≤ j) (hj2 : j ≤ nLeft) :
    ∀ (fuel i : Nat) (s : List Int × List Nat × Int), 1 ≤ i → nRight + 1 ≤ i + fuel →
    MatOK E aLeft aRight nLeft nRight j i s.2.1 →
    MatOK E aLeft aRight nLeft nRight j (nRight + 1)
      (alignRow E aLeft aRight nRight j fuel i s).2.1 := by
  intro fuel
  induction fuel with
  | zero =>
    intro i s hi hf h
    rw [alignRow]
    refine ⟨h.1, fun j2 i2 a1 a2 a3 a4 => h.2 j2 i2 a1 a2 ?_ a4⟩
    omega
  | succ fuel ih =>
    intro i s hi hf h
    obtain ⟨a, aM, p⟩ := s
    rw [alignRow]
    by_cases c : i ≤ nRight
    · rw [if_pos c]
      dsimp only
      apply ih (i + 1) _ (by omega) (by omega)
      dsimp only
      apply MatOK_set E aLeft aRight nLeft nRight j i _ aM hj2 c h
      by_cases c2 : (if a.getD (i - 1) 0 + 50 > a.getD i 0 + 50 then a.getD i 0 + 50
            else a.getD (i - 1) 0 + 50) > p ∧
          (match_dline E (aLeft.getD (j - 1) DLine.zero) (aRight.getD (i - 1) DLine.zero) < 66 ∨
            i < j + 1 ∧ (i : Int) > (j : Int) - 1) ∧
          (if a.getD (i - 1) 0 + 50 > a.getD i 0 + 50 then a.getD i 0 + 50
            else a.getD (i - 1) 0 + 50) >
            p + match_dline E (aLeft.getD (j - 1) DLine.zero) (aRight.getD (i - 1) DLine.zero)
      · simp only [decide_eq_true_eq, c2, and_self, decide_True, if_true]
        right; right
        refine ⟨rfl, hj1, hi, ?_⟩
        rcases c2.2.1 with q | q
        · exact Or.inl q
        · right; omega
      · simp only [decide_eq_true_eq, c2, decide_False, if_false]
        by_cases c1 : a.getD (i - 1) 0 + 50 > a.getD i 0 + 50
        · simp only [c1, if_true]
          exact Or.inl ⟨rfl, hj1⟩
        · simp only [c1, if_false]
          exact Or.inr (Or.inl ⟨rfl, hi⟩)
    · rw [if_neg c]
      refine ⟨h.1, fun j2 i2 a1 a2 a3 a4 => h.2 j2 i2 a1 a2 ?_ a4⟩
      omega

/-- The outer loop of `sbsAlignment` sets the tags of the rows from `j` on. -/
theorem alignRows_spec (E : Env) (aLeft aRight : List DLine) (nLeft nRight : Nat) :
    ∀ (fuel j : Nat) (s : List Int × List Nat), 1 ≤ j → nLeft + 1 ≤ j + fuel →
    MatOK E aLeft aRight nLeft nRight j 0 s.2 →
    MatOK E aLeft aRight nLeft nRight (nLeft + 1) 0
      (alignRows E aLeft aRight nLeft nRight fuel j s).2 := by
  intro fuel
  induction fuel with
  | zero =>
    intro j s hj hf h
    rw [alignRows]
    refine ⟨h.1, fun j2 i2 a1 a2 a3 a4 => h.2 j2 i2 a1 a2 ?_ a4⟩
    omega
  | succ fuel ih =>
    intro j s hj hf h
    obtain ⟨a, aM⟩ := s
    rw [alignRows]
    by_cases c : j ≤ nLeft
    · rw [if_pos c]
      dsimp only
      apply ih (j + 1) _ (by omega) (by omega)
      dsimp only
      have h1 : MatOK E aLeft aRight nLeft nRight j (0 + 1) (aM.set (j * (nRight + 1) + 0) 1) :=
        MatOK_set E aLeft aRight nLeft nRight j 0 1 aM c (Nat.zero_le _) h (Or.inl ⟨rfl, hj⟩)
      rw [Nat.add_zero] at h1
      have h2 := alignRow_spec E aLeft aRight nLeft nRight j hj c nRight 1
        (a.set 0 (a.getD 0 0 + 50), aM.set (j * (nRight + 1)) 1, a.getD 0 0) (le_refl _)
        (by omega) h1
      refine ⟨h2.1, fun j2 i2 a1 a2 a3 a4 => h2.2 j2 i2 a1 a2 ?_ a4⟩
      omega
    · rw [if_neg c]
      refine ⟨h.1, fun j2 i2 a1 a2 a3 a4 => h.2 j2 i2 a1 a2 ?_ a4⟩
      omega

theorem foldl_set_three (n : Nat) : ∀ (M : List Nat),
    ((List.range n).foldl (fun m i => m.set i 3) M).length = M.length ∧
    ∀ t, t < n → t < M.length → ((List.range n).foldl (fun m i => m.set i 3) M).getD t 0 = 3 := by
  induction n with
  | zero => intro M; exact ⟨rfl, fun t ht => by omega⟩
  | succ n ih =>
    intro M
    rw [List.range_succ, List.foldl_append]
    simp only [List.foldl_cons, List.foldl_nil]
    obtain ⟨h1, h2⟩ := ih M
    refine ⟨by rw [List.length_set]; exact h1, ?_⟩
    intro t ht1 ht2
    rw [getD_set]
    by_cases e : n = t
    · rw [if_pos ⟨e, by rw [h1]; omega⟩]
    · rw [if_neg (fun hh => e hh.1)]
      exact h2 t (by omega) ht2

theorem PairedOK_cons (E : Env) (aLeft aRight : List DLine) (a b c : Nat) (S : List Nat) :
    PairedOK E aLeft aRight a b (c :: S) ↔
      ((c = 1 ∨ c = 2 ∨ c = 3) ∧
      (c = 2 → (match_dline E (aLeft.getD a DLine.zero) (aRight.getD b DLine.zero) < 66 ∨ a = b)) ∧
      PairedOK E aLeft aRight (if c = 3 then a else a + 1) (if c = 1 then b else b + 1) S) := by
  rw [PairedOK]

theorem PairedOK_replicate_three (E : Env) (aLeft aRight : List DLine) :
    ∀ (n a b : Nat), PairedOK E aLeft aRight a b (List.replicate n 3) := by
  intro n
  induction n with
  | zero => intro a b; rw [List.replicate_zero, PairedOK]; trivial
  | succ n ih =>
    intro a b
    rw [List.replicate_succ, PairedOK_cons]
    exact ⟨by decide, fun h => absurd h (by decide), ih _ _⟩

theorem PairedOK_replicate_one (E : Env) (aLeft aRight : List DLine) :
    ∀ (n a b : Nat), PairedOK E aLeft aRight a b (List.replicate n 1) := by
  intro n
  induction n with
  | zero => intro a b; rw [List.replicate_zero, PairedOK]; trivial
  | succ n ih =>
    intro a b
    rw [List.replicate_succ, PairedOK_cons]
    exact ⟨by decide, fun h => absurd h (by decide), ih _ _⟩

theorem drop_getD_cons (M : List Nat) (k : Nat) (h : k < M.length) :
    M.drop k = M.getD k 0 :: M.drop (k + 1) := by
  rw [List.getD_eq_getElem _ _ h]
  exact List.drop_eq_getElem_cons h

/-- One step of the walk back through the matrix, to a cell in front of the
cell that the walk is at. -/
theorem PathInv_step (E : Env) (aLeft aRight : List DLine) (nLeft nRight : Nat)
    (M0 : List Nat) (i j k : Nat) (aM : List Nat) (i2 j2 : Nat)
    (h : PathInv E aLeft aRight nLeft nRight M0 i j k aM) (hi2 : i2 ≤ nRight)
    (hj2 : j2 ≤ nLeft) (hlt : j2 * (nRight + 1) + i2 < j * (nRight + 1) + i)
    (hP : PairedOK E aLeft aRight j2 i2 (aM.getD k 0 :: aM.drop (k + 1))) :
    PathInv E aLeft aRight nLeft nRight M0 i2 j2 (k - 1)
      (aM.set (k - 1) (aM.getD (j2 * (nRight + 1) + i2) 0)) := by
  obtain ⟨h1, h2, h3, h4, h5, h6, h7, h8⟩ := h
  refine ⟨hi2, hj2, by omega, by omega, by rw [List.length_set]; exact h5, ?_, ?_, ?_⟩
  · intro t ht
    rw [getD_set, if_neg (fun hh => by omega)]
    exact h6 t (by omega)
  · rw [getD_set, if_pos ⟨rfl, by omega⟩]
    exact h6 _ (by omega)
  · have e : k - 1 + 1 = k := by omega
    rw [e, List.drop_set_of_lt _ _ (by omega), drop_getD_cons aM k (by omega)]
    exact hP

/-- The walk of `sbsAlignment` back through the matrix ends with tags that are
as `PairedOK` says from the first lines on. -/
theorem alignPath_spec (E : Env) (aLeft aRight : List DLine) (nLeft nRight : Nat)
    (M0 : List Nat) (hM : MatOK E aLeft aRight nLeft nRight (nLeft + 1) 0 M0) :
    ∀ (fuel i j k : Nat) (aM : List Nat), i + j ≤ fuel →
    PathInv E aLeft aRight nLeft nRight M0 i j k aM →
    PairedOK E aLeft aRight 0 0
      ((alignPath nRight fuel ((i : Int), (j : Int), (k : Int), aM)).2.2.2.drop
        ((alignPath nRight fuel ((i : Int), (j : Int), (k : Int), aM)).2.2.1 + 1).toNat) := by
  have hstop : ∀ (i j k : Nat) (aM : List Nat), i + j = 0 →
      PathInv E aLeft aRight nLeft nRight M0 i j k aM →
      PairedOK E aLeft aRight 0 0 (aM.drop ((k : Int) + 1).toNat) := by
    intro i j k aM h0 h
    have ei : i = 0 := by omega
    have ej : j = 0 := by omega
    subst ei ej
    have e : ((k : Int) + 1).toNat = k + 1 := by omega
    rw [e]
    exact h.2.2.2.2.2.2.2
  intro fuel
  induction fuel with
  | zero =>
    intro i j k aM hf h
    rw [alignPath]
    exact hstop i j k aM (by omega) h
  | succ fuel ih =>
    intro i j k aM hf h
    rw [alignPath]
    by_cases c : (i : Int) + (j : Int) > 0
    · rw [if_pos c]
      dsimp only
      rw [Int.toNat_ofNat]
      have hh := h
      obtain ⟨h1, h2, h3, h4, h5, h6, h7, h8⟩ := hh
      have htag := hM.2 j i h2 h1 (Or.inl (by omega)) (by omega)
      rw [← h7] at htag
      have hW : ∀ x, 1 ≤ x → (x - 1) * (nRight + 1) + (nRight + 1) = x * (nRight + 1) := by
        intro x hx
        rw [← Nat.succ_mul]
        congr 1
        omega
      have hk1 : 1 ≤ k := by
        have : 0 < j * (nRight + 1) + i := by
          by_cases j0 : j = 0
          · omega
          · have := hW j (by omega)
            omega
        omega
      have ek : (k : Int) - 1 = ((k - 1 : Nat) : Int) := by omega
      rcases htag with ⟨t1, t2⟩ | ⟨t1, t2⟩ | ⟨t1, t2, t3, t4⟩
      · rw [t1]
        rw [if_neg (show ¬ (1 : Nat) = 2 by decide), if_neg (show ¬ (1 : Nat) = 3 by decide),
          if_neg (show ¬ (1 : Nat) = 2 by decide), if_neg (show ¬ (1 : Nat) = 3 by decide)]
        have ej : (j : Int) - 1 = ((j - 1 : Nat) : Int) := by omega
        rw [ek, ej, idx_toNat, Int.toNat_ofNat]
        apply ih i (j - 1) (k - 1) _ (by omega)
        apply PathInv_step E aLeft aRight nLeft nRight M0 i j k aM i (j - 1) h h1 (by omega)
        · have := hW j t2
          omega
        · rw [t1, PairedOK_cons]
          refine ⟨by decide, fun hx => absurd hx (by decide), ?_⟩
          rw [if_neg (show ¬ (1 : Nat) = 3 by decide), if_pos rfl]
          have e : j - 1 + 1 = j := by omega
          rw [e]
          exact h8
      · rw [t1]
        rw [if_neg (show ¬ (3 : Nat) = 2 by decide), if_pos rfl,
          if_neg (show ¬ (3 : Nat) = 2 by decide), if_pos rfl]
        have ei : (i : Int) - 1 = ((i - 1 : Nat) : Int) := by omega
        rw [ek, ei, idx_toNat, Int.toNat_ofNat]
        apply ih (i - 1) j (k - 1) _ (by omega)
        apply PathInv_step E aLeft aRight nLeft nRight M0 i j k aM (i - 1) j h (by omega) h2
        · omega
        · rw [t1, PairedOK_cons]
          refine ⟨by decide, fun hx => absurd hx (by decide), ?_⟩
          rw [if_pos rfl, if_neg (show ¬ (3 : Nat) = 1 by decide)]
          have e : i - 1 + 1 = i := by omega
          rw [e]
          exact h8
      · rw [t1]
        rw [if_pos rfl, if_pos rfl]
        have ei : (i : Int) - 1 = ((i - 1 : Nat) : Int) := by omega
        have ej : (j : Int) - 1 = ((j - 1 : Nat) : Int) := by omega
        rw [ek, ei, ej, idx_toNat, Int.toNat_ofNat]
        apply ih (i - 1) (j - 1) (k - 1) _ (by omega)
        apply PathInv_step E aLeft aRight nLeft nRight M0 i j k aM (i - 1) (j - 1) h (by omega)
          (by omega)
        · have := hW j t2
          omega
        · rw [t1, PairedOK_cons]
          refine ⟨by decide, fun _ => ?_, ?_⟩
          · rcases t4 with q | q
            · exact Or.inl q
            · right; omega
          · rw [if_neg (show ¬ (2 : Nat) = 3 by decide), if_neg (show ¬ (2 : Nat) = 1 by decide)]
            have e1 : i - 1 + 1 = i := by omega
            have e2 : j - 1 + 1 = j := by omega
            rw [e1, e2]
            exact h8
    · rw [if_neg c]
      exact hstop i j k aM (by omega) h

/-- The claim C23 fails: the lines `abcd` and `axyz` have the score 75, which is
not below 66, and `sbsAlignment` tags them as a pair. -/
theorem sbsAlignment_pairs_high_score :
    match_dline stdEnv abcdLine axyzLine = 75 ∧
    sbsAlignment stdEnv [abcdLine] 1 [axyzLine] 1 = [2] := by
  refine ⟨by decide, by decide⟩

/-- C23, amended. Every tag that `sbsAlignment` returns is 1 (left line only), 2
(pair) or 3 (right line only), and a left line and a right line are tagged as
a pair only when their score of `match_dline` is below 66 or when they have the
same position within the two runs: a pair with a score from 66 on is kept on the
diagonal, and elsewhere its lines are a line on the left only and a line on the
right only. -/
theorem sbsAlignment_paired (E : Env) (aLeft : List DLine) (nLeft : Nat) (aRight : List DLine)
    (nRight : Nat) :
    PairedOK E aLeft aRight 0 0 (sbsAlignment E aLeft nLeft aRight nRight) := by
  unfold sbsAlignment
  by_cases c1 : nLeft = 0
  · rw [if_pos c1]
    exact PairedOK_replicate_three E aLeft aRight _ _ _
  · rw [if_neg c1]
    by_cases c2 : nRight = 0
    · rw [if_pos c2]
      exact PairedOK_replicate_one E aLeft aRight _ _ _
    · rw [if_neg c2]
      dsimp only
      obtain ⟨f1, f2⟩ := foldl_set_three (nRight + 1)
        (List.replicate ((nLeft + 1) * (nRight + 1)) 0)
      rw [List.length_replicate] at f1 f2
      have hinit : MatOK E aLeft aRight nLeft nRight 1 0
          (((List.range (nRight + 1)).foldl (fun m i => m.set i 3)
            (List.replicate ((nLeft + 1) * (nRight + 1)) 0)).set 0 0) := by
        refine ⟨by rw [List.length_set]; exact f1, ?_⟩
        intro j i hj hi hlt hpos
        have ej : j = 0 := by omega
        subst ej
        rw [Nat.zero_mul, Nat.zero_add, getD_set, if_neg (fun hh => by omega)]
        have hlen := idx_lt nLeft nRight 0 i (Nat.zero_le _) hi
        rw [Nat.zero_mul, Nat.zero_add] at hlen
        rw [f2 i (by omega) hlen]
        exact Or.inr (Or.inl ⟨rfl, by omega⟩)
      have hM := alignRows_spec E aLeft aRight nLeft nRight nLeft 1
        ((List.range (nRight + 1)).map (fun i => (i : Int) * 50),
          ((List.range (nRight + 1)).foldl (fun m i => m.set i 3)
            (List.replicate ((nLeft + 1) * (nRight + 1)) 0)).set 0 0) (le_refl _) (by omega) hinit
      generalize (alignRows E aLeft aRight nLeft nRight nLeft 1
        ((List.range (nRight + 1)).map (fun i => (i : Int) * 50),
          ((List.range (nRight + 1)).foldl (fun m i => m.set i 3)
            (List.replicate ((nLeft + 1) * (nRight + 1)) 0)).set 0 0)).2 = M0 at hM ⊢
      have hlen := idx_lt nLeft nRight nLeft nRight (le_refl _) (le_refl _)
      have hk : ((nRight : Int) + 1) * ((nLeft : Int) + 1) - 1
          = ((nLeft * (nRight + 1) + nRight : Nat) : Int) := by
        push_cast
        ring
      rw [hk]
      apply alignPath_spec E aLeft aRight nLeft nRight M0 hM (nLeft + nRight) nRight nLeft
        (nLeft * (nRight + 1) + nRight) M0 (by omega)
      refine ⟨le_refl _, le_refl _, le_refl _, by rw [hM.1]; exact hlen, rfl,
        fun t _ => rfl, rfl, ?_⟩
      have e : M0.drop (nLeft * (nRight + 1) + nRight + 1) = [] := by
        apply List.drop_eq_nil_of_le
        rw [hM.1]
        have : (nLeft + 1) * (nRight + 1) = nLeft * (nRight + 1) + (nRight + 1) := by
          rw [Nat.succ_mul]
        omega
      rw [e, PairedOK]
      trivial

/-! ## `DIFF_INVERT` exchanges the two files -/

/-- C37. For all buffers `A` and `B`, every output blob or none, and all flags
`f` without `DIFF_INVERT`: `text_diff` of `A` and `B` with the flags `f` and
`DIFF_INVERT` gives what `text_diff` of `B` and `A` gives with the flags `f`, the
same edit script when there is no output blob and the same report when there
is one. -/
theorem text_diff_invert_swap (E : Env) (fuel : Nat) (A B : List Nat) (pOut : Option (List Nat))
    (f : Nat) (h : f &&& DIFF_INVERT = 0) :
    (f ||| DIFF_INVERT) &&& DIFF_INVERT ≠ 0 ∧
    text_diff E fuel A B pOut (f ||| DIFF_INVERT) = text_diff E fuel B A pOut f := by
  have hi : (f ||| DIFF_INVERT) &&& DIFF_INVERT ≠ 0 := by
    rw [Nat.and_distrib_right, h, Nat.zero_or]
    decide
  refine ⟨hi, ?_⟩
  rw [text_diff_lines E fuel A B pOut (f ||| DIFF_INVERT), text_diff_lines E fuel B A pOut f,
    if_pos hi, if_pos hi, if_neg (fun hc => hc h), if_neg (fun hc => hc h),
    flags_invert f DIFF_IGNORE_EOLWS (by decide)]
  cases break_into_lines E B (decide (f &&& DIFF_IGNORE_EOLWS ≠ 0)) with
  | none => rfl
  | some rB =>
    cases break_into_lines E A (decide (f &&& DIFF_IGNORE_EOLWS ≠ 0)) with
    | none => rfl
    | some rA =>
      unfold diffLines diff_context_lines diff_width
      simp only [flags_invert f DIFF_CONTEXT_MASK (by decide),
        flags_invert f DIFF_WIDTH_MASK (by decide), flags_invert f DIFF_NOOPT (by decide),
        flags_invert f DIFF_HTML (by decide), flags_invert f DIFF_SIDEBYSIDE (by decide),
        flags_invert f DIFF_LINENO (by decide)]

/-- The claim C37 for `a\n` and `a\nb\n`, an empty output blob and no other
flag. -/
theorem text_diff_invert_swap_witness :
    0 &&& DIFF_INVERT = 0 ∧
    ((0 ||| DIFF_INVERT) &&& DIFF_INVERT ≠ 0 ∧
    text_diff stdEnv 1 (str "a\n") (str "a\nb\n") (some []) (0 ||| DIFF_INVERT)
      = text_diff stdEnv 1 (str "a\nb\n") (str "a\n") (some []) 0) :=
  ⟨by decide, text_diff_invert_swap stdEnv 1 (str "a\n") (str "a\nb\n") (some []) 0 (by decide)⟩

/-! ## Which lines the tokenizer accepts -/

/-- The first loop of `break_into_lines` succeeds on a text without NUL in
which every run without a newline is within the limit, where a run counts one
byte more when a byte is in front of it, `j` bytes more when it is at the start
of the text, and one byte more when the last newline of the text follows it. -/
theorem countLines_fits : ∀ (z : List Nat) (j n : Nat), 0 ∉ z →
    (∀ pre l post, z = pre ++ (l ++ post) → 10 ∉ l →
      l.length + (if pre = [] then j else 1) + (if post = [10] then 1 else 0) ≤ 8191) →
    ∃ j2 n2, countLines z j n = some (j2, n2) ∧ j2 ≤ LENGTH_MASK := by
  have hM : LENGTH_MASK = 8191 := by decide
  intro z
  induction z with
  | nil =>
    intro j n _ h
    have := h [] [] [] rfl (by simp)
    simp only [List.length_nil, if_true] at this
    refine ⟨j, n, by rw [countLines], ?_⟩
    rw [hM]
    have e : ¬ (([] : List Nat) = [10]) := by simp
    rw [if_neg e] at this
    omega
  | cons c rest ih =>
    intro j n h0 h
    have hc : c ≠ 0 := fun e => h0 (by rw [e]; exact List.mem_cons_self _ _)
    have hr : 0 ∉ rest := fun e => h0 (List.mem_cons_of_mem _ e)
    rw [countLines, if_neg hc]
    by_cases c1 : c = 10 ∧ rest.headD 0 ≠ 0
    · rw [if_pos c1]
      have hj := h [] [] (c :: rest) rfl (by simp)
      have e : ¬ (c :: rest = [10]) := by
        intro e
        have : rest = [] := by
          injection e
        rw [this] at c1
        exact c1.2 rfl
      rw [if_neg e] at hj
      simp only [List.length_nil, if_true] at hj
      rw [if_neg (by rw [hM]; omega)]
      apply ih 1 (n + 1) hr
      intro pre l post hz h10
      have := h (c :: pre) l post (by rw [hz]; rfl) h10
      rw [if_neg (by simp)] at this
      by_cases hp : pre = []
      · rw [if_pos hp]
        exact this
      · rw [if_neg hp]
        exact this
    · rw [if_neg c1]
      apply ih (j + 1) n hr
      intro pre l post hz h10
      by_cases hp : pre = []
      · rw [if_pos hp]
        subst hp
        by_cases c10 : c = 10
        · have hrest : rest = [] := by
            cases rest with
            | nil => rfl
            | cons d r =>
              exfalso
              apply c1
              refine ⟨c10, ?_⟩
              intro hd
              apply hr
              rw [List.headD_cons] at hd
              rw [hd]
              exact List.mem_cons_self _ _
          have hl : l = [] := by
            rw [hrest] at hz
            have := congrArg List.length hz
            simp only [List.nil_append, List.length_append, List.length_nil] at this
            exact List.length_eq_zero.mp (by omega)
          have hpost : post = [] := by
            rw [hrest] at hz
            have := congrArg List.length hz
            simp only [List.nil_append, List.length_append, List.length_nil] at this
            exact List.length_eq_zero.mp (by omega)
          subst hl hpost
          have := h [] [] [10] (by rw [c10, hrest]; rfl) (by simp)
          simp only [List.length_nil, if_true] at this
          rw [if_neg (by simp)]
          simp only [List.length_nil]
          omega
        · have := h [] (c :: l) post (by rw [hz]; rfl) (by
            intro hm
            rcases List.mem_cons.mp hm with e | e
            · exact c10 e.symm
            · exact h10 e)
          simp only [List.length_cons, if_true] at this
          omega
      · rw [if_neg hp]
        have := h (c :: pre) l post (by rw [hz]; rfl) h10
        rw [if_neg (by simp)] at this
        exact this

/-- A buffer `a`, newline, and `n` bytes `b`: it holds no NUL, none of its runs
without a newline is longer than `n` bytes, and `break_into_lines` returns 0 for
it when `n` is 8191 or more. -/
theorem break_into_lines_second_line (n : Nat) (hn : 8191 ≤ n) :
    0 ∉ [97, 10] ++ List.replicate n 98 ∧
    (∀ pre l post, [97, 10] ++ List.replicate n 98 = pre ++ (l ++ post) → 10 ∉ l →
      l.length ≤ n) ∧
    break_into_lines stdEnv ([97, 10] ++ List.replicate n 98) false = none := by
  refine ⟨?_, ?_, ?_⟩
  · intro h
    rcases List.mem_append.mp h with h | h
    · revert h
      decide
    · exact absurd (List.eq_of_mem_replicate h) (by decide)
  · intro pre l post hz h10
    have hlen := congrArg List.length hz
    simp only [List.length_append, List.length_cons, List.length_nil, List.length_replicate]
      at hlen
    by_contra hc
    have hp : pre.length ≤ 1 := by omega
    have h1 : ([97, 10] ++ List.replicate n 98).getD 1 0 = 10 := rfl
    rw [hz] at h1
    apply h10
    have h2 : (pre ++ (l ++ post)).getD 1 0 = l.getD (1 - pre.length) 0 := by
      rcases pre with _ | ⟨a, _ | ⟨b, r⟩⟩
      · rw [List.nil_append, List.getD_append _ _ _ _ (by omega)]
        rfl
      · rw [List.singleton_append, List.getD_cons_succ, List.getD_append _ _ _ _ (by omega)]
        rfl
      · simp only [List.length_cons] at hp
        omega
    rw [h2, List.getD_eq_getElem _ _ (by omega)] at h1
    rw [← h1]
    exact List.getElem_mem _
  · obtain ⟨m, rfl⟩ : ∃ m, n = m + 1 := ⟨n - 1, by omega⟩
    have h1 : countLines ([97, 10] ++ List.replicate (m + 1) 98) 0 1
        = countLines (List.replicate (m + 1) 98 ++ []) 1 2 := by
      rw [List.append_nil]
      have e : [97, 10] ++ List.replicate (m + 1) 98
          = 97 :: 10 :: List.replicate (m + 1) 98 := rfl
      rw [e, countLines, if_neg (by decide), if_neg (fun hx => absurd hx.1 (by decide)),
        countLines, if_neg (by decide),
        if_pos ⟨rfl, by rw [List.replicate_succ, List.headD_cons]; decide⟩, if_neg (by decide)]
    have hM : LENGTH_MASK = 8191 := by decide
    have h2 := countLines_run [] (List.replicate (m + 1) 98) 1 2
      (fun h => absurd (List.eq_of_mem_replicate h) (by decide))
      (by rw [List.length_replicate, hM]; omega)
    unfold break_into_lines
    rw [h1]
    cases hc : countLines (List.replicate (m + 1) 98 ++ []) 1 2 with
    | none => rfl
    | some r =>
      rw [hc] at h2
      obtain ⟨j, n⟩ := r
      have hj : j > LENGTH_MASK := h2
      simp only [if_pos hj]

/-- C36. The claim fails for a line of 8191 bytes that is not the first line:
the buffer `a`, newline, and 8191 bytes `b` holds no NUL, none of its runs
without a newline is longer than 8191 bytes, and `break_into_lines` returns 0
for it.  The count `j` of the first loop is set to 0 at the newline and
incremented by the loop before the next byte is read, so that it is 8192, one
more than the length of the line, when the loop ends. -/
theorem break_into_lines_rejects_second_line :
    0 ∉ [97, 10] ++ List.replicate 8191 98 ∧
    (∀ pre l post, [97, 10] ++ List.replicate 8191 98 = pre ++ (l ++ post) → 10 ∉ l →
      l.length ≤ 8191) ∧
    break_into_lines stdEnv ([97, 10] ++ List.replicate 8191 98) false = none :=
  break_into_lines_second_line 8191 (le_refl _)

/-- What `break_into_lines` accepts: every buffer without a zero byte in which
the first line is at most 8191 bytes long, every later line at most 8190 bytes,
and the line in front of a newline that is the last byte of the buffer one byte
less than that: every run `l` without a newline, plus 1 when a byte is in front
of it and plus 1 when the last newline follows it, is within 8191. -/
theorem break_into_lines_accepts (E : Env) (z : List Nat) (ignoreWS : Bool) (h0 : 0 ∉ z)
    (hl : ∀ pre l post, z = pre ++ (l ++ post) → 10 ∉ l →
      l.length + (if pre = [] then 0 else 1) + (if post = [10] then 1 else 0) ≤ 8191) :
    break_into_lines E z ignoreWS ≠ none := by
  obtain ⟨j2, n2, h1, h2⟩ := countLines_fits z 0 1 h0 hl
  unfold break_into_lines
  rw [h1]
  simp only [if_neg (Nat.not_lt.mpr h2)]
  split_ifs <;> simp

/-- The buffer `a\nb\n` is accepted. -/
theorem break_into_lines_accepts_witness :
    (0 ∉ str "a\nb\n" ∧
      ∀ pre l post, str "a\nb\n" = pre ++ (l ++ post) → 10 ∉ l →
        l.length + (if pre = [] then 0 else 1) + (if post = [10] then 1 else 0) ≤ 8191) ∧
    break_into_lines stdEnv (str "a\nb\n") false ≠ none :=
  have hl : ∀ pre l post, str "a\nb\n" = pre ++ (l ++ post) → 10 ∉ l →
      l.length + (if pre = [] then 0 else 1) + (if post = [10] then 1 else 0) ≤ 8191 := by
    intro pre l post hz _
    have hlen := congrArg List.length hz
    simp only [List.length_append] at hlen
    have e : (str "a\nb\n").length = 4 := by decide
    rw [e] at hlen
    split_ifs <;> omega
  ⟨⟨by decide, hl⟩, break_into_lines_accepts stdEnv (str "a\nb\n") false (by decide) hl⟩

/-! ## The lines of a buffer hold all of its bytes -/

theorem lineEnd_no_newline : ∀ z : List Nat, 10 ∉ z.take (lineEnd z) := by
  intro z
  induction z with
  | nil => simp [lineEnd]
  | cons c rest ih =>
    rw [lineEnd]
    by_cases h : c ≠ 0 ∧ c ≠ 10
    · rw [if_pos h, List.take_succ_cons]
      intro hm
      rcases List.mem_cons.mp hm with e | e
      · exact h.2 e.symm
      · exact ih e
    · rw [if_neg h]
      simp

theorem lineStart_succ : ∀ (t : Nat) (z : List Nat),
    lineStart (t + 1) z = (lineStart t z).drop (lineEnd (lineStart t z) + 1) := by
  intro t
  induction t with
  | zero => intro z; rfl
  | succ t ih =>
    intro z
    rw [lineStart, ih, lineStart]

/-- The lines that the second loop of `break_into_lines` finds in a text that
the first loop accepts, written with their newlines, are the text, with a
newline added when the text does not end with one; and the first loop counts
one line for every newline that is not the last byte. -/
theorem joinLines_count : ∀ (m : Nat) (z : List Nat) (j n j2 n2 : Nat), z.length ≤ m →
    z ≠ [] → countLines z j n = some (j2, n2) →
    joinLines (n2 + 1 - n) z = (if z.getLast? = some 10 then z else z ++ [10]) ∧
    n2 = n + z.dropLast.count 10 := by
  intro m
  induction m with
  | zero =>
    intro z j n j2 n2 hm hz _
    exact absurd (List.length_eq_zero.mp (by omega)) hz
  | succ m ih =>
    intro z j n j2 n2 hm hz hc
    have hsplit : z.take (lineEnd z) ++ z.drop (lineEnd z) = z := List.take_append_drop _ _
    have hno := lineEnd_no_newline z
    rcases countLines_cases z j n with h | ⟨h, hd⟩ | ⟨h, hd⟩ | ⟨c, r, hd, hc0, _, h⟩
    · rw [h] at hc
      cases hc
    · rw [h] at hc
      injection hc with hc
      injection hc with _ hn
      subst hn
      rw [hd, List.append_nil] at hsplit
      rw [hsplit] at hno
      have e1 : n + 1 - n = 1 := by omega
      have hlast : ¬ z.getLast? = some 10 := fun hl => hno (List.mem_of_getLast?_eq_some hl)
      rw [e1, if_neg hlast, joinLines, joinLines, hsplit]
      refine ⟨rfl, ?_⟩
      have : z.dropLast.count 10 = 0 :=
        List.count_eq_zero.mpr (fun hx => hno (List.mem_of_mem_dropLast hx))
      omega
    · rw [h] at hc
      injection hc with hc
      injection hc with _ hn
      subst hn
      rw [hd] at hsplit
      have e1 : n + 1 - n = 1 := by omega
      have hlast : z.getLast? = some 10 := by
        rw [← hsplit]
        exact List.getLast?_concat _
      rw [e1, if_pos hlast, joinLines, joinLines]
      refine ⟨hsplit, ?_⟩
      have : z.dropLast.count 10 = 0 := by
        rw [← hsplit, List.dropLast_concat]
        exact List.count_eq_zero.mpr hno
      omega
    · rw [h] at hc
      rw [hd] at hsplit
      have hlen := congrArg List.length hsplit
      simp only [List.length_append, List.length_cons] at hlen
      obtain ⟨i1, i2⟩ := ih (c :: r) 1 (n + 1) j2 n2 (by simp only [List.length_cons]; omega)
        (by simp) hc
      have hle := countLines_le (c :: r) 1 (n + 1) j2 n2 hc
      have e1 : n2 + 1 - n = (n2 + 1 - (n + 1)) + 1 := by omega
      have hdrop : z.drop (lineEnd z + 1) = c :: r := by
        rw [← List.drop_drop, hd]
        rfl
      have hlast : z.getLast? = (c :: r).getLast? := by
        rw [← hsplit, List.getLast?_append]
        have : (10 :: c :: r).getLast? = (c :: r).getLast? := List.getLast?_cons_cons
        rw [this]
        cases hx : (c :: r).getLast? with
        | none => simp at hx
        | some x => rfl
      rw [e1, joinLines, hdrop, i1, hlast]
      refine ⟨?_, ?_⟩
      · by_cases hl : (c :: r).getLast? = some 10
        · rw [if_pos hl, if_pos hl]
          exact hsplit
        · rw [if_neg hl, if_neg hl]
          conv_rhs => rw [← hsplit]
          simp
      · have : z.dropLast.count 10 = 1 + (c :: r).dropLast.count 10 := by
          rw [← hsplit]
          have e2 : List.take (lineEnd z) z ++ 10 :: c :: r
              = (List.take (lineEnd z) z ++ [10]) ++ (c :: r) := by simp
          rw [e2, List.dropLast_append_of_ne_nil _ (by simp), List.count_append,
            List.count_append, List.count_eq_zero.mpr hno]
          simp
        omega

theorem writeLines_join (E : Env) (z : List Nat) (L : List DLine) (n : Nat)
    (h : break_into_lines E z false = some (L, n)) :
    ∀ (k t : Nat), t + k ≤ n → writeLines L k t = joinLines k (lineStart t z) := by
  intro k
  induction k with
  | zero => intro t _; rfl
  | succ k ih =>
    intro t ht
    obtain ⟨h1, _, h3, _, _⟩ := break_into_lines_spec E false z L n t h (by omega)
    have e : lineLength E false (lineStart t z) = lineEnd (lineStart t z) := by
      unfold lineLength
      rfl
    rw [writeLines, joinLines, h1, h3, e, ih (t + 1) (by omega), lineStart_succ]

/-- C35. For every buffer `z` that is not empty and that `break_into_lines`
accepts without the flag to ignore white space: the bytes of the `n` lines,
each followed by a newline, are the buffer when it ends with a newline and the
buffer with one newline more otherwise; the first line starts at the start of
the buffer and each line starts behind the newline of the line before; `n` is 1
plus the number of newlines that are not the last byte of the buffer.  For the
empty buffer the number of lines is 0. -/
theorem break_into_lines_lossless (E : Env) (z : List Nat) (L : List DLine) (n : Nat)
    (hz : z ≠ []) (h : break_into_lines E z false = some (L, n)) :
    writeLines L n 0 = (if z.getLast? = some 10 then z else z ++ [10]) ∧
    (L.getD 0 DLine.zero).z = z ∧
    (∀ t, t + 1 < n → (L.getD (t + 1) DLine.zero).z
      = (L.getD t DLine.zero).z.drop (LENGTH (L.getD t DLine.zero) + 1)) ∧
    n = 1 + z.dropLast.count 10 ∧
    (break_into_lines E [] false).map Prod.snd = some 0 := by
  have hj := writeLines_join E z L n h n 0 (by omega)
  have hlen : z.length ≠ 0 := fun e => hz (List.length_eq_zero.mp e)
  have hc : ∃ j, countLines z 0 1 = some (j, n) := by
    unfold break_into_lines at h
    cases hcl : countLines z 0 1 with
    | none => rw [hcl] at h; cases h
    | some r =>
      obtain ⟨j, n2⟩ := r
      rw [hcl] at h
      dsimp only at h
      split_ifs at h
      injection h with h
      injection h with _ hn
      exact ⟨j, by rw [hn]⟩
  obtain ⟨j, hc⟩ := hc
  obtain ⟨g1, g2⟩ := joinLines_count z.length z 0 1 j n (le_refl _) hz hc
  have hn1 : n + 1 - 1 = n := by omega
  rw [hn1] at g1
  refine ⟨?_, ?_, ?_, by omega, rfl⟩
  · rw [hj]
    exact g1
  · exact (break_into_lines_spec E false z L n 0 h (by omega)).1
  · intro t ht
    obtain ⟨a1, _, a3, _, _⟩ := break_into_lines_spec E false z L n t h (by omega)
    obtain ⟨b1, _⟩ := break_into_lines_spec E false z L n (t + 1) h ht
    have e : lineLength E false (lineStart t z) = lineEnd (lineStart t z) := by
      unfold lineLength
      rfl
    rw [b1, a1, a3, e, lineStart_succ]

/-- The claim C35 for the buffer `a\nb\n`. -/
theorem break_into_lines_lossless_witness :
    (str "a\nb\n" ≠ [] ∧ break_into_lines stdEnv (str "a\nb\n") false = some (abLines, 2)) ∧
    (writeLines abLines 2 0
      = (if (str "a\nb\n").getLast? = some 10 then str "a\nb\n" else str "a\nb\n" ++ [10]) ∧
    (abLines.getD 0 DLine.zero).z = str "a\nb\n" ∧
    (∀ t, t + 1 < 2 → (abLines.getD (t + 1) DLine.zero).z
      = (abLines.getD t DLine.zero).z.drop (LENGTH (abLines.getD t DLine.zero) + 1)) ∧
    2 = 1 + (str "a\nb\n").dropLast.count 10 ∧
    (break_into_lines stdEnv [] false).map Prod.snd = some 0) :=
  ⟨⟨by decide, by decide⟩,
    break_into_lines_lossless stdEnv (str "a\nb\n") abLines 2 (by decide) (by decide)⟩

/-! ## `diff_step` terminates -/

/-- What `diff_step` returns has the lines and the line counts of the context
that it was called with. -/
theorem diff_step_fields (E : Env) :
    ∀ (fuel : Nat) (q : DContext) (iS1 iE1 iS2 iE2 : Nat) (q2 : DContext),
    diff_step E fuel q iS1 iE1 iS2 iE2 = some q2 →
    q2.aFrom = q.aFrom ∧ q2.aTo = q.aTo ∧ q2.nFrom = q.nFrom ∧ q2.nTo = q.nTo := by
  intro fuel
  induction fuel with
  | zero =>
    intro q iS1 iE1 iS2 iE2 q2 h
    rw [diff_step] at h
    cases h
  | succ fuel ih =>
    intro q iS1 iE1 iS2 iE2 q2 h
    rw [diff_step] at h
    by_cases c1 : iE1 ≤ iS1
    · rw [if_pos c1] at h
      by_cases c2 : iE2 > iS2
      · rw [if_pos c2] at h
        injection h with h
        rw [← h]
        exact appendTriple_fields q 0 0 _
      · rw [if_neg c2] at h
        injection h with h
        rw [← h]
        exact ⟨rfl, rfl, rfl, rfl⟩
    · rw [if_neg c1] at h
      by_cases c2 : iE2 ≤ iS2
      · rw [if_pos c2] at h
        injection h with h
        rw [← h]
        exact appendTriple_fields q 0 _ 0
      · rw [if_neg c2] at h
        dsimp only at h
        by_cases c3 : (longestCommonSequence E q iS1 iE1 iS2 iE2).2.1
            > (longestCommonSequence E q iS1 iE1 iS2 iE2).1
        · rw [if_pos c3] at h
          cases hd : diff_step E fuel q iS1 (longestCommonSequence E q iS1 iE1 iS2 iE2).1 iS2
              (longestCommonSequence E q iS1 iE1 iS2 iE2).2.2.1 with
          | none =>
            rw [hd] at h
            cases h
          | some q1 =>
            rw [hd] at h
            dsimp only at h
            obtain ⟨f1, f2, f3, f4⟩ := ih _ _ _ _ _ _ hd
            obtain ⟨g1, g2, g3, g4⟩ := appendTriple_fields q1
              (((longestCommonSequence E q iS1 iE1 iS2 iE2).2.1 : Int)
                - (longestCommonSequence E q iS1 iE1 iS2 iE2).1) 0 0
            obtain ⟨k1, k2, k3, k4⟩ := ih _ _ _ _ _ _ h
            exact ⟨by rw [k1, g1, f1], by rw [k2, g2, f2], by rw [k3, g3, f3],
              by rw [k4, g4, f4]⟩
        · rw [if_neg c3] at h
          injection h with h
          rw [← h]
          exact appendTriple_fields q 0 _ _

/-- With more fuel than the left range has lines `diff_step` returns, whatever
the ranges and the script so far are, and it leaves the lines and the line
counts of the context. -/
theorem diff_step_returns (E : Env) :
    ∀ (fuel : Nat) (q : DContext) (iS1 iE1 iS2 iE2 : Nat), iE1 - iS1 < fuel →
    ∃ q2, diff_step E fuel q iS1 iE1 iS2 iE2 = some q2 ∧ q2.aFrom = q.aFrom ∧
      q2.aTo = q.aTo ∧ q2.nFrom = q.nFrom ∧ q2.nTo = q.nTo := by
  intro fuel
  induction fuel with
  | zero => intro q iS1 iE1 iS2 iE2 hf; omega
  | succ fuel ih =>
    intro q iS1 iE1 iS2 iE2 hf
    rw [diff_step]
    by_cases c1 : iE1 ≤ iS1
    · rw [if_pos c1]
      by_cases c2 : iE2 > iS2
      · rw [if_pos c2]
        exact ⟨_, rfl, appendTriple_fields q 0 0 _⟩
      · rw [if_neg c2]
        exact ⟨_, rfl, rfl, rfl, rfl, rfl⟩
    · rw [if_neg c1]
      by_cases c2 : iE2 ≤ iS2
      · rw [if_pos c2]
        exact ⟨_, rfl, appendTriple_fields q 0 _ 0⟩
      · rw [if_neg c2]
        dsimp only
        obtain ⟨v1, v2, v3, v4, v5, v6, _⟩ := longestCommonSequence_valid E q iS1 iE1 iS2 iE2
          (by omega) (by omega) _ rfl
        by_cases c3 : (longestCommonSequence E q iS1 iE1 iS2 iE2).2.1
            > (longestCommonSequence E q iS1 iE1 iS2 iE2).1
        · rw [if_pos c3]
          obtain ⟨q1, e1, f1, f2, f3, f4⟩ := ih q iS1 (longestCommonSequence E q iS1 iE1 iS2 iE2).1
            iS2 (longestCommonSequence E q iS1 iE1 iS2 iE2).2.2.1 (by omega)
          rw [e1]
          dsimp only
          obtain ⟨g1, g2, g3, g4⟩ := appendTriple_fields q1
            (((longestCommonSequence E q iS1 iE1 iS2 iE2).2.1 : Int)
              - (longestCommonSequence E q iS1 iE1 iS2 iE2).1) 0 0
          obtain ⟨q2, e2, k1, k2, k3, k4⟩ := ih (appendTriple q1
            (((longestCommonSequence E q iS1 iE1 iS2 iE2).2.1 : Int)
              - (longestCommonSequence E q iS1 iE1 iS2 iE2).1) 0 0)
            (longestCommonSequence E q iS1 iE1 iS2 iE2).2.1 iE1
            (longestCommonSequence E q iS1 iE1 iS2 iE2).2.2.2 iE2 (by omega)
          exact ⟨q2, e2, by rw [k1, g1, f1], by rw [k2, g2, f2], by rw [k3, g3, f3],
            by rw [k4, g4, f4]⟩
        · rw [if_neg c3]
          exact ⟨_, rfl, appendTriple_fields q 0 _ _⟩

/-- Every call of `longestCommonSequence` that `diff_step` makes for a right
range that ends within the right file is for two ranges with at least one line
each, the right one within the right file, whose line count is thus positive. -/
theorem lcsCalls_positive (E : Env) :
    ∀ (fuel : Nat) (q : DContext) (iS1 iE1 iS2 iE2 : Nat), iE2 ≤ q.nTo →
    ∀ c, c ∈ lcsCalls E fuel q iS1 iE1 iS2 iE2 →
      c.1 = q.nTo ∧ 0 < c.1 ∧ c.2.1 < c.2.2.1 ∧ c.2.2.2.1 < c.2.2.2.2 ∧ c.2.2.2.2 ≤ c.1 := by
  intro fuel
  induction fuel with
  | zero =>
    intro q iS1 iE1 iS2 iE2 _ c hc
    rw [lcsCalls] at hc
    cases hc
  | succ fuel ih =>
    intro q iS1 iE1 iS2 iE2 h3 c hc
    rw [lcsCalls] at hc
    by_cases c1 : iE1 ≤ iS1
    · rw [if_pos c1] at hc
      cases hc
    · rw [if_neg c1] at hc
      by_cases c2 : iE2 ≤ iS2
      · rw [if_pos c2] at hc
        cases hc
      · rw [if_neg c2] at hc
        dsimp only at hc
        obtain ⟨v1, v2, v3, v4, v5, v6, _⟩ := longestCommonSequence_valid E q iS1 iE1 iS2 iE2
          (by omega) (by omega) _ rfl
        rcases List.mem_cons.mp hc with hc | hc
        · rw [hc]
          dsimp only
          exact ⟨rfl, by omega, by omega, by omega, h3⟩
        · by_cases c3 : (longestCommonSequence E q iS1 iE1 iS2 iE2).2.1
              > (longestCommonSequence E q iS1 iE1 iS2 iE2).1
          · rw [if_pos c3] at hc
            rcases List.mem_append.mp hc with hc | hc
            · exact ih q _ _ _ _ (by omega) c hc
            · cases hd : diff_step E fuel q iS1 (longestCommonSequence E q iS1 iE1 iS2 iE2).1 iS2
                  (longestCommonSequence E q iS1 iE1 iS2 iE2).2.2.1 with
              | none =>
                rw [hd] at hc
                cases hc
              | some q1 =>
                rw [hd] at hc
                dsimp only at hc
                have hn : q1.nTo = q.nTo := (diff_step_fields E _ _ _ _ _ _ _ hd).2.2.2
                obtain ⟨_, _, _, g4⟩ := appendTriple_fields q1
                  (((longestCommonSequence E q iS1 iE1 iS2 iE2).2.1 : Int)
                    - (longestCommonSequence E q iS1 iE1 iS2 iE2).1) 0 0
                have := ih _ _ _ _ _ (by rw [g4, hn]; exact h3) c hc
                rw [g4, hn] at this
                exact this
          · rw [if_neg c3] at hc
            cases hc

/-- C39. With more fuel than the left range has lines `diff_step` returns, for
every pair of ranges.  When it calls `longestCommonSequence`, for two ranges with
at least one line each, and the run that comes back is not empty, then the run
lies within the ranges, `iS1 <= iSX < iEX <= iE1` and `iS2 <= iSY < iEY <= iE2`,
with the same length on both sides, so that the ranges of the two calls of
`diff_step` that follow have fewer lines than the ranges of this call.  For a
right range that ends within the right file every call of
`longestCommonSequence` is made with a positive right line count `p->nTo`, by
which the hash of a line is reduced. -/
theorem diff_step_terminates (E : Env) (p : DContext) (iS1 iE1 iS2 iE2 fuel : Nat)
    (hf : iE1 - iS1 < fuel) :
    (∃ q, diff_step E fuel p iS1 iE1 iS2 iE2 = some q) ∧
    (iS1 < iE1 → iS2 < iE2 → ∀ r, longestCommonSequence E p iS1 iE1 iS2 iE2 = r → r.1 < r.2.1 →
      iS1 ≤ r.1 ∧ r.2.1 ≤ iE1 ∧ iS2 ≤ r.2.2.1 ∧ r.2.2.1 < r.2.2.2 ∧ r.2.2.2 ≤ iE2 ∧
      r.2.1 - r.1 = r.2.2.2 - r.2.2.1 ∧
      r.1 - iS1 < iE1 - iS1 ∧ iE1 - r.2.1 < iE1 - iS1 ∧
      r.2.2.1 - iS2 < iE2 - iS2 ∧ iE2 - r.2.2.2 < iE2 - iS2) ∧
    (iE2 ≤ p.nTo → ∀ c, c ∈ lcsCalls E fuel p iS1 iE1 iS2 iE2 →
      c.1 = p.nTo ∧ 0 < c.1 ∧ c.2.1 < c.2.2.1 ∧ c.2.2.2.1 < c.2.2.2.2 ∧ c.2.2.2.2 ≤ c.1) := by
  refine ⟨?_, ?_, lcsCalls_positive E fuel p iS1 iE1 iS2 iE2⟩
  · obtain ⟨q, hq, _⟩ := diff_step_returns E fuel p iS1 iE1 iS2 iE2 hf
    exact ⟨q, hq⟩
  · intro a1 a2 r hr hne
    obtain ⟨v1, v2, v3, v4, v5, v6, _⟩ := longestCommonSequence_valid E p iS1 iE1 iS2 iE2
      (by omega) (by omega) r hr
    refine ⟨v3, ?_, v5, ?_, ?_, ?_, ?_, ?_, ?_, ?_⟩ <;> omega

/-- The claim C39 for the lines of `a\nb\nc\n` and `a\nx\nc\n`, with the whole
files as the ranges. -/
theorem diff_step_terminates_witness :
    3 - 0 < 4 ∧
    ((∃ q, diff_step stdEnv 4 abcInput 0 3 0 3 = some q) ∧
    (0 < 3 → 0 < 3 → ∀ r, longestCommonSequence stdEnv abcInput 0 3 0 3 = r → r.1 < r.2.1 →
      0 ≤ r.1 ∧ r.2.1 ≤ 3 ∧ 0 ≤ r.2.2.1 ∧ r.2.2.1 < r.2.2.2 ∧ r.2.2.2 ≤ 3 ∧
      r.2.1 - r.1 = r.2.2.2 - r.2.2.1 ∧
      r.1 - 0 < 3 - 0 ∧ 3 - r.2.1 < 3 - 0 ∧
      r.2.2.1 - 0 < 3 - 0 ∧ 3 - r.2.2.2 < 3 - 0) ∧
    (3 ≤ abcInput.nTo → ∀ c, c ∈ lcsCalls stdEnv 4 abcInput 0 3 0 3 →
      c.1 = abcInput.nTo ∧ 0 < c.1 ∧ c.2.1 < c.2.2.1 ∧ c.2.2.2.1 < c.2.2.2.2 ∧
        c.2.2.2.2 ≤ c.1)) :=
  ⟨by decide, diff_step_terminates stdEnv abcInput 0 3 0 3 4 (by decide)⟩

/-! ## Two files whose lines are the same, pair by pair -/

theorem stripSuffix_all (p : DContext) :
    ∀ (fuel k : Nat), k ≤ fuel → CommonRun p 0 0 k → stripSuffix p fuel k k = (0, 0) := by
  intro fuel
  induction fuel with
  | zero =>
    intro k hk _
    have : k = 0 := by omega
    subst this
    rfl
  | succ fuel ih =>
    intro k hk hc
    rw [stripSuffix]
    by_cases c : k > 0
    · have hs := hc (k - 1) (by omega)
      rw [Nat.zero_add] at hs
      rw [if_pos ⟨c, c, hs⟩]
      exact ih (k - 1) (by omega) (fun t ht => hc t (by omega))
    · have : k = 0 := by omega
      subst this
      rw [if_neg (fun hh => absurd hh.1 (by decide))]

/-- The four loops of `diff_optimize` change nothing at a triple that deletes
nothing and inserts nothing. -/
theorem shift_plain (p : DContext) (r : Nat) (s : OptState) (fuel : Nat) :
    shiftInsUp p r 0 0 fuel s = s ∧ shiftInsDown p r 0 0 fuel s = s ∧
    shiftDelUp p r 0 0 fuel s = s ∧ shiftDelDown p r 0 0 fuel s = s := by
  cases fuel with
  | zero => exact ⟨rfl, rfl, rfl, rfl⟩
  | succ fuel =>
    refine ⟨?_, ?_, ?_, ?_⟩
    · rw [shiftInsUp, if_neg (fun hh => absurd hh.2.2 (by decide))]
    · rw [shiftInsDown, if_neg (fun hh => absurd hh.2.2.2 (by decide))]
    · rw [shiftDelUp, if_neg (fun hh => absurd hh.2.1 (by decide))]
    · rw [shiftDelDown, if_neg (fun hh => absurd hh.2.2.1 (by decide))]

theorem optRound_plain (p : DContext) (k r : Nat) (aEdit : List Int) (lnFrom lnTo : Int)
    (h1 : aEdit.getD (r + 1) 0 = 0) (h2 : aEdit.getD (r + 2) 0 = 0) :
    optRound p k r aEdit lnFrom lnTo
      = { aEdit := aEdit, lnFrom := lnFrom + aEdit.getD r 0, lnTo := lnTo + aEdit.getD r 0,
          cpy := aEdit.getD r 0 } := by
  unfold optRound loopDelDown loopDelUp loopInsDown loopInsUp
  rw [h1, h2]
  simp only [(shift_plain p r _ _).1, (shift_plain p r _ _).2.1, (shift_plain p r _ _).2.2.1,
    (shift_plain p r _ _).2.2.2]

/-- The loop of `diff_optimize` leaves a script in which no triple deletes or
inserts. -/
theorem optimizeLoop_plain (p : DContext) (k : Nat) (aEdit : List Int)
    (h : ∀ m, aEdit.getD (3 * m + 1) 0 = 0 ∧ aEdit.getD (3 * m + 2) 0 = 0) :
    ∀ (fuel m : Nat) (lnFrom lnTo : Int), optimizeLoop p k fuel (3 * m) aEdit lnFrom lnTo = aEdit := by
  intro fuel
  induction fuel with
  | zero => intro m lnFrom lnTo; rfl
  | succ fuel ih =>
    intro m lnFrom lnTo
    rw [optimizeLoop_succ]
    by_cases c : 3 * m < aEdit.length
    · rw [if_pos c, optRound_plain p k (3 * m) aEdit lnFrom lnTo (h m).1 (h m).2]
      exact ih (m + 1) _ _
    · rw [if_neg c]

theorem sameScript_plain (n : Nat) :
    ∀ m, (sameScript n).getD (3 * m + 1) 0 = 0 ∧ (sameScript n).getD (3 * m + 2) 0 = 0 := by
  intro m
  unfold sameScript
  by_cases c : n = 0
  · rw [if_pos c]
    rcases m with _ | m
    · exact ⟨rfl, rfl⟩
    · have hl : (([] : List Int) ++ [0, 0, 0]).length = 3 := rfl
      constructor <;> exact List.getD_eq_default _ _ (by rw [hl]; omega)
  · rw [if_neg c]
    rcases m with _ | _ | m
    · exact ⟨rfl, rfl⟩
    · exact ⟨rfl, rfl⟩
    · have hl : ([(n : Int), 0, 0] ++ [0, 0, 0]).length = 6 := rfl
      constructor <;> exact List.getD_eq_default _ _ (by rw [hl]; omega)

theorem trimEdit_sameScript (n : Nat) :
    trimEdit (sameScript n) (sameScript n).length (sameScript n).length = 0 := by
  unfold sameScript
  by_cases c : n = 0
  · rw [if_pos c]
    rfl
  · rw [if_neg c]
    simp [trimEdit]

/-- With at least one round of fuel `diff_all` gives, for two files with the
same number of lines that are the same pair by pair, the script that copies
all lines. -/
theorem diff_all_same (E : Env) (p : DContext) (fuel : Nat) (h0 : p.aEdit = [])
    (hn : p.nTo = p.nFrom) (hc : CommonRun p 0 0 p.nFrom) :
    diff_all E (fuel + 1) p = some { p with aEdit := sameScript p.nFrom } := by
  unfold diff_all
  dsimp only
  rw [hn, stripSuffix_all p p.nFrom p.nFrom (le_refl _) hc]
  dsimp only
  have e1 : (if (0 : Nat) < 0 then (0 : Nat) else 0) = 0 := rfl
  rw [e1]
  have e2 : stripPrefix p 0 0 0 = 0 := rfl
  rw [e2, if_neg (by decide), diff_step, if_pos (le_refl _), if_neg (by decide)]
  dsimp only
  unfold sameScript
  by_cases c : p.nFrom = 0
  · rw [if_neg (by omega), if_pos c, h0, hn]
  · rw [if_pos (by omega), if_neg c]
    unfold appendTriple
    rw [h0]
    simp
    exact hn

/-- What `text_diff` does with the lines of two files that have the same number
of lines, the same pair by pair: the script copies all lines, and nothing is
added to an output blob, in a context diff and in a side-by-side diff. -/
theorem diffLines_same (E : Env) (fuel : Nat) (LA LB : List DLine) (n : Nat)
    (pOut : Option (List Nat)) (diffFlags : Nat)
    (hc : ∀ t, t < n →
      same_dline (LA.getD t DLine.zero) (LB.getD t DLine.zero) = true) :
    diffLines E (fuel + 1) (some (LA, n)) (some (LB, n)) pOut diffFlags
      = (match pOut with
        | none => some (some (sameScript n), none)
        | some out => some (none, some out)) := by
  have hd : diff_all E (fuel + 1) (DContext.mk [] LA n LB n)
      = some (DContext.mk (sameScript n) LA n LB n) :=
    diff_all_same E (DContext.mk [] LA n LB n) fuel rfl rfl (fun t ht => by
      rw [Nat.zero_add]
      exact hc t ht)
  unfold diffLines
  dsimp only
  rw [hd]
  have ho : diff_optimize { aEdit := sameScript n, aFrom := LA, nFrom := n, aTo := LB, nTo := n }
      = { aEdit := sameScript n, aFrom := LA, nFrom := n, aTo := LB, nTo := n } := by
    unfold diff_optimize
    have := optimizeLoop_plain (DContext.mk (sameScript n) LA n LB n) 0 (sameScript n)
      (sameScript_plain n) (sameScript n).length 0 0 0
    rw [Nat.mul_zero] at this
    rw [this]
  dsimp only
  rw [ho]
  have hcx : ∀ (out : List Nat) (nContext : Int) (showLn html : Bool),
      contextDiff E { aEdit := sameScript n, aFrom := LA, nFrom := n, aTo := LB, nTo := n } out
        nContext showLn html = out := by
    intro out nContext showLn html
    unfold contextDiff
    dsimp only
    rw [trimEdit_sameScript]
    rfl
  have hsb : ∀ (out : List Nat) (nContext width : Int) (escHtml : Bool),
      sbsDiff E { aEdit := sameScript n, aFrom := LA, nFrom := n, aTo := LB, nTo := n } out
        nContext width escHtml = out := by
    intro out nContext width escHtml
    unfold sbsDiff
    dsimp only
    rw [trimEdit_sameScript]
    rfl
  have hif : (if diffFlags &&& DIFF_NOOPT = 0 then DContext.mk (sameScript n) LA n LB n
      else DContext.mk (sameScript n) LA n LB n) = DContext.mk (sameScript n) LA n LB n := by
    split_ifs <;> rfl
  rw [hif]
  cases pOut with
  | none => rfl
  | some out =>
    dsimp only
    rw [hcx, hsb]
    split_ifs <;> rfl

/-- C38. For every buffer `A` that `break_into_lines` splits into `n` lines, and
all flags: `text_diff` of `A` and `A` returns the script (n,0,0), (0,0,0) when
`n` is at least 1, and it adds nothing to an output blob, in a context diff and
in a side-by-side diff; for two empty buffers the script is (0,0,0). -/
theorem text_diff_same (E : Env) (fuel : Nat) (A : List Nat) (diffFlags : Nat) (L : List DLine)
    (n : Nat)
    (h : break_into_lines E A (decide (diffFlags &&& DIFF_IGNORE_EOLWS ≠ 0)) = some (L, n)) :
    (1 ≤ n → text_diff E (fuel + 1) A A none diffFlags
      = some (some [(n : Int), 0, 0, 0, 0, 0], none)) ∧
    (∀ out, text_diff E (fuel + 1) A A (some out) diffFlags = some (none, some out)) ∧
    (∀ out, text_diff E (fuel + 1) A A (some out) (diffFlags ||| DIFF_SIDEBYSIDE)
      = some (none, some out)) ∧
    text_diff E (fuel + 1) [] [] none diffFlags = some (some [0, 0, 0], none) := by
  have key : ∀ (B : List Nat) (LB : List DLine) (m f : Nat) (pOut : Option (List Nat)),
      break_into_lines E B (decide (f &&& DIFF_IGNORE_EOLWS ≠ 0)) = some (LB, m) →
      text_diff E (fuel + 1) B B pOut f
        = (match pOut with
          | none => some (some (sameScript m), none)
          | some out => some (none, some out)) := by
    intro B LB m f pOut hB
    rw [text_diff_lines]
    have e : ∀ (X : List Nat), (if f &&& DIFF_INVERT ≠ 0 then X else X) = X := by
      intro X
      split_ifs <;> rfl
    rw [e, hB]
    exact diffLines_same E fuel LB LB m pOut f (fun t _ => same_dline_refl _)
  refine ⟨?_, ?_, ?_, ?_⟩
  · intro hn
    rw [key A L n diffFlags none h]
    unfold sameScript
    rw [if_neg (by omega)]
    rfl
  · intro out
    rw [key A L n diffFlags (some out) h]
  · intro out
    have hw : (diffFlags ||| DIFF_SIDEBYSIDE) &&& DIFF_IGNORE_EOLWS
        = diffFlags &&& DIFF_IGNORE_EOLWS := by
      rw [Nat.and_distrib_right]
      have : DIFF_SIDEBYSIDE &&& DIFF_IGNORE_EOLWS = 0 := by decide
      rw [this, Nat.or_zero]
    rw [key A L n (diffFlags ||| DIFF_SIDEBYSIDE) (some out) (by rw [hw]; exact h)]
  · have hE : break_into_lines E [] (decide (diffFlags &&& DIFF_IGNORE_EOLWS ≠ 0))
        = some (List.replicate 1 DLine.zero, 0) := rfl
    rw [key [] _ 0 diffFlags none hE]
    rfl

/-- The claim C38 for the buffer `a\nb\n` and no flag. -/
theorem text_diff_same_witness :
    break_into_lines stdEnv (str "a\nb\n") (decide (0 &&& DIFF_IGNORE_EOLWS ≠ 0))
      = some (abLines, 2) ∧
    ((1 ≤ 2 → text_diff stdEnv (0 + 1) (str "a\nb\n") (str "a\nb\n") none 0
      = some (some [((2 : Nat) : Int), 0, 0, 0, 0, 0], none)) ∧
    (∀ out, text_diff stdEnv (0 + 1) (str "a\nb\n") (str "a\nb\n") (some out) 0
      = some (none, some out)) ∧
    (∀ out, text_diff stdEnv (0 + 1) (str "a\nb\n") (str "a\nb\n") (some out)
        (0 ||| DIFF_SIDEBYSIDE)
      = some (none, some out)) ∧
    text_diff stdEnv (0 + 1) [] [] none 0 = some (some [0, 0, 0], none)) :=
  ⟨by decide, text_diff_same stdEnv 0 (str "a\nb\n") 0 abLines 2 (by decide)⟩

/-! ## White space at the end of a line -/

theorem trimEnd_congr (E : Env) (zA zB : List Nat) :
    ∀ k, (∀ t, t < k → zA.getD t 0 = zB.getD t 0) → trimEnd E zA k = trimEnd E zB k := by
  intro k
  induction k with
  | zero => intro _; rfl
  | succ k ih =>
    intro h
    rw [trimEnd, trimEnd, h k (by omega), ih (fun t ht => h t (by omega))]

theorem trimEnd_space (E : Env) (c w : List Nat) (hw : ∀ x, x ∈ w → E.vcs_isspace x = true) :
    ∀ m, m ≤ w.length → trimEnd E (c ++ w) (c.length + m) = trimEnd E c c.length := by
  intro m
  induction m with
  | zero =>
    intro _
    rw [Nat.add_zero]
    apply trimEnd_congr
    intro t ht
    exact List.getD_append _ _ _ _ ht
  | succ m ih =>
    intro hm
    have e : c.length + (m + 1) = (c.length + m) + 1 := by omega
    rw [e, trimEnd]
    have hg : (c ++ w).getD (c.length + m) 0 = w.getD m 0 := by
      rw [List.getD_append_right _ _ _ _ (by omega)]
      congr 1
      omega
    rw [hg, List.getD_eq_getElem _ _ (by omega), hw _ (List.getElem_mem _), if_pos rfl]
    exact ih (by omega)

theorem getD_take_lt (z : List Nat) (n t : Nat) (h : t < n) : (z.take n).getD t 0 = z.getD t 0 := by
  rw [List.getD_eq_getElem?_getD, List.getD_eq_getElem?_getD, List.getElem?_take_of_lt h]

/-- The length and the bytes that `break_into_lines` records, with the flag to
ignore white space at the ends of lines, for a line `c` followed by white
space. -/
theorem lineLength_eolws (E : Env) (z c w : List Nat) (h : z.take (lineEnd z) = c ++ w)
    (hw : ∀ x, x ∈ w → E.vcs_isspace x = true) :
    lineLength E true z = trimEnd E c c.length ∧
    z.take (lineLength E true z) = c.take (trimEnd E c c.length) := by
  have hlen : lineEnd z = c.length + w.length := by
    have := congrArg List.length h
    rw [List.length_take, List.length_append, Nat.min_eq_left (lineEnd_le_length z)] at this
    exact this
  have h1 : lineLength E true z = trimEnd E c c.length := by
    unfold lineLength
    rw [if_pos rfl]
    have : trimEnd E z (lineEnd z) = trimEnd E (c ++ w) (lineEnd z) := by
      apply trimEnd_congr
      intro t ht
      rw [← h, getD_take_lt z _ t ht]
    rw [this, hlen]
    exact trimEnd_space E c w hw w.length (le_refl _)
  refine ⟨h1, ?_⟩
  rw [h1]
  have hk := trimEnd_le E c c.length
  have : z.take (trimEnd E c c.length) = (z.take (lineEnd z)).take (trimEnd E c c.length) := by
    rw [List.take_take, Nat.min_eq_left (by omega)]
  rw [this, h, List.take_append_of_le_length hk]

/-- Two lines that `break_into_lines` has recorded with the flag to ignore
white space at the ends of lines, and that differ at most in such white space,
have the same hash and are the same for `same_dline`. -/
theorem same_dline_eolws (E : Env) (zA zB : List Nat) (LA LB : List DLine) (nA nB i j : Nat)
    (hA : break_into_lines E zA true = some (LA, nA))
    (hB : break_into_lines E zB true = some (LB, nB)) (hi : i < nA) (hj : j < nB)
    (h : SameButEol E (lineStart i zA) (lineStart j zB)) :
    (LA.getD i DLine.zero).h = (LB.getD j DLine.zero).h ∧
    same_dline (LA.getD i DLine.zero) (LB.getD j DLine.zero) = true := by
  obtain ⟨a1, a2, a3, a4, a5⟩ := break_into_lines_spec E true zA LA nA i hA hi
  obtain ⟨b1, b2, b3, b4, b5⟩ := break_into_lines_spec E true zB LB nB j hB hj
  obtain ⟨c, wA, wB, e1, e2, s1, s2⟩ := h
  obtain ⟨k1, k2⟩ := lineLength_eolws E _ c wA e1 s1
  obtain ⟨m1, m2⟩ := lineLength_eolws E _ c wB e2 s2
  rw [← a1] at a2 a4 a5 k1 k2
  rw [← b1] at b2 b4 b5 m1 m2
  have hs := (same_dline_records E true _ _ a2 b2 a4 b4 a5 b5).mpr
    ⟨by rw [k1, m1], by rw [k2, m2]⟩
  refine ⟨?_, hs⟩
  unfold same_dline at hs
  rw [Bool.and_eq_true, decide_eq_true_eq] at hs
  exact hs.1

/-- C31. With the flag `DIFF_IGNORE_EOLWS` two lines that differ at most in
white space at their ends get the same hash and are the same for `same_dline`;
and for two buffers with the same number of lines, whose lines differ at most
in white space at their ends, `text_diff` returns the script that copies all
lines, and it adds nothing to an output blob: no line is shown as changed. -/
theorem text_diff_ignore_eolws (E : Env) (fuel : Nat) (A B : List Nat) (diffFlags : Nat)
    (LA LB : List DLine) (nA nB : Nat) (hw : diffFlags &&& DIFF_IGNORE_EOLWS ≠ 0)
    (hA : break_into_lines E A true = some (LA, nA))
    (hB : break_into_lines E B true = some (LB, nB)) :
    (∀ i j, i < nA → j < nB → SameButEol E (lineStart i A) (lineStart j B) →
      (LA.getD i DLine.zero).h = (LB.getD j DLine.zero).h ∧
      same_dline (LA.getD i DLine.zero) (LB.getD j DLine.zero) = true) ∧
    (nA = nB → (∀ t, t < nA → SameButEol E (lineStart t A) (lineStart t B)) →
      text_diff E (fuel + 1) A B none diffFlags = some (some (sameScript nA), none) ∧
      ∀ out, text_diff E (fuel + 1) A B (some out) diffFlags = some (none, some out)) := by
  refine ⟨fun i j hi hj h => same_dline_eolws E A B LA LB nA nB i j hA hB hi hj h, ?_⟩
  intro hn hl
  subst hn
  have hs : ∀ t, t < nA → same_dline (LA.getD t DLine.zero) (LB.getD t DLine.zero) = true :=
    fun t ht => (same_dline_eolws E A B LA LB nA nA t t hA hB ht ht (hl t ht)).2
  have hd : decide (diffFlags &&& DIFF_IGNORE_EOLWS ≠ 0) = true := by
    rw [decide_eq_true_eq]
    exact hw
  have key : ∀ pOut, text_diff E (fuel + 1) A B pOut diffFlags
      = (match pOut with
        | none => some (some (sameScript nA), none)
        | some out => some (none, some out)) := by
    intro pOut
    rw [text_diff_lines, hd]
    by_cases ci : diffFlags &&& DIFF_INVERT ≠ 0
    · rw [if_pos ci, if_pos ci, hA, hB]
      exact diffLines_same E fuel LB LA nA pOut diffFlags
        (fun t ht => same_dline_symm _ _ (hs t ht))
    · rw [if_neg ci, if_neg ci, hA, hB]
      exact diffLines_same E fuel LA LB nA pOut diffFlags hs
  exact ⟨key none, fun out => key (some out)⟩

/-- The claim C31 for the buffers `a \n` and `a\n`: the two lines get the same
hash, and the script copies the one line. -/
theorem text_diff_ignore_eolws_witness :
    (DIFF_IGNORE_EOLWS &&& DIFF_IGNORE_EOLWS ≠ 0 ∧
      break_into_lines stdEnv (str "a \n") true = some (aSpLines, 1) ∧
      break_into_lines stdEnv (str "a\n") true = some (aLines, 1)) ∧
    SameButEol stdEnv (lineStart 0 (str "a \n")) (lineStart 0 (str "a\n")) ∧
    ((aSpLines.getD 0 DLine.zero).h = (aLines.getD 0 DLine.zero).h ∧
      same_dline (aSpLines.getD 0 DLine.zero) (aLines.getD 0 DLine.zero) = true) ∧
    text_diff stdEnv (0 + 1) (str "a \n") (str "a\n") none DIFF_IGNORE_EOLWS
      = some (some (sameScript 1), none) :=
  have hS : SameButEol stdEnv (lineStart 0 (str "a \n")) (lineStart 0 (str "a\n")) :=
    ⟨[97], [32], [], by decide, by decide, by decide, by simp⟩
  have hT := text_diff_ignore_eolws stdEnv 0 (str "a \n") (str "a\n") DIFF_IGNORE_EOLWS aSpLines
    aLines 1 1 (by decide) (by decide) (by decide)
  ⟨⟨by decide, by decide, by decide⟩, hS, hT.1 0 0 (by decide) (by decide) hS,
    (hT.2 rfl (fun t ht => by
      have e : t = 0 := by omega
      rw [e]
      exact hS)).1⟩

/-! ## The tags of `sbsAlignment` account for every line -/

theorem Counted_cons (nLeft nRight j i c : Nat) (S : List Nat)
    (hc : (c = 1 ∧ 1 ≤ j) ∨ (c = 3 ∧ 1 ≤ i) ∨ (c = 2 ∧ 1 ≤ j ∧ 1 ≤ i))
    (h : Counted nLeft nRight j i S) :
    Counted nLeft nRight (if c = 3 then j else j - 1) (if c = 1 then i else i - 1) (c :: S) := by
  obtain ⟨h1, h2, h3⟩ := h
  rcases hc with ⟨rfl, hj⟩ | ⟨rfl, hi⟩ | ⟨rfl, hj, hi⟩
  · refine ⟨?_, ?_, ?_⟩
    · intro c hc
      rcases List.mem_cons.mp hc with e | e
      · exact Or.inl e
      · exact h1 c e
    · simp only [List.count_cons]
      simp
      omega
    · simp only [List.count_cons]
      simp
      omega
  · refine ⟨?_, ?_, ?_⟩
    · intro c hc
      rcases List.mem_cons.mp hc with e | e
      · exact Or.inr (Or.inr e)
      · exact h1 c e
    · simp only [List.count_cons]
      simp
      omega
    · simp only [List.count_cons]
      simp
      omega
  · refine ⟨?_, ?_, ?_⟩
    · intro c hc
      rcases List.mem_cons.mp hc with e | e
      · exact Or.inr (Or.inl e)
      · exact h1 c e
    · simp only [List.count_cons]
      simp
      omega
    · simp only [List.count_cons]
      simp
      omega

theorem CellTag_shape (E : Env) (aLeft aRight : List DLine) (j i c : Nat)
    (h : CellTag E aLeft aRight j i c) :
    (c = 1 ∧ 1 ≤ j) ∨ (c = 3 ∧ 1 ≤ i) ∨ (c = 2 ∧ 1 ≤ j ∧ 1 ≤ i) := by
  rcases h with h | h | ⟨h1, h2, h3, _⟩
  · exact Or.inl h
  · exact Or.inr (Or.inl h)
  · exact Or.inr (Or.inr ⟨h1, h2, h3⟩)

/-- One step of the walk back through the matrix, to a cell in front of the
cell that the walk is at: the tag of the cell that the walk leaves is in front
of the tags behind `k`. -/
theorem PathBase_step (nLeft nRight : Nat) (M0 : List Nat) (i j k : Nat) (aM : List Nat)
    (i2 j2 : Nat) (h : PathBase nLeft nRight M0 i j k aM) (hi2 : i2 ≤ nRight) (hj2 : j2 ≤ nLeft)
    (hlt : j2 * (nRight + 1) + i2 < j * (nRight + 1) + i) :
    PathBase nLeft nRight M0 i2 j2 (k - 1) (aM.set (k - 1) (aM.getD (j2 * (nRight + 1) + i2) 0)) ∧
    (aM.set (k - 1) (aM.getD (j2 * (nRight + 1) + i2) 0)).drop (k - 1 + 1)
      = aM.getD k 0 :: aM.drop (k + 1) := by
  obtain ⟨h1, h2, h3, h4, h5, h6, h7⟩ := h
  refine ⟨⟨hi2, hj2, by omega, by omega, by rw [List.length_set]; exact h5, ?_, ?_⟩, ?_⟩
  · intro t ht
    rw [getD_set, if_neg (fun hh => by omega)]
    exact h6 t (by omega)
  · rw [getD_set, if_pos ⟨rfl, by omega⟩]
    exact h6 _ (by omega)
  · have e : k - 1 + 1 = k := by omega
    rw [e, List.drop_set_of_lt _ _ (by omega), drop_getD_cons aM k (by omega)]

/-- The walk of `sbsAlignment` back through the matrix ends at the cell `(0, 0)`
within `i + j` rounds, its assertions hold in every round, and the tags that it
leaves behind account for all lines. -/
theorem alignPath_counts (E : Env) (aLeft aRight : List DLine) (nLeft nRight : Nat)
    (M0 : List Nat) (hM : MatOK E aLeft aRight nLeft nRight (nLeft + 1) 0 M0) :
    ∀ (fuel i j k : Nat) (aM : List Nat), i + j ≤ fuel →
    PathBase nLeft nRight M0 i j k aM → Counted nLeft nRight j i (aM.drop (k + 1)) →
    Counted nLeft nRight 0 0
      ((alignPath nRight fuel ((i : Int), (j : Int), (k : Int), aM)).2.2.2.drop
        ((alignPath nRight fuel ((i : Int), (j : Int), (k : Int), aM)).2.2.1 + 1).toNat) ∧
    (alignPath nRight fuel ((i : Int), (j : Int), (k : Int), aM)).1 = 0 ∧
    (alignPath nRight fuel ((i : Int), (j : Int), (k : Int), aM)).2.1 = 0 ∧
    alignPathOK nRight fuel ((i : Int), (j : Int), (k : Int), aM) = true := by
  have hstop : ∀ (i j k : Nat) (aM : List Nat), i + j = 0 →
      Counted nLeft nRight j i (aM.drop (k + 1)) →
      Counted nLeft nRight 0 0 (aM.drop ((k : Int) + 1).toNat) ∧ (i : Int) = 0 ∧ (j : Int) = 0 := by
    intro i j k aM h0 h
    have ei : i = 0 := by omega
    have ej : j = 0 := by omega
    subst ei ej
    have e : ((k : Int) + 1).toNat = k + 1 := by omega
    rw [e]
    exact ⟨h, rfl, rfl⟩
  intro fuel
  induction fuel with
  | zero =>
    intro i j k aM hf _ hQ
    rw [alignPath, alignPathOK]
    obtain ⟨a1, a2, a3⟩ := hstop i j k aM (by omega) hQ
    exact ⟨a1, a2, a3, rfl⟩
  | succ fuel ih =>
    intro i j k aM hf h hQ
    rw [alignPath, alignPathOK]
    by_cases c : (i : Int) + (j : Int) > 0
    · rw [if_pos c, if_pos c]
      dsimp only
      rw [Int.toNat_ofNat]
      have hh := h
      obtain ⟨h1, h2, h3, h4, h5, h6, h7⟩ := hh
      have htag := CellTag_shape E aLeft aRight j i _
        (hM.2 j i h2 h1 (Or.inl (by omega)) (by omega))
      rw [← h7] at htag
      have hW : ∀ x, 1 ≤ x → (x - 1) * (nRight + 1) + (nRight + 1) = x * (nRight + 1) := by
        intro x hx
        rw [← Nat.succ_mul]
        congr 1
        omega
      have hk1 : 1 ≤ k := by
        have : 0 < j * (nRight + 1) + i := by
          by_cases j0 : j = 0
          · omega
          · have := hW j (by omega)
            omega
        omega
      have ek : (k : Int) - 1 = ((k - 1 : Nat) : Int) := by omega
      have hQ2 := Counted_cons nLeft nRight j i _ _ htag hQ
      have n12 : ((1 : Nat) = 2) = False := eq_false (by decide)
      have n13 : ((1 : Nat) = 3) = False := eq_false (by decide)
      have n32 : ((3 : Nat) = 2) = False := eq_false (by decide)
      rcases htag with ⟨t1, t2⟩ | ⟨t1, t2⟩ | ⟨t1, t2, t3⟩
      · rw [t1] at hQ2 ⊢
        simp only [n12, n13, if_false]
        rw [if_neg (show ¬ (1 : Nat) = 3 by decide), if_pos rfl] at hQ2
        have ej : (j : Int) - 1 = ((j - 1 : Nat) : Int) := by omega
        rw [ek, ej, idx_toNat, Int.toNat_ofNat]
        obtain ⟨b1, b2⟩ := PathBase_step nLeft nRight M0 i j k aM i (j - 1) h h1 (by omega) (by
          have := hW j t2
          omega)
        obtain ⟨r1, r2, r3, r4⟩ := ih i (j - 1) (k - 1) _ (by omega) b1 (by
          rw [b2, t1]
          exact hQ2)
        refine ⟨r1, r2, r3, ?_⟩
        rw [r4, Bool.and_true, decide_eq_true_eq]
        omega
      · rw [t1] at hQ2 ⊢
        simp only [n32, if_false, if_true]
        rw [if_pos rfl, if_neg (show ¬ (3 : Nat) = 1 by decide)] at hQ2
        have ei : (i : Int) - 1 = ((i - 1 : Nat) : Int) := by omega
        rw [ek, ei, idx_toNat, Int.toNat_ofNat]
        obtain ⟨b1, b2⟩ := PathBase_step nLeft nRight M0 i j k aM (i - 1) j h (by omega) h2
          (by omega)
        obtain ⟨r1, r2, r3, r4⟩ := ih (i - 1) j (k - 1) _ (by omega) b1 (by
          rw [b2, t1]
          exact hQ2)
        refine ⟨r1, r2, r3, ?_⟩
        rw [r4, Bool.and_true, decide_eq_true_eq]
        omega
      · rw [t1] at hQ2 ⊢
        simp only [if_true]
        rw [if_neg (show ¬ (2 : Nat) = 3 by decide), if_neg (show ¬ (2 : Nat) = 1 by decide)]
          at hQ2
        have ei : (i : Int) - 1 = ((i - 1 : Nat) : Int) := by omega
        have ej : (j : Int) - 1 = ((j - 1 : Nat) : Int) := by omega
        rw [ek, ei, ej, idx_toNat, Int.toNat_ofNat]
        obtain ⟨b1, b2⟩ := PathBase_step nLeft nRight M0 i j k aM (i - 1) (j - 1) h (by omega)
          (by omega) (by
            have := hW j t2
            omega)
        obtain ⟨r1, r2, r3, r4⟩ := ih (i - 1) (j - 1) (k - 1) _ (by omega) b1 (by
          rw [b2, t1]
          exact hQ2)
        refine ⟨r1, r2, r3, ?_⟩
        rw [r4, Bool.and_true, decide_eq_true_eq]
        omega
    · rw [if_neg c, if_neg c]
      obtain ⟨a1, a2, a3⟩ := hstop i j k aM (by omega) hQ
      exact ⟨a1, a2, a3, rfl⟩

/-- Every cell of the matrix of `sbsAlignment`, other than the cell `(0, 0)`,
holds a tag when the walk starts. -/
theorem sbsMatrix_ok (E : Env) (aLeft : List DLine) (nLeft : Nat) (aRight : List DLine)
    (nRight : Nat) :
    MatOK E aLeft aRight nLeft nRight (nLeft + 1) 0 (sbsMatrix E aLeft nLeft aRight nRight) := by
  unfold sbsMatrix
  dsimp only
  obtain ⟨f1, f2⟩ := foldl_set_three (nRight + 1)
    (List.replicate ((nLeft + 1) * (nRight + 1)) 0)
  rw [List.length_replicate] at f1 f2
  have hinit : MatOK E aLeft aRight nLeft nRight 1 0
      (((List.range (nRight + 1)).foldl (fun m i => m.set i 3)
        (List.replicate ((nLeft + 1) * (nRight + 1)) 0)).set 0 0) := by
    refine ⟨by rw [List.length_set]; exact f1, ?_⟩
    intro j i hj hi hlt hpos
    have ej : j = 0 := by omega
    subst ej
    rw [Nat.zero_mul, Nat.zero_add, getD_set, if_neg (fun hh => by omega)]
    have hlen := idx_lt nLeft nRight 0 i (Nat.zero_le _) hi
    rw [Nat.zero_mul, Nat.zero_add] at hlen
    rw [f2 i (by omega) hlen]
    exact Or.inr (Or.inl ⟨rfl, by omega⟩)
  exact alignRows_spec E aLeft aRight nLeft nRight nLeft 1
    ((List.range (nRight + 1)).map (fun i => (i : Int) * 50),
      ((List.range (nRight + 1)).foldl (fun m i => m.set i 3)
        (List.replicate ((nLeft + 1) * (nRight + 1)) 0)).set 0 0) (le_refl _) (by omega) hinit

theorem sbsAlignment_walk (E : Env) (aLeft : List DLine) (nLeft : Nat) (aRight : List DLine)
    (nRight : Nat) (h1 : nLeft ≠ 0) (h2 : nRight ≠ 0) :
    sbsAlignment E aLeft nLeft aRight nRight
      = (alignPath nRight (nLeft + nRight) ((nRight : Int), (nLeft : Int),
          ((nLeft * (nRight + 1) + nRight : Nat) : Int),
          sbsMatrix E aLeft nLeft aRight nRight)).2.2.2.drop
        ((alignPath nRight (nLeft + nRight) ((nRight : Int), (nLeft : Int),
          ((nLeft * (nRight + 1) + nRight : Nat) : Int),
          sbsMatrix E aLeft nLeft aRight nRight)).2.2.1 + 1).toNat := by
  have hk : ((nRight : Int) + 1) * ((nLeft : Int) + 1) - 1
      = ((nLeft * (nRight + 1) + nRight : Nat) : Int) := by
    push_cast
    ring
  unfold sbsAlignment sbsMatrix
  rw [if_neg h1, if_neg h2]
  dsimp only
  rw [hk]

theorem Counted_replicate_three : ∀ (n : Nat), Counted 0 n 0 0 (List.replicate n 3) := by
  intro n
  induction n with
  | zero => exact ⟨fun c hc => absurd hc (List.not_mem_nil c), rfl, rfl⟩
  | succ n ih =>
    obtain ⟨h1, h2, h3⟩ := ih
    refine ⟨?_, ?_, ?_⟩
    · intro c hc
      exact Or.inr (Or.inr (List.eq_of_mem_replicate hc))
    · rw [List.replicate_succ]
      simp only [List.count_cons]
      simp
      omega
    · rw [List.replicate_succ]
      simp only [List.count_cons]
      simp
      omega

theorem Counted_replicate_one : ∀ (n : Nat), Counted n 0 0 0 (List.replicate n 1) := by
  intro n
  induction n with
  | zero => exact ⟨fun c hc => absurd hc (List.not_mem_nil c), rfl, rfl⟩
  | succ n ih =>
    obtain ⟨h1, h2, h3⟩ := ih
    refine ⟨?_, ?_, ?_⟩
    · intro c hc
      exact Or.inl (List.eq_of_mem_replicate hc)
    · rw [List.replicate_succ]
      simp only [List.count_cons]
      simp
      omega
    · rw [List.replicate_succ]
      simp only [List.count_cons]
      simp
      omega

/-- The tags of `sbsAlignment` account for all lines of both sides. -/
theorem sbsAlignment_counted (E : Env) (aLeft : List DLine) (nLeft : Nat) (aRight : List DLine)
    (nRight : Nat) : Counted nLeft nRight 0 0 (sbsAlignment E aLeft nLeft aRight nRight) := by
  by_cases c1 : nLeft = 0
  · unfold sbsAlignment
    rw [if_pos c1, c1]
    exact Counted_replicate_three nRight
  · by_cases c2 : nRight = 0
    · unfold sbsAlignment
      rw [if_neg c1, if_pos c2, c2]
      exact Counted_replicate_one nLeft
    · rw [sbsAlignment_walk E aLeft nLeft aRight nRight c1 c2]
      have hM := sbsMatrix_ok E aLeft nLeft aRight nRight
      have hlen := idx_lt nLeft nRight nLeft nRight (le_refl _) (le_refl _)
      have e : (sbsMatrix E aLeft nLeft aRight nRight).drop (nLeft * (nRight + 1) + nRight + 1)
          = [] := by
        apply List.drop_eq_nil_of_le
        rw [hM.1]
        have : (nLeft + 1) * (nRight + 1) = nLeft * (nRight + 1) + (nRight + 1) := by
          rw [Nat.succ_mul]
        omega
      exact (alignPath_counts E aLeft aRight nLeft nRight _ hM (nLeft + nRight) nRight nLeft
        (nLeft * (nRight + 1) + nRight) _ (by omega)
        ⟨le_refl _, le_refl _, le_refl _, by rw [hM.1]; exact hlen, rfl, fun t _ => rfl, rfl⟩
        (by
          rw [e]
          exact ⟨fun c hc => absurd hc (List.not_mem_nil c), by simp, by simp⟩)).1

/-- The loop of `sbsDiff` over tags that account for `ma` lines on the left and
`mb` lines on the right, behind the first `pre.length` tags: its assertions hold
in every round. -/
theorem sbsRowsOK_counted : ∀ (fuel : Nat) (pre S : List Nat) (ma mb : Nat),
    Counted ma mb 0 0 S → sbsRowsOK (pre ++ S) fuel pre.length (ma : Int) (mb : Int) = true := by
  intro fuel
  induction fuel with
  | zero => intro pre S ma mb _; rfl
  | succ fuel ih =>
    intro pre S ma mb h
    rw [sbsRowsOK]
    by_cases c : (ma : Int) + (mb : Int) > 0
    · rw [if_pos c]
      obtain ⟨h1, h2, h3⟩ := h
      cases S with
      | nil =>
        simp only [List.count_nil] at h2 h3
        omega
      | cons x S =>
        have hg : (pre ++ x :: S).getD pre.length 0 = x := by
          rw [List.getD_append_right _ _ _ _ (le_refl _), Nat.sub_self]
          rfl
        have hnext : pre ++ x :: S = (pre ++ [x]) ++ S := by simp
        have hl : pre.length + 1 = (pre ++ [x]).length := by simp
        have hS : ∀ c, c ∈ S → c = 1 ∨ c = 2 ∨ c = 3 := fun c hc => h1 c (List.mem_cons_of_mem _ hc)
        rw [hg]
        simp only [List.count_cons] at h2 h3
        rcases h1 x (List.mem_cons_self _ _) with rfl | rfl | rfl
        · simp at h2 h3
          rw [if_pos rfl, hnext, hl]
          have e : (ma : Int) - 1 = ((ma - 1 : Nat) : Int) := by omega
          rw [e, ih (pre ++ [1]) S (ma - 1) mb ⟨hS, by omega, by omega⟩, Bool.and_true,
            decide_eq_true_eq]
          omega
        · simp at h2 h3
          rw [if_neg (by decide), if_pos rfl, hnext, hl]
          have e : (ma : Int) - 1 = ((ma - 1 : Nat) : Int) := by omega
          have e2 : (mb : Int) - 1 = ((mb - 1 : Nat) : Int) := by omega
          rw [e, e2, ih (pre ++ [2]) S (ma - 1) (mb - 1) ⟨hS, by omega, by omega⟩, Bool.and_true,
            decide_eq_true_eq]
          omega
        · simp at h2 h3
          rw [if_neg (by decide), if_neg (by decide), hnext, hl]
          have e2 : (mb : Int) - 1 = ((mb - 1 : Nat) : Int) := by omega
          rw [e2, ih (pre ++ [3]) S ma (mb - 1) ⟨hS, by omega, by omega⟩, Bool.and_true,
            decide_eq_true_eq]
          omega
    · rw [if_neg c]

/-- C34. For all `nLeft` and `nRight` and all lines, every tag that
`sbsAlignment` returns is 1, 2 or 3, the number of tags 1 or 2 is `nLeft`, and the
number of tags 2 or 3 is `nRight`.  The assertions of the loop of `sbsAlignment`
that walks back through the matrix hold in every round, and the walk ends at
`i = 0` and `j = 0`; the assertions `ma>0` and `mb>0` of the loop of `sbsDiff` that
reads the tags hold in every round. -/
theorem sbsAlignment_counts (E : Env) (aLeft : List DLine) (nLeft : Nat) (aRight : List DLine)
    (nRight : Nat) :
    (∀ c, c ∈ sbsAlignment E aLeft nLeft aRight nRight → c = 1 ∨ c = 2 ∨ c = 3) ∧
    (sbsAlignment E aLeft nLeft aRight nRight).count 1
      + (sbsAlignment E aLeft nLeft aRight nRight).count 2 = nLeft ∧
    (sbsAlignment E aLeft nLeft aRight nRight).count 2
      + (sbsAlignment E aLeft nLeft aRight nRight).count 3 = nRight ∧
    (nLeft ≠ 0 → nRight ≠ 0 →
      alignPathOK nRight (nLeft + nRight) ((nRight : Int), (nLeft : Int),
        ((nRight : Int) + 1) * ((nLeft : Int) + 1) - 1,
        sbsMatrix E aLeft nLeft aRight nRight) = true ∧
      (alignPath nRight (nLeft + nRight) ((nRight : Int), (nLeft : Int),
        ((nRight : Int) + 1) * ((nLeft : Int) + 1) - 1,
        sbsMatrix E aLeft nLeft aRight nRight)).1 = 0 ∧
      (alignPath nRight (nLeft + nRight) ((nRight : Int), (nLeft : Int),
        ((nRight : Int) + 1) * ((nLeft : Int) + 1) - 1,
        sbsMatrix E aLeft nLeft aRight nRight)).2.1 = 0) ∧
    sbsRowsOK (sbsAlignment E aLeft nLeft aRight nRight) (((nLeft : Int) + (nRight : Int)).toNat) 0
      (nLeft : Int) (nRight : Int) = true := by
  obtain ⟨h1, h2, h3⟩ := sbsAlignment_counted E aLeft nLeft aRight nRight
  refine ⟨h1, by omega, by omega, ?_, ?_⟩
  · intro c1 c2
    have hk : ((nRight : Int) + 1) * ((nLeft : Int) + 1) - 1
        = ((nLeft * (nRight + 1) + nRight : Nat) : Int) := by
      push_cast
      ring
    rw [hk]
    have hM := sbsMatrix_ok E aLeft nLeft aRight nRight
    have hlen := idx_lt nLeft nRight nLeft nRight (le_refl _) (le_refl _)
    have e : (sbsMatrix E aLeft nLeft aRight nRight).drop (nLeft * (nRight + 1) + nRight + 1)
        = [] := by
      apply List.drop_eq_nil_of_le
      rw [hM.1]
      have : (nLeft + 1) * (nRight + 1) = nLeft * (nRight + 1) + (nRight + 1) := by
        rw [Nat.succ_mul]
      omega
    obtain ⟨_, r2, r3, r4⟩ := alignPath_counts E aLeft aRight nLeft nRight _ hM (nLeft + nRight)
      nRight nLeft (nLeft * (nRight + 1) + nRight) _ (by omega)
      ⟨le_refl _, le_refl _, le_refl _, by rw [hM.1]; exact hlen, rfl, fun t _ => rfl, rfl⟩
      (by
        rw [e]
        exact ⟨fun c hc => absurd hc (List.not_mem_nil c), by simp, by simp⟩)
    exact ⟨r4, r2, r3⟩
  · have := sbsRowsOK_counted (((nLeft : Int) + (nRight : Int)).toNat) []
      (sbsAlignment E aLeft nLeft aRight nRight) nLeft nRight ⟨h1, h2, h3⟩
    exact this

/-- The claim C34 for the lines `abcd` and `axyz`, which get the tag 2. -/
theorem sbsAlignment_counts_witness :
    sbsAlignment stdEnv [abcdLine] 1 [axyzLine] 1 = [2] ∧
    (List.count 1 [2] + List.count 2 [2] = 1 ∧ List.count 2 [2] + List.count 3 [2] = 1) ∧
    (sbsAlignment stdEnv [abcdLine] 1 [axyzLine] 1).count 1
      + (sbsAlignment stdEnv [abcdLine] 1 [axyzLine] 1).count 2 = 1 :=
  ⟨by decide, by decide, (sbsAlignment_counts stdEnv [abcdLine] 1 [axyzLine] 1).2.1⟩

/-! ## The context of a block of `contextDiff` -/

set_option maxRecDepth 100000 in
/-- C32. The claim fails at the end of a file: for the buffers `x\n1\n2\n3\n`
and `1\n2\n3\n` and two lines of context the script is (0,1,0), (3,0,0),
(0,0,0), and the block of the context diff shows the three lines `1`, `2`, `3`
behind its last changed line `-x`. The copy of three lines is less than twice
the context, so that the loop that collects the triples of a block takes the
triple (3,0,0) into the block, and its three lines are shown as lines between
changes.  With a fourth common line the copy is not taken into the block, and
two lines are shown behind `-x`. -/
theorem contextDiff_trailing_context :
    diff_context_lines 2 = 2 ∧
    text_diff stdEnv 5 (str "x\n1\n2\n3\n") (str "1\n2\n3\n") none 2
      = some (some [0, 1, 0, 3, 0, 0, 0, 0, 0], none) ∧
    blockTriples [0, 1, 0, 3, 0, 0, 0, 0, 0] 0 2 9 1 = 2 ∧
    text_diff stdEnv 5 (str "x\n1\n2\n3\n") (str "1\n2\n3\n") (some []) 2
      = some (none, some (str "@@ -1,4 +1,3 @@\n-x\n 1\n 2\n 3\n")) ∧
    text_diff stdEnv 5 (str "x\n1\n2\n3\n4\n") (str "1\n2\n3\n4\n") (some []) 2
      = some (none, some (str "@@ -1,3 +1,2 @@\n-x\n 1\n 2\n")) := by
  refine ⟨by decide, by decide, by decide, by decide, by decide⟩

/-! ## The blocks of a context diff and their headers -/

theorem bodyLines_succ (cPrefix : Nat) (L : List DLine) (x : Int) (a b : Option Int) (fuel : Nat)
    (j : Int) :
    bodyLines cPrefix L x a b (fuel + 1) j
      = (cPrefix,
          (match a with
           | some a => a + j + 1
           | none => 0),
          (match b with
           | some b => b + j + 1
           | none => 0), lineAt L (x + j)) :: bodyLines cPrefix L x a b fuel (j + 1) := rfl

theorem contextLines_body (E : Env) (showLn html : Bool) (cPrefix : Nat) (L : List DLine)
    (x : Int) (a b : Option Int) :
    ∀ (fuel : Nat) (j : Int) (pOut : List Nat),
    contextLines E showLn html cPrefix L x a b fuel j pOut
      = renderBody E showLn html (bodyLines cPrefix L x a b fuel j) pOut := by
  intro fuel
  induction fuel with
  | zero => intro j pOut; rfl
  | succ fuel ih =>
    intro j pOut
    rw [bodyLines_succ, renderBody, ← ih]
    rfl

theorem renderBody_append (E : Env) (showLn html : Bool) :
    ∀ (B1 B2 : List (Nat × Int × Int × DLine)) (pOut : List Nat),
    renderBody E showLn html (B1 ++ B2) pOut
      = renderBody E showLn html B2 (renderBody E showLn html B1 pOut) := by
  intro B1
  induction B1 with
  | nil => intro B2 pOut; rfl
  | cons e B1 ih =>
    intro B2 pOut
    obtain ⟨c, lnA, lnB, l⟩ := e
    rw [List.cons_append, renderBody, renderBody, ih]

theorem contextChanges_body (E : Env) (p : DContext) (showLn html : Bool) (r nr : Nat) :
    ∀ (fuel i : Nat) (pOut : List Nat) (a b : Int),
    contextChanges E p showLn html r nr fuel i (pOut, a, b)
      = (renderBody E showLn html (changeBody p r nr fuel i (a, b)).1 pOut,
          (changeBody p r nr fuel i (a, b)).2.1, (changeBody p r nr fuel i (a, b)).2.2) := by
  intro fuel
  induction fuel with
  | zero => intro i pOut a b; rfl
  | succ fuel ih =>
    intro i pOut a b
    rw [contextChanges, changeBody]
    by_cases c : i < nr
    · rw [if_pos c, if_pos c]
      dsimp only
      by_cases c2 : i + 1 < nr
      · rw [if_pos c2, if_pos c2, ih]
        dsimp only
        rw [renderBody_append, renderBody_append, renderBody_append, contextLines_body,
          contextLines_body, contextLines_body]
      · rw [if_neg c2, if_neg c2, ih]
        dsimp only
        rw [renderBody_append, renderBody_append, contextLines_body, contextLines_body]
    · rw [if_neg c, if_neg c]
      rfl

/-- The output of the loop over the blocks of `contextDiff`, without line
numbers, is the output for the list of the blocks. -/
theorem contextBlocks_hunks (E : Env) (p : DContext) (nContext : Int) (html : Bool) (mxr : Nat) :
    ∀ (fuel r : Nat) (pOut : List Nat) (a b nChunk : Int),
    contextBlocks E p nContext false html mxr fuel r (pOut, a, b, nChunk)
      = renderHunks E html (hunks p nContext mxr fuel r (a, b)) pOut := by
  intro fuel
  induction fuel with
  | zero => intro r pOut a b nChunk; rfl
  | succ fuel ih =>
    intro r pOut a b nChunk
    rw [contextBlocks, hunks]
    by_cases c : r < mxr
    · rw [if_pos c, if_pos c]
      dsimp only
      rw [contextChanges_body]
      dsimp only
      rw [ih, renderHunks, renderBody_append, renderBody_append, contextLines_body,
        contextLines_body]
      rfl
    · rw [if_neg c, if_neg c]
      rfl

theorem foldl_range_sum (g : Nat → Int) : ∀ (n i : Nat) (x : Int),
    (List.range' i n).foldl (fun y k => y + g k) x = x + sumFrom g i n := by
  intro n
  induction n with
  | zero => intro i x; simp [sumFrom]
  | succ n ih =>
    intro i x
    rw [List.range'_succ, List.foldl_cons, ih, sumFrom]
    omega

theorem drop_one_range (n : Nat) : (List.range n).drop 1 = List.range' 1 (n - 1) := by
  rw [List.range_eq_range']
  cases n with
  | zero => rfl
  | succ n =>
    rw [List.range'_succ]
    rfl

/-- The numbers `na`, `nb` and `skip` of a block as sums over its triples. -/
theorem blockLines_sums (R : List Int) (r nr : Nat) (nContext : Int) :
    blockLines R r nr nContext
      = ((if R.getD r 0 > nContext then nContext else R.getD r 0)
            + sumFrom (fun i => R.getD (r + i * 3 + 1) 0) 0 nr
            + (if R.getD (r + nr * 3) 0 > nContext then nContext else R.getD (r + nr * 3) 0)
            + sumFrom (fun i => R.getD (r + i * 3) 0) 1 (nr - 1),
          (if R.getD r 0 > nContext then nContext else R.getD r 0)
            + sumFrom (fun i => R.getD (r + i * 3 + 2) 0) 0 nr
            + (if R.getD (r + nr * 3) 0 > nContext then nContext else R.getD (r + nr * 3) 0)
            + sumFrom (fun i => R.getD (r + i * 3) 0) 1 (nr - 1),
          if R.getD r 0 > nContext then R.getD r 0 - nContext else 0) := by
  unfold blockLines
  dsimp only
  rw [drop_one_range, List.range_eq_range', foldl_range_sum, foldl_range_sum, foldl_range_sum,
    foldl_range_sum]
  by_cases c : R.getD (r + nr * 3) 0 > nContext
  · rw [if_pos c, if_pos c, if_pos c]
  · rw [if_neg c, if_neg c, if_neg c]

theorem Numbered_append : ∀ (B1 B2 : List (Nat × Int × Int × DLine)) (a b a1 b1 a2 b2 : Int),
    Numbered B1 a b a1 b1 → Numbered B2 a1 b1 a2 b2 → Numbered (B1 ++ B2) a b a2 b2 := by
  intro B1
  induction B1 with
  | nil =>
    intro B2 a b a1 b1 a2 b2 h1 h2
    rw [Numbered] at h1
    rw [h1.1, h1.2]
    exact h2
  | cons e B1 ih =>
    intro B2 a b a1 b1 a2 b2 h1 h2
    obtain ⟨c, lnA, lnB, l⟩ := e
    rw [List.cons_append, Numbered]
    rw [Numbered] at h1
    rcases h1 with ⟨x1, x2, x3, x4⟩ | ⟨x1, x2, x3, x4⟩ | ⟨x1, x2, x3, x4⟩
    · exact Or.inl ⟨x1, x2, x3, ih B2 _ _ _ _ _ _ x4 h2⟩
    · exact Or.inr (Or.inl ⟨x1, x2, x3, ih B2 _ _ _ _ _ _ x4 h2⟩)
    · exact Or.inr (Or.inr ⟨x1, x2, x3, ih B2 _ _ _ _ _ _ x4 h2⟩)

theorem bodyLines_context (L : List DLine) (x a b : Int) :
    ∀ (m : Nat) (j : Int),
    Numbered (bodyLines 32 L x (some a) (some b) m j) (a + j) (b + j) (a + j + m) (b + j + m) := by
  intro m
  induction m with
  | zero =>
    intro j
    rw [bodyLines, Numbered]
    constructor <;> simp
  | succ m ih =>
    intro j
    rw [bodyLines_succ, Numbered]
    refine Or.inl ⟨rfl, rfl, rfl, ?_⟩
    have := ih (j + 1)
    have e1 : a + (j + 1) = a + j + 1 := by omega
    have e2 : b + (j + 1) = b + j + 1 := by omega
    have e3 : a + j + 1 + (m : Int) = a + j + ((m + 1 : Nat) : Int) := by omega
    have e4 : b + j + 1 + (m : Int) = b + j + ((m + 1 : Nat) : Int) := by omega
    rw [e1, e2, e3, e4] at this
    exact this

theorem bodyLines_delete (L : List DLine) (x a b : Int) :
    ∀ (m : Nat) (j : Int),
    Numbered (bodyLines 45 L x (some a) none m j) (a + j) b (a + j + m) b := by
  intro m
  induction m with
  | zero =>
    intro j
    rw [bodyLines, Numbered]
    constructor <;> simp
  | succ m ih =>
    intro j
    rw [bodyLines_succ, Numbered]
    refine Or.inr (Or.inl ⟨rfl, rfl, rfl, ?_⟩)
    have := ih (j + 1)
    have e1 : a + (j + 1) = a + j + 1 := by omega
    have e3 : a + j + 1 + (m : Int) = a + j + ((m + 1 : Nat) : Int) := by omega
    rw [e1, e3] at this
    exact this

theorem bodyLines_insert (L : List DLine) (x a b : Int) :
    ∀ (m : Nat) (j : Int),
    Numbered (bodyLines 43 L x none (some b) m j) a (b + j) a (b + j + m) := by
  intro m
  induction m with
  | zero =>
    intro j
    rw [bodyLines, Numbered]
    constructor <;> simp
  | succ m ih =>
    intro j
    rw [bodyLines_succ, Numbered]
    refine Or.inr (Or.inr ⟨rfl, rfl, rfl, ?_⟩)
    have := ih (j + 1)
    have e2 : b + (j + 1) = b + j + 1 := by omega
    have e4 : b + j + 1 + (m : Int) = b + j + ((m + 1 : Nat) : Int) := by omega
    rw [e2, e4] at this
    exact this

theorem sumFrom_succ (g : Nat → Int) (i n : Nat) : sumFrom g i (n + 1) = g i + sumFrom g (i + 1) n :=
  rfl

/-- The lines of the differences of a block are numbered from the positions in
front of them to the positions behind them, which are the positions in front
plus the delete or insert counts of the triples and the copy counts between
them. -/
theorem changeBody_numbered (p : DContext) (r nr : Nat) (h0 : ∀ t, 0 ≤ p.aEdit.getD t 0) :
    ∀ (fuel i : Nat) (a b : Int), nr ≤ i + fuel →
    Numbered (changeBody p r nr fuel i (a, b)).1 a b (changeBody p r nr fuel i (a, b)).2.1
      (changeBody p r nr fuel i (a, b)).2.2 ∧
    (changeBody p r nr fuel i (a, b)).2.1
      = a + sumFrom (fun k => p.aEdit.getD (r + k * 3 + 1) 0) i (nr - i)
          + sumFrom (fun k => p.aEdit.getD (r + k * 3) 0) (i + 1) (nr - (i + 1)) ∧
    (changeBody p r nr fuel i (a, b)).2.2
      = b + sumFrom (fun k => p.aEdit.getD (r + k * 3 + 2) 0) i (nr - i)
          + sumFrom (fun k => p.aEdit.getD (r + k * 3) 0) (i + 1) (nr - (i + 1)) := by
  intro fuel
  induction fuel with
  | zero =>
    intro i a b hf
    have e1 : nr - i = 0 := by omega
    have e2 : nr - (i + 1) = 0 := by omega
    rw [changeBody, e1, e2]
    refine ⟨⟨rfl, rfl⟩, ?_, ?_⟩ <;> simp [sumFrom]
  | succ fuel ih =>
    intro i a b hf
    rw [changeBody]
    by_cases c : i < nr
    · rw [if_pos c]
      dsimp only
      have m1 := Int.toNat_of_nonneg (h0 (r + i * 3 + 1))
      have m2 := Int.toNat_of_nonneg (h0 (r + i * 3 + 2))
      have m3 := Int.toNat_of_nonneg (h0 (r + i * 3 + 3))
      have n1 := bodyLines_delete p.aFrom a a b (p.aEdit.getD (r + i * 3 + 1) 0).toNat 0
      have n2 := bodyLines_insert p.aTo b (a + p.aEdit.getD (r + i * 3 + 1) 0) b
        (p.aEdit.getD (r + i * 3 + 2) 0).toNat 0
      rw [Int.add_zero, m1] at n1
      rw [Int.add_zero, m2] at n2
      have s1 : nr - i = (nr - (i + 1)) + 1 := by omega
      rw [s1, sumFrom_succ, sumFrom_succ]
      by_cases c2 : i + 1 < nr
      · rw [if_pos c2]
        dsimp only
        have n3 := bodyLines_context p.aTo (b + p.aEdit.getD (r + i * 3 + 2) 0)
          (a + p.aEdit.getD (r + i * 3 + 1) 0) (b + p.aEdit.getD (r + i * 3 + 2) 0)
          (p.aEdit.getD (r + i * 3 + 3) 0).toNat 0
        rw [Int.add_zero, Int.add_zero, m3] at n3
        obtain ⟨i1, i2, i3⟩ := ih (i + 1)
          (a + p.aEdit.getD (r + i * 3 + 1) 0 + p.aEdit.getD (r + i * 3 + 3) 0)
          (b + p.aEdit.getD (r + i * 3 + 2) 0 + p.aEdit.getD (r + i * 3 + 3) 0) (by omega)
        have s2 : nr - (i + 1) = (nr - (i + 1 + 1)) + 1 := by omega
        have s3 : r + (i + 1) * 3 = r + i * 3 + 3 := by omega
        have hcp : sumFrom (fun k => p.aEdit.getD (r + k * 3) 0) (i + 1) (nr - (i + 1))
            = p.aEdit.getD (r + i * 3 + 3) 0
              + sumFrom (fun k => p.aEdit.getD (r + k * 3) 0) (i + 1 + 1) (nr - (i + 1 + 1)) := by
          rw [s2, sumFrom_succ, s3]
        refine ⟨?_, ?_, ?_⟩
        · exact Numbered_append _ _ _ _ _ _ _ _ n1
            (Numbered_append _ _ _ _ _ _ _ _ n2 (Numbered_append _ _ _ _ _ _ _ _ n3 i1))
        · rw [i2, hcp]
          omega
        · rw [i3, hcp]
          omega
      · rw [if_neg c2]
        dsimp only
        obtain ⟨i1, i2, i3⟩ := ih (i + 1) (a + p.aEdit.getD (r + i * 3 + 1) 0)
          (b + p.aEdit.getD (r + i * 3 + 2) 0) (by omega)
        have s2 : nr - (i + 1) = 0 := by omega
        have s4 : nr - (i + 1 + 1) = 0 := by omega
        rw [s2, s4] at i2 i3
        rw [s2]
        refine ⟨?_, ?_, ?_⟩
        · exact Numbered_append _ _ _ _ _ _ _ _ n1 (Numbered_append _ _ _ _ _ _ _ _ n2 i1)
        · rw [i2]
          simp only [sumFrom]
          omega
        · rw [i3]
          simp only [sumFrom]
          omega
    · rw [if_neg c]
      have e1 : nr - i = 0 := by omega
      have e2 : nr - (i + 1) = 0 := by omega
      rw [e1, e2]
      refine ⟨⟨rfl, rfl⟩, ?_, ?_⟩ <;> simp [sumFrom]

/-- In a numbered list of lines the lines with the prefix ` ` or `-` are as many
as the left position moves and the first of them has the left number of the
start, and the same on the right for the lines with the prefix ` ` or `+`. -/
theorem Numbered_counts : ∀ (B : List (Nat × Int × Int × DLine)) (a b a2 b2 : Int),
    Numbered B a b a2 b2 →
    ((B.filter (fun e => decide (e.1 = 32 ∨ e.1 = 45))).length : Int) = a2 - a ∧
    ((B.filter (fun e => decide (e.1 = 32 ∨ e.1 = 43))).length : Int) = b2 - b ∧
    (∀ e, (B.filter (fun e => decide (e.1 = 32 ∨ e.1 = 45))).head? = some e → e.2.1 = a + 1) ∧
    (∀ e, (B.filter (fun e => decide (e.1 = 32 ∨ e.1 = 43))).head? = some e →
      e.2.2.1 = b + 1) := by
  intro B
  induction B with
  | nil =>
    intro a b a2 b2 h
    rw [Numbered] at h
    refine ⟨by simp; omega, by simp; omega, ?_, ?_⟩ <;> intro e he <;> simp at he
  | cons x B ih =>
    intro a b a2 b2 h
    obtain ⟨c, lnA, lnB, l⟩ := x
    rw [Numbered] at h
    rcases h with ⟨x1, x2, x3, x4⟩ | ⟨x1, x2, x3, x4⟩ | ⟨x1, x2, x3, x4⟩
    · obtain ⟨i1, i2, _, _⟩ := ih _ _ _ _ x4
      subst x1
      rw [List.filter_cons_of_pos (by simp), List.filter_cons_of_pos (by simp)]
      refine ⟨?_, ?_, ?_, ?_⟩
      · rw [List.length_cons]
        push_cast
        omega
      · rw [List.length_cons]
        push_cast
        omega
      · intro e he
        rw [List.head?_cons] at he
        injection he with he
        rw [← he]
        exact x2
      · intro e he
        rw [List.head?_cons] at he
        injection he with he
        rw [← he]
        exact x3
    · obtain ⟨i1, i2, _, i4⟩ := ih _ _ _ _ x4
      subst x1
      rw [List.filter_cons_of_pos (by simp), List.filter_cons_of_neg (by simp)]
      refine ⟨?_, i2, ?_, i4⟩
      · rw [List.length_cons]
        push_cast
        omega
      · intro e he
        rw [List.head?_cons] at he
        injection he with he
        rw [← he]
        exact x2
    · obtain ⟨i1, i2, i3, _⟩ := ih _ _ _ _ x4
      subst x1
      rw [List.filter_cons_of_neg (by simp), List.filter_cons_of_pos (by simp)]
      refine ⟨i1, ?_, i3, ?_⟩
      · rw [List.length_cons]
        push_cast
        omega
      · intro e he
        rw [List.head?_cons] at he
        injection he with he
        rw [← he]
        exact x3

/-- The header of a block whose lines are numbered from `a` and `b` on and that
shows `na` lines of the left file and `nb` lines of the right file. -/
theorem header_of_numbered (B : List (Nat × Int × Int × DLine)) (a b a2 b2 na nb : Int)
    (h : Numbered B a b a2 b2) (ha : a2 - a = na) (hb : b2 - b = nb) :
    ((B.filter (fun e => decide (e.1 = 32 ∨ e.1 = 45))).length : Int) = na ∧
    ((B.filter (fun e => decide (e.1 = 32 ∨ e.1 = 43))).length : Int) = nb ∧
    (if na ≠ 0 then a + 1 else 0)
      = ((B.filter (fun e => decide (e.1 = 32 ∨ e.1 = 45))).head?.map (fun e => e.2.1)).getD 0 ∧
    (if nb ≠ 0 then b + 1 else 0)
      = ((B.filter (fun e => decide (e.1 = 32 ∨ e.1 = 43))).head?.map (fun e => e.2.2.1)).getD 0 := by
  obtain ⟨i1, i2, i3, i4⟩ := Numbered_counts B a b a2 b2 h
  rw [ha] at i1
  rw [hb] at i2
  refine ⟨i1, i2, ?_, ?_⟩
  · cases hL : (B.filter (fun e => decide (e.1 = 32 ∨ e.1 = 45))) with
    | nil =>
      rw [hL] at i1
      have : na = 0 := by
        rw [← i1]
        rfl
      rw [if_neg (fun hh => hh this)]
      rfl
    | cons e L =>
      rw [hL] at i1 i3
      have : na ≠ 0 := by
        rw [← i1, List.length_cons]
        push_cast
        omega
      rw [if_pos this, List.head?_cons, Option.map_some', Option.getD_some]
      exact (i3 e rfl).symm
  · cases hL : (B.filter (fun e => decide (e.1 = 32 ∨ e.1 = 43))) with
    | nil =>
      rw [hL] at i2
      have : nb = 0 := by
        rw [← i2]
        rfl
      rw [if_neg (fun hh => hh this)]
      rfl
    | cons e L =>
      rw [hL] at i2 i4
      have : nb ≠ 0 := by
        rw [← i2, List.length_cons]
        push_cast
        omega
      rw [if_pos this, List.head?_cons, Option.map_some', Option.getD_some]
      exact (i4 e rfl).symm

/-- Every block of the context diff of a script without negative counts, for a
number of context lines that is not negative, has a header that fits its
body. -/
theorem hunks_consistent (p : DContext) (nContext : Int) (mxr : Nat)
    (h0 : ∀ t, 0 ≤ p.aEdit.getD t 0) (hn : 0 ≤ nContext) :
    ∀ (fuel r : Nat) (a b : Int) (h : (Int × Int × Int × Int) × List (Nat × Int × Int × DLine)),
    h ∈ hunks p nContext mxr fuel r (a, b) →
    ((h.2.filter (fun e => decide (e.1 = 32 ∨ e.1 = 45))).length : Int) = h.1.2.1 ∧
    ((h.2.filter (fun e => decide (e.1 = 32 ∨ e.1 = 43))).length : Int) = h.1.2.2.2 ∧
    h.1.1 = ((h.2.filter (fun e => decide (e.1 = 32 ∨ e.1 = 45))).head?.map
      (fun e => e.2.1)).getD 0 ∧
    h.1.2.2.1 = ((h.2.filter (fun e => decide (e.1 = 32 ∨ e.1 = 43))).head?.map
      (fun e => e.2.2.1)).getD 0 ∧
    ∃ a0 b0 a2 b2, Numbered h.2 a0 b0 a2 b2 := by
  intro fuel
  induction fuel with
  | zero =>
    intro r a b h hm
    rw [hunks] at hm
    cases hm
  | succ fuel ih =>
    intro r a b h hm
    rw [hunks] at hm
    by_cases c : r < mxr
    · rw [if_pos c] at hm
      dsimp only at hm
      rcases List.mem_cons.mp hm with hm | hm
      · rw [hm]
        dsimp only
        rw [blockLines_sums]
        dsimp only
        generalize hnr : blockTriples p.aEdit r nContext p.aEdit.length 1 = nr
        obtain ⟨k1, k2, k3⟩ := changeBody_numbered p r nr h0 nr 0
          (a + (if p.aEdit.getD r 0 > nContext then p.aEdit.getD r 0 - nContext else 0)
            + (p.aEdit.getD r 0
              - (if p.aEdit.getD r 0 > nContext then p.aEdit.getD r 0 - nContext else 0)))
          (b + (if p.aEdit.getD r 0 > nContext then p.aEdit.getD r 0 - nContext else 0)
            + (p.aEdit.getD r 0
              - (if p.aEdit.getD r 0 > nContext then p.aEdit.getD r 0 - nContext else 0)))
          (by omega)
        rw [Nat.sub_zero, Nat.zero_add] at k2 k3
        have hm1 : 0 ≤ p.aEdit.getD r 0
            - (if p.aEdit.getD r 0 > nContext then p.aEdit.getD r 0 - nContext else 0) := by
          have := h0 r
          split_ifs <;> omega
        have hm2 : 0 ≤ (if p.aEdit.getD (r + nr * 3) 0 > nContext then nContext
            else p.aEdit.getD (r + nr * 3) 0) := by
          have := h0 (r + nr * 3)
          split_ifs <;> omega
        have n1 := bodyLines_context p.aFrom
          (a + (if p.aEdit.getD r 0 > nContext then p.aEdit.getD r 0 - nContext else 0))
          (a + (if p.aEdit.getD r 0 > nContext then p.aEdit.getD r 0 - nContext else 0))
          (b + (if p.aEdit.getD r 0 > nContext then p.aEdit.getD r 0 - nContext else 0))
          (p.aEdit.getD r 0
            - (if p.aEdit.getD r 0 > nContext then p.aEdit.getD r 0 - nContext else 0)).toNat 0
        rw [Int.add_zero, Int.add_zero, Int.toNat_of_nonneg hm1] at n1
        generalize hT : changeBody p r nr nr 0
          (a + (if p.aEdit.getD r 0 > nContext then p.aEdit.getD r 0 - nContext else 0)
            + (p.aEdit.getD r 0
              - (if p.aEdit.getD r 0 > nContext then p.aEdit.getD r 0 - nContext else 0)),
           b + (if p.aEdit.getD r 0 > nContext then p.aEdit.getD r 0 - nContext else 0)
            + (p.aEdit.getD r 0
              - (if p.aEdit.getD r 0 > nContext then p.aEdit.getD r 0 - nContext else 0))) = T
          at k1 k2 k3 ⊢
        have n3 := bodyLines_context p.aTo T.2.2 T.2.1 T.2.2
          (if p.aEdit.getD (r + nr * 3) 0 > nContext then nContext
            else p.aEdit.getD (r + nr * 3) 0).toNat 0
        rw [Int.add_zero, Int.add_zero, Int.toNat_of_nonneg hm2] at n3
        have hN := Numbered_append _ _ _ _ _ _ _ _ n1 (Numbered_append _ _ _ _ _ _ _ _ k1 n3)
        obtain ⟨g1, g2, g3, g4⟩ := header_of_numbered _ _ _ _ _
          ((if p.aEdit.getD r 0 > nContext then nContext else p.aEdit.getD r 0)
            + sumFrom (fun i => p.aEdit.getD (r + i * 3 + 1) 0) 0 nr
            + (if p.aEdit.getD (r + nr * 3) 0 > nContext then nContext
                else p.aEdit.getD (r + nr * 3) 0)
            + sumFrom (fun i => p.aEdit.getD (r + i * 3) 0) 1 (nr - 1))
          ((if p.aEdit.getD r 0 > nContext then nContext else p.aEdit.getD r 0)
            + sumFrom (fun i => p.aEdit.getD (r + i * 3 + 2) 0) 0 nr
            + (if p.aEdit.getD (r + nr * 3) 0 > nContext then nContext
                else p.aEdit.getD (r + nr * 3) 0)
            + sumFrom (fun i => p.aEdit.getD (r + i * 3) 0) 1 (nr - 1)) hN
          (by
            rw [k2]
            split_ifs <;> omega)
          (by
            rw [k3]
            split_ifs <;> omega)
        exact ⟨g1, g2, g3, g4, _, _, _, _, hN⟩
      · exact ih _ _ _ h hm
    · rw [if_neg c] at hm
      cases hm

theorem getD_nonneg (l : List Int) (h : ∀ x, x ∈ l → 0 ≤ x) (t : Nat) : 0 ≤ l.getD t 0 := by
  by_cases c : t < l.length
  · rw [List.getD_eq_getElem _ _ c]
    exact h _ (List.getElem_mem _)
  · rw [List.getD_eq_default _ _ (by omega)]

/-- The context diff of a script without negative counts, without line numbers
and for a number of context lines that is not negative, is the output for the
list of its blocks, and the header of every block fits the body of the block:
`na` is the number of lines with the prefix ` ` or `-`, `nb` the number of lines
with the prefix ` ` or `+`, `s` is the left line number of the first line that
has one and `t` the right line number of the first line that has one, and 0
when there is no such line. -/
theorem contextDiff_hunks (E : Env) (p : DContext) (pOut : List Nat) (nContext : Int)
    (html : Bool) (h0 : ∀ t, 0 ≤ p.aEdit.getD t 0) (hn : 0 ≤ nContext) :
    contextDiff E p pOut nContext false html
      = renderHunks E html
          (hunks p nContext (trimEdit p.aEdit p.aEdit.length p.aEdit.length)
            (trimEdit p.aEdit p.aEdit.length p.aEdit.length) 0 (0, 0)) pOut ∧
    ∀ h, h ∈ hunks p nContext (trimEdit p.aEdit p.aEdit.length p.aEdit.length)
        (trimEdit p.aEdit p.aEdit.length p.aEdit.length) 0 (0, 0) →
      ((h.2.filter (fun e => decide (e.1 = 32 ∨ e.1 = 45))).length : Int) = h.1.2.1 ∧
      ((h.2.filter (fun e => decide (e.1 = 32 ∨ e.1 = 43))).length : Int) = h.1.2.2.2 ∧
      h.1.1 = ((h.2.filter (fun e => decide (e.1 = 32 ∨ e.1 = 45))).head?.map
        (fun e => e.2.1)).getD 0 ∧
      h.1.2.2.1 = ((h.2.filter (fun e => decide (e.1 = 32 ∨ e.1 = 43))).head?.map
        (fun e => e.2.2.1)).getD 0 ∧
      ∃ a0 b0 a2 b2, Numbered h.2 a0 b0 a2 b2 := by
  refine ⟨?_, fun h hm => hunks_consistent p nContext _ h0 hn _ 0 0 0 h hm⟩
  unfold contextDiff
  dsimp only
  exact contextBlocks_hunks E p nContext html _ _ 0 pOut 0 0 0

theorem diff_context_lines_nonneg (diffFlags : Nat) : 0 ≤ diff_context_lines diffFlags := by
  unfold diff_context_lines
  dsimp only
  split_ifs
  · decide
  · exact Int.ofNat_nonneg _

/-- Once the two files are split into lines, `text_diff` computes, with more fuel
than the left file has lines, a script without negative counts, which it
returns when there is no output blob and of which it writes the diff when
there is one. -/
theorem diffLines_render (E : Env) (fuel : Nat) (aF : List DLine) (nF : Nat) (aT : List DLine)
    (nT : Nat) (diffFlags : Nat) (hf : nF < fuel) :
    ∃ c : DContext, (∀ t, 0 ≤ c.aEdit.getD t 0) ∧ c.aFrom = aF ∧ c.aTo = aT ∧
      diffLines E fuel (some (aF, nF)) (some (aT, nT)) none diffFlags
        = some (some c.aEdit, none) ∧
      ∀ out, diffLines E fuel (some (aF, nF)) (some (aT, nT)) (some out) diffFlags
        = (if diffFlags &&& DIFF_SIDEBYSIDE ≠ 0 then
            some (none, some (sbsDiff E c out (diff_context_lines diffFlags) (diff_width diffFlags)
              (decide (diffFlags &&& DIFF_HTML ≠ 0))))
          else
            some (none, some (contextDiff E c out (diff_context_lines diffFlags)
              (decide (diffFlags &&& DIFF_LINENO ≠ 0)) (decide (diffFlags &&& DIFF_HTML ≠ 0))))) := by
  obtain ⟨q, R, e1, e2, e3, e4, e5, e6, e7, e8⟩ :=
    diff_all_script E (DContext.mk [] aF nF aT nT) rfl fuel hf
  have hsent : ∀ (S : List Int), (∀ x, x ∈ S → 0 ≤ x) → ∀ x, x ∈ S ++ [0, 0, 0] → 0 ≤ x := by
    intro S hS x hx
    rcases List.mem_append.mp hx with h | h
    · exact hS x h
    · simp only [List.mem_cons, List.mem_singleton, List.not_mem_nil, or_false] at h
      rcases h with h | h | h <;> rw [h]
  have hc : ∀ t, 0 ≤ (if diffFlags &&& DIFF_NOOPT = 0 then diff_optimize q else q).aEdit.getD t 0 := by
    by_cases hn : diffFlags &&& DIFF_NOOPT = 0
    · rw [if_pos hn]
      have hSq : Script q R 0 0 q.nFrom q.nTo := by
        rw [e4, e5]
        exact Script_congr q _ e2.symm e3.symm R _ _ _ _ e7
      have hTq : LastPlain R ∨ NoCommonTail q := by
        rcases e8 with h | h
        · exact Or.inl h
        · right
          unfold NoCommonTail at h ⊢
          rw [e2, e3, e4, e5]
          exact h
      obtain ⟨R2, _, g2, g3, _⟩ := diff_optimize_script q R e6 hSq hTq
      rw [g3]
      exact getD_nonneg _ (hsent R2 (Script_nonneg q R2 _ _ _ _ g2))
    · rw [if_neg hn, e6]
      exact getD_nonneg _ (hsent R (Script_nonneg _ R _ _ _ _ e7))
  refine ⟨if diffFlags &&& DIFF_NOOPT = 0 then diff_optimize q else q, hc, ?_, ?_, ?_, ?_⟩
  · split_ifs
    · exact e2
    · exact e2
  · split_ifs
    · exact e3
    · exact e3
  · unfold diffLines
    dsimp only
    rw [e1]
  · intro out
    unfold diffLines
    dsimp only
    rw [e1]

/-- C33. For two buffers that `break_into_lines` accepts, flags without
`DIFF_SIDEBYSIDE` and `DIFF_LINENO`, and more fuel than the files have lines:
the report of `text_diff` is the output for the list of the blocks of the
script that `text_diff` returns, and in every block the header
`@@ -s,na +t,nb @@` fits the body: `na` is the number of body lines with the
prefix ` ` or `-`, `nb` the number of body lines with the prefix ` ` or `+`, `s`
is the left line number of the first line that has one and `t` the right line
number of the first line that has one, each 0 when there is no such line, and
the lines of the body are numbered without a gap. -/
theorem text_diff_hunks (E : Env) (fuel : Nat) (A B : List Nat) (out : List Nat)
    (diffFlags : Nat) (LA LB : List DLine) (nA nB : Nat)
    (hA : break_into_lines E A (decide (diffFlags &&& DIFF_IGNORE_EOLWS ≠ 0)) = some (LA, nA))
    (hB : break_into_lines E B (decide (diffFlags &&& DIFF_IGNORE_EOLWS ≠ 0)) = some (LB, nB))
    (hfA : nA < fuel) (hfB : nB < fuel) (hs : diffFlags &&& DIFF_SIDEBYSIDE = 0)
    (hl : diffFlags &&& DIFF_LINENO = 0) :
    ∃ c : DContext,
      text_diff E fuel A B none diffFlags = some (some c.aEdit, none) ∧
      (c.aFrom, c.aTo) = (if diffFlags &&& DIFF_INVERT ≠ 0 then (LB, LA) else (LA, LB)) ∧
      text_diff E fuel A B (some out) diffFlags
        = some (none, some (renderHunks E (decide (diffFlags &&& DIFF_HTML ≠ 0))
            (hunks c (diff_context_lines diffFlags)
              (trimEdit c.aEdit c.aEdit.length c.aEdit.length)
              (trimEdit c.aEdit c.aEdit.length c.aEdit.length) 0 (0, 0)) out)) ∧
      ∀ h, h ∈ hunks c (diff_context_lines diffFlags)
          (trimEdit c.aEdit c.aEdit.length c.aEdit.length)
          (trimEdit c.aEdit c.aEdit.length c.aEdit.length) 0 (0, 0) →
        ((h.2.filter (fun e => decide (e.1 = 32 ∨ e.1 = 45))).length : Int) = h.1.2.1 ∧
        ((h.2.filter (fun e => decide (e.1 = 32 ∨ e.1 = 43))).length : Int) = h.1.2.2.2 ∧
        h.1.1 = ((h.2.filter (fun e => decide (e.1 = 32 ∨ e.1 = 45))).head?.map
          (fun e => e.2.1)).getD 0 ∧
        h.1.2.2.1 = ((h.2.filter (fun e => decide (e.1 = 32 ∨ e.1 = 43))).head?.map
          (fun e => e.2.2.1)).getD 0 ∧
        ∃ a0 b0 a2 b2, Numbered h.2 a0 b0 a2 b2 := by
  have key : ∀ (aF : List DLine) (nF : Nat) (aT : List DLine) (nT : Nat), nF < fuel →
      ∃ c : DContext,
        diffLines E fuel (some (aF, nF)) (some (aT, nT)) none diffFlags
          = some (some c.aEdit, none) ∧
        (c.aFrom, c.aTo) = (aF, aT) ∧
        diffLines E fuel (some (aF, nF)) (some (aT, nT)) (some out) diffFlags
          = some (none, some (renderHunks E (decide (diffFlags &&& DIFF_HTML ≠ 0))
              (hunks c (diff_context_lines diffFlags)
                (trimEdit c.aEdit c.aEdit.length c.aEdit.length)
                (trimEdit c.aEdit c.aEdit.length c.aEdit.length) 0 (0, 0)) out)) ∧
        ∀ h, h ∈ hunks c (diff_context_lines diffFlags)
            (trimEdit c.aEdit c.aEdit.length c.aEdit.length)
            (trimEdit c.aEdit c.aEdit.length c.aEdit.length) 0 (0, 0) →
          ((h.2.filter (fun e => decide (e.1 = 32 ∨ e.1 = 45))).length : Int) = h.1.2.1 ∧
          ((h.2.filter (fun e => decide (e.1 = 32 ∨ e.1 = 43))).length : Int) = h.1.2.2.2 ∧
          h.1.1 = ((h.2.filter (fun e => decide (e.1 = 32 ∨ e.1 = 45))).head?.map
            (fun e => e.2.1)).getD 0 ∧
          h.1.2.2.1 = ((h.2.filter (fun e => decide (e.1 = 32 ∨ e.1 = 43))).head?.map
            (fun e => e.2.2.1)).getD 0 ∧
          ∃ a0 b0 a2 b2, Numbered h.2 a0 b0 a2 b2 := by
    intro aF nF aT nT hf
    obtain ⟨c, c0, c1, c2, c3, c4⟩ := diffLines_render E fuel aF nF aT nT diffFlags hf
    obtain ⟨d1, d2⟩ := contextDiff_hunks E c out (diff_context_lines diffFlags)
      (decide (diffFlags &&& DIFF_HTML ≠ 0)) c0 (diff_context_lines_nonneg diffFlags)
    refine ⟨c, c3, by rw [c1, c2], ?_, d2⟩
    have hln : decide (diffFlags &&& DIFF_LINENO ≠ 0) = false := by
      rw [decide_eq_false_iff_not]
      exact fun hh => hh hl
    rw [c4 out, if_neg (fun hh => hh hs), hln, d1]
  rw [text_diff_lines, text_diff_lines]
  by_cases ci : diffFlags &&& DIFF_INVERT ≠ 0
  · rw [if_pos ci, if_pos ci, if_pos ci, hA, hB]
    exact key LB nB LA nA hfB
  · rw [if_neg ci, if_neg ci, if_neg ci, hA, hB]
    exact key LA nA LB nB hfA

set_option maxRecDepth 100000 in
/-- The claim C33 for the buffers `a\nb\nc\n` and `a\nx\nc\n` and no flag: the
block has the header `@@ -1,3 +1,3 @@`. -/
theorem text_diff_hunks_witness :
    (break_into_lines stdEnv (str "a\nb\nc\n") (decide (0 &&& DIFF_IGNORE_EOLWS ≠ 0))
        = some (abcLines, 3) ∧
      break_into_lines stdEnv (str "a\nx\nc\n") (decide (0 &&& DIFF_IGNORE_EOLWS ≠ 0))
        = some (axcLines, 3) ∧
      3 < 4 ∧ 0 &&& DIFF_SIDEBYSIDE = 0 ∧ 0 &&& DIFF_LINENO = 0) ∧
    (hunks abcScript 5 3 3 0 (0, 0)).map Prod.fst = [(1, 3, 1, 3)] ∧
    ∃ c : DContext,
      text_diff stdEnv 4 (str "a\nb\nc\n") (str "a\nx\nc\n") none 0 = some (some c.aEdit, none) ∧
      (c.aFrom, c.aTo) = (if 0 &&& DIFF_INVERT ≠ 0 then (axcLines, abcLines)
        else (abcLines, axcLines)) ∧
      text_diff stdEnv 4 (str "a\nb\nc\n") (str "a\nx\nc\n") (some []) 0
        = some (none, some (renderHunks stdEnv (decide (0 &&& DIFF_HTML ≠ 0))
            (hunks c (diff_context_lines 0)
              (trimEdit c.aEdit c.aEdit.length c.aEdit.length)
              (trimEdit c.aEdit c.aEdit.length c.aEdit.length) 0 (0, 0)) [])) ∧
      ∀ h, h ∈ hunks c (diff_context_lines 0)
          (trimEdit c.aEdit c.aEdit.length c.aEdit.length)
          (trimEdit c.aEdit c.aEdit.length c.aEdit.length) 0 (0, 0) →
        ((h.2.filter (fun e => decide (e.1 = 32 ∨ e.1 = 45))).length : Int) = h.1.2.1 ∧
        ((h.2.filter (fun e => decide (e.1 = 32 ∨ e.1 = 43))).length : Int) = h.1.2.2.2 ∧
        h.1.1 = ((h.2.filter (fun e => decide (e.1 = 32 ∨ e.1 = 45))).head?.map
          (fun e => e.2.1)).getD 0 ∧
        h.1.2.2.1 = ((h.2.filter (fun e => decide (e.1 = 32 ∨ e.1 = 43))).head?.map
          (fun e => e.2.2.1)).getD 0 ∧
        ∃ a0 b0 a2 b2, Numbered h.2 a0 b0 a2 b2 :=
  ⟨⟨by decide, by decide, by decide, by decide, by decide⟩, by decide,
    text_diff_hunks stdEnv 4 (str "a\nb\nc\n") (str "a\nx\nc\n") [] 0 abcLines axcLines 3 3
      (by decide) (by decide) (by decide) (by decide) (by decide) (by decide)⟩

end Diff
